import Mathlib

/-!
# h78: adaptive Huffman coder and LZ78 coder

A shallow embedding of `src/huffman.c`, `src/lz78.c` and the driver `src/h78.c`.

Conventions of the embedding.

* A file is a `List Nat` of bytes (every element below 256).
* Heap objects obtained from `malloc` live in an arena (a `List` of nodes); a
  pointer is the index of the node in the arena and `NULL` is `none`.
  Dereferencing `NULL` or an address that was never allocated makes the
  function return `none`.
* Loops and recursions of the C code that are not structurally bounded take a
  `fuel` argument; running out of fuel returns `none`.
* Machine integers are natural numbers reduced modulo `2 ^ w` wherever the C
  type can wrap (`unsigned short` 16 bits, `unsigned int` 32 bits,
  `unsigned long` and `size_t` 64 bits, `unsigned char` 8 bits).
* Multi-byte objects are written to files in little-endian byte order.
* Opening files always succeeds; file names are carried as byte lists.
-/

/-! ## Shared file primitives -/

/-- The `n` little-endian bytes of `v`, as `fwrite(&v, n, 1, fp)` stores them. -/
def le_bytes : Nat → Nat → List Nat
  | 0, _ => []
  | n + 1, v => (v % 256) :: le_bytes n (v / 256)

/-- The value of a little-endian byte string. -/
def le_value : List Nat → Nat
  | [] => 0
  | b :: bs => b + 256 * le_value bs

/-- Reading an `n`-byte object with `fread(&v, n, 1, fp)`: the bytes that are
available overwrite the low bytes of the object, the bytes that are not keep
the old contents `old` of the object.  Returns the new contents, whether the
whole object was read, and the rest of the file. -/
def fread_obj (n : Nat) (old : Nat) (file : List Nat) : Nat × Bool × List Nat :=
  let got := file.take n
  (le_value got + (old / 256 ^ got.length) * 256 ^ got.length % 256 ^ n,
   decide (n ≤ file.length), file.drop n)

namespace Huffman

/-! ## Adaptive Huffman coder (`src/huffman.c`) -/

/-- The constant `NSYMBOLS`. -/
def NSYMBOLS : Nat := 256

/-- The magic number `0x4855` of the Huffman container. -/
def magic : Nat := 0x4855

/-- The record `struct huffman_node`; pointers are arena addresses. -/
structure huffman_node where
  id : Nat
  parent : Option Nat
  l_child : Option Nat
  r_child : Option Nat
  weight : Nat
  symbol : Nat
deriving DecidableEq, Repr

/-- The global variables `leaf`, `nyt`, `root` together with the arena. -/
structure huffman_state where
  heap : List huffman_node
  leaf : List (Option Nat)
  nyt : Nat
  root : Nat
deriving DecidableEq, Repr

/-- The function `make_node`: the fields `id` and `symbol` are left unset by
the C code (here `0`) and are assigned by the callers. -/
def make_node (parent : Option Nat) : huffman_node :=
  { id := 0, parent := parent, l_child := none, r_child := none, weight := 0, symbol := 0 }

/-- The function `huffman_init`. -/
def huffman_init : huffman_state :=
  { heap := [{ make_node none with id := NSYMBOLS }],
    leaf := List.replicate NSYMBOLS none,
    nyt := 0,
    root := 0 }

/-- Assignment through a pointer: `heap[a] = f (heap[a])`. -/
def modify_node (heap : List huffman_node) (a : Nat) (f : huffman_node → huffman_node) :
    Option (List huffman_node) :=
  match heap[a]? with
  | none => none
  | some n => some (heap.set a (f n))

/-- The function `nyt_spawn`; returns the new state and the returned pointer
(`nyt->parent` after the assignment `nyt = nyt->l_child`). -/
def nyt_spawn (s : huffman_state) (symbol : Nat) : Option (huffman_state × Nat) :=
  match s.heap[s.nyt]? with
  | none => none
  | some n =>
    let l := s.heap.length
    let r := s.heap.length + 1
    let lnode : huffman_node := { make_node (some s.nyt) with id := (n.id + 65536 - 2) % 65536 }
    let rnode : huffman_node :=
      { make_node (some s.nyt) with id := (n.id + 65536 - 1) % 65536, symbol := symbol, weight := 1 }
    let heap := s.heap.set s.nyt { n with l_child := some l, r_child := some r, weight := 1 }
    match (heap ++ [lnode, rnode])[l]? with
    | none => none
    | some ln =>
      match ln.parent with
      | none => none
      | some ret =>
        some ({ heap := heap ++ [lnode, rnode], leaf := s.leaf.set symbol (some r),
                nyt := l, root := s.root }, ret)

/-- The macro `is_l_child`. -/
def is_l_child (heap : List huffman_node) (node : Nat) : Option Bool :=
  match heap[node]? with
  | none => none
  | some n =>
    match n.parent with
    | none => some false
    | some p =>
      match heap[p]? with
      | none => none
      | some pn => some (decide (pn.l_child = some node))

/-- The macro `is_leaf`. -/
def is_leaf (n : huffman_node) : Bool :=
  n.l_child.isNone && n.r_child.isNone

/-- One of the two "update parent nodes" statements of `swap_nodes`:
`if (is_l_child(a)) a->parent->l_child = b; else a->parent->r_child = b;`. -/
def relink (heap : List huffman_node) (a b : Nat) : Option (List huffman_node) :=
  match heap[a]? with
  | none => none
  | some n =>
    match n.parent with
    | none => none
    | some p =>
      match heap[p]? with
      | none => none
      | some pn =>
        if pn.l_child = some a then some (heap.set p { pn with l_child := some b })
        else some (heap.set p { pn with r_child := some b })

/-- The function `swap_nodes`, statement by statement. -/
def swap_nodes (heap : List huffman_node) (node1 node2 : Nat) : Option (List huffman_node) :=
  match heap[node1]? with
  | none => none
  | some tmp =>
    match relink heap node1 node2 with
    | none => none
    | some h1 =>
      match relink h1 node2 node1 with
      | none => none
      | some h2 =>
        match h2[node2]? with
        | none => none
        | some n2 =>
          match modify_node h2 node1 (fun n => { n with id := n2.id }) with
          | none => none
          | some h3 =>
            match modify_node h3 node2 (fun n => { n with id := tmp.id }) with
            | none => none
            | some h4 =>
              match h4[node2]? with
              | none => none
              | some n2b =>
                match modify_node h4 node1 (fun n => { n with parent := n2b.parent }) with
                | none => none
                | some h5 => modify_node h5 node2 (fun n => { n with parent := tmp.parent })

/-- The conditional expressions of `group_highest_id` that pick the node with
the larger `id` of the two subtree results. -/
def pick_child (heap : List huffman_node) (l r : Option Nat) : Option (Option Nat) :=
  match l, r with
  | some lh, some rh =>
    match heap[lh]?, heap[rh]? with
    | some ln, some rn => some (if ln.id > rn.id then some lh else some rh)
    | _, _ => none
  | some lh, none => some (some lh)
  | none, r => some r

/-- The function `group_highest_id`; the outer `Option` is `none` when the
recursion does not return. -/
def group_highest_id : Nat → List huffman_node → Nat → Option Nat → Option (Option Nat)
  | _, _, _, none => some none
  | 0, _, _, some _ => none
  | fuel + 1, heap, weight, some node =>
    match heap[node]? with
    | none => none
    | some n =>
      if n.weight < weight then some none
      else
        match group_highest_id fuel heap weight n.l_child with
        | none => none
        | some l_highest =>
          match group_highest_id fuel heap weight n.r_child with
          | none => none
          | some r_highest =>
            match pick_child heap l_highest r_highest with
            | none => none
            | some highest_child =>
              if n.weight = weight then
                match highest_child with
                | none => some (some node)
                | some hc =>
                  match heap[hc]? with
                  | none => none
                  | some hn => some (if n.id < hn.id then some hc else some node)
              else some highest_child

/-- The function `update`. -/
def update : Nat → huffman_state → Option Nat → Option huffman_state
  | _, s, none => some s
  | 0, _, some _ => none
  | fuel + 1, s, some node =>
    match s.heap[node]? with
    | none => none
    | some n =>
      match group_highest_id (fuel + 1) s.heap n.weight (some s.root) with
      | none => none
      | some highest =>
        let swapped : Option (List huffman_node) :=
          match highest with
          | none => some s.heap
          | some h =>
            if h ≠ node ∧ some h ≠ n.parent ∧ h ≠ s.root then swap_nodes s.heap node h
            else some s.heap
        match swapped with
        | none => none
        | some h1 =>
          match modify_node h1 node (fun m => { m with weight := (m.weight + 1) % 2 ^ 32 }) with
          | none => none
          | some h2 =>
            match h2[node]? with
            | none => none
            | some m => update fuel { s with heap := h2 } m.parent

/-- The function `get_node_path`: returns the count `nbits` (an
`unsigned short`) and the new contents of the 32-bit word `*path`. -/
def get_node_path : Nat → huffman_state → Nat → Nat → Nat → Option (Nat × Nat)
  | 0, _, _, _, _ => none
  | fuel + 1, s, node, path, nbits =>
    if node = s.root then some (nbits, path)
    else
      match is_l_child s.heap node, s.heap[node]? with
      | some lc, some n =>
        let path1 := path / 2
        let path2 := if lc then path1 else path1 ||| 2 ^ 31
        match n.parent with
        | none => none
        | some p => get_node_path fuel s p path2 ((nbits + 1) % 65536)
      | _, _ => none

/-! ### Bit output -/

/-- The sink of `write_bit`: the bytes already written to the file and the two
static variables `buf` and `bufbits`. -/
structure bit_sink where
  out : List Nat
  buf : Nat
  bufbits : Nat
deriving DecidableEq, Repr

/-- The function `write_bit`. -/
def write_bit (w : bit_sink) (bit : Nat) : bit_sink :=
  let buf := (w.buf * 2 % 256) ||| bit
  let bufbits := (w.bufbits + 1) % 256
  if bufbits = 8 then { out := w.out ++ [buf], buf := 0, bufbits := 0 }
  else { out := w.out, buf := buf, bufbits := bufbits }

/-- The function `write_bits`: `bits` is a 32-bit word. -/
def write_bits : bit_sink → Nat → Nat → bit_sink
  | w, _, 0 => w
  | w, bits, n + 1 => write_bits (write_bit w ((bits / 2 ^ 31) % 2)) (bits * 2 % 2 ^ 32) n

/-! ### Bit input -/

/-- The source of `read_bit`: the unread part of the file, its end-of-file
indicator, and the two static variables `buf` and `bufbits`. -/
structure bit_source where
  file : List Nat
  eof : Bool
  buf : Nat
  bufbits : Nat
deriving DecidableEq, Repr

/-- The function `read_bit`. -/
def read_bit (r : bit_source) : Nat × bit_source :=
  let r1 : bit_source :=
    if r.bufbits = 0 ∧ r.eof = false then
      match r.file with
      | b :: rest => { file := rest, eof := false, buf := b, bufbits := 8 }
      | [] => { file := [], eof := true, buf := r.buf, bufbits := 8 }
    else r
  ((r1.buf / 128) % 2,
   { r1 with buf := r1.buf * 2 % 256, bufbits := (r1.bufbits + 255) % 256 })

/-- The literal read of `huffman_decode`: `n` rounds of
`symbol |= read_bit(fin); symbol <<= 1;`. -/
def read_shift : Nat → Nat → bit_source → Nat × bit_source
  | 0, symbol, r => (symbol, r)
  | n + 1, symbol, r =>
    let (b, r1) := read_bit r
    read_shift n ((symbol ||| b) * 2 % 256) r1

/-- The whole 8-bit literal: seven shifted rounds and a last `symbol |= read_bit(fin)`. -/
def read_symbol (r : bit_source) : Nat × bit_source :=
  let (symbol, r1) := read_shift 7 0 r
  let (b, r2) := read_bit r1
  (symbol ||| b, r2)

/-! ### Encoder -/

/-- The local state of the main loop of `huffman_encode`. -/
structure enc_state where
  tree : huffman_state
  sink : bit_sink
  path : Nat
  totalbits : Nat
deriving DecidableEq, Repr

/-- One iteration of the `while (!feof(fin))` loop of `huffman_encode`. -/
def encode_symbol (fuel : Nat) (e : enc_state) (symbol : Nat) : Option enc_state :=
  match e.tree.leaf[symbol]? with
  | none => none
  | some none =>
    match get_node_path fuel e.tree e.tree.nyt (symbol * 2 ^ 24 % 2 ^ 32) 0 with
    | none => none
    | some (d, path) =>
      let nbits := (8 + d) % 65536
      match nyt_spawn e.tree symbol with
      | none => none
      | some (t1, node) =>
        match t1.heap[node]? with
        | none => none
        | some n =>
          match update fuel t1 n.parent with
          | none => none
          | some t2 =>
            some { tree := t2, sink := write_bits e.sink path nbits, path := path,
                   totalbits := (e.totalbits + nbits) % 2 ^ 64 }
  | some (some lf) =>
    match get_node_path fuel e.tree lf e.path 0 with
    | none => none
    | some (nbits, path) =>
      match update fuel e.tree (some lf) with
      | none => none
      | some t2 =>
        some { tree := t2, sink := write_bits e.sink path nbits, path := path,
               totalbits := (e.totalbits + nbits) % 2 ^ 64 }

/-- The main loop of `huffman_encode` over the bytes of the input file. -/
def encode_loop (fuel : Nat) : enc_state → List Nat → Option enc_state
  | e, [] => some e
  | e, symbol :: rest =>
    match encode_symbol fuel e symbol with
    | none => none
    | some e1 => encode_loop fuel e1 rest

/-- The header of the Huffman container. -/
def header (totalbits : Nat) (name : List Nat) : List Nat :=
  le_bytes 2 magic ++ le_bytes 8 totalbits ++ le_bytes 8 name.length ++ name ++ [0]

/-- The function `huffman_encode` on the tree `s` held by the globals: the
contents of the output file (header with the patched bit count, then the
payload), for the input file `input` whose base name is `name`. -/
def huffman_encode (fuel : Nat) (name : List Nat) (s : huffman_state) (input : List Nat) :
    Option (List Nat) :=
  match encode_loop fuel { tree := s, sink := { out := [], buf := 0, bufbits := 0 },
                           path := 0, totalbits := 0 } input with
  | none => none
  | some e => some (header e.totalbits name ++ (write_bits e.sink 0 8).out)

/-! ### Decoder -/

/-- The local state of the main loop of `huffman_decode`. -/
structure dec_state where
  tree : huffman_state
  src : bit_source
  node : Option Nat
  readbits : Nat
  out : List Nat
deriving DecidableEq, Repr

/-- The `while (readbits <= totalbits)` loop of `huffman_decode`. -/
def decode_loop (totalbits : Nat) : Nat → dec_state → Option dec_state
  | 0, _ => none
  | fuel + 1, d =>
    if d.readbits ≤ totalbits then
      match d.node with
      | none => none
      | some node =>
        if node = d.tree.nyt then
          let (symbol, src1) := read_symbol d.src
          match nyt_spawn d.tree symbol with
          | none => none
          | some (t1, ret) =>
            match t1.heap[ret]? with
            | none => none
            | some n =>
              match update (fuel + 1) t1 n.parent with
              | none => none
              | some t2 =>
                decode_loop totalbits fuel
                  { tree := t2, src := src1, node := some t2.root,
                    readbits := (d.readbits + 8) % 2 ^ 64, out := d.out ++ [symbol] }
        else
          match d.tree.heap[node]? with
          | none => none
          | some n =>
            if is_leaf n then
              match update (fuel + 1) d.tree (some node) with
              | none => none
              | some t2 =>
                decode_loop totalbits fuel
                  { tree := t2, src := d.src, node := some t2.root,
                    readbits := d.readbits, out := d.out ++ [n.symbol] }
            else
              let (b, src1) := read_bit d.src
              decode_loop totalbits fuel
                { tree := d.tree, src := src1,
                  node := if b ≠ 0 then n.r_child else n.l_child,
                  readbits := (d.readbits + 1) % 2 ^ 64, out := d.out }
    else some d

/-- The uninitialised locals of `huffman_decode` that a short file leaves
(partly) unwritten: `m`, `totalbits` and `namelen`. -/
structure dec_locals where
  m : Nat
  totalbits : Nat
  namelen : Nat
deriving DecidableEq, Repr

/-- The result of a decoder: the return code and the bytes written to the
output file. -/
structure result where
  rc : Nat
  out : List Nat
deriving DecidableEq, Repr

/-- The function `huffman_decode` up to the end of its main loop: either the
early failure result, or the header's bit count with the final loop state.
`none` stands for a run that does not return (crash, overflow of the 256-byte
name buffer, or no termination within `fuel`). -/
def huffman_decode_run (fuel : Nat) (loc : dec_locals) (s : huffman_state) (file : List Nat) :
    Option (result ⊕ (Nat × dec_state)) :=
  let (m, ok_m, f1) := fread_obj 2 (loc.m % 2 ^ 16) file
  if m ≠ magic then some (Sum.inl { rc := 1, out := [] })
  else
    let (totalbits, ok_t, f2) := fread_obj 8 (loc.totalbits % 2 ^ 64) f1
    let (namelen, ok_n, f3) := fread_obj 8 (loc.namelen % 2 ^ 64) f2
    let want := (namelen + 1) % 2 ^ 64
    if 256 < min want f3.length then none
    else
      let src : bit_source :=
        { file := f3.drop want,
          eof := !(ok_m && ok_t && ok_n && decide (want ≤ f3.length)),
          buf := 0, bufbits := 0 }
      match decode_loop totalbits fuel
          { tree := s, src := src, node := some s.root, readbits := 0, out := [] } with
      | none => none
      | some d => some (Sum.inr (totalbits, d))

/-- The function `huffman_decode`. -/
def huffman_decode (fuel : Nat) (loc : dec_locals) (s : huffman_state) (file : List Nat) :
    Option result :=
  match huffman_decode_run fuel loc s file with
  | none => none
  | some (Sum.inl r) => some r
  | some (Sum.inr (_, d)) => some { rc := 0, out := d.out }

end Huffman

namespace LZ78

/-! ## LZ78 coder (`src/lz78.c`) -/

/-- The magic number `0x4838` of the LZ78 container. -/
def magic : Nat := 0x4838

/-- The record `struct lz78_trie_node`; pointers are arena addresses. -/
structure lz78_trie_node where
  id : Nat
  symbol : Nat
  left : Option Nat
  right : Option Nat
deriving DecidableEq, Repr

/-- The record `struct lz78_dict_entry`; `prev` is an index into `dict`. -/
structure lz78_dict_entry where
  prev : Option Nat
  symbol : Nat
deriving DecidableEq, Repr

/-- A value of type `lz78_trie_node **`: the address of the variable `root`,
or of the `left` or `right` field of the node at an arena address. -/
inductive slot where
  | root : slot
  | left : Nat → slot
  | right : Nat → slot
deriving DecidableEq, Repr

/-- The trie of the encoder: the arena and the local variable `root`. -/
structure trie where
  heap : List lz78_trie_node
  root : Option Nat
deriving DecidableEq, Repr

/-- The function `make_node`. -/
def make_node (symbol id : Nat) : lz78_trie_node :=
  { id := id, symbol := symbol, left := none, right := none }

/-- The expression `*p`. -/
def load (t : trie) : slot → Option (Option Nat)
  | slot.root => some t.root
  | slot.left a =>
    match t.heap[a]? with
    | none => none
    | some n => some n.left
  | slot.right a =>
    match t.heap[a]? with
    | none => none
    | some n => some n.right

/-- The assignment `*p = v`. -/
def store (t : trie) (v : Option Nat) : slot → Option trie
  | slot.root => some { t with root := v }
  | slot.left a =>
    match t.heap[a]? with
    | none => none
    | some n => some { t with heap := t.heap.set a { n with left := v } }
  | slot.right a =>
    match t.heap[a]? with
    | none => none
    | some n => some { t with heap := t.heap.set a { n with right := v } }

/-- The inner loop `while (*p && (*p)->symbol != symbol) p = &(*p)->left;`. -/
def find_symbol : Nat → trie → slot → Nat → Option slot
  | 0, _, _, _ => none
  | fuel + 1, t, p, symbol =>
    match load t p with
    | none => none
    | some none => some p
    | some (some a) =>
      match t.heap[a]? with
      | none => none
      | some n => if n.symbol ≠ symbol then find_symbol fuel t (slot.left a) symbol else some p

/-- The local state of the main loop of `lz78_encode`. -/
structure enc_state where
  t : trie
  p : slot
  id : Nat
  next : Nat
  out : List Nat
deriving DecidableEq, Repr

/-- One iteration of the main loop of `lz78_encode` for a byte that was read.
A sibling chain without a cycle has at most `heap.length` nodes, which bounds
the inner loop. -/
def encode_symbol (e : enc_state) (symbol : Nat) : Option enc_state :=
  match find_symbol (e.t.heap.length + 1) e.t e.p symbol with
  | none => none
  | some p =>
    match load e.t p with
    | none => none
    | some none =>
      let created : Option (trie × Nat) :=
        if e.next ≠ 0 then
          match store { e.t with heap := e.t.heap ++ [make_node symbol e.next] }
              (some e.t.heap.length) p with
          | none => none
          | some t1 => some (t1, (e.next + 1) % 65536)
        else some (e.t, e.next)
      match created with
      | none => none
      | some (t1, next1) =>
        some { t := t1, p := slot.root, id := 0, next := next1,
               out := e.out ++ le_bytes 2 e.id ++ [symbol] }
    | some (some a) =>
      match e.t.heap[a]? with
      | none => none
      | some n => some { e with id := n.id, p := slot.right a }

/-- The main loop of `lz78_encode` over the bytes of the input file; at the
end of the file a pending prefix identifier is written alone. -/
def encode_loop : enc_state → List Nat → Option enc_state
  | e, [] => some (if e.id ≠ 0 then { e with out := e.out ++ le_bytes 2 e.id } else e)
  | e, symbol :: rest =>
    match encode_symbol e symbol with
    | none => none
    | some e1 => encode_loop e1 rest

/-- The header of the LZ78 container. -/
def header (name : List Nat) : List Nat :=
  le_bytes 2 magic ++ le_bytes 8 name.length ++ name ++ [0]

/-- The state in which the main loop of `lz78_encode` starts. -/
def enc_init : enc_state :=
  { t := { heap := [], root := none }, p := slot.root, id := 0, next := 1, out := [] }

/-- The function `lz78_encode`: the contents of the output file for the input
file `input` whose base name is `name`. -/
def lz78_encode (name : List Nat) (input : List Nat) : Option (List Nat) :=
  match encode_loop enc_init input with
  | none => none
  | some e => some (header name ++ e.out)

/-- The function `write_dict_entry`: the bytes it writes.  The array has
`65536` entries, so a chain of `prev` links that is longer than that never
ends. -/
def write_dict_entry : Nat → (Nat → lz78_dict_entry) → Nat → Option (List Nat)
  | 0, _, _ => none
  | fuel + 1, dict, entry =>
    match (dict entry).prev with
    | some q =>
      match write_dict_entry fuel dict q with
      | none => none
      | some bytes => some (bytes ++ [(dict entry).symbol])
    | none => some [(dict entry).symbol]

/-- The local state of the main loop of `lz78_decode`. -/
structure dec_state where
  dict : Nat → lz78_dict_entry
  next : Nat
  out : List Nat

/-- The main loop of `lz78_decode` over the records of the file. -/
def decode_loop : dec_state → List Nat → Option dec_state
  | d, lo :: hi :: rest =>
    let id := lo + 256 * hi
    let phrase : Option (List Nat) := if id ≠ 0 then write_dict_entry 65536 d.dict id else some []
    match phrase with
    | none => none
    | some bytes =>
      match rest with
      | [] => some { d with out := d.out ++ bytes }
      | symbol :: rest1 =>
        if d.next ≠ 0 then
          decode_loop
            { dict := Function.update d.dict d.next
                { prev := if id ≠ 0 then some id else none, symbol := symbol },
              next := (d.next + 1) % 65536,
              out := d.out ++ bytes ++ [symbol] } rest1
        else decode_loop { d with out := d.out ++ bytes ++ [symbol] } rest1
  | d, _ => some d

/-- The result of a decoder: the return code and the bytes written to the
output file. -/
structure result where
  rc : Nat
  out : List Nat
deriving DecidableEq, Repr

/-- The function `lz78_decode` up to the end of its main loop: the early
failure result or the final loop state.  The arguments `m0` and `namelen0`
are the contents of the uninitialised locals `m` and `namelen`, `dict0` those
of the uninitialised array `dict`.  `none` stands for a run that does not
return (overflow of the 256-byte name buffer, endless recursion). -/
def lz78_decode_run (m0 namelen0 : Nat) (dict0 : Nat → lz78_dict_entry) (file : List Nat) :
    Option (result ⊕ dec_state) :=
  let (m, _, f1) := fread_obj 2 (m0 % 2 ^ 16) file
  if m ≠ magic then some (Sum.inl { rc := 1, out := [] })
  else
    let (namelen, _, f2) := fread_obj 8 (namelen0 % 2 ^ 64) f1
    let want := (namelen + 1) % 2 ^ 64
    if 256 < min want f2.length then none
    else
      match decode_loop { dict := dict0, next := 1, out := [] } (f2.drop want) with
      | none => none
      | some d => some (Sum.inr d)

/-- The function `lz78_decode`. -/
def lz78_decode (m0 namelen0 : Nat) (dict0 : Nat → lz78_dict_entry) (file : List Nat) :
    Option result :=
  match lz78_decode_run m0 namelen0 dict0 file with
  | none => none
  | some (Sum.inl r) => some r
  | some (Sum.inr d) => some { rc := 0, out := d.out }

end LZ78

set_option linter.all false


/-! ## Bit packing (`write_bit`, `write_bits`) -/

namespace Huffman

/-- The big-endian value of a bit string. -/
def bits_value (bits : List Nat) : Nat := bits.foldl (fun a b => 2 * a + b) 0

/-- The big-endian value of a byte string. -/
def bytes_value (bytes : List Nat) : Nat := bytes.foldl (fun a b => 256 * a + b) 0

/-- The bits that `write_bits w bits n` hands to `write_bit`, in order. -/
def emitted_bits : Nat → Nat → List Nat
  | _, 0 => []
  | bits, n + 1 => ((bits / 2 ^ 31) % 2) :: emitted_bits (bits * 2 % 2 ^ 32) n

/-- The `n` most significant bits of the 32-bit word `v`, high bit first. -/
def msb_bits (v n : Nat) : List Nat := (List.range n).map (fun i => v / 2 ^ (31 - i) % 2)

/-- Bit `k` of a byte. -/
def bit_of (byte k : Nat) : Nat := byte / 2 ^ k % 2

/-- The state of the sink after the bit string `B` went through `write_bit`. -/
def sink_holds (w : bit_sink) (B : List Nat) : Prop :=
  w.bufbits = B.length % 8 ∧ w.out.length = B.length / 8 ∧
  bytes_value w.out * 2 ^ w.bufbits + w.buf = bits_value B ∧
  w.buf < 2 ^ w.bufbits ∧ ∀ b ∈ w.out, b < 256

/-- The sink after the calls `write_bits(v_j, n_j)` followed by the flush
`write_bits(0, 8)`, starting from an empty accumulator. -/
def flushed (calls : List (Nat × Nat)) : bit_sink :=
  write_bits (calls.foldl (fun w c => write_bits w c.1 c.2) { out := [], buf := 0, bufbits := 0 }) 0 8

end Huffman

namespace LZ78

/-! ## LZ78: notions used by the statements -/

/-- The `(id, byte)` records of a record stream, in order; a trailing lone
identifier is not a record. -/
def records : List Nat → List (Nat × Nat)
  | lo :: hi :: symbol :: rest => (lo + 256 * hi, symbol) :: records rest
  | _ => []

/-- The `prev` link that `lz78_decode` stores for a record identifier. -/
def link (id : Nat) : Option Nat := if id ≠ 0 then some id else none

/-- The bytes `lz78_decode` writes for the identifier of a record before the
record's own byte. -/
def pending (dict : Nat → lz78_dict_entry) (id : Nat) : Option (List Nat) :=
  if id ≠ 0 then write_dict_entry 65536 dict id else some []

/-- The state of `lz78_decode` after a record `(id, symbol)` whose phrase is
`bytes`. -/
def dec_step (d : dec_state) (id symbol : Nat) (bytes : List Nat) : dec_state :=
  if d.next ≠ 0 then
    { dict := Function.update d.dict d.next { prev := link id, symbol := symbol },
      next := (d.next + 1) % 65536,
      out := d.out ++ bytes ++ [symbol] }
  else { d with out := d.out ++ bytes ++ [symbol] }

/-- The identifier whose list of extensions the slot belongs to, read off the
dictionary of the decoder (`none` for the empty phrase). -/
def owner (dict : Nat → lz78_dict_entry) : slot → Option Nat
  | slot.root => none
  | slot.left a => (dict (a + 1)).prev
  | slot.right a => some (a + 1)

/-- The slot lies in the arena of `n` nodes. -/
def slot_valid (n : Nat) : slot → Prop
  | slot.root => True
  | slot.left a => a < n
  | slot.right a => a < n

/-- The number of steps the sibling walk can still take from a slot. -/
def walk_bound (n : Nat) : slot → Nat
  | slot.root => n + 1
  | slot.left a => n - a
  | slot.right _ => n + 1

/-- The simulation relation between the encoder, having consumed `consumed`,
and the decoder, having read all the encoder has written. -/
structure linked (dict0 : Nat → lz78_dict_entry) (consumed : List Nat)
    (e : enc_state) (d : dec_state) : Prop where
  dec : decode_loop { dict := dict0, next := 1, out := [] } e.out = some d
  out3 : e.out.length % 3 = 0
  next_eq : d.next = e.next
  len_le : e.t.heap.length ≤ 65535
  next_val : e.next = (e.t.heap.length + 1) % 65536
  count : e.t.heap.length = min (records e.out).length 65535
  node : ∀ a n, e.t.heap[a]? = some n → n.id = a + 1 ∧ n.symbol = (d.dict (a + 1)).symbol
  entry : ∀ k, k < e.t.heap.length →
    d.dict (k + 1) = { prev := link ((records e.out).getD k (0, 0)).1,
                       symbol := ((records e.out).getD k (0, 0)).2 }
  frame : ∀ j, j = 0 ∨ e.t.heap.length < j → d.dict j = dict0 j
  dict_ok : ∀ k q, 1 ≤ k → k ≤ e.t.heap.length → (d.dict k).prev = some q → 1 ≤ q ∧ q < k
  left_ok : ∀ a n b, e.t.heap[a]? = some n → n.left = some b →
    a < b ∧ b < e.t.heap.length ∧ (d.dict (b + 1)).prev = (d.dict (a + 1)).prev
  right_ok : ∀ a n b, e.t.heap[a]? = some n → n.right = some b →
    b < e.t.heap.length ∧ (d.dict (b + 1)).prev = some (a + 1)
  root_ok : ∀ b, e.t.root = some b → b < e.t.heap.length ∧ (d.dict (b + 1)).prev = none
  slot_ok : slot_valid e.t.heap.length e.p ∧ owner d.dict e.p = link e.id
  id_le : e.id ≤ e.t.heap.length
  output : ∃ bytes, pending d.dict e.id = some bytes ∧ d.out ++ bytes = consumed

end LZ78

namespace Huffman

/-! ## Huffman tree: notions used by the statements -/

/-- The node stored at an address (a fresh node outside the arena). -/
def node_at (heap : List huffman_node) (a : Nat) : huffman_node :=
  heap.getD a (make_node none)

/-- The node at `c` is referenced as a child by the node at `p`. -/
def is_child (heap : List huffman_node) (p c : Nat) : Prop :=
  (node_at heap p).l_child = some c ∨ (node_at heap p).r_child = some c

/-- The transposition of two addresses. -/
def swap_addr (a b x : Nat) : Nat := if x = a then b else if x = b then a else x

/-- The address `x` lies in the subtree of `y`, following parent links. -/
inductive in_subtree (heap : List huffman_node) (y : Nat) : Nat → Prop where
  | self : in_subtree heap y y
  | step (x p : Nat) : (node_at heap x).parent = some p → in_subtree heap y p →
      in_subtree heap y x

/-- Every node with a larger `id` than the node at `b` has a larger weight. -/
def top_of_block (heap : List huffman_node) (b : Nat) : Prop :=
  ∀ y, y < heap.length → (node_at heap b).id < (node_at heap y).id →
    (node_at heap b).weight < (node_at heap y).weight

/-- The invariant of the tree.  With `cur = none` it describes the tree
between two processed bytes; with `cur = some n` it describes the tree at the
head of the loop of `update` for the node `n`, whose weight is still to be
incremented. -/
structure tree_inv (s : huffman_state) (cur : Option Nat) : Prop where
  root_lt : s.root < s.heap.length
  root_par : (node_at s.heap s.root).parent = none
  root_id : (node_at s.heap s.root).id = 256
  nyt_lt : s.nyt < s.heap.length
  nyt_leaf : (node_at s.heap s.nyt).l_child = none ∧ (node_at s.heap s.nyt).r_child = none
  nyt_w : (node_at s.heap s.nyt).weight = 0
  nyt_id : (node_at s.heap s.nyt).id + s.heap.length = 257
  par : ∀ a, a < s.heap.length → a ≠ s.root →
    ∃ p, p < s.heap.length ∧ (node_at s.heap a).parent = some p ∧ is_child s.heap p a
  kids : ∀ p c, p < s.heap.length → is_child s.heap p c →
    c < s.heap.length ∧ (node_at s.heap c).parent = some p
  both : ∀ p, ((node_at s.heap p).l_child = none ↔ (node_at s.heap p).r_child = none) ∧
    ((node_at s.heap p).l_child ≠ none →
      (node_at s.heap p).l_child ≠ (node_at s.heap p).r_child)
  id_inj : ∀ a b, a < s.heap.length → b < s.heap.length →
    (node_at s.heap a).id = (node_at s.heap b).id → a = b
  id_lo : ∀ a, a < s.heap.length → (node_at s.heap s.nyt).id ≤ (node_at s.heap a).id
  id_hi : ∀ a, a < s.heap.length → (node_at s.heap a).id ≤ 256
  id_par : ∀ c p, c < s.heap.length → (node_at s.heap c).parent = some p →
    (node_at s.heap c).id < (node_at s.heap p).id
  pos_w : ∀ a, a < s.heap.length → a ≠ s.nyt → 1 ≤ (node_at s.heap a).weight
  sum : ∀ p l r, p < s.heap.length → (node_at s.heap p).l_child = some l →
    (node_at s.heap p).r_child = some r →
    (node_at s.heap p).weight + (if cur = some p then 1 else 0) =
      (node_at s.heap l).weight + (node_at s.heap r).weight
  mono : ∀ a b, a < s.heap.length → b < s.heap.length →
    (node_at s.heap a).id < (node_at s.heap b).id →
    (node_at s.heap a).weight ≤ (node_at s.heap b).weight ∨
      (cur = some b ∧ (node_at s.heap a).parent = some b ∧ top_of_block s.heap b)
  adj_s : ∀ c, c < s.heap.length → c ≠ s.nyt →
    (node_at s.heap c).parent = (node_at s.heap s.nyt).parent →
    (node_at s.heap c).id = (node_at s.heap s.nyt).id + 1
  adj_p : ∀ p, (node_at s.heap s.nyt).parent = some p →
    (node_at s.heap p).id = (node_at s.heap s.nyt).id + 2
  cur_ok : ∀ n, cur = some n → n < s.heap.length ∧ n ≠ s.nyt
  tab_len : s.leaf.length = 256
  tab : ∀ b a, s.leaf[b]? = some (some a) →
    a < s.heap.length ∧ a ≠ s.nyt ∧ (node_at s.heap a).l_child = none ∧
      (node_at s.heap a).r_child = none ∧ (node_at s.heap a).symbol = b

/-- The state that `nyt_spawn` builds. -/
def spawned (s : huffman_state) (symbol : Nat) : huffman_state :=
  { heap := s.heap.set s.nyt
        { node_at s.heap s.nyt with
          l_child := some s.heap.length, r_child := some (s.heap.length + 1), weight := 1 } ++
      [{ make_node (some s.nyt) with id := ((node_at s.heap s.nyt).id + 65536 - 2) % 65536 },
       { make_node (some s.nyt) with
          id := ((node_at s.heap s.nyt).id + 65536 - 1) % 65536, symbol := symbol, weight := 1 }],
    leaf := s.leaf.set symbol (some (s.heap.length + 1)),
    nyt := s.heap.length,
    root := s.root }

/-- The number of parent links from a node up to the root. -/
def node_depth : Nat → huffman_state → Nat → Option Nat
  | 0, _, _ => none
  | fuel + 1, s, node =>
    if node = s.root then some 0
    else
      match (node_at s.heap node).parent with
      | none => none
      | some p =>
        match node_depth fuel s p with
        | none => none
        | some k => some (k + 1)

/-- The state in which the main loop of `huffman_encode` starts after
`huffman_init`. -/
def enc_init : enc_state :=
  { tree := huffman_init, sink := { out := [], buf := 0, bufbits := 0 }, path := 0,
    totalbits := 0 }

/-- The sibling property with the inequality as the specification writes it:
a larger `id` never has a larger weight. -/
def sibling_property_as_stated (s : huffman_state) : Prop :=
  ∀ a b, a < s.heap.length → b < s.heap.length →
    (node_at s.heap a).id > (node_at s.heap b).id →
    (node_at s.heap a).weight ≤ (node_at s.heap b).weight

/-- The order that `update` maintains: a larger `id` never has a smaller
weight. -/
def weights_ordered (s : huffman_state) : Prop :=
  ∀ a b, a < s.heap.length → b < s.heap.length →
    (node_at s.heap a).id > (node_at s.heap b).id →
    (node_at s.heap a).weight ≥ (node_at s.heap b).weight

/-- What the processing of a prefix `pre` has established, within the limits
of the 16-bit `id` and the 32-bit `weight`. -/
structure in_regime (pre : List Nat) (s : huffman_state) : Prop where
  inv : tree_inv s none
  root_w : (node_at s.heap s.root).weight = pre.length
  size : s.heap.length = 2 * pre.toFinset.card + 1
  seen : ∀ b, b < 256 → (s.leaf[b]? = some none ↔ b ∉ pre)

/-- The tree on which `update` runs for the byte `b`: the tree that `nyt_spawn`
returns for a first occurrence, the tree itself for a repeated byte. -/
def before_update (s : huffman_state) (b : Nat) : huffman_state :=
  match s.leaf[b]? with
  | some none =>
    match nyt_spawn s b with
    | some (t1, _) => t1
    | none => s
  | _ => s

/-- The NYT node is the same node with the same record (`id`, links, weight)
in both trees: nothing between them swapped or incremented it. -/
def nyt_untouched (s1 s2 : huffman_state) : Prop :=
  s2.nyt = s1.nyt ∧ node_at s2.heap s2.nyt = node_at s1.heap s1.nyt

end Huffman
namespace Huffman

/-- Two records of one node that differ at most in `id`, in `parent` and in
which nodes the child links name: weight and symbol are the same, and a child
link is null in one exactly when it is null in the other. -/
def keeps (m n : huffman_node) : Prop :=
  m.weight = n.weight ∧ m.symbol = n.symbol ∧ (m.l_child = none ↔ n.l_child = none) ∧
    (m.r_child = none ↔ n.r_child = none)

/-- What holds of the tree in every state of the coder, whatever the input:
the NYT node is a leaf of weight 0, every parent link names an internal node,
and the leaves other than the NYT node are exactly the leaves recorded in the
symbol table, each under the byte it holds. -/
structure shape_inv (s : huffman_state) : Prop where
  nyt_lt : s.nyt < s.heap.length
  nyt_leaf : (node_at s.heap s.nyt).l_child = none ∧ (node_at s.heap s.nyt).r_child = none
  nyt_w : (node_at s.heap s.nyt).weight = 0
  both : ∀ a, (node_at s.heap a).l_child = none ↔ (node_at s.heap a).r_child = none
  par_in : ∀ a p, a < s.heap.length → (node_at s.heap a).parent = some p →
    p < s.heap.length ∧ (node_at s.heap p).l_child ≠ none
  leaves : ∀ a, a < s.heap.length → (node_at s.heap a).l_child = none → a ≠ s.nyt →
    s.leaf[(node_at s.heap a).symbol]? = some (some a)
  tab : ∀ b a, s.leaf[b]? = some (some a) →
    a < s.heap.length ∧ a ≠ s.nyt ∧ (node_at s.heap a).l_child = none ∧
      (node_at s.heap a).symbol = b
  tab_len : s.leaf.length = 256
  size : s.heap.length + 2 * s.leaf.count none = 513

/-- The symbol table and the leaf weights after the bytes `p`: a byte has a
leaf exactly when it occurs in `p`, and the weight of the leaf is the number of
its occurrences as a 32-bit number. -/
structure tally (p : List Nat) (s : huffman_state) : Prop where
  seen : ∀ b, b < 256 → (s.leaf[b]? = some none ↔ b ∉ p)
  weight : ∀ b a, s.leaf[b]? = some (some a) → (node_at s.heap a).weight = p.count b % 2 ^ 32

/-- The length of the code of the byte `b` in the tree `s`: the depth of the
NYT node plus 8 for a byte without a leaf, the depth of the leaf of the byte
otherwise. -/
def code_length (fuel : Nat) (s : huffman_state) (b : Nat) : Option Nat :=
  match s.leaf[b]? with
  | some none => (node_depth fuel s s.nyt).map (fun d => d + 8)
  | some (some lf) => node_depth fuel s lf
  | none => none

/-- The sum of the code lengths over the bytes of an input, each measured in
the tree that the bytes before it have built. -/
def code_bits (fuel : Nat) : enc_state → List Nat → Option Nat
  | _, [] => some 0
  | e, b :: rest =>
    match code_length fuel e.tree b, encode_symbol fuel e b with
    | some d, some e1 => (code_bits fuel e1 rest).map (fun t => d + t)
    | _, _ => none

end Huffman
namespace Huffman

/-- The arena `S` that `nyt_spawn` builds from the arena of `s`, node by node,
with the facts of the old tree that the proof of the invariant uses. -/
structure spawn_view (s S : huffman_state) (symbol : Nat) : Prop where
  v_hnyt : s.nyt < s.heap.length
  v_hidP : (node_at s.heap s.nyt).id + s.heap.length = 257
  v_hN : s.heap.length ≤ 255
  v_hlen : S.heap.length = s.heap.length + 2
  v_hroot : S.root = s.root
  v_hnyt2 : S.nyt = s.heap.length
  v_hleaf : S.leaf = s.leaf.set symbol (some (s.heap.length + 1))
  v_gL : node_at S.heap s.heap.length =
      { id := (node_at s.heap s.nyt).id - 2, parent := some s.nyt, l_child := none,
        r_child := none, weight := 0, symbol := 0 }
  v_gR : node_at S.heap (s.heap.length + 1) =
      { id := (node_at s.heap s.nyt).id - 1, parent := some s.nyt, l_child := none,
        r_child := none, weight := 1, symbol := symbol }
  v_gP : node_at S.heap s.nyt =
      { id := (node_at s.heap s.nyt).id, parent := (node_at s.heap s.nyt).parent,
        l_child := some s.heap.length, r_child := some (s.heap.length + 1), weight := 1,
        symbol := (node_at s.heap s.nyt).symbol }
  v_gO : ∀ a, a ≠ s.heap.length → a ≠ s.heap.length + 1 → a ≠ s.nyt →
      node_at S.heap a = node_at s.heap a
  v_hidE : ∀ a, a < s.heap.length → (node_at S.heap a).id = (node_at s.heap a).id
  v_hparE : ∀ a, a < s.heap.length → (node_at S.heap a).parent = (node_at s.heap a).parent
  v_hsyE : ∀ a, a < s.heap.length → (node_at S.heap a).symbol = (node_at s.heap a).symbol
  v_hO : ∀ a, a < s.heap.length → a ≠ s.nyt → node_at S.heap a = node_at s.heap a
  v_hidlo : ∀ a, a < s.heap.length → (node_at s.heap s.nyt).id ≤ (node_at s.heap a).id
  v_hparlt : ∀ a p, a < s.heap.length → (node_at s.heap a).parent = some p → p < s.heap.length
  v_hnochild : ∀ c, ¬ is_child s.heap s.nyt c
  v_hchO : ∀ p c, p < s.heap.length → p ≠ s.nyt → (is_child S.heap p c ↔ is_child s.heap p c)
  v_hchP : ∀ c, is_child S.heap s.nyt c ↔ (c = s.heap.length ∨ c = s.heap.length + 1)
  v_hmono : ∀ a b, a < s.heap.length → b < s.heap.length →
      (node_at s.heap a).id < (node_at s.heap b).id →
      (node_at s.heap a).weight ≤ (node_at s.heap b).weight
  v_hcls : ∀ a, a < S.heap.length →
      a = s.heap.length ∨ a = s.heap.length + 1 ∨ a = s.nyt ∨ (a < s.heap.length ∧ a ≠ s.nyt)
  v_hwS : ∀ a, a < S.heap.length → (node_at S.heap a).weight =
      if a = s.heap.length then 0 else if a = s.heap.length + 1 then 1
      else if a = s.nyt then 1 else (node_at s.heap a).weight
  v_hidS : ∀ a, a < S.heap.length → (node_at S.heap a).id =
      if a = s.heap.length then (node_at s.heap s.nyt).id - 2
      else if a = s.heap.length + 1 then (node_at s.heap s.nyt).id - 1
      else (node_at s.heap a).id

end Huffman
namespace Huffman

/-- A NYT node of the tree: a leaf of the arena that the symbol table records
under no byte. -/
def is_nyt_node (s : huffman_state) (a : Nat) : Prop :=
  a < s.heap.length ∧ is_leaf (node_at s.heap a) = true ∧ ∀ b : Nat, s.leaf[b]? ≠ some (some a)

/-- The tree transition of one iteration of the loop of `huffman_encode`:
`nyt_spawn` and `update` of the parent of the old NYT node for a byte without a
leaf, `update` of the leaf otherwise. -/
def enc_tree_step (fuel : Nat) (s : huffman_state) (b : Nat) : Option huffman_state :=
  match s.leaf[b]? with
  | none => none
  | some none =>
    match nyt_spawn s b with
    | none => none
    | some (t1, node) =>
      match t1.heap[node]? with
      | none => none
      | some n => update fuel t1 n.parent
  | some (some lf) => update fuel s (some lf)

/-- The tree transition of `huffman_decode` once its walk has ended at `node`,
with the byte it writes: at the NYT node `nyt_spawn` with the literal read and
`update`, at a leaf `update` of the leaf. -/
def dec_tree_step (fuel : Nat) (s : huffman_state) (node literal : Nat) :
    Option (huffman_state × Nat) :=
  if node = s.nyt then
    match nyt_spawn s literal with
    | none => none
    | some (t1, ret) =>
      match t1.heap[ret]? with
      | none => none
      | some n => (update fuel t1 n.parent).map (fun t2 => (t2, literal))
  else
    match s.heap[node]? with
    | none => none
    | some n =>
      if is_leaf n then (update fuel s (some node)).map (fun t2 => (t2, n.symbol))
      else none

/-- The replay of a byte sequence through the tree transition of the encoder. -/
def enc_replay (fuel : Nat) : huffman_state → List Nat → Option huffman_state
  | s, [] => some s
  | s, b :: rest =>
    match enc_tree_step fuel s b with
    | none => none
    | some t => enc_replay fuel t rest

/-- The replay of a byte sequence through the tree transition of the decoder:
for a byte without a leaf the walk of the decoder has ended at the NYT node and
the literal read is the byte; otherwise the walk has ended at a node other
than the NYT node, and the byte is the one the transition writes. -/
inductive dec_replays (fuel : Nat) : huffman_state → List Nat → huffman_state → Prop where
  | done (s : huffman_state) : dec_replays fuel s [] s
  | at_nyt (s t u : huffman_state) (b : Nat) (rest : List Nat) :
      s.leaf[b]? = some none → dec_tree_step fuel s s.nyt b = some (t, b) →
      dec_replays fuel t rest u → dec_replays fuel s (b :: rest) u
  | at_leaf (s t u : huffman_state) (node literal b : Nat) (rest : List Nat) :
      node ≠ s.nyt → dec_tree_step fuel s node literal = some (t, b) →
      dec_replays fuel t rest u → dec_replays fuel s (b :: rest) u

end Huffman
namespace LZ78

/-- The identifiers of the records of a record stream, in order, the
identifier of a trailing lone record included. -/
def record_ids : List Nat → List Nat
  | lo :: hi :: _ :: rest => (lo + 256 * hi) :: record_ids rest
  | [lo, hi] => [lo + 256 * hi]
  | _ => []

/-- Every identifier of the list is at most the number of identifiers before
it, and at most 65535. -/
def ids_ok (ids : List Nat) : Prop := ∀ k, k < ids.length → ids.getD k 0 ≤ min k 65535

end LZ78
namespace Huffman

/-- The 32 bits of a word, most significant first. -/
def word_bits (v : Nat) : List Nat := msb_bits v 32

/-- The decisions on the way from the root to a node, in root-to-node order:
`0` for a left child and `1` for a right child. -/
def route : Nat → huffman_state → Nat → Option (List Nat)
  | 0, _, _ => none
  | fuel + 1, s, node =>
    if node = s.root then some []
    else
      match is_l_child s.heap node, (node_at s.heap node).parent with
      | some lc, some p =>
        match route fuel s p with
        | none => none
        | some R => some (R ++ [if lc then 0 else 1])
      | _, _ => none

/-- Bit `i` of a byte string, the most significant bit of a byte first. -/
def nth_bit (F : List Nat) (i : Nat) : Nat := bit_of (F.getD (i / 8) 0) (7 - i % 8)

/-- The source of `read_bit` after `i` bits of the byte string `F` were read. -/
def src_at (F : List Nat) (i : Nat) : bit_source :=
  { file := F.drop ((i + 7) / 8), eof := false,
    buf := if i % 8 = 0 then 0 else F.getD (i / 8) 0 * 2 ^ (i % 8) % 256,
    bufbits := (8 - i % 8) % 8 }

/-- The 8 bits of a byte, most significant first. -/
def byte_bits (b : Nat) : List Nat :=
  [b / 128 % 2, b / 64 % 2, b / 32 % 2, b / 16 % 2, b / 8 % 2, b / 4 % 2, b / 2 % 2, b % 2]

/-- The node at which the code of the byte `b` ends in the tree `s`: the NYT
node for a byte without a leaf, the leaf of the byte otherwise. -/
def target (s : huffman_state) (b : Nat) : Option Nat :=
  match s.leaf[b]? with
  | some none => some s.nyt
  | some (some lf) => some lf
  | none => none

/-- The literal that follows the path in the code of the byte `b`: its 8 bits
for a byte without a leaf, nothing otherwise. -/
def literal (s : huffman_state) (b : Nat) : List Nat :=
  match s.leaf[b]? with
  | some none => byte_bits b
  | _ => []

/-- The bit string `B` is the concatenation of the codes of the bytes of a
sequence, each taken in the tree that the transitions of the earlier bytes
have built from `s`; `u` is the tree after the last byte and `n` the number
of nodes on the paths, end points included. -/
inductive coded (f0 : Nat) : huffman_state → List Nat → List Nat → Nat → huffman_state → Prop where
  | done (s : huffman_state) : coded f0 s [] [] 0 s
  | next (s t u : huffman_state) (b tg f n : Nat) (rest R B : List Nat) :
      tree_inv s none → b < 256 → target s b = some tg → route f s tg = some R →
      enc_tree_step f0 s b = some t → coded f0 t rest B n u →
      coded f0 s (b :: rest) (R ++ literal s b ++ B) (R.length + 1 + n) u

end Huffman
namespace Huffman

/-- The tree after the byte `b` was processed repeatedly and nothing else:
the root with the NYT node as left child and the leaf of `b` as right child,
`w` being the weight of the leaf and of the root. -/
def single_tree (b w : Nat) : huffman_state :=
  { heap := [huffman_node.mk 256 none (some 1) (some 2) w 0,
             huffman_node.mk 254 (some 0) none none 0 0,
             huffman_node.mk 255 (some 0) none none w b],
    leaf := (List.replicate 256 none).set b (some 2),
    nyt := 1,
    root := 0 }

end Huffman
namespace Huffman

/-- The check of the invariant of the tree between two processed bytes, as a
computation over the arena. -/
def tree_ok (s : huffman_state) : Bool :=
  let n := s.heap.length
  let N := fun a => node_at s.heap a
  decide (s.root < n) && (N s.root).parent == none && (N s.root).id == 256 &&
  decide (s.nyt < n) && (N s.nyt).l_child == none && (N s.nyt).r_child == none &&
  (N s.nyt).weight == 0 && (N s.nyt).id + n == 257 &&
  (List.range n).all (fun a =>
    (a == s.root ||
      match (N a).parent with
      | some p => decide (p < n) && ((N p).l_child == some a || (N p).r_child == some a)
      | none => false) &&
    (match (N a).l_child with
      | some c => decide (c < n) && (N c).parent == some a
      | none => true) &&
    (match (N a).r_child with
      | some c => decide (c < n) && (N c).parent == some a
      | none => true) &&
    ((N a).l_child == none) == ((N a).r_child == none) &&
    ((N a).l_child == none || (N a).l_child != (N a).r_child) &&
    decide ((N s.nyt).id ≤ (N a).id) && decide ((N a).id ≤ 256) &&
    (match (N a).parent with
      | some p => decide ((N a).id < (N p).id)
      | none => true) &&
    (a == s.nyt || decide (1 ≤ (N a).weight)) &&
    (match (N a).l_child, (N a).r_child with
      | some l, some r => (N a).weight == (N l).weight + (N r).weight
      | _, _ => true) &&
    (a == s.nyt || (N a).parent != (N s.nyt).parent || (N a).id == (N s.nyt).id + 1) &&
    (List.range n).all (fun b =>
      ((N a).id != (N b).id || a == b) &&
      (!decide ((N a).id < (N b).id) || decide ((N a).weight ≤ (N b).weight)))) &&
  (match (N s.nyt).parent with
    | some p => (N p).id == (N s.nyt).id + 2
    | none => true) &&
  s.leaf.length == 256 &&
  (List.range 256).all (fun b =>
    match s.leaf[b]? with
    | some (some a) =>
      decide (a < n) && a != s.nyt && (N a).l_child == none && (N a).r_child == none &&
        (N a).symbol == b
    | _ => true)

/-- A tree of 25 leaves in which the NYT node lies 25 levels below the root:
the leaf of the byte `i` has the weight `fib i` (1, 1, 2, 3, 5, ...) and hangs
to the right of the path from the root to the NYT node. -/
def deep_tree : huffman_state :=
  { heap :=
    [huffman_node.mk 256 none (some 1) (some 50) 196417 0,
     huffman_node.mk 255 (some 0) (some 3) (some 48) 121392 0,
     huffman_node.mk 207 (some 47) none none 1 0,
     huffman_node.mk 253 (some 1) (some 5) (some 46) 75024 0,
     huffman_node.mk 209 (some 45) none none 1 1,
     huffman_node.mk 251 (some 3) (some 7) (some 44) 46367 0,
     huffman_node.mk 210 (some 43) none none 2 2,
     huffman_node.mk 249 (some 5) (some 9) (some 42) 28656 0,
     huffman_node.mk 212 (some 41) none none 3 3,
     huffman_node.mk 247 (some 7) (some 11) (some 40) 17710 0,
     huffman_node.mk 214 (some 39) none none 5 4,
     huffman_node.mk 245 (some 9) (some 13) (some 38) 10945 0,
     huffman_node.mk 216 (some 37) none none 8 5,
     huffman_node.mk 243 (some 11) (some 15) (some 36) 6764 0,
     huffman_node.mk 218 (some 35) none none 13 6,
     huffman_node.mk 241 (some 13) (some 17) (some 34) 4180 0,
     huffman_node.mk 220 (some 33) none none 21 7,
     huffman_node.mk 239 (some 15) (some 19) (some 32) 2583 0,
     huffman_node.mk 222 (some 31) none none 34 8,
     huffman_node.mk 237 (some 17) (some 21) (some 30) 1596 0,
     huffman_node.mk 224 (some 29) none none 55 9,
     huffman_node.mk 235 (some 19) (some 23) (some 28) 986 0,
     huffman_node.mk 226 (some 27) none none 89 10,
     huffman_node.mk 233 (some 21) (some 25) (some 26) 609 0,
     huffman_node.mk 228 (some 25) none none 144 11,
     huffman_node.mk 231 (some 23) (some 27) (some 24) 376 0,
     huffman_node.mk 230 (some 23) none none 233 12,
     huffman_node.mk 229 (some 25) (some 29) (some 22) 232 0,
     huffman_node.mk 232 (some 21) none none 377 13,
     huffman_node.mk 227 (some 27) (some 31) (some 20) 143 0,
     huffman_node.mk 234 (some 19) none none 610 14,
     huffman_node.mk 225 (some 29) (some 33) (some 18) 88 0,
     huffman_node.mk 236 (some 17) none none 987 15,
     huffman_node.mk 223 (some 31) (some 35) (some 16) 54 0,
     huffman_node.mk 238 (some 15) none none 1597 16,
     huffman_node.mk 221 (some 33) (some 37) (some 14) 33 0,
     huffman_node.mk 240 (some 13) none none 2584 17,
     huffman_node.mk 219 (some 35) (some 39) (some 12) 20 0,
     huffman_node.mk 242 (some 11) none none 4181 18,
     huffman_node.mk 217 (some 37) (some 41) (some 10) 12 0,
     huffman_node.mk 244 (some 9) none none 6765 19,
     huffman_node.mk 215 (some 39) (some 43) (some 8) 7 0,
     huffman_node.mk 246 (some 7) none none 10946 20,
     huffman_node.mk 213 (some 41) (some 45) (some 6) 4 0,
     huffman_node.mk 248 (some 5) none none 17711 21,
     huffman_node.mk 211 (some 43) (some 47) (some 4) 2 0,
     huffman_node.mk 250 (some 3) none none 28657 22,
     huffman_node.mk 208 (some 45) (some 49) (some 2) 1 0,
     huffman_node.mk 252 (some 1) none none 46368 23,
     huffman_node.mk 206 (some 47) none none 0 0,
     huffman_node.mk 254 (some 0) none none 75025 24],
    leaf := (List.range 256).map (fun b => if b < 25 then some (2 * b + 2) else none),
    nyt := 49,
    root := 0 }

end Huffman
namespace Huffman

/-- A tree of 62 leaves in which the NYT node lies 25 levels below the root,
with the weights of a byte stream of 552656 bytes: 41 byte values of about
4800 occurrences each, three values that occur once, a ladder of 16 values
whose counts grow from 3 to 4791, and two values with 132000 and 211500
occurrences. -/
def container_tree : huffman_state :=
  { heap :=
    [huffman_node.mk 256 none (some 1) (some 124) 552656 0,
     huffman_node.mk 255 (some 0) (some 3) (some 122) 341156 0,
     huffman_node.mk 133 (some 121) none none 1 56,
     huffman_node.mk 253 (some 1) (some 5) (some 7) 209156 0,
     huffman_node.mk 135 (some 119) none none 1 72,
     huffman_node.mk 251 (some 3) (some 9) (some 11) 131095 0,
     huffman_node.mk 208 (some 45) none none 4880 1,
     huffman_node.mk 250 (some 3) (some 13) (some 15) 78061 0,
     huffman_node.mk 209 (some 45) none none 4889 0,
     huffman_node.mk 249 (some 5) (some 19) (some 17) 78048 0,
     huffman_node.mk 136 (some 117) none none 1 97,
     huffman_node.mk 248 (some 5) (some 21) (some 23) 53047 0,
     huffman_node.mk 199 (some 55) none none 4879 2,
     huffman_node.mk 247 (some 7) (some 25) (some 29) 39032 0,
     huffman_node.mk 198 (some 55) none none 4879 3,
     huffman_node.mk 246 (some 7) (some 27) (some 31) 39029 0,
     huffman_node.mk 197 (some 57) none none 4879 4,
     huffman_node.mk 244 (some 9) (some 37) (some 33) 39024 0,
     huffman_node.mk 196 (some 57) none none 4879 5,
     huffman_node.mk 245 (some 9) (some 39) (some 35) 39024 0,
     huffman_node.mk 195 (some 59) none none 4879 6,
     huffman_node.mk 243 (some 11) (some 41) (some 43) 33520 0,
     huffman_node.mk 194 (some 59) none none 4879 7,
     huffman_node.mk 242 (some 11) (some 45) (some 51) 19527 0,
     huffman_node.mk 193 (some 61) none none 4879 8,
     huffman_node.mk 241 (some 13) (some 53) (some 55) 19516 0,
     huffman_node.mk 207 (some 47) none none 4879 9,
     huffman_node.mk 239 (some 15) (some 57) (some 47) 19516 0,
     huffman_node.mk 206 (some 47) none none 4879 10,
     huffman_node.mk 240 (some 13) (some 59) (some 49) 19516 0,
     huffman_node.mk 205 (some 49) none none 4879 11,
     huffman_node.mk 238 (some 15) (some 61) (some 67) 19513 0,
     huffman_node.mk 204 (some 49) none none 4879 12,
     huffman_node.mk 236 (some 17) (some 69) (some 71) 19512 0,
     huffman_node.mk 203 (some 51) none none 4879 13,
     huffman_node.mk 234 (some 19) (some 73) (some 75) 19512 0,
     huffman_node.mk 202 (some 51) none none 4879 14,
     huffman_node.mk 237 (some 17) (some 77) (some 79) 19512 0,
     huffman_node.mk 201 (some 53) none none 4879 15,
     huffman_node.mk 235 (some 19) (some 63) (some 81) 19512 0,
     huffman_node.mk 200 (some 53) none none 4879 16,
     huffman_node.mk 233 (some 21) (some 65) (some 83) 19401 0,
     huffman_node.mk 178 (some 75) none none 4878 17,
     huffman_node.mk 232 (some 21) (some 85) (some 87) 14119 0,
     huffman_node.mk 177 (some 77) none none 4878 18,
     huffman_node.mk 231 (some 23) (some 8) (some 6) 9769 0,
     huffman_node.mk 176 (some 77) none none 4878 19,
     huffman_node.mk 226 (some 27) (some 26) (some 28) 9758 0,
     huffman_node.mk 175 (some 79) none none 4878 20,
     huffman_node.mk 224 (some 29) (some 30) (some 32) 9758 0,
     huffman_node.mk 174 (some 79) none none 4878 21,
     huffman_node.mk 230 (some 23) (some 34) (some 36) 9758 0,
     huffman_node.mk 173 (some 81) none none 4878 22,
     huffman_node.mk 229 (some 25) (some 38) (some 40) 9758 0,
     huffman_node.mk 172 (some 81) none none 4878 23,
     huffman_node.mk 228 (some 25) (some 12) (some 14) 9758 0,
     huffman_node.mk 192 (some 61) none none 4878 24,
     huffman_node.mk 227 (some 27) (some 16) (some 18) 9758 0,
     huffman_node.mk 191 (some 63) none none 4878 25,
     huffman_node.mk 225 (some 29) (some 20) (some 22) 9758 0,
     huffman_node.mk 190 (some 63) none none 4878 26,
     huffman_node.mk 223 (some 31) (some 24) (some 56) 9757 0,
     huffman_node.mk 189 (some 65) none none 4878 27,
     huffman_node.mk 215 (some 39) (some 58) (some 60) 9756 0,
     huffman_node.mk 188 (some 65) none none 4878 28,
     huffman_node.mk 213 (some 41) (some 62) (some 64) 9756 0,
     huffman_node.mk 187 (some 67) none none 4878 29,
     huffman_node.mk 222 (some 31) (some 66) (some 68) 9756 0,
     huffman_node.mk 186 (some 67) none none 4878 30,
     huffman_node.mk 221 (some 33) (some 70) (some 72) 9756 0,
     huffman_node.mk 185 (some 69) none none 4878 31,
     huffman_node.mk 220 (some 33) (some 74) (some 76) 9756 0,
     huffman_node.mk 184 (some 69) none none 4878 32,
     huffman_node.mk 219 (some 35) (some 78) (some 80) 9756 0,
     huffman_node.mk 183 (some 71) none none 4878 33,
     huffman_node.mk 218 (some 35) (some 82) (some 42) 9756 0,
     huffman_node.mk 182 (some 71) none none 4878 34,
     huffman_node.mk 217 (some 37) (some 44) (some 46) 9756 0,
     huffman_node.mk 181 (some 73) none none 4878 35,
     huffman_node.mk 216 (some 37) (some 48) (some 50) 9756 0,
     huffman_node.mk 180 (some 73) none none 4878 36,
     huffman_node.mk 214 (some 39) (some 52) (some 54) 9756 0,
     huffman_node.mk 179 (some 75) none none 4878 37,
     huffman_node.mk 212 (some 41) (some 84) (some 120) 9645 0,
     huffman_node.mk 171 (some 83) none none 4854 38,
     huffman_node.mk 211 (some 43) (some 89) (some 86) 7985 0,
     huffman_node.mk 168 (some 85) none none 3197 39,
     huffman_node.mk 210 (some 43) (some 88) (some 118) 6134 0,
     huffman_node.mk 167 (some 87) none none 3173 40,
     huffman_node.mk 169 (some 85) (some 91) (some 116) 4788 0,
     huffman_node.mk 138 (some 115) none none 3 41,
     huffman_node.mk 165 (some 89) (some 93) (some 114) 2958 0,
     huffman_node.mk 140 (some 113) none none 6 42,
     huffman_node.mk 163 (some 91) (some 95) (some 112) 1827 0,
     huffman_node.mk 142 (some 111) none none 9 43,
     huffman_node.mk 161 (some 93) (some 97) (some 110) 1128 0,
     huffman_node.mk 144 (some 109) none none 15 44,
     huffman_node.mk 159 (some 95) (some 99) (some 108) 696 0,
     huffman_node.mk 146 (some 107) none none 24 45,
     huffman_node.mk 157 (some 97) (some 101) (some 106) 429 0,
     huffman_node.mk 148 (some 105) none none 39 46,
     huffman_node.mk 155 (some 99) (some 103) (some 104) 264 0,
     huffman_node.mk 150 (some 103) none none 63 47,
     huffman_node.mk 153 (some 101) (some 105) (some 102) 162 0,
     huffman_node.mk 152 (some 101) none none 102 48,
     huffman_node.mk 151 (some 103) (some 107) (some 100) 99 0,
     huffman_node.mk 154 (some 99) none none 165 49,
     huffman_node.mk 149 (some 105) (some 109) (some 98) 60 0,
     huffman_node.mk 156 (some 97) none none 267 50,
     huffman_node.mk 147 (some 107) (some 111) (some 96) 36 0,
     huffman_node.mk 158 (some 95) none none 432 51,
     huffman_node.mk 145 (some 109) (some 113) (some 94) 21 0,
     huffman_node.mk 160 (some 93) none none 699 52,
     huffman_node.mk 143 (some 111) (some 92) (some 115) 12 0,
     huffman_node.mk 162 (some 91) none none 1131 53,
     huffman_node.mk 141 (some 113) (some 90) (some 117) 6 0,
     huffman_node.mk 164 (some 89) none none 1830 54,
     huffman_node.mk 139 (some 115) (some 10) (some 119) 3 0,
     huffman_node.mk 166 (some 87) none none 2961 55,
     huffman_node.mk 137 (some 117) (some 121) (some 4) 2 0,
     huffman_node.mk 170 (some 83) none none 4791 57,
     huffman_node.mk 134 (some 119) (some 123) (some 2) 1 0,
     huffman_node.mk 252 (some 1) none none 132000 58,
     huffman_node.mk 132 (some 121) none none 0 0,
     huffman_node.mk 254 (some 0) none none 211500 59],
    leaf :=
     [some 8, some 6, some 12, some 14, some 16, some 18, some 20, some 22, some 24, some 26,
      some 28, some 30, some 32, some 34, some 36, some 38, some 40, some 42, some 44, some 46,
      some 48, some 50, some 52, some 54, some 56, some 58, some 60, some 62, some 64, some 66,
      some 68, some 70, some 72, some 74, some 76, some 78, some 80, some 82, some 84, some 86,
      some 88, some 90, some 92, some 94, some 96, some 98, some 100, some 102, some 104, some
      106, some 108, some 110, some 112, some 114, some 116, some 118, some 2, some 120, some
      122, some 124, none, none, none, none, none, none, none, none, none, none, none, none,
      some 4, none, none, none, none, none, none, none, none, none, none, none, none, none,
      none, none, none, none, none, none, none, none, none, none, none, some 10, none, none,
      none, none, none, none, none, none, none, none, none, none, none, none, none, none, none,
      none, none, none, none, none, none, none, none, none, none, none, none, none, none, none,
      none, none, none, none, none, none, none, none, none, none, none, none, none, none, none,
      none, none, none, none, none, none, none, none, none, none, none, none, none, none, none,
      none, none, none, none, none, none, none, none, none, none, none, none, none, none, none,
      none, none, none, none, none, none, none, none, none, none, none, none, none, none, none,
      none, none, none, none, none, none, none, none, none, none, none, none, none, none, none,
      none, none, none, none, none, none, none, none, none, none, none, none, none, none, none,
      none, none, none, none, none, none, none, none, none, none, none, none, none, none, none,
      none, none, none, none, none, none, none, none, none, none, none, none, none, none, none,
      none, none, none, none, none, none],
    nyt := 123,
    root := 0 }

end Huffman

/-! ## Bit packing: proofs -/

namespace Huffman

theorem bits_value_snoc (B : List Nat) (b : Nat) :
    bits_value (B ++ [b]) = 2 * bits_value B + b := by
  simp [bits_value, List.foldl_append]

theorem bytes_value_snoc (B : List Nat) (b : Nat) :
    bytes_value (B ++ [b]) = 256 * bytes_value B + b := by
  simp [bytes_value, List.foldl_append]

theorem lor_bit (x b : Nat) (hb : b < 2) : (2 * x) ||| b = 2 * x + b := by
  have : b = 0 ∨ b = 1 := by omega
  rcases this with rfl | rfl
  · simp
  · apply Nat.eq_of_testBit_eq
    intro j
    rw [Nat.testBit_lor]
    cases j with
    | zero => simp [Nat.testBit_zero, Nat.add_mod]
    | succ j =>
      have e : (2 * x + 1) / 2 = x := by omega
      have e0 : (2 * x) / 2 = x := by omega
      simp [Nat.testBit_succ, e, e0]

theorem sink_holds_write_bit (w : bit_sink) (B : List Nat) (b : Nat) (hb : b < 2)
    (h : sink_holds w B) : sink_holds (write_bit w b) (B ++ [b]) := by
  obtain ⟨h1, h2, h3, h4, h5⟩ := h
  have hlt : w.bufbits < 8 := by omega
  have hbuf : w.buf < 128 := by
    have : 2 ^ w.bufbits ≤ 2 ^ 7 := Nat.pow_le_pow_right (by decide) (by omega)
    omega
  have e1 : w.buf * 2 % 256 = 2 * w.buf := by omega
  have e2 : (w.buf * 2 % 256) ||| b = 2 * w.buf + b := by rw [e1]; exact lor_bit _ _ hb
  have e3 : (w.bufbits + 1) % 256 = w.bufbits + 1 := by omega
  have hp : 2 ^ (w.bufbits + 1) = 2 * 2 ^ w.bufbits := by rw [pow_succ]; ring
  unfold write_bit
  simp only [e2, e3]
  by_cases h8 : w.bufbits + 1 = 8
  · simp only [h8, if_true]
    have hb7 : w.bufbits = 7 := by omega
    rw [hb7] at h3 h4
    refine ⟨?_, ?_, ?_, ?_, ?_⟩
    · simp; omega
    · simp; omega
    · simp only [bytes_value_snoc, bits_value_snoc]; norm_num at h3 ⊢; omega
    · simp
    · intro x hx
      rcases List.mem_append.1 hx with hx | hx
      · exact h5 x hx
      · simp at hx; omega
  · simp only [h8, if_false]
    refine ⟨?_, ?_, ?_, ?_, h5⟩
    · simp; omega
    · simp; omega
    · simp only [bits_value_snoc]
      rw [hp]
      have : bytes_value w.out * (2 * 2 ^ w.bufbits) = 2 * (bytes_value w.out * 2 ^ w.bufbits) := by ring
      rw [this]; omega
    · show 2 * w.buf + b < 2 ^ (w.bufbits + 1)
      rw [hp]; omega

theorem emitted_bits_lt (n v : Nat) : ∀ b ∈ emitted_bits v n, b < 2 := by
  induction n generalizing v with
  | zero => simp [emitted_bits]
  | succ n ih =>
    intro b hb
    simp only [emitted_bits, List.mem_cons] at hb
    rcases hb with rfl | hb
    · omega
    · exact ih _ b hb

theorem write_bits_eq_foldl (n : Nat) (w : bit_sink) (v : Nat) :
    write_bits w v n = (emitted_bits v n).foldl write_bit w := by
  induction n generalizing w v with
  | zero => rfl
  | succ n ih => simp [write_bits, emitted_bits, ih]

theorem sink_holds_foldl (bits : List Nat) (hb : ∀ b ∈ bits, b < 2) (w : bit_sink)
    (B : List Nat) (h : sink_holds w B) : sink_holds (bits.foldl write_bit w) (B ++ bits) := by
  induction bits generalizing w B with
  | nil => simpa using h
  | cons b bits ih =>
    have := ih (fun x hx => hb x (List.mem_cons_of_mem _ hx)) (write_bit w b) (B ++ [b])
      (sink_holds_write_bit w B b (hb b (List.mem_cons_self _ _)) h)
    simpa using this

end Huffman

namespace Huffman

theorem bit_of_eq (x k : Nat) : bit_of x k = (x.testBit k).toNat :=
  (Nat.toNat_testBit x k).symm

theorem emitted_bits_eq_msb (n v : Nat) (hn : n ≤ 32) : emitted_bits v n = msb_bits v n := by
  induction n generalizing v with
  | zero => rfl
  | succ n ih =>
    rw [emitted_bits, ih _ (by omega)]
    unfold msb_bits
    rw [List.range_succ_eq_map, List.map_cons, List.map_map]
    refine congrArg₂ _ rfl ?_
    apply List.map_congr_left
    intro i hi
    have hi' : i < n := List.mem_range.1 hi
    show v * 2 % 2 ^ 32 / 2 ^ (31 - i) % 2 = v / 2 ^ (31 - (i + 1)) % 2
    rw [← Nat.toNat_testBit, ← Nat.toNat_testBit, Nat.testBit_mod_two_pow]
    have h1 : 31 - i = (31 - (i + 1)) + 1 := by omega
    have h2 : (v * 2).testBit (31 - i) = v.testBit (31 - (i + 1)) := by
      rw [h1, Nat.testBit_succ]
      congr 1
      omega
    rw [h2]
    have : decide (31 - i < 32) = true := by simp; omega
    simp [this]

theorem bits_value_testBit (B : List Nat) (hB : ∀ b ∈ B, b < 2) (i : Nat) (hi : i < B.length) :
    ((bits_value B).testBit (B.length - 1 - i)).toNat = B.getD i 0 := by
  induction B using List.reverseRecOn generalizing i with
  | nil => simp at hi
  | append_singleton B b ih =>
    have hb : b < 2 := hB b (by simp)
    have hB' : ∀ x ∈ B, x < 2 := fun x hx => hB x (by simp [hx])
    rw [bits_value_snoc]
    simp only [List.length_append, List.length_singleton] at hi ⊢
    by_cases hlast : i = B.length
    · subst hlast
      have : B.length + 1 - 1 - B.length = 0 := by omega
      rw [this, Nat.testBit_zero]
      rw [List.getD_eq_getElem?_getD, List.getElem?_append_right (le_refl _)]
      have hb' : b = 0 ∨ b = 1 := by omega
      rcases hb' with rfl | rfl <;> simp [Nat.add_mod]
    · have hlt : i < B.length := by omega
      have : B.length + 1 - 1 - i = (B.length - 1 - i) + 1 := by omega
      rw [this, Nat.testBit_succ]
      have e : (2 * bits_value B + b) / 2 = bits_value B := by omega
      rw [e, ih hB' i hlt]
      rw [List.getD_eq_getElem?_getD, List.getD_eq_getElem?_getD, List.getElem?_append_left hlt]

theorem bits_value_lt (B : List Nat) (hB : ∀ b ∈ B, b < 2) : bits_value B < 2 ^ B.length := by
  induction B using List.reverseRecOn with
  | nil => simp [bits_value]
  | append_singleton B b ih =>
    have hb : b < 2 := hB b (by simp)
    have := ih (fun x hx => hB x (by simp [hx]))
    rw [bits_value_snoc, List.length_append, List.length_singleton, pow_succ]
    omega

theorem bytes_value_testBit (out : List Nat) (hB : ∀ b ∈ out, b < 256) (q k : Nat)
    (hq : q < out.length) (hk : k < 8) :
    (bytes_value out).testBit (8 * (out.length - 1 - q) + k) = (out.getD q 0).testBit k := by
  induction out using List.reverseRecOn generalizing q with
  | nil => simp at hq
  | append_singleton out b ih =>
    have hb : b < 2 ^ 8 := hB b (by simp)
    have hB' : ∀ x ∈ out, x < 256 := fun x hx => hB x (by simp [hx])
    rw [bytes_value_snoc]
    simp only [List.length_append, List.length_singleton] at hq ⊢
    have e256 : (256 : Nat) = 2 ^ 8 := by norm_num
    rw [e256, Nat.testBit_mul_pow_two_add _ hb]
    by_cases hlast : q = out.length
    · subst hlast
      have : 8 * (out.length + 1 - 1 - out.length) + k = k := by omega
      rw [this, if_pos hk, List.getD_eq_getElem?_getD, List.getElem?_append_right (le_refl _)]
      simp
    · have hlt : q < out.length := by omega
      have h1 : ¬ (8 * (out.length + 1 - 1 - q) + k < 8) := by omega
      have h2 : 8 * (out.length + 1 - 1 - q) + k - 8 = 8 * (out.length - 1 - q) + k := by omega
      rw [if_neg h1, h2, ih hB' q hlt]
      rw [List.getD_eq_getElem?_getD, List.getD_eq_getElem?_getD, List.getElem?_append_left hlt]

theorem sink_holds_calls (calls : List (Nat × Nat)) (w : bit_sink) (B : List Nat)
    (h : sink_holds w B) :
    sink_holds (calls.foldl (fun w c => write_bits w c.1 c.2) w)
      (B ++ calls.flatMap (fun c => emitted_bits c.1 c.2)) := by
  induction calls generalizing w B with
  | nil => simpa using h
  | cons c calls ih =>
    have h1 : sink_holds (write_bits w c.1 c.2) (B ++ emitted_bits c.1 c.2) := by
      rw [write_bits_eq_foldl]
      exact sink_holds_foldl _ (emitted_bits_lt _ _) w B h
    have := ih _ _ h1
    simpa [List.flatMap_cons, List.append_assoc] using this

theorem sink_holds_empty : sink_holds { out := [], buf := 0, bufbits := 0 } [] := by
  simp [sink_holds, bytes_value, bits_value]

end Huffman

namespace Huffman

theorem flushed_numeric (calls : List (Nat × Nat)) (B : List Nat)
    (hB : B = calls.flatMap (fun c => emitted_bits c.1 c.2)) :
    (flushed calls).out.length = B.length / 8 + 1 ∧
    (∀ b ∈ (flushed calls).out, b < 256) ∧
    bytes_value (flushed calls).out = 2 ^ (8 - B.length % 8) * bits_value B := by
  have hs := sink_holds_calls calls _ [] sink_holds_empty
  rw [List.nil_append, ← hB] at hs
  have hf : sink_holds (flushed calls) (B ++ emitted_bits 0 8) := by
    unfold flushed
    rw [write_bits_eq_foldl]
    exact sink_holds_foldl _ (emitted_bits_lt _ _) _ B hs
  have hz : emitted_bits 0 8 = [0, 0, 0, 0, 0, 0, 0, 0] := by decide
  rw [hz] at hf
  obtain ⟨h1, h2, h3, h4, h5⟩ := hf
  have hv : bits_value (B ++ [0, 0, 0, 0, 0, 0, 0, 0]) = 256 * bits_value B := by
    simp only [bits_value, List.foldl_append, List.foldl_cons, List.foldl_nil]
    omega
  simp only [List.length_append, List.length_cons, List.length_nil] at h1 h2
  rw [hv] at h3
  have hr : (B.length + 8) % 8 = B.length % 8 := by omega
  rw [hr] at h1
  rw [h1] at h3 h4
  refine ⟨by omega, h5, ?_⟩
  have hlt : B.length % 8 < 8 := Nat.mod_lt _ (by decide)
  generalize B.length % 8 = r at h3 h4 hlt
  generalize bytes_value (flushed calls).out = X at h3
  generalize bits_value B = V at h3
  generalize (flushed calls).buf = u at h3 h4
  interval_cases r <;> norm_num at h3 h4 ⊢ <;> omega

end Huffman

namespace Huffman

theorem flushed_bit (calls : List (Nat × Nat)) (B : List Nat)
    (hB : B = calls.flatMap (fun c => emitted_bits c.1 c.2)) (i : Nat)
    (hi : i < 8 * (B.length / 8 + 1)) :
    bit_of ((flushed calls).out.getD (i / 8) 0) (7 - i % 8) =
      if i < B.length then B.getD i 0 else 0 := by
  obtain ⟨hlen, hbytes, hval⟩ := flushed_numeric calls B hB
  have hbits : ∀ b ∈ B, b < 2 := by
    intro b hb
    rw [hB] at hb
    obtain ⟨c, _, hc⟩ := List.mem_flatMap.1 hb
    exact emitted_bits_lt _ _ b hc
  have hq : i / 8 < (flushed calls).out.length := by omega
  rw [bit_of_eq, ← bytes_value_testBit _ hbytes (i / 8) (7 - i % 8) hq (by omega), hval,
    Nat.testBit_mul_pow_two, hlen]
  by_cases him : i < B.length
  · have h1 : 8 * (B.length / 8 + 1 - 1 - i / 8) + (7 - i % 8) ≥ 8 - B.length % 8 := by omega
    have h2 : 8 * (B.length / 8 + 1 - 1 - i / 8) + (7 - i % 8) - (8 - B.length % 8) =
        B.length - 1 - i := by omega
    rw [if_pos him, h2, decide_eq_true h1, Bool.true_and]
    exact bits_value_testBit B hbits i him
  · rw [if_neg him]
    by_cases h1 : 8 * (B.length / 8 + 1 - 1 - i / 8) + (7 - i % 8) ≥ 8 - B.length % 8
    · have h2 : B.length ≤
          8 * (B.length / 8 + 1 - 1 - i / 8) + (7 - i % 8) - (8 - B.length % 8) := by omega
      have h3 : bits_value B < 2 ^ B.length := bits_value_lt B hbits
      have h4 : (bits_value B).testBit
          (8 * (B.length / 8 + 1 - 1 - i / 8) + (7 - i % 8) - (8 - B.length % 8)) = false :=
        Nat.testBit_lt_two_pow (lt_of_lt_of_le h3 (Nat.pow_le_pow_right (by decide) h2))
      rw [h4]; simp
    · rw [decide_eq_false h1]; simp

theorem flushed_last (calls : List (Nat × Nat)) (B : List Nat)
    (hB : B = calls.flatMap (fun c => emitted_bits c.1 c.2)) (h0 : B.length % 8 = 0) :
    (flushed calls).out.getLast? = some 0 := by
  obtain ⟨hlen, hbytes, hval⟩ := flushed_numeric calls B hB
  rcases List.eq_nil_or_concat (flushed calls).out with hnil | ⟨L, b, hL⟩
  · rw [hnil] at hlen; simp at hlen
  · rw [hL] at hval ⊢
    rw [List.concat_eq_append, bytes_value_snoc, h0] at hval
    rw [List.concat_eq_append, List.getLast?_append]
    have : b = 0 := by
      have hb : b < 256 := hbytes b (by rw [hL]; simp)
      norm_num at hval
      omega
    simp [this]

/-- C10: starting from an empty accumulator, after any calls
`write_bits(v_j, n_j)` with `n_j <= 32` and the flush `write_bits(0, 8)`, the
sink holds `m / 8 + 1` bytes, where `m` is the length of the concatenation of
the `n_j` most significant bits of the `v_j`; bit `i` of that concatenation is
bit `7 - i % 8` of byte `i / 8`, every later bit position is `0`, the last
byte is a zero byte that holds no bit of the sequence when `m` is a multiple
of 8, and holds the last bit of the sequence otherwise. -/
theorem write_bits_flush_layout (calls : List (Nat × Nat)) (h : ∀ c ∈ calls, c.2 ≤ 32) :
    (flushed calls).out.length = (calls.flatMap (fun c => msb_bits c.1 c.2)).length / 8 + 1 ∧
    (∀ b ∈ (flushed calls).out, b < 256) ∧
    (∀ i, i < (calls.flatMap (fun c => msb_bits c.1 c.2)).length →
      bit_of ((flushed calls).out.getD (i / 8) 0) (7 - i % 8) =
        (calls.flatMap (fun c => msb_bits c.1 c.2)).getD i 0) ∧
    (∀ i, (calls.flatMap (fun c => msb_bits c.1 c.2)).length ≤ i →
      i < 8 * (flushed calls).out.length →
      bit_of ((flushed calls).out.getD (i / 8) 0) (7 - i % 8) = 0) ∧
    ((calls.flatMap (fun c => msb_bits c.1 c.2)).length % 8 = 0 →
      (flushed calls).out.getLast? = some 0 ∧
      8 * ((flushed calls).out.length - 1) = (calls.flatMap (fun c => msb_bits c.1 c.2)).length) ∧
    ((calls.flatMap (fun c => msb_bits c.1 c.2)).length % 8 ≠ 0 →
      ((calls.flatMap (fun c => msb_bits c.1 c.2)).length - 1) / 8 =
        (flushed calls).out.length - 1) := by
  have hB : calls.flatMap (fun c => msb_bits c.1 c.2) =
      calls.flatMap (fun c => emitted_bits c.1 c.2) := by
    induction calls with
    | nil => rfl
    | cons c calls ih =>
      rw [List.flatMap_cons, List.flatMap_cons, ih (fun x hx => h x (List.mem_cons_of_mem _ hx)),
        emitted_bits_eq_msb _ _ (h c (List.mem_cons_self _ _))]
  obtain ⟨hlen, hbytes, _⟩ := flushed_numeric calls _ hB
  refine ⟨hlen, hbytes, ?_, ?_, ?_, ?_⟩
  · intro i hi
    rw [flushed_bit calls _ hB i (by omega), if_pos hi]
  · intro i hi hi2
    rw [flushed_bit calls _ hB i (by omega), if_neg (by omega)]
  · intro h0
    exact ⟨flushed_last calls _ hB h0, by omega⟩
  · intro h0
    omega

theorem write_bits_flush_layout_witness :
    (flushed [(0x41000000, 8), (0xE0000000, 3)]).out = [0x41, 0xE0] ∧
    (flushed [(0x41000000, 8), (0xE0000000, 3)]).out.length =
      ([(0x41000000, 8), (0xE0000000, 3)].flatMap (fun c => msb_bits c.1 c.2)).length / 8 + 1 :=
  ⟨by decide, (write_bits_flush_layout [(0x41000000, 8), (0xE0000000, 3)] (by decide)).1⟩

end Huffman

/-! ## LZ78: proofs -/

namespace LZ78

theorem records_append (A B : List Nat) (h : A.length % 3 = 0) :
    records (A ++ B) = records A ++ records B := by
  induction A using records.induct with
  | case1 lo hi symbol rest ih =>
    have : rest.length % 3 = 0 := by simp at h; omega
    simp [records, ih this]
  | case2 A hA =>
    match A, hA with
    | [], _ => simp [records]
    | [_], _ => simp at h
    | [_, _], _ => simp at h
    | _ :: _ :: _ :: _, hA => exact absurd rfl (hA _ _ _ _)

theorem decode_loop_record (d : dec_state) (lo hi symbol : Nat) (rest : List Nat) :
    decode_loop d (lo :: hi :: symbol :: rest) =
      (pending d.dict (lo + 256 * hi)).bind
        (fun bytes => decode_loop (dec_step d (lo + 256 * hi) symbol bytes) rest) := by
  rw [decode_loop]
  unfold pending dec_step link
  cases (if lo + 256 * hi ≠ 0 then write_dict_entry 65536 d.dict (lo + 256 * hi)
      else some []) with
  | none => rfl
  | some bytes =>
    by_cases hn : d.next ≠ 0
    · simp only [if_pos hn, Option.some_bind]
    · simp only [if_neg hn, Option.some_bind]

theorem decode_loop_lone (d : dec_state) (lo hi : Nat) :
    decode_loop d [lo, hi] =
      (pending d.dict (lo + 256 * hi)).map (fun bytes => { d with out := d.out ++ bytes }) := by
  rw [decode_loop]
  unfold pending
  cases (if lo + 256 * hi ≠ 0 then write_dict_entry 65536 d.dict (lo + 256 * hi)
      else some []) with
  | none => rfl
  | some bytes => rfl

theorem decode_loop_append (A B : List Nat) (d0 d : dec_state) (h : A.length % 3 = 0)
    (hd : decode_loop d0 A = some d) : decode_loop d0 (A ++ B) = decode_loop d B := by
  induction A using records.induct generalizing d0 with
  | case1 lo hi symbol rest ih =>
    have h3 : rest.length % 3 = 0 := by simp at h; omega
    simp only [List.cons_append]
    rw [decode_loop_record] at hd ⊢
    cases hp : pending d0.dict (lo + 256 * hi) with
    | none => rw [hp] at hd; simp at hd
    | some bytes =>
      rw [hp] at hd
      exact ih _ h3 hd
  | case2 A hA =>
    match A, hA with
    | [], _ =>
      simp only [decode_loop, Option.some.injEq] at hd
      simp [hd]
    | [_], _ => simp at h
    | [_, _], _ => simp at h
    | _ :: _ :: _ :: _, hA => exact absurd rfl (hA _ _ _ _)

theorem write_dict_entry_some (dict : Nat → lz78_dict_entry) (n : Nat)
    (hok : ∀ k q, 1 ≤ k → k ≤ n → (dict k).prev = some q → 1 ≤ q ∧ q < k) :
    ∀ k fuel, 1 ≤ k → k ≤ n → k ≤ fuel →
      ∃ bytes, write_dict_entry fuel dict k = some bytes ∧
        ∀ fuel2, k ≤ fuel2 → write_dict_entry fuel2 dict k = some bytes := by
  intro k
  induction k using Nat.strong_induction_on with
  | _ k ih =>
    intro fuel h1 hn hf
    cases hprev : (dict k).prev with
    | none =>
      refine ⟨[(dict k).symbol], ?_, ?_⟩
      · obtain ⟨f, rfl⟩ : ∃ f, fuel = f + 1 := ⟨fuel - 1, by omega⟩
        simp [write_dict_entry, hprev]
      · intro fuel2 h2
        obtain ⟨f, rfl⟩ : ∃ f, fuel2 = f + 1 := ⟨fuel2 - 1, by omega⟩
        simp [write_dict_entry, hprev]
    | some q =>
      obtain ⟨hq1, hqk⟩ := hok k q h1 hn hprev
      obtain ⟨f, rfl⟩ : ∃ f, fuel = f + 1 := ⟨fuel - 1, by omega⟩
      obtain ⟨bytes, hb, hall⟩ := ih q hqk f hq1 (by omega) (by omega)
      refine ⟨bytes ++ [(dict k).symbol], ?_, ?_⟩
      · simp [write_dict_entry, hprev, hb]
      · intro fuel2 h2
        obtain ⟨f2, rfl⟩ : ∃ f, fuel2 = f + 1 := ⟨fuel2 - 1, by omega⟩
        simp [write_dict_entry, hprev, hall f2 (by omega)]

theorem write_dict_entry_congr (dict dict2 : Nat → lz78_dict_entry) (n : Nat)
    (hok : ∀ k q, 1 ≤ k → k ≤ n → (dict k).prev = some q → 1 ≤ q ∧ q < k)
    (hagree : ∀ k, 1 ≤ k → k ≤ n → dict2 k = dict k) :
    ∀ k fuel, 1 ≤ k → k ≤ n →
      write_dict_entry fuel dict2 k = write_dict_entry fuel dict k := by
  intro k
  induction k using Nat.strong_induction_on with
  | _ k ih =>
    intro fuel h1 hn
    cases fuel with
    | zero => rfl
    | succ f =>
      simp only [write_dict_entry, hagree k h1 hn]
      cases hprev : (dict k).prev with
      | none => rfl
      | some q =>
        obtain ⟨hq1, hqk⟩ := hok k q h1 hn hprev
        simp only [ih q hqk f hq1 (by omega)]

theorem le_bytes_two (id : Nat) : le_bytes 2 id = [id % 256, id / 256 % 256] := rfl

theorem le_bytes_two_value (id : Nat) (h : id < 65536) :
    id % 256 + 256 * (id / 256 % 256) = id := by omega

end LZ78

namespace LZ78

theorem load_ok {dict0 : Nat → lz78_dict_entry} {consumed : List Nat} {e : enc_state}
    {d : dec_state} (hl : linked dict0 consumed e d) (p : slot)
    (hv : slot_valid e.t.heap.length p) :
    ∃ v, load e.t p = some v ∧ ∀ b, v = some b →
      b < e.t.heap.length ∧ (d.dict (b + 1)).prev = owner d.dict p ∧
        ∀ a, p = slot.left a → a < b := by
  cases p with
  | root =>
    refine ⟨e.t.root, rfl, ?_⟩
    intro b hb
    obtain ⟨h1, h2⟩ := hl.root_ok b hb
    exact ⟨h1, h2, fun a ha => by cases ha⟩
  | left a =>
    have ha : a < e.t.heap.length := hv
    refine ⟨(e.t.heap[a]).left, by simp [load, List.getElem?_eq_getElem ha], ?_⟩
    intro b hb
    obtain ⟨h1, h2, h3⟩ := hl.left_ok a _ b (List.getElem?_eq_getElem ha) hb
    exact ⟨h2, h3, fun a2 ha2 => by cases ha2; exact h1⟩
  | right a =>
    have ha : a < e.t.heap.length := hv
    refine ⟨(e.t.heap[a]).right, by simp [load, List.getElem?_eq_getElem ha], ?_⟩
    intro b hb
    obtain ⟨h1, h2⟩ := hl.right_ok a _ b (List.getElem?_eq_getElem ha) hb
    exact ⟨h1, h2, fun a2 ha2 => by cases ha2⟩

theorem find_symbol_spec {dict0 : Nat → lz78_dict_entry} {consumed : List Nat} {e : enc_state}
    {d : dec_state} (hl : linked dict0 consumed e d) (symbol : Nat) :
    ∀ fuel p, slot_valid e.t.heap.length p → walk_bound e.t.heap.length p ≤ fuel →
      ∃ q, find_symbol fuel e.t p symbol = some q ∧ slot_valid e.t.heap.length q ∧
        owner d.dict q = owner d.dict p ∧
        (load e.t q = some none ∨
          ∃ b n, load e.t q = some (some b) ∧ e.t.heap[b]? = some n ∧ n.symbol = symbol) := by
  intro fuel
  induction fuel with
  | zero =>
    intro p hv hb
    cases p with
    | root => simp [walk_bound] at hb
    | left a => have : a < e.t.heap.length := hv; simp [walk_bound] at hb; omega
    | right a => simp [walk_bound] at hb
  | succ fuel ih =>
    intro p hv hb
    obtain ⟨v, hload, hvb⟩ := load_ok hl p hv
    cases v with
    | none =>
      exact ⟨p, by simp [find_symbol, hload], hv, rfl, Or.inl hload⟩
    | some b =>
      obtain ⟨hblt, hown, hgt⟩ := hvb b rfl
      have hget : e.t.heap[b]? = some e.t.heap[b] := List.getElem?_eq_getElem hblt
      by_cases hs : (e.t.heap[b]).symbol ≠ symbol
      · have hb2 : walk_bound e.t.heap.length (slot.left b) ≤ fuel := by
          cases p with
          | root => simp [walk_bound] at hb ⊢; omega
          | left a =>
            have := hgt a rfl
            simp [walk_bound] at hb ⊢; omega
          | right a => simp [walk_bound] at hb ⊢; omega
        obtain ⟨q, hq1, hq2, hq3, hq4⟩ := ih (slot.left b) hblt hb2
        refine ⟨q, ?_, hq2, ?_, hq4⟩
        · simp [find_symbol, hload, hget, hs, hq1]
        · rw [hq3]; exact hown
      · have hs2 : (e.t.heap[b]).symbol = symbol := by simpa using hs
        refine ⟨p, ?_, hv, rfl, Or.inr ⟨b, _, hload, hget, hs2⟩⟩
        simp [find_symbol, hload, hget, hs2]

end LZ78

namespace LZ78

theorem link_pos (k : Nat) : link (k + 1) = some (k + 1) := by simp [link]

theorem pending_extend {dict0 : Nat → lz78_dict_entry} {consumed : List Nat} {e : enc_state}
    {d : dec_state} (hl : linked dict0 consumed e d) (b symbol : Nat)
    (hprev : (d.dict (b + 1)).prev = link e.id)
    (hsym : (d.dict (b + 1)).symbol = symbol) (bytes : List Nat)
    (hp : pending d.dict e.id = some bytes) :
    pending d.dict (b + 1) = some (bytes ++ [symbol]) := by
  have hlen := hl.len_le
  unfold pending at hp ⊢
  rw [if_pos (Nat.succ_ne_zero b)]
  show write_dict_entry (65535 + 1) d.dict (b + 1) = _
  rw [write_dict_entry, hprev, hsym]
  by_cases hid : e.id ≠ 0
  · rw [if_pos hid] at hp
    simp only [link, if_pos hid]
    obtain ⟨bs, _, hall⟩ := write_dict_entry_some d.dict e.t.heap.length hl.dict_ok e.id 65536
      (by omega) hl.id_le (by have := hl.id_le; omega)
    have h1 := hall 65536 (by have := hl.id_le; omega)
    have h2 := hall 65535 (by have := hl.id_le; omega)
    rw [h1] at hp
    rw [h2]
    cases hp
    rfl
  · rw [if_neg hid] at hp
    simp only [link, if_neg hid]
    cases hp
    rfl

theorem linked_match {dict0 : Nat → lz78_dict_entry} {consumed : List Nat} {e : enc_state}
    {d : dec_state} (hl : linked dict0 consumed e d) (q : slot) (b symbol : Nat)
    (n : lz78_trie_node) (hq : slot_valid e.t.heap.length q)
    (hown : owner d.dict q = link e.id) (hload : load e.t q = some (some b))
    (hget : e.t.heap[b]? = some n) (hsym : n.symbol = symbol) :
    linked dict0 (consumed ++ [symbol]) { e with id := n.id, p := slot.right b } d := by
  obtain ⟨v, hv1, hv2⟩ := load_ok hl q hq
  rw [hload] at hv1
  cases hv1
  obtain ⟨hblt, hprev, _⟩ := hv2 b rfl
  obtain ⟨hid, hs⟩ := hl.node b n hget
  obtain ⟨bytes, hp, hout⟩ := hl.output
  refine
    { dec := hl.dec, out3 := hl.out3, next_eq := hl.next_eq, len_le := hl.len_le,
      next_val := hl.next_val, count := hl.count, node := hl.node, entry := hl.entry,
      frame := hl.frame, dict_ok := hl.dict_ok, left_ok := hl.left_ok,
      right_ok := hl.right_ok, root_ok := hl.root_ok, slot_ok := ?_, id_le := ?_,
      output := ?_ }
  · show slot_valid e.t.heap.length (slot.right b) ∧ owner d.dict (slot.right b) = link n.id
    rw [hid, link_pos]
    exact ⟨hblt, rfl⟩
  · show n.id ≤ e.t.heap.length
    omega
  · refine ⟨bytes ++ [symbol], ?_, by rw [← List.append_assoc, hout]⟩
    show pending d.dict n.id = _
    rw [hid]
    exact pending_extend hl b symbol (by rw [hprev, hown]) (by rw [← hs, hsym]) bytes hp

end LZ78

namespace LZ78

theorem getElem?_snoc (H : List lz78_trie_node) (new : lz78_trie_node) (a : Nat)
    (n : lz78_trie_node) (h : (H ++ [new])[a]? = some n) :
    (a = H.length ∧ n = new) ∨ (a < H.length ∧ H[a]? = some n) := by
  by_cases ha : a < H.length
  · rw [List.getElem?_append_left ha] at h
    exact Or.inr ⟨ha, h⟩
  · rw [List.getElem?_append_right (by omega)] at h
    have h0 : a - H.length = 0 := by
      by_contra hne
      have : [new][a - H.length]? = none := by
        apply List.getElem?_eq_none
        simp; omega
      rw [this] at h; cases h
    rw [h0] at h
    simp at h
    exact Or.inl ⟨by omega, h.symm⟩

theorem store_spec (H : List lz78_trie_node) (r : Option Nat) (new : lz78_trie_node)
    (q : slot) (hq : slot_valid H.length q) :
    ∃ t1, store { heap := H ++ [new], root := r } (some H.length) q = some t1 ∧
      t1.heap.length = H.length + 1 ∧
      (∀ a n1, t1.heap[a]? = some n1 →
        (a = H.length ∧ n1 = new) ∨
        (a < H.length ∧ ∃ n, H[a]? = some n ∧ n1.id = n.id ∧ n1.symbol = n.symbol ∧
          (n1.left = n.left ∨ (q = slot.left a ∧ n1.left = some H.length)) ∧
          (n1.right = n.right ∨ (q = slot.right a ∧ n1.right = some H.length)))) ∧
      (t1.root = r ∨ (q = slot.root ∧ t1.root = some H.length)) := by
  cases q with
  | root =>
    refine ⟨_, rfl, by simp, ?_, Or.inr ⟨rfl, rfl⟩⟩
    intro a n1 h
    rcases getElem?_snoc H new a n1 h with h1 | ⟨h1, h2⟩
    · exact Or.inl h1
    · exact Or.inr ⟨h1, n1, h2, rfl, rfl, Or.inl rfl, Or.inl rfl⟩
  | left a0 =>
    have ha0 : a0 < H.length := hq
    have hget : (H ++ [new])[a0]? = some H[a0] := by
      rw [List.getElem?_append_left ha0, List.getElem?_eq_getElem ha0]
    refine ⟨{ heap := (H ++ [new]).set a0 { H[a0] with left := some H.length }, root := r },
      by simp only [store, hget], by simp, ?_, Or.inl rfl⟩
    intro a n1 h
    simp only at h
    rw [List.getElem?_set] at h
    by_cases haa : a0 = a
    · subst haa
      rw [if_pos rfl] at h
      have : a0 < (H ++ [new]).length := by simp; omega
      rw [if_pos this] at h
      cases h
      exact Or.inr ⟨ha0, H[a0], List.getElem?_eq_getElem ha0, rfl, rfl, Or.inr ⟨rfl, rfl⟩,
        Or.inl rfl⟩
    · rw [if_neg haa] at h
      rcases getElem?_snoc H new a n1 h with h1 | ⟨h1, h2⟩
      · exact Or.inl h1
      · exact Or.inr ⟨h1, n1, h2, rfl, rfl, Or.inl rfl, Or.inl rfl⟩
  | right a0 =>
    have ha0 : a0 < H.length := hq
    have hget : (H ++ [new])[a0]? = some H[a0] := by
      rw [List.getElem?_append_left ha0, List.getElem?_eq_getElem ha0]
    refine ⟨{ heap := (H ++ [new]).set a0 { H[a0] with right := some H.length }, root := r },
      by simp only [store, hget], by simp, ?_, Or.inl rfl⟩
    intro a n1 h
    simp only at h
    rw [List.getElem?_set] at h
    by_cases haa : a0 = a
    · subst haa
      rw [if_pos rfl] at h
      have : a0 < (H ++ [new]).length := by simp; omega
      rw [if_pos this] at h
      cases h
      exact Or.inr ⟨ha0, H[a0], List.getElem?_eq_getElem ha0, rfl, rfl, Or.inl rfl,
        Or.inr ⟨rfl, rfl⟩⟩
    · rw [if_neg haa] at h
      rcases getElem?_snoc H new a n1 h with h1 | ⟨h1, h2⟩
      · exact Or.inl h1
      · exact Or.inr ⟨h1, n1, h2, rfl, rfl, Or.inl rfl, Or.inl rfl⟩

end LZ78

namespace LZ78

theorem records_emit (out : List Nat) (id symbol : Nat) (h3 : out.length % 3 = 0)
    (hid : id < 65536) :
    records (out ++ le_bytes 2 id ++ [symbol]) = records out ++ [(id, symbol)] := by
  rw [List.append_assoc, records_append _ _ h3, le_bytes_two]
  simp only [List.cons_append, List.nil_append, records, le_bytes_two_value id hid]

theorem decode_emit {dict0 : Nat → lz78_dict_entry} (out : List Nat) (d : dec_state)
    (id symbol : Nat) (bytes : List Nat) (h3 : out.length % 3 = 0) (hid : id < 65536)
    (hdec : decode_loop { dict := dict0, next := 1, out := [] } out = some d)
    (hp : pending d.dict id = some bytes) :
    decode_loop { dict := dict0, next := 1, out := [] } (out ++ le_bytes 2 id ++ [symbol]) =
      some (dec_step d id symbol bytes) := by
  rw [List.append_assoc, decode_loop_append _ _ _ _ h3 hdec, le_bytes_two]
  simp only [List.cons_append, List.nil_append]
  rw [decode_loop_record, le_bytes_two_value id hid, hp]
  simp [decode_loop]

theorem linked_create {dict0 : Nat → lz78_dict_entry} {consumed : List Nat} {e : enc_state}
    {d : dec_state} (hl : linked dict0 consumed e d) (q : slot) (symbol : Nat)
    (hq : slot_valid e.t.heap.length q) (hown : owner d.dict q = link e.id)
    (hnext : e.next ≠ 0) (t1 : trie)
    (hstore : store { e.t with heap := e.t.heap ++ [make_node symbol e.next] }
      (some e.t.heap.length) q = some t1)
    (bytes : List Nat) (hp : pending d.dict e.id = some bytes)
    (hout : d.out ++ bytes = consumed) :
    linked dict0 (consumed ++ [symbol])
      { t := t1, p := slot.root, id := 0, next := (e.next + 1) % 65536,
        out := e.out ++ le_bytes 2 e.id ++ [symbol] }
      (dec_step d e.id symbol bytes) := by
  obtain ⟨t2, hst2, hlen1, hnodes, hroot⟩ :=
    store_spec e.t.heap e.t.root (make_node symbol e.next) q hq
  rw [hstore] at hst2
  cases hst2
  have hle := hl.len_le
  have hnv := hl.next_val
  have hlen : e.t.heap.length ≤ 65534 := by
    by_contra hc
    have : e.t.heap.length = 65535 := by omega
    rw [this] at hnv
    exact hnext (by rw [hnv])
  have hnext' : e.next = e.t.heap.length + 1 := by rw [hnv]; omega
  have hcount := hl.count
  have hL : (records e.out).length = e.t.heap.length := by omega
  have hidle := hl.id_le
  have hid : e.id < 65536 := by omega
  have hdn : d.next ≠ 0 := by rw [hl.next_eq]; exact hnext
  have hrec := records_emit e.out e.id symbol hl.out3 hid
  have hstep : dec_step d e.id symbol bytes =
      { dict := Function.update d.dict (e.t.heap.length + 1) { prev := link e.id, symbol := symbol },
        next := (e.next + 1) % 65536, out := d.out ++ bytes ++ [symbol] } := by
    unfold dec_step
    rw [if_pos hdn, hl.next_eq, hnext']
  rw [hstep]
  have hsame : ∀ j, j ≠ e.t.heap.length + 1 →
      Function.update d.dict (e.t.heap.length + 1) { prev := link e.id, symbol := symbol } j =
        d.dict j := fun j hj => Function.update_noteq hj _ _
  have hnew : Function.update d.dict (e.t.heap.length + 1)
      { prev := link e.id, symbol := symbol } (e.t.heap.length + 1) =
        { prev := link e.id, symbol := symbol } := Function.update_same _ _ _
  refine
    { dec := ?_, out3 := ?_, next_eq := rfl, len_le := ?_, next_val := ?_, count := ?_,
      node := ?_, entry := ?_, frame := ?_, dict_ok := ?_, left_ok := ?_, right_ok := ?_,
      root_ok := ?_, slot_ok := ?_, id_le := ?_, output := ?_ }
  · rw [← hstep]
    exact decode_emit e.out d e.id symbol bytes hl.out3 hid hl.dec hp
  · have := hl.out3
    simp only [List.length_append, le_bytes_two, List.length_cons, List.length_nil]
    omega
  · show t1.heap.length ≤ 65535
    omega
  · show (e.next + 1) % 65536 = (t1.heap.length + 1) % 65536
    rw [hlen1, hnext']
  · show t1.heap.length = min (records (e.out ++ le_bytes 2 e.id ++ [symbol])).length 65535
    rw [hrec, List.length_append, List.length_singleton, hL, hlen1]
    omega
  · intro a n1 h
    rcases hnodes a n1 h with ⟨ha, hn⟩ | ⟨ha, n, hn, hi, hs, _, _⟩
    · subst ha; subst hn
      refine ⟨by simp [make_node, hnext'], ?_⟩
      dsimp only
      rw [hnew]
      rfl
    · obtain ⟨h1, h2⟩ := hl.node a n hn
      exact ⟨by rw [hi, h1], by
        dsimp only
        rw [hsame (a + 1) (by omega), hs, h2]⟩
  · intro k hk
    show Function.update d.dict (e.t.heap.length + 1) _ (k + 1) = _
    rw [hrec]
    rw [hlen1] at hk
    by_cases hkl : k < e.t.heap.length
    · rw [hsame (k + 1) (by omega), hl.entry k hkl]
      rw [List.getD_eq_getElem?_getD, List.getD_eq_getElem?_getD,
        List.getElem?_append_left (by omega)]
    · have hk2 : k = e.t.heap.length := by omega
      subst hk2
      rw [hnew, List.getD_eq_getElem?_getD, List.getElem?_append_right (by omega), hL]
      simp
  · intro j hj
    show Function.update d.dict (e.t.heap.length + 1) _ j = _
    rw [hlen1] at hj
    rw [hsame j (by omega)]
    exact hl.frame j (by omega)
  · intro k qq h1 hk hprev
    rw [hlen1] at hk
    by_cases hkl : k ≤ e.t.heap.length
    · have hprev' : (d.dict k).prev = some qq := by
        rw [← hsame k (by omega)]; exact hprev
      exact hl.dict_ok k qq h1 hkl hprev'
    · have hk2 : k = e.t.heap.length + 1 := by omega
      subst hk2
      have hprev' : link e.id = some qq := by
        have : (Function.update d.dict (e.t.heap.length + 1)
          { prev := link e.id, symbol := symbol } (e.t.heap.length + 1)).prev = some qq := hprev
        rw [hnew] at this
        exact this
      unfold link at hprev'
      by_cases hz : e.id ≠ 0
      · rw [if_pos hz] at hprev'
        cases hprev'
        omega
      · rw [if_neg hz] at hprev'
        cases hprev'
  · intro a n1 b h hb
    show a < b ∧ b < t1.heap.length ∧
      (Function.update d.dict (e.t.heap.length + 1) _ (b + 1)).prev =
        (Function.update d.dict (e.t.heap.length + 1) _ (a + 1)).prev
    rcases hnodes a n1 h with ⟨ha, hn⟩ | ⟨ha, n, hn, _, _, hleft, _⟩
    · subst hn; simp [make_node] at hb
    · rw [hsame (a + 1) (by omega), hlen1]
      rcases hleft with hleft | ⟨hqa, hleft⟩
      · rw [hleft] at hb
        obtain ⟨h1, h2, h3⟩ := hl.left_ok a n b hn hb
        exact ⟨h1, by omega, by rw [hsame (b + 1) (by omega), h3]⟩
      · rw [hleft] at hb
        cases hb
        refine ⟨ha, by omega, ?_⟩
        rw [hnew]
        subst hqa
        exact hown.symm
  · intro a n1 b h hb
    show b < t1.heap.length ∧
      (Function.update d.dict (e.t.heap.length + 1) _ (b + 1)).prev = some (a + 1)
    rcases hnodes a n1 h with ⟨ha, hn⟩ | ⟨ha, n, hn, _, _, _, hright⟩
    · subst hn; simp [make_node] at hb
    · rw [hlen1]
      rcases hright with hright | ⟨hqa, hright⟩
      · rw [hright] at hb
        obtain ⟨h1, h2⟩ := hl.right_ok a n b hn hb
        exact ⟨by omega, by rw [hsame (b + 1) (by omega), h2]⟩
      · rw [hright] at hb
        cases hb
        refine ⟨by omega, ?_⟩
        rw [hnew]
        subst hqa
        exact hown.symm
  · intro b hb
    show b < t1.heap.length ∧
      (Function.update d.dict (e.t.heap.length + 1) _ (b + 1)).prev = none
    rw [hlen1]
    rcases hroot with hroot | ⟨hqa, hroot⟩
    · rw [hroot] at hb
      obtain ⟨h1, h2⟩ := hl.root_ok b hb
      exact ⟨by omega, by rw [hsame (b + 1) (by omega), h2]⟩
    · rw [hroot] at hb
      cases hb
      refine ⟨by omega, ?_⟩
      rw [hnew]
      subst hqa
      exact hown.symm
  · exact ⟨trivial, by simp [owner, link]⟩
  · show 0 ≤ t1.heap.length
    omega
  · refine ⟨[], by simp [pending], ?_⟩
    show d.out ++ bytes ++ [symbol] ++ [] = consumed ++ [symbol]
    rw [List.append_nil, hout]

end LZ78

namespace LZ78

theorem linked_full {dict0 : Nat → lz78_dict_entry} {consumed : List Nat} {e : enc_state}
    {d : dec_state} (hl : linked dict0 consumed e d) (symbol : Nat) (hnext : e.next = 0)
    (bytes : List Nat) (hp : pending d.dict e.id = some bytes)
    (hout : d.out ++ bytes = consumed) :
    linked dict0 (consumed ++ [symbol])
      { t := e.t, p := slot.root, id := 0, next := e.next,
        out := e.out ++ le_bytes 2 e.id ++ [symbol] }
      (dec_step d e.id symbol bytes) := by
  have hle := hl.len_le
  have hnv := hl.next_val
  have hlen : e.t.heap.length = 65535 := by rw [hnext] at hnv; omega
  have hcount := hl.count
  have hL : 65535 ≤ (records e.out).length := by omega
  have hidle := hl.id_le
  have hid : e.id < 65536 := by omega
  have hdn : ¬ d.next ≠ 0 := by rw [hl.next_eq, hnext]; simp
  have hrec := records_emit e.out e.id symbol hl.out3 hid
  have hstep : dec_step d e.id symbol bytes = { d with out := d.out ++ bytes ++ [symbol] } := by
    unfold dec_step
    rw [if_neg hdn]
  have hdec := decode_emit e.out d e.id symbol bytes hl.out3 hid hl.dec hp
  rw [hstep] at hdec ⊢
  refine
    { dec := hdec, out3 := ?_, next_eq := hl.next_eq, len_le := hl.len_le,
      next_val := hl.next_val, count := ?_, node := hl.node, entry := ?_, frame := hl.frame,
      dict_ok := hl.dict_ok, left_ok := hl.left_ok, right_ok := hl.right_ok,
      root_ok := hl.root_ok, slot_ok := ?_, id_le := ?_, output := ?_ }
  · have := hl.out3
    simp only [List.length_append, le_bytes_two, List.length_cons, List.length_nil]
    omega
  · show e.t.heap.length = min (records (e.out ++ le_bytes 2 e.id ++ [symbol])).length 65535
    rw [hrec, List.length_append, List.length_singleton]
    omega
  · intro k hk
    have hk' : k < e.t.heap.length := hk
    show d.dict (k + 1) = _
    rw [hrec, hl.entry k hk']
    rw [List.getD_eq_getElem?_getD, List.getD_eq_getElem?_getD,
      List.getElem?_append_left (by omega)]
  · exact ⟨trivial, by simp [owner, link]⟩
  · show 0 ≤ e.t.heap.length
    omega
  · refine ⟨[], by simp [pending], ?_⟩
    show d.out ++ bytes ++ [symbol] ++ [] = consumed ++ [symbol]
    rw [List.append_nil, hout]

theorem linked_step {dict0 : Nat → lz78_dict_entry} {consumed : List Nat} {e : enc_state}
    {d : dec_state} (hl : linked dict0 consumed e d) (symbol : Nat) :
    ∃ e1 d1, encode_symbol e symbol = some e1 ∧ linked dict0 (consumed ++ [symbol]) e1 d1 := by
  obtain ⟨q, hfind, hqv, hqo, hcase⟩ :=
    find_symbol_spec hl symbol (e.t.heap.length + 1) e.p hl.slot_ok.1 (by
      cases e.p with
      | root => simp [walk_bound]
      | left a => simp [walk_bound]; omega
      | right a => simp [walk_bound])
  have hown : owner d.dict q = link e.id := by rw [hqo]; exact hl.slot_ok.2
  obtain ⟨bytes, hp, hout⟩ := hl.output
  rcases hcase with hnone | ⟨b, n, hload, hget, hsym⟩
  · by_cases hnext : e.next ≠ 0
    · obtain ⟨t1, hst, _⟩ :=
        store_spec e.t.heap e.t.root (make_node symbol e.next) q hqv
      refine ⟨_, _, ?_, linked_create hl q symbol hqv hown hnext t1 hst bytes hp hout⟩
      unfold encode_symbol
      simp only [hfind, hnone, if_pos hnext]
      rw [hst]
    · have hz : e.next = 0 := by simpa using hnext
      refine ⟨_, _, ?_, linked_full hl symbol hz bytes hp hout⟩
      unfold encode_symbol
      simp only [hfind, hnone, if_neg hnext]
  · refine ⟨_, _, ?_, linked_match hl q b symbol n hqv hown hload hget hsym⟩
    unfold encode_symbol
    simp only [hfind, hload, hget]

theorem linked_init (dict0 : Nat → lz78_dict_entry) :
    linked dict0 [] enc_init { dict := dict0, next := 1, out := [] } := by
  refine
    { dec := rfl, out3 := rfl, next_eq := rfl, len_le := by simp [enc_init],
      next_val := rfl, count := by simp [enc_init, records],
      node := by intro a n h; simp [enc_init] at h,
      entry := by intro k hk; simp [enc_init] at hk,
      frame := fun _ _ => rfl,
      dict_ok := by intro k q h1 h2; simp [enc_init] at h2; omega,
      left_ok := by intro a n b h; simp [enc_init] at h,
      right_ok := by intro a n b h; simp [enc_init] at h,
      root_ok := by intro b h; simp [enc_init] at h,
      slot_ok := ⟨trivial, rfl⟩, id_le := by simp [enc_init],
      output := ⟨[], rfl, rfl⟩ }

/-- The encoder runs to the end of every input, and the decoder that has read
all complete records is in a state linked to the encoder's. -/
theorem linked_run (dict0 : Nat → lz78_dict_entry) (x : List Nat) :
    ∀ (consumed : List Nat) (e : enc_state) (d : dec_state), linked dict0 consumed e d →
      ∃ e1 d1, linked dict0 (consumed ++ x) e1 d1 ∧
        encode_loop e x =
          some (if e1.id ≠ 0 then { e1 with out := e1.out ++ le_bytes 2 e1.id } else e1) := by
  induction x with
  | nil =>
    intro consumed e d hl
    exact ⟨e, d, by simpa using hl, rfl⟩
  | cons symbol rest ih =>
    intro consumed e d hl
    obtain ⟨e1, d1, henc, hl1⟩ := linked_step hl symbol
    obtain ⟨e2, d2, hl2, hrun⟩ := ih _ e1 d1 hl1
    refine ⟨e2, d2, by simpa using hl2, ?_⟩
    rw [encode_loop, henc]
    exact hrun

end LZ78

theorem le_bytes_length (k v : Nat) : (le_bytes k v).length = k := by
  induction k generalizing v with
  | zero => rfl
  | succ k ih => simp [le_bytes, ih]

theorem le_value_le_bytes (k v : Nat) : le_value (le_bytes k v) = v % 256 ^ k := by
  induction k generalizing v with
  | zero => simp [le_bytes, le_value, Nat.mod_one]
  | succ k ih =>
    simp only [le_bytes, le_value, ih]
    rw [pow_succ, Nat.mul_comm (256 ^ k) 256, Nat.mod_mul]

theorem fread_obj_whole (k old : Nat) (bs rest : List Nat) (hk : bs.length = k) :
    fread_obj k old (bs ++ rest) = (le_value bs, true, rest) := by
  unfold fread_obj
  have h1 : (bs ++ rest).take k = bs := by
    rw [← hk, List.take_left]
  have h2 : (bs ++ rest).drop k = rest := by
    rw [← hk, List.drop_left]
  simp only [h1, h2, hk, Nat.mul_mod_left, Nat.add_zero, List.length_append]
  simp

namespace LZ78

theorem lz78_loops (dict0 : Nat → lz78_dict_entry) (x : List Nat) :
    ∃ e1 d1 e d, linked dict0 x e1 d1 ∧ encode_loop enc_init x = some e ∧
      decode_loop { dict := dict0, next := 1, out := [] } e.out = some d ∧ d.out = x ∧
      e.t = e1.t ∧ e.next = e1.next ∧ d.dict = d1.dict ∧ d.next = d1.next ∧
      records e.out = records e1.out := by
  obtain ⟨e1, d1, hl, hrun⟩ := linked_run dict0 x [] enc_init _ (linked_init dict0)
  rw [List.nil_append] at hl
  obtain ⟨bytes, hp, hout⟩ := hl.output
  by_cases hid : e1.id ≠ 0
  · rw [if_pos hid] at hrun
    have hlt : e1.id < 65536 := by have := hl.id_le; have := hl.len_le; omega
    refine ⟨e1, d1, _, { d1 with out := d1.out ++ bytes }, hl, hrun, ?_, hout, rfl, rfl, rfl,
      rfl, ?_⟩
    · show decode_loop _ (e1.out ++ le_bytes 2 e1.id) = _
      rw [decode_loop_append _ _ _ _ hl.out3 hl.dec, le_bytes_two, decode_loop_lone,
        le_bytes_two_value e1.id hlt, hp]
      rfl
    · show records (e1.out ++ le_bytes 2 e1.id) = _
      rw [records_append _ _ hl.out3, le_bytes_two]
      simp [records]
  · rw [if_neg hid] at hrun
    have hz : e1.id = 0 := by simpa using hid
    refine ⟨e1, d1, e1, d1, hl, hrun, hl.dec, ?_, rfl, rfl, rfl, rfl, rfl⟩
    rw [hz] at hp
    simp only [pending, ne_eq, not_true_eq_false, if_false, Option.some.injEq] at hp
    rw [← hp] at hout
    simpa using hout

theorem lz78_decode_header (name out : List Nat) (m0 namelen0 : Nat)
    (dict0 : Nat → lz78_dict_entry) (hname : name.length < 256) :
    lz78_decode_run m0 namelen0 dict0 (header name ++ out) =
      (decode_loop { dict := dict0, next := 1, out := [] } out).map Sum.inr := by
  unfold lz78_decode_run header
  have e1 : le_bytes 2 magic ++ le_bytes 8 name.length ++ name ++ [0] ++ out =
      le_bytes 2 magic ++ (le_bytes 8 name.length ++ (name ++ [0] ++ out)) := by
    simp only [List.append_assoc]
  have hm : le_value (le_bytes 2 magic) = magic := by decide
  rw [e1, fread_obj_whole 2 _ _ _ (le_bytes_length 2 magic), hm]
  dsimp only
  rw [if_neg (by simp), fread_obj_whole 8 _ _ _ (le_bytes_length 8 name.length),
    le_value_le_bytes]
  dsimp only
  have hn : name.length % 256 ^ 8 = name.length := Nat.mod_eq_of_lt (by
    have : (256 : Nat) < 256 ^ 8 := by norm_num
    omega)
  rw [hn]
  have hw : (name.length + 1) % 2 ^ 64 = name.length + 1 := Nat.mod_eq_of_lt (by
    have : (257 : Nat) < 2 ^ 64 := by norm_num
    omega)
  rw [hw]
  have hmin : ¬ 256 < min (name.length + 1) (name ++ [0] ++ out).length := by
    simp only [List.length_append, List.length_singleton]
    omega
  rw [if_neg hmin]
  have hdrop : (name ++ [0] ++ out).drop (name.length + 1) = out := by
    have : (name ++ [0]).length = name.length + 1 := by simp
    rw [← this, List.drop_left]
  rw [hdrop]
  cases decode_loop { dict := dict0, next := 1, out := [] } out <;> rfl

end LZ78

namespace LZ78

/-- C1: for every byte sequence `x` (and every base name shorter than 256
bytes, whatever the uninitialised locals and dictionary array hold),
`lz78_encode` returns a container and `lz78_decode` of that container returns
0 and writes exactly `x`; the input "ABABAB" is encoded as the records
(0,'A'), (0,'B'), (1,'B') and the lone identifier 3. -/
theorem lz78_round_trip (name x : List Nat) (m0 namelen0 : Nat)
    (dict0 : Nat → lz78_dict_entry) (hname : name.length < 256) :
    (∃ c, lz78_encode name x = some c ∧
      lz78_decode m0 namelen0 dict0 c = some { rc := 0, out := x }) ∧
    lz78_encode name [65, 66, 65, 66, 65, 66] =
      some (header name ++ [0, 0, 65, 0, 0, 66, 1, 0, 66, 3, 0]) := by
  refine ⟨?_, by rfl⟩
  obtain ⟨e1, d1, e, d, _, henc, hdec, hout, _⟩ := lz78_loops dict0 x
  refine ⟨header name ++ e.out, by simp [lz78_encode, henc], ?_⟩
  unfold lz78_decode
  rw [lz78_decode_header name e.out m0 namelen0 dict0 hname, hdec]
  simp [hout]

theorem lz78_round_trip_witness :
    [97].length < 256 ∧
    ∃ c, lz78_encode [97] [65, 66, 65, 66, 65, 66] = some c ∧
      lz78_decode 0 0 (fun _ => { prev := none, symbol := 0 }) c =
        some { rc := 0, out := [65, 66, 65, 66, 65, 66] } :=
  ⟨by decide, (lz78_round_trip [97] [65, 66, 65, 66, 65, 66] 0 0
    (fun _ => { prev := none, symbol := 0 }) (by decide)).1⟩

/-- C7: for every input, when `lz78_encode` is at the end of the file the
arena holds `min r 65535` nodes, `r` being the number of `(id, byte)` records
written; the node created `k`-th carries the identifier `k` and the byte of
record `k`, distinct nodes carry distinct identifiers, and the counter `next`
is the node count plus one reduced modulo `65536` (so `0` once 65535 nodes
exist).  `lz78_decode`, having read those records, has the same `next`, holds
at index `k` the link and byte of record `k` for `k` up to the same count, and
has left every other entry of `dict` untouched. -/
theorem lz78_identifier_cap (x : List Nat) (dict0 : Nat → lz78_dict_entry) :
    ∃ e d, encode_loop enc_init x = some e ∧
      decode_loop { dict := dict0, next := 1, out := [] } e.out = some d ∧
      e.t.heap.length = min (records e.out).length 65535 ∧
      (∀ (k : Nat) (n : lz78_trie_node), e.t.heap[k]? = some n →
        n.id = k + 1 ∧ n.symbol = ((records e.out).getD k (0, 0)).2) ∧
      (∀ (a b : Nat) (na nb : lz78_trie_node), e.t.heap[a]? = some na → e.t.heap[b]? = some nb →
        na.id = nb.id → a = b) ∧
      e.next = (e.t.heap.length + 1) % 65536 ∧
      d.next = e.next ∧
      (∀ k, k < e.t.heap.length →
        d.dict (k + 1) = { prev := link ((records e.out).getD k (0, 0)).1,
                           symbol := ((records e.out).getD k (0, 0)).2 }) ∧
      (∀ j, j = 0 ∨ e.t.heap.length < j → d.dict j = dict0 j) := by
  obtain ⟨e1, d1, e, d, hl, henc, hdec, _, ht, hn, hdd, hdn, hrec⟩ := lz78_loops dict0 x
  refine ⟨e, d, henc, hdec, ?_, ?_, ?_, ?_, ?_, ?_, ?_⟩
  · rw [ht, hrec]; exact hl.count
  · intro k n h
    rw [ht] at h
    obtain ⟨h1, h2⟩ := hl.node k n h
    have hk : k < e1.t.heap.length := by
      by_contra hc
      rw [List.getElem?_eq_none (by omega)] at h
      cases h
    refine ⟨h1, ?_⟩
    rw [h2, hl.entry k hk, hrec]
  · intro a b na nb ha hb hab
    rw [ht] at ha hb
    have h1 := (hl.node a na ha).1
    have h2 := (hl.node b nb hb).1
    omega
  · rw [ht, hn]; exact hl.next_val
  · rw [hdn, hn]; exact hl.next_eq
  · intro k hk
    rw [ht] at hk
    rw [hdd, hrec]
    exact hl.entry k hk
  · intro j hj
    rw [ht] at hj
    rw [hdd]
    exact hl.frame j hj

end LZ78

/-! ## Huffman tree: arena lemmas -/

namespace Huffman

theorem getElem?_node_at (heap : List huffman_node) (a : Nat) (h : a < heap.length) :
    heap[a]? = some (node_at heap a) := by
  simp [node_at, List.getElem?_eq_getElem h]

theorem node_at_of_getElem? (heap : List huffman_node) (a : Nat) (n : huffman_node)
    (h : heap[a]? = some n) : node_at heap a = n := by
  simp [node_at, h]

theorem node_at_set (heap : List huffman_node) (i a : Nat) (x : huffman_node)
    (hi : i < heap.length) :
    node_at (heap.set i x) a = if a = i then x else node_at heap a := by
  unfold node_at
  rw [List.getD_eq_getElem?_getD, List.getD_eq_getElem?_getD, List.getElem?_set]
  by_cases h : i = a
  · subst h; simp [hi]
  · have h2 : ¬ a = i := fun e => h e.symm
    simp [h, h2]

theorem modify_node_eq (heap : List huffman_node) (a : Nat) (f : huffman_node → huffman_node)
    (h : a < heap.length) : modify_node heap a f = some (heap.set a (f (node_at heap a))) := by
  simp [modify_node, getElem?_node_at heap a h]

theorem relink_eq (heap : List huffman_node) (a b p : Nat) (ha : a < heap.length)
    (hp : p < heap.length) (hpar : (node_at heap a).parent = some p) :
    relink heap a b =
      some (heap.set p (if (node_at heap p).l_child = some a
        then { node_at heap p with l_child := some b }
        else { node_at heap p with r_child := some b })) := by
  simp only [relink, getElem?_node_at heap a ha, hpar, getElem?_node_at heap p hp]
  split <;> rfl

end Huffman

namespace Huffman

theorem swap_addr_left (a b : Nat) : swap_addr a b a = b := by simp [swap_addr]

theorem swap_addr_right (a b : Nat) : swap_addr a b b = a := by
  unfold swap_addr; split <;> simp_all

theorem swap_addr_other (a b x : Nat) (h1 : x ≠ a) (h2 : x ≠ b) : swap_addr a b x = x := by
  simp [swap_addr, h1, h2]

theorem swap_addr_invol (a b x : Nat) : swap_addr a b (swap_addr a b x) = x := by
  unfold swap_addr
  by_cases h1 : x = a
  · by_cases h2 : b = a <;> simp [h1, h2]
  · by_cases h2 : x = b
    · simp [h1, h2]
    · simp [h1, h2]

theorem swap_nodes_some (heap : List huffman_node) (n1 n2 p1 p2 : Nat)
    (h1 : n1 < heap.length) (h2 : n2 < heap.length) (hp1 : p1 < heap.length)
    (hp2 : p2 < heap.length) (hne : n1 ≠ n2)
    (hpar1 : (node_at heap n1).parent = some p1) (hpar2 : (node_at heap n2).parent = some p2)
    (hp1n1 : p1 ≠ n1) (hp1n2 : p1 ≠ n2) (hp2n1 : p2 ≠ n1) (hp2n2 : p2 ≠ n2) :
    ∃ X1 X2 : huffman_node,
      X1 = (if (node_at heap p1).l_child = some n1
        then { node_at heap p1 with l_child := some n2 }
        else { node_at heap p1 with r_child := some n2 }) ∧
      X2 = (if (node_at (heap.set p1 X1) p2).l_child = some n2
        then { node_at (heap.set p1 X1) p2 with l_child := some n1 }
        else { node_at (heap.set p1 X1) p2 with r_child := some n1 }) ∧
      ∃ heap2, swap_nodes heap n1 n2 = some heap2 ∧ heap2.length = heap.length ∧
        ∀ a, node_at heap2 a =
          if a = n2 then { node_at heap n2 with id := (node_at heap n1).id, parent := some p1 }
          else if a = n1 then
            { node_at heap n1 with id := (node_at heap n2).id, parent := some p2 }
          else if a = p2 then X2
          else if a = p1 then X1
          else node_at heap a := by
  refine ⟨_, _, rfl, rfl, ?_⟩
  generalize hX1 : (if (node_at heap p1).l_child = some n1
        then { node_at heap p1 with l_child := some n2 }
        else { node_at heap p1 with r_child := some n2 } : huffman_node) = X1
  generalize hX2 : (if (node_at (heap.set p1 X1) p2).l_child = some n2
        then { node_at (heap.set p1 X1) p2 with l_child := some n1 }
        else { node_at (heap.set p1 X1) p2 with r_child := some n1 } : huffman_node) = X2
  have e1 : relink heap n1 n2 = some (heap.set p1 X1) := by
    rw [relink_eq heap n1 n2 p1 h1 hp1 hpar1, hX1]
  have l1 : (heap.set p1 X1).length = heap.length := List.length_set _ _ _
  have g1n2 : node_at (heap.set p1 X1) n2 = node_at heap n2 := by
    rw [node_at_set _ _ _ _ hp1, if_neg (Ne.symm hp1n2)]
  have e2 : relink (heap.set p1 X1) n2 n1 = some ((heap.set p1 X1).set p2 X2) := by
    rw [relink_eq (heap.set p1 X1) n2 n1 p2 (by omega) (by omega) (by rw [g1n2, hpar2]), hX2]
  have l2 : ((heap.set p1 X1).set p2 X2).length = heap.length := by
    rw [List.length_set, l1]
  have g2n2 : node_at ((heap.set p1 X1).set p2 X2) n2 = node_at heap n2 := by
    rw [node_at_set _ _ _ _ (by omega), if_neg (Ne.symm hp2n2), g1n2]
  have g2n1 : node_at ((heap.set p1 X1).set p2 X2) n1 = node_at heap n1 := by
    rw [node_at_set _ _ _ _ (by omega), if_neg (Ne.symm hp2n1), node_at_set _ _ _ _ hp1,
      if_neg (Ne.symm hp1n1)]
  generalize hH2 : (heap.set p1 X1).set p2 X2 = H2 at e2 l2 g2n2 g2n1
  have hH2a : ∀ a, node_at H2 a = if a = p2 then X2 else if a = p1 then X1 else node_at heap a := by
    intro a
    rw [← hH2, node_at_set _ _ _ _ (by omega), node_at_set _ _ _ _ hp1]
  have s2 : H2[n2]? = some (node_at heap n2) := by
    rw [getElem?_node_at _ _ (by omega), g2n2]
  have s3 : ∀ f, modify_node H2 n1 f = some (H2.set n1 (f (node_at heap n1))) := by
    intro f; rw [modify_node_eq _ _ _ (by omega), g2n1]
  have s4 : ∀ f x, modify_node (H2.set n1 x) n2 f =
      some ((H2.set n1 x).set n2 (f (node_at heap n2))) := by
    intro f x
    rw [modify_node_eq _ _ _ (by rw [List.length_set]; omega), node_at_set _ _ _ _ (by omega),
      if_neg (Ne.symm hne), g2n2]
  have s5 : ∀ x y, ((H2.set n1 x).set n2 y)[n2]? = some y := by
    intro x y
    rw [getElem?_node_at _ _ (by simp only [List.length_set]; omega),
      node_at_set _ _ _ _ (by simp only [List.length_set]; omega), if_pos rfl]
  have s6 : ∀ f x y, modify_node ((H2.set n1 x).set n2 y) n1 f =
      some (((H2.set n1 x).set n2 y).set n1 (f x)) := by
    intro f x y
    rw [modify_node_eq _ _ _ (by simp only [List.length_set]; omega),
      node_at_set _ _ _ _ (by simp only [List.length_set]; omega), if_neg hne,
      node_at_set _ _ _ _ (by omega), if_pos rfl]
  have s7 : ∀ f x y z, modify_node ((((H2.set n1 x).set n2 y).set n1 z)) n2 f =
      some ((((H2.set n1 x).set n2 y).set n1 z).set n2 (f y)) := by
    intro f x y z
    rw [modify_node_eq _ _ _ (by simp only [List.length_set]; omega),
      node_at_set _ _ _ _ (by simp only [List.length_set]; omega), if_neg (Ne.symm hne),
      node_at_set _ _ _ _ (by simp only [List.length_set]; omega), if_pos rfl]
  have key : swap_nodes heap n1 n2 = some ((((H2.set n1
        { node_at heap n1 with id := (node_at heap n2).id }).set n2
        { node_at heap n2 with id := (node_at heap n1).id }).set n1
        { node_at heap n1 with id := (node_at heap n2).id, parent := (node_at heap n2).parent }).set n2
        { node_at heap n2 with id := (node_at heap n1).id, parent := (node_at heap n1).parent }) := by
    unfold swap_nodes
    simp only [getElem?_node_at heap n1 h1, e1, e2, s2, s3, s4, s5, s6, s7]
  refine ⟨_, key, ?_, ?_⟩
  · simp only [List.length_set]; omega
  · intro a
    rw [node_at_set _ _ _ _ (by simp only [List.length_set]; omega),
      node_at_set _ _ _ _ (by simp only [List.length_set]; omega),
      node_at_set _ _ _ _ (by simp only [List.length_set]; omega),
      node_at_set _ _ _ _ (by omega), hH2a]
    by_cases ha2 : a = n2
    · simp [ha2, hpar1]
    · by_cases ha1 : a = n1
      · simp [ha1, ha2, hne, hpar2]
      · simp [ha1, ha2]

end Huffman

namespace Huffman

theorem map_swap_addr_fix (n1 n2 : Nat) (o : Option Nat)
    (h : ∀ c, o = some c → c ≠ n1 ∧ c ≠ n2) : o.map (swap_addr n1 n2) = o := by
  cases o with
  | none => rfl
  | some c =>
    obtain ⟨h1, h2⟩ := h c rfl
    simp [swap_addr_other n1 n2 c h1 h2]

/-- The effect of `swap_nodes` on a well-linked arena: weights, symbols and
own children stay with the node, `id` and `parent` are exchanged between the
two nodes, and every child reference to one of them now names the other. -/
theorem swap_nodes_spec (heap : List huffman_node) (n1 n2 p1 p2 : Nat)
    (h1 : n1 < heap.length) (h2 : n2 < heap.length) (hp1 : p1 < heap.length)
    (hp2 : p2 < heap.length) (hne : n1 ≠ n2)
    (hpar1 : (node_at heap n1).parent = some p1) (hpar2 : (node_at heap n2).parent = some p2)
    (hp1n1 : p1 ≠ n1) (hp1n2 : p1 ≠ n2) (hp2n1 : p2 ≠ n1) (hp2n2 : p2 ≠ n2)
    (hc1 : is_child heap p1 n1) (hc2 : is_child heap p2 n2)
    (hd : ∀ p, (node_at heap p).l_child ≠ none → (node_at heap p).l_child ≠ (node_at heap p).r_child)
    (hu1 : ∀ a, is_child heap a n1 → a = p1) (hu2 : ∀ a, is_child heap a n2 → a = p2) :
    ∃ heap2, swap_nodes heap n1 n2 = some heap2 ∧ heap2.length = heap.length ∧
      ∀ a, (node_at heap2 a).weight = (node_at heap a).weight ∧
        (node_at heap2 a).symbol = (node_at heap a).symbol ∧
        (node_at heap2 a).id = (node_at heap (swap_addr n1 n2 a)).id ∧
        (node_at heap2 a).parent = (node_at heap (swap_addr n1 n2 a)).parent ∧
        (((node_at heap2 a).l_child = (node_at heap a).l_child.map (swap_addr n1 n2) ∧
          (node_at heap2 a).r_child = (node_at heap a).r_child.map (swap_addr n1 n2)) ∨
         ((node_at heap2 a).l_child = (node_at heap a).r_child.map (swap_addr n1 n2) ∧
          (node_at heap2 a).r_child = (node_at heap a).l_child.map (swap_addr n1 n2))) := by
  obtain ⟨X1, X2, hX1, hX2, heap2, hs, hl, hat⟩ :=
    swap_nodes_some heap n1 n2 p1 p2 h1 h2 hp1 hp2 hne hpar1 hpar2 hp1n1 hp1n2 hp2n1 hp2n2
  refine ⟨heap2, hs, hl, ?_⟩
  have hfix : ∀ a, a ≠ p1 → a ≠ p2 →
      (node_at heap a).l_child.map (swap_addr n1 n2) = (node_at heap a).l_child ∧
      (node_at heap a).r_child.map (swap_addr n1 n2) = (node_at heap a).r_child := by
    intro a ha1 ha2
    constructor
    · apply map_swap_addr_fix
      intro c hc
      exact ⟨fun e => ha1 (hu1 a (Or.inl (e ▸ hc))), fun e => ha2 (hu2 a (Or.inl (e ▸ hc)))⟩
    · apply map_swap_addr_fix
      intro c hc
      exact ⟨fun e => ha1 (hu1 a (Or.inr (e ▸ hc))), fun e => ha2 (hu2 a (Or.inr (e ▸ hc)))⟩
  intro a
  rw [hat a]
  by_cases ha2 : a = n2
  · subst ha2
    obtain ⟨f1, f2⟩ := hfix a (Ne.symm hp1n2) (Ne.symm hp2n2)
    simp only [if_pos rfl, swap_addr_right, hpar1, f1, f2]
    first | exact ⟨rfl, rfl, rfl, rfl, Or.inl ⟨rfl, rfl⟩⟩ | simp
  · rw [if_neg ha2]
    by_cases ha1 : a = n1
    · subst ha1
      obtain ⟨f1, f2⟩ := hfix a (Ne.symm hp1n1) (Ne.symm hp2n1)
      simp only [if_pos rfl, swap_addr_left, hpar2, f1, f2]
      first | exact ⟨rfl, rfl, rfl, rfl, Or.inl ⟨rfl, rfl⟩⟩ | simp
    · rw [if_neg ha1, swap_addr_other n1 n2 a ha1 ha2]
      by_cases hap2 : a = p2
      · subst hap2
        rw [if_pos rfl, hX2]
        by_cases hpp : a = p1
        · -- both nodes are children of the same parent
          subst hpp
          rw [node_at_set _ _ _ _ hp1, if_pos rfl, hX1]
          have hdd := hd a
          rcases hc1 with hl1 | hr1
          · -- n1 is the left child, so n2 is the right child
            have hr2 : (node_at heap a).r_child = some n2 := by
              rcases hc2 with hl2 | hr2
              · rw [hl1] at hl2; exact absurd (Option.some.inj hl2) hne
              · exact hr2
            simp only [hl1, hr2, if_true, Option.map_some', swap_addr_left, swap_addr_right]
            first | exact ⟨rfl, rfl, rfl, rfl, Or.inr ⟨rfl, rfl⟩⟩ | simp
          · have hl2 : (node_at heap a).l_child = some n2 := by
              rcases hc2 with hl2 | hr2
              · exact hl2
              · rw [hr1] at hr2; exact absurd (Option.some.inj hr2) hne
            have hn : ¬ (some n2 = some n1) := fun e => hne (Option.some.inj e).symm
            simp only [hl2, hr1, hn, if_false, if_true, Option.map_some', swap_addr_left,
              swap_addr_right]
            first | exact ⟨rfl, rfl, rfl, rfl, Or.inl ⟨rfl, rfl⟩⟩ | simp
        · rw [node_at_set _ _ _ _ hp1, if_neg hpp]
          have hdd := hd a
          have hn1 : ∀ c, is_child heap a c → c ≠ n1 := fun c hc e => hpp (hu1 a (e ▸ hc))
          rcases hc2 with hl2 | hr2
          · have hr : (node_at heap a).r_child.map (swap_addr n1 n2) =
                (node_at heap a).r_child := by
              apply map_swap_addr_fix
              intro c hc
              refine ⟨hn1 c (Or.inr hc), fun e => ?_⟩
              subst e
              exact hdd (by rw [hl2]; simp) (by rw [hl2, hc])
            simp only [hl2, if_true, Option.map_some', swap_addr_right, hr]
            first | exact ⟨rfl, rfl, rfl, rfl, Or.inl ⟨rfl, rfl⟩⟩ | simp
          · have hlne : (node_at heap a).l_child ≠ some n2 := by
              intro e
              exact hdd (by rw [e]; simp) (by rw [e, hr2])
            have hl : (node_at heap a).l_child.map (swap_addr n1 n2) =
                (node_at heap a).l_child := by
              apply map_swap_addr_fix
              intro c hc
              exact ⟨hn1 c (Or.inl hc), fun e => hlne (e ▸ hc)⟩
            simp only [hlne, if_false, hr2, Option.map_some', swap_addr_right, hl]
            first | exact ⟨rfl, rfl, rfl, rfl, Or.inl ⟨rfl, rfl⟩⟩ | simp
      · rw [if_neg hap2]
        by_cases hap1 : a = p1
        · subst hap1
          rw [if_pos rfl, hX1]
          have hdd := hd a
          have hn2 : ∀ c, is_child heap a c → c ≠ n2 := fun c hc e => hap2 (hu2 a (e ▸ hc))
          rcases hc1 with hl1 | hr1
          · have hr : (node_at heap a).r_child.map (swap_addr n1 n2) =
                (node_at heap a).r_child := by
              apply map_swap_addr_fix
              intro c hc
              refine ⟨fun e => ?_, hn2 c (Or.inr hc)⟩
              subst e
              exact hdd (by rw [hl1]; simp) (by rw [hl1, hc])
            simp only [hl1, if_true, Option.map_some', swap_addr_left, hr]
            first | exact ⟨rfl, rfl, rfl, rfl, Or.inl ⟨rfl, rfl⟩⟩ | simp
          · have hlne : (node_at heap a).l_child ≠ some n1 := by
              intro e
              exact hdd (by rw [e]; simp) (by rw [e, hr1])
            have hl : (node_at heap a).l_child.map (swap_addr n1 n2) =
                (node_at heap a).l_child := by
              apply map_swap_addr_fix
              intro c hc
              exact ⟨fun e => hlne (e ▸ hc), hn2 c (Or.inl hc)⟩
            simp only [hlne, if_false, hr1, Option.map_some', swap_addr_left, hl]
            first | exact ⟨rfl, rfl, rfl, rfl, Or.inl ⟨rfl, rfl⟩⟩ | simp
        · rw [if_neg hap1]
          obtain ⟨f1, f2⟩ := hfix a hap1 hap2
          rw [f1, f2]
          first | exact ⟨rfl, rfl, rfl, rfl, Or.inl ⟨rfl, rfl⟩⟩ | simp

end Huffman

namespace Huffman

theorem in_subtree_trans (heap : List huffman_node) (y c z : Nat)
    (hc : (node_at heap c).parent = some y) (h : in_subtree heap c z) : in_subtree heap y z := by
  induction h with
  | self => exact in_subtree.step c y hc in_subtree.self
  | step x p hx _ ih => exact in_subtree.step x p hx ih

theorem in_subtree_cases {s : huffman_state} {cur : Option Nat} (hinv : tree_inv s cur)
    (y x : Nat) (hx : x < s.heap.length) (h : in_subtree s.heap y x) :
    x = y ∨ ∃ c, is_child s.heap y c ∧ in_subtree s.heap c x := by
  induction h with
  | self => exact Or.inl rfl
  | step x p hp hsub ih =>
    have hxr : x ≠ s.root := by
      intro e; rw [e, hinv.root_par] at hp; cases hp
    obtain ⟨p2, hp2, hpar, hch⟩ := hinv.par x hx hxr
    rw [hp] at hpar
    cases hpar
    rcases ih hp2 with e | ⟨c, hc, hcs⟩
    · subst e
      exact Or.inr ⟨x, hch, in_subtree.self⟩
    · exact Or.inr ⟨c, hc, in_subtree.step x p hp hcs⟩

theorem all_in_subtree {s : huffman_state} {cur : Option Nat} (hinv : tree_inv s cur) :
    ∀ k a, a < s.heap.length → 256 - (node_at s.heap a).id = k →
      in_subtree s.heap s.root a := by
  intro k
  induction k using Nat.strong_induction_on with
  | _ k ih =>
    intro a ha hk
    by_cases hr : a = s.root
    · subst hr; exact in_subtree.self
    · obtain ⟨p, hp, hpar, _⟩ := hinv.par a ha hr
      have h1 := hinv.id_par a p ha hpar
      have h2 := hinv.id_hi p hp
      exact in_subtree.step a p hpar (ih (256 - (node_at s.heap p).id) (by omega) p hp rfl)

theorem weight_lt_of_in_subtree {s : huffman_state} {cur : Option Nat} (hinv : tree_inv s cur)
    (t : Nat)
    (H : ∀ p c, p < s.heap.length → is_child s.heap p c →
      (node_at s.heap p).weight < t → (node_at s.heap c).weight < t)
    (y x : Nat) (hy : y < s.heap.length) (hx : x < s.heap.length)
    (h : in_subtree s.heap y x) (hw : (node_at s.heap y).weight < t) :
    (node_at s.heap x).weight < t := by
  induction h with
  | self => exact hw
  | step x p hp hsub ih =>
    have hxr : x ≠ s.root := by
      intro e; rw [e, hinv.root_par] at hp; cases hp
    obtain ⟨p2, hp2, hpar, hch⟩ := hinv.par x hx hxr
    rw [hp] at hpar
    cases hpar
    exact H p x hp2 hch (ih hp2)

end Huffman

namespace Huffman

theorem pick_child_spec (heap : List huffman_node) (rl rr : Option Nat)
    (hl : ∀ z, rl = some z → z < heap.length) (hr : ∀ z, rr = some z → z < heap.length) :
    ∃ rc, pick_child heap rl rr = some rc ∧
      (∀ z, rc = some z → rl = some z ∨ rr = some z) ∧
      (∀ z, rl = some z ∨ rr = some z →
        ∃ z2, rc = some z2 ∧ (node_at heap z).id ≤ (node_at heap z2).id) := by
  cases rl with
  | none =>
    refine ⟨rr, rfl, fun z hz => Or.inr hz, ?_⟩
    intro z hz
    rcases hz with hz | hz
    · cases hz
    · exact ⟨z, hz, le_refl _⟩
  | some lh =>
    cases rr with
    | none =>
      refine ⟨some lh, rfl, fun z hz => Or.inl hz, ?_⟩
      intro z hz
      rcases hz with hz | hz
      · exact ⟨z, hz, le_refl _⟩
      · cases hz
    | some rh =>
      have h1 := hl lh rfl
      have h2 := hr rh rfl
      by_cases hgt : (node_at heap lh).id > (node_at heap rh).id
      · refine ⟨some lh, ?_, fun z hz => Or.inl hz, ?_⟩
        · simp [pick_child, getElem?_node_at heap lh h1, getElem?_node_at heap rh h2, hgt]
        · intro z hz
          rcases hz with hz | hz
          · exact ⟨lh, rfl, by cases hz; exact le_refl _⟩
          · exact ⟨lh, rfl, by cases hz; omega⟩
      · refine ⟨some rh, ?_, fun z hz => Or.inr hz, ?_⟩
        · simp [pick_child, getElem?_node_at heap lh h1, getElem?_node_at heap rh h2, hgt]
        · intro z hz
          rcases hz with hz | hz
          · exact ⟨rh, rfl, by cases hz; omega⟩
          · exact ⟨rh, rfl, by cases hz; exact le_refl _⟩

/-- What `group_highest_id` returns on a subtree: a node of the subtree with
the wanted weight whose `id` is the largest among such nodes, or `NULL` when
there is none. -/
theorem group_highest_id_spec {s : huffman_state} {cur : Option Nat} (hinv : tree_inv s cur)
    (t : Nat)
    (H : ∀ p c, p < s.heap.length → is_child s.heap p c →
      (node_at s.heap p).weight < t → (node_at s.heap c).weight < t) :
    ∀ fuel y, y < s.heap.length →
      (node_at s.heap y).id < (node_at s.heap s.nyt).id + fuel →
      ∃ r, group_highest_id fuel s.heap t (some y) = some r ∧
        (∀ z, r = some z → z < s.heap.length ∧ in_subtree s.heap y z ∧
          (node_at s.heap z).weight = t) ∧
        (∀ x, x < s.heap.length → in_subtree s.heap y x → (node_at s.heap x).weight = t →
          ∃ z, r = some z ∧ (node_at s.heap x).id ≤ (node_at s.heap z).id) := by
  intro fuel
  induction fuel with
  | zero =>
    intro y hy hid
    have := hinv.id_lo y hy
    omega
  | succ fuel ih =>
    intro y hy hid
    rw [group_highest_id, getElem?_node_at s.heap y hy]
    simp only
    by_cases hlt : (node_at s.heap y).weight < t
    · rw [if_pos hlt]
      refine ⟨none, rfl, (fun z hz => by cases hz), ?_⟩
      intro x hx hsub hw
      have := weight_lt_of_in_subtree hinv t H y x hy hx hsub hlt
      omega
    · rw [if_neg hlt]
      have hchild : ∀ o : Option Nat,
          (o = (node_at s.heap y).l_child ∨ o = (node_at s.heap y).r_child) →
          ∃ r, group_highest_id fuel s.heap t o = some r ∧
            (∀ z, r = some z → z < s.heap.length ∧ in_subtree s.heap y z ∧
              (node_at s.heap z).weight = t) ∧
            (∀ c x, o = some c → x < s.heap.length → in_subtree s.heap c x →
              (node_at s.heap x).weight = t →
              ∃ z, r = some z ∧ (node_at s.heap x).id ≤ (node_at s.heap z).id) := by
        intro o ho
        cases o with
        | none =>
          refine ⟨none, ?_, (fun z hz => by cases hz), (fun c x hc => by cases hc)⟩
          cases fuel <;> rfl
        | some c =>
          have hch : is_child s.heap y c := by
            rcases ho with ho | ho
            · exact Or.inl ho.symm
            · exact Or.inr ho.symm
          obtain ⟨hc, hpar⟩ := hinv.kids y c hy hch
          have hidc := hinv.id_par c y hc hpar
          obtain ⟨r, hr, hA, hB⟩ := ih c hc (by omega)
          refine ⟨r, hr, ?_, ?_⟩
          · intro z hz
            obtain ⟨h1, h2, h3⟩ := hA z hz
            exact ⟨h1, in_subtree_trans s.heap y c z hpar h2, h3⟩
          · intro c2 x hc2 hx hsub hw
            cases hc2
            exact hB x hx hsub hw
      obtain ⟨rl, hrl, hAl, hBl⟩ := hchild _ (Or.inl rfl)
      obtain ⟨rr, hrr, hAr, hBr⟩ := hchild _ (Or.inr rfl)
      obtain ⟨rc, hrc, hC1, hC2⟩ := pick_child_spec s.heap rl rr
        (fun z hz => (hAl z hz).1) (fun z hz => (hAr z hz).1)
      rw [hrl, hrr]
      simp only [hrc]
      have hAc : ∀ z, rc = some z → z < s.heap.length ∧ in_subtree s.heap y z ∧
          (node_at s.heap z).weight = t := by
        intro z hz
        rcases hC1 z hz with h | h
        · exact hAl z h
        · exact hAr z h
      have hBc : ∀ x, x < s.heap.length → x ≠ y → in_subtree s.heap y x →
          (node_at s.heap x).weight = t →
          ∃ z, rc = some z ∧ (node_at s.heap x).id ≤ (node_at s.heap z).id := by
        intro x hx hxy hsub hw
        rcases in_subtree_cases hinv y x hx hsub with e | ⟨c, hc, hcs⟩
        · exact absurd e hxy
        · rcases hc with hc | hc
          · obtain ⟨z, hz, hle⟩ := hBl c x hc hx hcs hw
            obtain ⟨z2, hz2, hle2⟩ := hC2 z (Or.inl hz)
            exact ⟨z2, hz2, by omega⟩
          · obtain ⟨z, hz, hle⟩ := hBr c x hc hx hcs hw
            obtain ⟨z2, hz2, hle2⟩ := hC2 z (Or.inr hz)
            exact ⟨z2, hz2, by omega⟩
      by_cases heq : (node_at s.heap y).weight = t
      · rw [if_pos heq]
        cases hrcv : rc with
        | none =>
          refine ⟨some y, rfl, ?_, ?_⟩
          · intro z hz
            cases hz
            exact ⟨hy, in_subtree.self, heq⟩
          · intro x hx hsub hw
            by_cases hxy : x = y
            · exact ⟨y, rfl, by rw [hxy]⟩
            · obtain ⟨z, hz, _⟩ := hBc x hx hxy hsub hw
              rw [hrcv] at hz; cases hz
        | some hc =>
          obtain ⟨hhc, hsubc, hwc⟩ := hAc hc hrcv
          simp only [getElem?_node_at s.heap hc hhc]
          by_cases hid2 : (node_at s.heap y).id < (node_at s.heap hc).id
          · rw [if_pos hid2]
            refine ⟨some hc, rfl, ?_, ?_⟩
            · intro z hz; cases hz; exact ⟨hhc, hsubc, hwc⟩
            · intro x hx hsub hw
              by_cases hxy : x = y
              · exact ⟨hc, rfl, by rw [hxy]; omega⟩
              · obtain ⟨z, hz, hle⟩ := hBc x hx hxy hsub hw
                rw [hrcv] at hz; cases hz
                exact ⟨hc, rfl, hle⟩
          · rw [if_neg hid2]
            refine ⟨some y, rfl, ?_, ?_⟩
            · intro z hz; cases hz; exact ⟨hy, in_subtree.self, heq⟩
            · intro x hx hsub hw
              by_cases hxy : x = y
              · exact ⟨y, rfl, by rw [hxy]⟩
              · obtain ⟨z, hz, hle⟩ := hBc x hx hxy hsub hw
                rw [hrcv] at hz; cases hz
                exact ⟨y, rfl, by omega⟩
      · rw [if_neg heq]
        refine ⟨rc, rfl, hAc, ?_⟩
        intro x hx hsub hw
        by_cases hxy : x = y
        · rw [hxy] at hw; exact absurd hw heq
        · exact hBc x hx hxy hsub hw

end Huffman

namespace Huffman

theorem prune_ok {s : huffman_state} {n : Nat} (hinv : tree_inv s (some n)) :
    ∀ p c, p < s.heap.length → is_child s.heap p c →
      (node_at s.heap p).weight < (node_at s.heap n).weight →
      (node_at s.heap c).weight < (node_at s.heap n).weight := by
  intro p c hp hch hlt
  obtain ⟨hc, hpar⟩ := hinv.kids p c hp hch
  have hid := hinv.id_par c p hc hpar
  rcases hinv.mono c p hc hp hid with h | ⟨h1, _, _⟩
  · omega
  · cases h1
    omega

theorem block_top {s : huffman_state} {n : Nat} (hinv : tree_inv s (some n)) (fuel : Nat)
    (hfuel : 257 ≤ fuel) :
    ∃ h, group_highest_id fuel s.heap (node_at s.heap n).weight (some s.root) = some (some h) ∧
      h < s.heap.length ∧ (node_at s.heap h).weight = (node_at s.heap n).weight ∧
      ∀ x, x < s.heap.length → (node_at s.heap x).weight = (node_at s.heap n).weight →
        (node_at s.heap x).id ≤ (node_at s.heap h).id := by
  have hroot := hinv.root_id
  obtain ⟨r, hr, hA, hB⟩ := group_highest_id_spec hinv (node_at s.heap n).weight (prune_ok hinv)
    fuel s.root hinv.root_lt (by omega)
  have hn := (hinv.cur_ok n rfl).1
  obtain ⟨h, hh, _⟩ := hB n hn (all_in_subtree hinv _ n hn rfl) rfl
  subst hh
  obtain ⟨h1, _, h3⟩ := hA h rfl
  refine ⟨h, hr, h1, h3, ?_⟩
  intro x hx hwx
  obtain ⟨z, hz, hle⟩ := hB x hx (all_in_subtree hinv _ x hx rfl) hwx
  cases hz
  exact hle

/-- The sibling of a child whose weight equals the parent's weight is the NYT
node. -/
theorem sibling_is_nyt {s : huffman_state} {cur : Option Nat} (hinv : tree_inv s cur)
    (p c : Nat) (hp : p < s.heap.length) (hch : is_child s.heap p c) (hcur : cur ≠ some p)
    (hw : (node_at s.heap p).weight ≤ (node_at s.heap c).weight) :
    (node_at s.heap s.nyt).parent = some p ∧ c ≠ s.nyt := by
  have hb := hinv.both p
  have hcne : c ≠ s.nyt := by
    intro e
    subst e
    have h1 := hinv.nyt_w
    have hpn : p ≠ s.nyt := by
      intro e2
      rw [e2] at hch
      rcases hch with h | h
      · rw [hinv.nyt_leaf.1] at h; cases h
      · rw [hinv.nyt_leaf.2] at h; cases h
    have := hinv.pos_w p hp hpn
    omega
  refine ⟨?_, hcne⟩
  rcases hch with hl | hr
  · have hrn : (node_at s.heap p).r_child ≠ none := fun e => by
      rw [hb.1.2 e] at hl; cases hl
    obtain ⟨r, hr⟩ := Option.ne_none_iff_exists'.1 hrn
    have hs := hinv.sum p c r hp hl hr
    rw [if_neg hcur] at hs
    obtain ⟨hrlt, hrpar⟩ := hinv.kids p r hp (Or.inr hr)
    have hrn : r = s.nyt := by
      by_contra hne
      have := hinv.pos_w r hrlt hne
      omega
    rw [← hrn]; exact hrpar
  · have hln : (node_at s.heap p).l_child ≠ none := fun e => by
      rw [hb.1.1 e] at hr; cases hr
    obtain ⟨l, hl⟩ := Option.ne_none_iff_exists'.1 hln
    have hs := hinv.sum p l c hp hl hr
    rw [if_neg hcur] at hs
    obtain ⟨hllt, hlpar⟩ := hinv.kids p l hp (Or.inl hl)
    have hln : l = s.nyt := by
      by_contra hne
      have := hinv.pos_w l hllt hne
      omega
    rw [← hln]; exact hlpar

end Huffman

namespace Huffman

/-- The statement `node->weight++` of `update`, for a node that is the top of
its block or whose parent is: the invariant passes to the parent. -/
theorem inc_step {s : huffman_state} {n : Nat} (hinv : tree_inv s (some n))
    (hT : top_of_block s.heap n ∨
      ∃ p, (node_at s.heap n).parent = some p ∧
        (node_at s.heap p).weight = (node_at s.heap n).weight ∧ top_of_block s.heap p) :
    tree_inv { s with heap := (s.heap.set n
        { node_at s.heap n with weight := (node_at s.heap n).weight + 1 }) }
      (node_at s.heap n).parent := by
  obtain ⟨hn, hnnyt⟩ := hinv.cur_ok n rfl
  have hg : ∀ a, node_at (s.heap.set n
      { node_at s.heap n with weight := (node_at s.heap n).weight + 1 }) a =
      if a = n then { node_at s.heap n with weight := (node_at s.heap n).weight + 1 }
      else node_at s.heap a := fun a => node_at_set _ _ _ _ hn
  have hid : ∀ a, (node_at (s.heap.set n
      { node_at s.heap n with weight := (node_at s.heap n).weight + 1 }) a).id =
      (node_at s.heap a).id := by
    intro a; rw [hg]; split
    · next h => rw [h]
    · rfl
  have hpar : ∀ a, (node_at (s.heap.set n
      { node_at s.heap n with weight := (node_at s.heap n).weight + 1 }) a).parent =
      (node_at s.heap a).parent := by
    intro a; rw [hg]; split
    · next h => rw [h]
    · rfl
  have hlc : ∀ a, (node_at (s.heap.set n
      { node_at s.heap n with weight := (node_at s.heap n).weight + 1 }) a).l_child =
      (node_at s.heap a).l_child := by
    intro a; rw [hg]; split
    · next h => rw [h]
    · rfl
  have hrc : ∀ a, (node_at (s.heap.set n
      { node_at s.heap n with weight := (node_at s.heap n).weight + 1 }) a).r_child =
      (node_at s.heap a).r_child := by
    intro a; rw [hg]; split
    · next h => rw [h]
    · rfl
  have hsy : ∀ a, (node_at (s.heap.set n
      { node_at s.heap n with weight := (node_at s.heap n).weight + 1 }) a).symbol =
      (node_at s.heap a).symbol := by
    intro a; rw [hg]; split
    · next h => rw [h]
    · rfl
  have hwt : ∀ a, (node_at (s.heap.set n
      { node_at s.heap n with weight := (node_at s.heap n).weight + 1 }) a).weight =
      (node_at s.heap a).weight + (if a = n then 1 else 0) := by
    intro a; rw [hg]; split
    · next h => rw [h]
    · rfl
  have hch : ∀ p c, is_child (s.heap.set n
      { node_at s.heap n with weight := (node_at s.heap n).weight + 1 }) p c ↔
      is_child s.heap p c := by
    intro p c; unfold is_child; rw [hlc, hrc]
  have hlen : (s.heap.set n
      { node_at s.heap n with weight := (node_at s.heap n).weight + 1 }).length =
      s.heap.length := List.length_set _ _ _
  generalize s.heap.set n
      { node_at s.heap n with weight := (node_at s.heap n).weight + 1 } = H2
    at hid hpar hlc hrc hsy hwt hch hlen
  have hnpar : ∀ p, (node_at s.heap n).parent = some p → p ≠ n := by
    intro p hp e
    have := hinv.id_par n p hn hp
    rw [e] at this; omega
  refine
    { root_lt := by rw [hlen]; exact hinv.root_lt,
      root_par := by rw [hpar]; exact hinv.root_par,
      root_id := by rw [hid]; exact hinv.root_id,
      nyt_lt := by rw [hlen]; exact hinv.nyt_lt,
      nyt_leaf := by rw [hlc, hrc]; exact hinv.nyt_leaf,
      nyt_w := by rw [hwt, if_neg (Ne.symm hnnyt)]; exact hinv.nyt_w,
      nyt_id := by rw [hid, hlen]; exact hinv.nyt_id,
      par := ?_, kids := ?_, both := ?_, id_inj := ?_, id_lo := ?_, id_hi := ?_,
      id_par := ?_, pos_w := ?_, sum := ?_, mono := ?_, adj_s := ?_, adj_p := ?_,
      cur_ok := ?_, tab_len := hinv.tab_len, tab := ?_ }
  · intro a ha har
    rw [hlen] at ha
    obtain ⟨p, hp, h1, h2⟩ := hinv.par a ha har
    exact ⟨p, by rw [hlen]; exact hp, by rw [hpar]; exact h1, (hch p a).2 h2⟩
  · intro p c hp hc
    rw [hlen] at hp
    obtain ⟨h1, h2⟩ := hinv.kids p c hp ((hch p c).1 hc)
    exact ⟨by rw [hlen]; exact h1, by rw [hpar]; exact h2⟩
  · intro p
    rw [hlc, hrc]; exact hinv.both p
  · intro a b ha hb h
    rw [hlen] at ha hb
    rw [hid, hid] at h
    exact hinv.id_inj a b ha hb h
  · intro a ha
    rw [hlen] at ha; rw [hid, hid]; exact hinv.id_lo a ha
  · intro a ha
    rw [hlen] at ha; rw [hid]; exact hinv.id_hi a ha
  · intro c p hc h
    rw [hlen] at hc; rw [hpar] at h; rw [hid, hid]; exact hinv.id_par c p hc h
  · intro a ha hane
    rw [hlen] at ha
    have := hinv.pos_w a ha hane
    rw [hwt]; omega
  · -- sums
    intro p l r hp hl hr
    rw [hlen] at hp
    rw [hlc] at hl
    rw [hrc] at hr
    have hs := hinv.sum p l r hp hl hr
    obtain ⟨hll, hlp⟩ := hinv.kids p l hp (Or.inl hl)
    obtain ⟨hrl, hrp⟩ := hinv.kids p r hp (Or.inr hr)
    have hlr : l ≠ r := by
      intro e
      have := (hinv.both p).2 (by rw [hl]; simp)
      rw [hl, hr, e] at this
      exact this rfl
    rw [hwt, hwt, hwt]
    by_cases hpn : p = n
    · subst hpn
      rw [if_pos rfl] at hs
      have h1 : l ≠ p := fun e => hnpar p (e ▸ hlp) rfl
      have h2 : r ≠ p := fun e => hnpar p (e ▸ hrp) rfl
      have h3 : ¬ ((node_at s.heap p).parent = some p) := fun e => hnpar p e rfl
      rw [if_pos rfl, if_neg h1, if_neg h2, if_neg h3]
      omega
    · have h0 : ¬ (some n = some p) := fun e => hpn (Option.some.inj e).symm
      rw [if_neg h0] at hs
      rw [if_neg hpn]
      by_cases hcp : (node_at s.heap n).parent = some p
      · rw [if_pos hcp]
        obtain ⟨p2, _, hp2, hc2⟩ := hinv.par n hn (by
          intro e; rw [e, hinv.root_par] at hcp; cases hcp)
        rw [hcp] at hp2
        cases hp2
        rcases hc2 with h | h
        · rw [hl] at h
          cases h
          rw [if_pos rfl, if_neg (Ne.symm hlr)]
          omega
        · rw [hr] at h
          cases h
          rw [if_neg hlr, if_pos rfl]
          omega
      · rw [if_neg hcp]
        have h1 : l ≠ n := fun e => hcp (e ▸ hlp)
        have h2 : r ≠ n := fun e => hcp (e ▸ hrp)
        rw [if_neg h1, if_neg h2]
        omega
  · -- weights against ids
    intro a b ha hb hlt
    rw [hlen] at ha hb
    rw [hid, hid] at hlt
    rw [hwt, hwt]
    have hab : a ≠ b := fun e => by rw [e] at hlt; omega
    by_cases han : a = n
    · subst han
      have hbn : b ≠ a := Ne.symm hab
      rw [if_pos rfl, if_neg hbn]
      rcases hT with htop | ⟨p, hp1, hp2, hp3⟩
      · left
        have := htop b hb hlt
        omega
      · have hpl : p < s.heap.length := by
          obtain ⟨p2, h1, h2, _⟩ := hinv.par a hn (by
            intro e; rw [e, hinv.root_par] at hp1; cases hp1)
          rw [hp1] at h2; cases h2; exact h1
        by_cases hbp : b = p
        · subst hbp
          right
          refine ⟨hp1.symm ▸ rfl, by rw [hpar]; exact hp1, ?_⟩
          intro y hy hylt
          rw [hlen] at hy
          rw [hid, hid] at hylt
          rw [hwt, hwt, if_neg hbn]
          have := hp3 y hy hylt
          omega
        · left
          -- the parent has the same weight, so the node is the sibling of NYT
          obtain ⟨p2, _, h2, hca⟩ := hinv.par a hn (by
            intro e; rw [e, hinv.root_par] at hp1; cases hp1)
          rw [hp1] at h2; cases h2
          have hcur : (some a : Option Nat) ≠ some p := fun e =>
            hnpar p hp1 (Option.some.inj e).symm
          obtain ⟨hnp, _⟩ := sibling_is_nyt hinv p a hpl hca hcur (by omega)
          have e1 := hinv.adj_p p hnp
          have e2 := hinv.adj_s a hn hnnyt (by rw [hp1, hnp])
          have hidb : (node_at s.heap b).id ≠ (node_at s.heap p).id := fun e =>
            hbp (hinv.id_inj b p hb hpl e)
          have hgt : (node_at s.heap p).id < (node_at s.heap b).id := by omega
          have := hp3 b hb hgt
          omega
    · rw [if_neg han]
      by_cases hbn : b = n
      · subst hbn
        rw [if_pos rfl]
        left
        rcases hinv.mono a b ha hb hlt with h | ⟨_, h2, _⟩
        · omega
        · -- a child of the node: bounded by the sum of the children
          obtain ⟨_, _, _, hca⟩ := hinv.par a ha (by
            intro e; rw [e, hinv.root_par] at h2; cases h2)
          rename_i p2 _
          have hb0 := hinv.both b
          rcases Option.eq_none_or_eq_some (node_at s.heap b).l_child with hl | ⟨l, hl⟩
          · rcases hinv.kids b a hb (by
              obtain ⟨q, _, hq, hcq⟩ := hinv.par a ha (by
                intro e; rw [e, hinv.root_par] at h2; cases h2)
              rw [h2] at hq; cases hq; exact hcq) with ⟨_, _⟩
            obtain ⟨q, _, hq, hcq⟩ := hinv.par a ha (by
              intro e; rw [e, hinv.root_par] at h2; cases h2)
            rw [h2] at hq; cases hq
            rcases hcq with h | h
            · rw [hl] at h; cases h
            · rw [hb0.1.1 hl] at h; cases h
          · have hrn : (node_at s.heap b).r_child ≠ none := fun e => by
              rw [hb0.1.2 e] at hl; cases hl
            obtain ⟨r, hr⟩ := Option.ne_none_iff_exists'.1 hrn
            have hs := hinv.sum b l r hb hl hr
            rw [if_pos rfl] at hs
            obtain ⟨q, _, hq, hcq⟩ := hinv.par a ha (by
              intro e; rw [e, hinv.root_par] at h2; cases h2)
            rw [h2] at hq; cases hq
            rcases hcq with h | h
            · rw [hl] at h; cases h; omega
            · rw [hr] at h; cases h; omega
      · rw [if_neg hbn]
        rcases hinv.mono a b ha hb hlt with h | ⟨h1, _, _⟩
        · left; omega
        · exact absurd (Option.some.inj h1).symm hbn
  · intro c hc hcn h
    rw [hlen] at hc
    rw [hpar, hpar] at h
    rw [hid, hid]
    exact hinv.adj_s c hc hcn h
  · intro p h
    rw [hpar] at h
    rw [hid, hid]
    exact hinv.adj_p p h
  · intro p hp
    obtain ⟨p2, h1, h2, h3⟩ := hinv.par n hn (by
      intro e; rw [e, hinv.root_par] at hp; cases hp)
    rw [hp] at h2; cases h2
    refine ⟨by rw [hlen]; exact h1, ?_⟩
    intro e
    rw [e] at h3
    rcases h3 with h | h
    · rw [hinv.nyt_leaf.1] at h; cases h
    · rw [hinv.nyt_leaf.2] at h; cases h
  · intro b a h
    obtain ⟨h1, h2, h3, h4, h5⟩ := hinv.tab b a h
    exact ⟨by rw [hlen]; exact h1, h2, by rw [hlc]; exact h3, by rw [hrc]; exact h4,
      by rw [hsy]; exact h5⟩

end Huffman

namespace Huffman

theorem map_swap_eq_some (n h : Nat) (o : Option Nat) (c : Nat) :
    o.map (swap_addr n h) = some c ↔ o = some (swap_addr n h c) := by
  cases o with
  | none => simp
  | some x =>
    simp only [Option.map_some', Option.some.injEq]
    constructor
    · intro e; rw [← e, swap_addr_invol]
    · intro e; rw [e, swap_addr_invol]

theorem map_swap_eq_none (n h : Nat) (o : Option Nat) :
    o.map (swap_addr n h) = none ↔ o = none := by
  cases o <;> simp

/-- The call `swap_nodes(node, highest)` of `update`, for the node with the
largest `id` of the block of `node`: the invariant is kept and `node` becomes
the top of its block. -/
theorem swap_step {s : huffman_state} {n h : Nat} (hinv : tree_inv s (some n))
    (hh : h < s.heap.length) (hne : h ≠ n)
    (hw : (node_at s.heap h).weight = (node_at s.heap n).weight)
    (hmax : ∀ x, x < s.heap.length → (node_at s.heap x).weight = (node_at s.heap n).weight →
      (node_at s.heap x).id ≤ (node_at s.heap h).id)
    (hnp : some h ≠ (node_at s.heap n).parent) (hroot : h ≠ s.root) :
    ∃ heap2, swap_nodes s.heap n h = some heap2 ∧ tree_inv { s with heap := heap2 } (some n) ∧
      top_of_block heap2 n ∧ heap2.length = s.heap.length ∧
      (node_at heap2 n).id = (node_at s.heap h).id ∧
      (∀ a, (node_at heap2 a).weight = (node_at s.heap a).weight) ∧
      (∀ a, (node_at heap2 a).symbol = (node_at s.heap a).symbol) ∧
      (∀ a, (node_at heap2 a).l_child = none ↔ (node_at s.heap a).l_child = none) ∧
      (node_at heap2 s.nyt).parent = (node_at s.heap s.nyt).parent := by
  obtain ⟨hn, hnnyt⟩ := hinv.cur_ok n rfl
  have hidn : (node_at s.heap n).id ≤ (node_at s.heap h).id := hmax n hn rfl
  have hidlt : (node_at s.heap n).id < (node_at s.heap h).id := by
    have : (node_at s.heap n).id ≠ (node_at s.heap h).id := fun e => hne (hinv.id_inj n h hn hh e).symm
    omega
  have hnr : n ≠ s.root := by
    intro e
    have := hinv.id_hi h hh
    rw [e, hinv.root_id] at hidlt
    omega
  obtain ⟨p1, hp1, hpar1, hc1⟩ := hinv.par n hn hnr
  obtain ⟨p2, hp2, hpar2, hc2⟩ := hinv.par h hh hroot
  have hp1n : p1 ≠ n := fun e => by
    have := hinv.id_par n p1 hn hpar1; rw [e] at this; omega
  have hp2h : p2 ≠ h := fun e => by
    have := hinv.id_par h p2 hh hpar2; rw [e] at this; omega
  have hp1h : p1 ≠ h := fun e => hnp (by rw [hpar1, e])
  have hp2n : p2 ≠ n := fun e => by
    have := hinv.id_par h p2 hh hpar2; rw [e] at this; omega
  have hnotop : ¬ top_of_block s.heap n := fun ht => by
    have := ht h hh hidlt; omega
  have hhnyt : h ≠ s.nyt := by
    intro e
    have := hinv.pos_w n hn hnnyt
    rw [e, hinv.nyt_w] at hw
    omega
  obtain ⟨heap2, hswap, hlen, hrel⟩ := swap_nodes_spec s.heap n h p1 p2 hn hh hp1 hp2
    (Ne.symm hne) hpar1 hpar2 hp1n hp1h hp2n hp2h hc1 hc2 (fun p => (hinv.both p).2)
    (fun a ha => by
      by_cases hal : a < s.heap.length
      · have := (hinv.kids a n hal ha).2; rw [hpar1] at this; exact (Option.some.inj this).symm
      · exfalso
        have e : node_at s.heap a = make_node none := by
          unfold node_at; rw [List.getD_eq_getElem?_getD, List.getElem?_eq_none (by omega)]; rfl
        rcases ha with ha | ha <;> · rw [e] at ha; simp [make_node] at ha)
    (fun a ha => by
      by_cases hal : a < s.heap.length
      · have := (hinv.kids a h hal ha).2; rw [hpar2] at this; exact (Option.some.inj this).symm
      · exfalso
        have e : node_at s.heap a = make_node none := by
          unfold node_at; rw [List.getD_eq_getElem?_getD, List.getElem?_eq_none (by omega)]; rfl
        rcases ha with ha | ha <;> · rw [e] at ha; simp [make_node] at ha)
  have hσσ := swap_addr_invol n h
  have hσlt : ∀ a, a < s.heap.length → swap_addr n h a < s.heap.length := by
    intro a ha
    unfold swap_addr
    split
    · exact hh
    · split
      · exact hn
      · exact ha
  have hσnyt : swap_addr n h s.nyt = s.nyt := swap_addr_other n h _ (Ne.symm hnnyt) (Ne.symm hhnyt)
  have hσroot : swap_addr n h s.root = s.root := swap_addr_other n h _ (Ne.symm hnr) (Ne.symm hroot)
  have hσn : swap_addr n h n = h := swap_addr_left n h
  have hσh : swap_addr n h h = n := swap_addr_right n h
  have hσinj : ∀ a b, swap_addr n h a = swap_addr n h b → a = b := by
    intro a b e
    have := congrArg (swap_addr n h) e
    rwa [hσσ, hσσ] at this
  have hwσ : ∀ a, (node_at s.heap (swap_addr n h a)).weight = (node_at s.heap a).weight := by
    intro a
    unfold swap_addr
    split
    · next e => rw [e, hw]
    · split
      · next e => rw [e, hw]
      · rfl
  have hwt : ∀ a, (node_at heap2 a).weight = (node_at s.heap a).weight := fun a => (hrel a).1
  have hsy : ∀ a, (node_at heap2 a).symbol = (node_at s.heap a).symbol := fun a => (hrel a).2.1
  have hid : ∀ a, (node_at heap2 a).id = (node_at s.heap (swap_addr n h a)).id :=
    fun a => (hrel a).2.2.1
  have hpar : ∀ a, (node_at heap2 a).parent = (node_at s.heap (swap_addr n h a)).parent :=
    fun a => (hrel a).2.2.2.1
  have hkid := fun a => (hrel a).2.2.2.2
  have hch : ∀ p c, is_child heap2 p c ↔ is_child s.heap p (swap_addr n h c) := by
    intro p c
    unfold is_child
    rcases hkid p with ⟨e1, e2⟩ | ⟨e1, e2⟩
    · rw [e1, e2, map_swap_eq_some, map_swap_eq_some]
    · rw [e1, e2, map_swap_eq_some, map_swap_eq_some]
      exact Or.comm
  have hlnone : ∀ a, (node_at heap2 a).l_child = none ↔ (node_at s.heap a).l_child = none := by
    intro a
    rcases hkid a with ⟨e1, _⟩ | ⟨e1, _⟩
    · rw [e1, map_swap_eq_none]
    · rw [e1, map_swap_eq_none]
      exact ((hinv.both a).1).symm
  have hrnone : ∀ a, (node_at heap2 a).r_child = none ↔ (node_at s.heap a).r_child = none := by
    intro a
    rcases hkid a with ⟨_, e2⟩ | ⟨_, e2⟩
    · rw [e2, map_swap_eq_none]
    · rw [e2, map_swap_eq_none]
      exact (hinv.both a).1
  -- old weights are monotone in the id
  have hmono : ∀ a b, a < s.heap.length → b < s.heap.length →
      (node_at s.heap a).id < (node_at s.heap b).id →
      (node_at s.heap a).weight ≤ (node_at s.heap b).weight := by
    intro a b ha hb hlt
    rcases hinv.mono a b ha hb hlt with h1 | ⟨h1, _, h3⟩
    · exact h1
    · cases h1
      exact absurd h3 hnotop
  have hcurne : ∀ p, p ≠ n → (some n : Option Nat) ≠ some p := fun p hp e =>
    hp (Option.some.inj e).symm
  -- the children of the highest node lie below the node
  have hbelow : ∀ c, c < s.heap.length → (node_at s.heap c).parent = some h →
      (node_at s.heap c).id < (node_at s.heap n).id := by
    intro c hc hcp
    have hcn : c ≠ n := fun e => hnp (by rw [← e, hcp])
    have hcr : c ≠ s.root := fun e => by rw [e, hinv.root_par] at hcp; cases hcp
    obtain ⟨q, _, hq, hcq⟩ := hinv.par c hc hcr
    rw [hcp] at hq; cases hq
    by_cases hlt : (node_at s.heap c).weight < (node_at s.heap h).weight
    · by_contra hge
      have hidne : (node_at s.heap n).id ≠ (node_at s.heap c).id := fun e =>
        hcn (hinv.id_inj n c hn hc e).symm
      have := hmono n c hn hc (by omega)
      omega
    · obtain ⟨hnp2, hcnyt⟩ := sibling_is_nyt hinv h c hh hcq (hcurne h hne) (by omega)
      have e1 := hinv.adj_s c hc hcnyt (by rw [hcp, hnp2])
      have e2 := hinv.id_lo n hn
      have e3 : (node_at s.heap n).id ≠ (node_at s.heap s.nyt).id := fun e =>
        hnnyt (hinv.id_inj n s.nyt hn hinv.nyt_lt e)
      have e4 : (node_at s.heap n).id ≠ (node_at s.heap c).id := fun e =>
        hcn (hinv.id_inj n c hn hc e).symm
      omega
  refine ⟨heap2, hswap, ?_, ?_, hlen, by rw [hid, hσn], hwt, hsy, hlnone,
    by rw [hpar, hσnyt]⟩
  · refine
      { root_lt := by rw [hlen]; exact hinv.root_lt,
        root_par := by rw [hpar, hσroot]; exact hinv.root_par,
        root_id := by rw [hid, hσroot]; exact hinv.root_id,
        nyt_lt := by rw [hlen]; exact hinv.nyt_lt,
        nyt_leaf := ⟨(hlnone _).2 hinv.nyt_leaf.1, (hrnone _).2 hinv.nyt_leaf.2⟩,
        nyt_w := by rw [hwt]; exact hinv.nyt_w,
        nyt_id := by rw [hid, hσnyt, hlen]; exact hinv.nyt_id,
        par := ?_, kids := ?_, both := ?_, id_inj := ?_, id_lo := ?_, id_hi := ?_,
        id_par := ?_, pos_w := ?_, sum := ?_, mono := ?_, adj_s := ?_, adj_p := ?_,
        cur_ok := ?_, tab_len := hinv.tab_len, tab := ?_ }
    · intro a ha har
      rw [hlen] at ha
      have h1 := hσlt a ha
      have h2 : swap_addr n h a ≠ s.root := fun e => har (hσinj _ _ (by rw [e, hσroot]))
      obtain ⟨p, hp, hpp, hcp⟩ := hinv.par _ h1 h2
      exact ⟨p, by rw [hlen]; exact hp, by rw [hpar]; exact hpp, (hch p a).2 hcp⟩
    · intro p c hp hc
      rw [hlen] at hp
      obtain ⟨h1, h2⟩ := hinv.kids p _ hp ((hch p c).1 hc)
      have := hσlt _ h1
      rw [hσσ] at this
      exact ⟨by rw [hlen]; exact this, by rw [hpar]; exact h2⟩
    · intro p
      refine ⟨by rw [hlnone, hrnone]; exact (hinv.both p).1, ?_⟩
      intro hl
      have hl0 : (node_at s.heap p).l_child ≠ none := fun e => hl ((hlnone p).2 e)
      have hd := (hinv.both p).2 hl0
      rcases hkid p with ⟨e1, e2⟩ | ⟨e1, e2⟩
      · rw [e1, e2]
        intro e
        apply hd
        cases hlc : (node_at s.heap p).l_child with
        | none => exact absurd hlc hl0
        | some l =>
          rw [hlc, Option.map_some'] at e
          have := (map_swap_eq_some n h _ _).1 e.symm
          rw [hσσ] at this
          exact this.symm
      · rw [e1, e2]
        intro e
        apply hd
        cases hlc : (node_at s.heap p).l_child with
        | none => exact absurd hlc hl0
        | some l =>
          rw [hlc, Option.map_some'] at e
          have := (map_swap_eq_some n h _ _).1 e
          rw [hσσ] at this
          exact this.symm
    · intro a b ha hb e
      rw [hlen] at ha hb
      rw [hid, hid] at e
      exact hσinj a b (hinv.id_inj _ _ (hσlt a ha) (hσlt b hb) e)
    · intro a ha
      rw [hlen] at ha
      rw [hid, hid, hσnyt]
      exact hinv.id_lo _ (hσlt a ha)
    · intro a ha
      rw [hlen] at ha
      rw [hid]
      exact hinv.id_hi _ (hσlt a ha)
    · intro c p hc hcp
      rw [hlen] at hc
      rw [hpar] at hcp
      rw [hid, hid]
      have h0 := hinv.id_par _ p (hσlt c hc) hcp
      by_cases hpn : p = n
      · rw [hpn, hσn]; rw [hpn] at h0; omega
      · by_cases hph : p = h
        · rw [hph, hσh]
          rw [hph] at hcp
          exact hbelow _ (hσlt c hc) hcp
        · rw [swap_addr_other n h p hpn hph]; exact h0
    · intro a ha hane
      rw [hlen] at ha
      rw [hwt]; exact hinv.pos_w a ha hane
    · intro p l r hp hl hr
      rw [hlen] at hp
      rw [hwt, hwt, hwt]
      rcases hkid p with ⟨e1, e2⟩ | ⟨e1, e2⟩
      · rw [e1] at hl
        rw [e2] at hr
        have hl2 := (map_swap_eq_some n h _ _).1 hl
        have hr2 := (map_swap_eq_some n h _ _).1 hr
        have := hinv.sum p _ _ hp hl2 hr2
        rw [hwσ, hwσ] at this
        exact this
      · rw [e1] at hl
        rw [e2] at hr
        have hl2 := (map_swap_eq_some n h _ _).1 hl
        have hr2 := (map_swap_eq_some n h _ _).1 hr
        have := hinv.sum p _ _ hp hr2 hl2
        rw [hwσ, hwσ] at this
        omega
    · intro a b ha hb hlt
      rw [hlen] at ha hb
      rw [hid, hid] at hlt
      left
      rw [hwt, hwt, ← hwσ a, ← hwσ b]
      exact hmono _ _ (hσlt a ha) (hσlt b hb) hlt
    · intro c hc hcn hcp
      rw [hlen] at hc
      rw [hpar, hpar, hσnyt] at hcp
      rw [hid, hid, hσnyt]
      refine hinv.adj_s _ (hσlt c hc) ?_ hcp
      intro e
      exact hcn (hσinj _ _ (by rw [e, hσnyt]))
    · intro p hp
      rw [hpar, hσnyt] at hp
      rw [hid, hid, hσnyt]
      have e0 := hinv.adj_p p hp
      have hpl : p < s.heap.length := by
        have hnr2 : s.nyt ≠ s.root := fun e => by rw [e, hinv.root_par] at hp; cases hp
        obtain ⟨q, hq, hqq, _⟩ := hinv.par s.nyt hinv.nyt_lt hnr2
        rw [hp] at hqq; cases hqq; exact hq
      have hcn : is_child s.heap p s.nyt := by
        have hnr2 : s.nyt ≠ s.root := fun e => by rw [e, hinv.root_par] at hp; cases hp
        obtain ⟨q, hq, hqq, hcq⟩ := hinv.par s.nyt hinv.nyt_lt hnr2
        rw [hp] at hqq; cases hqq; exact hcq
      -- the other child of the parent of NYT
      have hsib : ∃ c, c < s.heap.length ∧ c ≠ s.nyt ∧ (node_at s.heap c).parent = some p ∧
          (node_at s.heap p).weight + (if (some n : Option Nat) = some p then 1 else 0) =
            (node_at s.heap c).weight := by
        have hb := hinv.both p
        rcases hcn with hl | hr
        · have hrn : (node_at s.heap p).r_child ≠ none := fun e => by
            rw [hb.1.2 e] at hl; cases hl
          obtain ⟨r, hr⟩ := Option.ne_none_iff_exists'.1 hrn
          obtain ⟨h1, h2⟩ := hinv.kids p r hpl (Or.inr hr)
          have hs := hinv.sum p _ r hpl hl hr
          rw [hinv.nyt_w] at hs
          refine ⟨r, h1, ?_, h2, by omega⟩
          intro e
          have := hb.2 (by rw [hl]; simp)
          rw [hl, hr, e] at this
          exact this rfl
        · have hln : (node_at s.heap p).l_child ≠ none := fun e => by
            rw [hb.1.1 e] at hr; cases hr
          obtain ⟨l, hl⟩ := Option.ne_none_iff_exists'.1 hln
          obtain ⟨h1, h2⟩ := hinv.kids p l hpl (Or.inl hl)
          have hs := hinv.sum p l _ hpl hl hr
          rw [hinv.nyt_w] at hs
          refine ⟨l, h1, ?_, h2, by omega⟩
          intro e
          have := hb.2 (by rw [hl]; simp)
          rw [hl, hr, e] at this
          exact this rfl
      obtain ⟨c, hc, hcnyt, hcp, hcw⟩ := hsib
      have e1 := hinv.adj_s c hc hcnyt (by rw [hcp, hp])
      by_cases hpn : p = n
      · exfalso
        subst hpn
        rw [if_pos rfl] at hcw
        have hidc := hinv.id_par c p hc hcp
        rcases hinv.mono c p hc hn hidc with h1 | ⟨_, _, h3⟩
        · omega
        · exact hnotop h3
      · by_cases hph : p = h
        · exfalso
          subst hph
          have e2 := hinv.id_lo n hn
          have e3 : (node_at s.heap n).id ≠ (node_at s.heap s.nyt).id := fun e =>
            hnnyt (hinv.id_inj n s.nyt hn hinv.nyt_lt e)
          have e4 : (node_at s.heap n).id = (node_at s.heap c).id := by omega
          have := hinv.id_inj n c hn hc e4
          rw [this, hcp] at hnp
          exact hnp rfl
        · rw [swap_addr_other n h p hpn hph]; exact e0
    · intro m hm
      cases hm
      exact ⟨by rw [hlen]; exact hn, hnnyt⟩
    · intro b a hba
      obtain ⟨h1, h2, h3, h4, h5⟩ := hinv.tab b a hba
      exact ⟨by rw [hlen]; exact h1, h2, (hlnone a).2 h3, (hrnone a).2 h4, by rw [hsy]; exact h5⟩
  · intro y hy hylt
    rw [hlen] at hy
    rw [hid, hid, hσn] at hylt
    rw [hwt, hwt, ← hwσ y]
    have h1 := hmono h _ hh (hσlt y hy) hylt
    have h2 : (node_at s.heap (swap_addr n h y)).weight ≠ (node_at s.heap n).weight := by
      intro e
      have := hmax _ (hσlt y hy) e
      omega
    omega

end Huffman

namespace Huffman

theorem weight_le_root {s : huffman_state} {n : Nat} (hinv : tree_inv s (some n)) (a : Nat)
    (ha : a < s.heap.length) (han : n = s.root → a = s.root) :
    (node_at s.heap a).weight ≤ (node_at s.heap s.root).weight := by
  by_cases har : a = s.root
  · rw [har]
  · have h1 := hinv.id_hi a ha
    have h2 : (node_at s.heap a).id ≠ (node_at s.heap s.root).id := fun e =>
      har (hinv.id_inj a s.root ha hinv.root_lt e)
    rw [hinv.root_id] at h2
    rcases hinv.mono a s.root ha hinv.root_lt (by rw [hinv.root_id]; omega) with h | ⟨h, _, _⟩
    · exact h
    · exact absurd (han (Option.some.inj h)) har

/-- When the guard of `update` lets no swap happen, the node or its parent is
the top of the block. -/
theorem noswap_top {s : huffman_state} {n h : Nat} (hinv : tree_inv s (some n))
    (hh : h < s.heap.length)
    (hw : (node_at s.heap h).weight = (node_at s.heap n).weight)
    (hmax : ∀ x, x < s.heap.length → (node_at s.heap x).weight = (node_at s.heap n).weight →
      (node_at s.heap x).id ≤ (node_at s.heap h).id)
    (hg : ¬ (h ≠ n ∧ some h ≠ (node_at s.heap n).parent ∧ h ≠ s.root)) :
    top_of_block s.heap n ∨
      ∃ p, (node_at s.heap n).parent = some p ∧
        (node_at s.heap p).weight = (node_at s.heap n).weight ∧ top_of_block s.heap p := by
  obtain ⟨hn, hnnyt⟩ := hinv.cur_ok n rfl
  have hidn : (node_at s.heap n).id ≤ (node_at s.heap h).id := hmax n hn rfl
  have htoph : top_of_block s.heap h := by
    intro y hy hlt
    rcases hinv.mono h y hh hy hlt with h1 | ⟨h1, _, _⟩
    · have : (node_at s.heap y).weight ≠ (node_at s.heap n).weight := fun e => by
        have := hmax y hy e; omega
      omega
    · cases h1; omega
  by_cases hhn : h = n
  · left; rw [← hhn]; exact htoph
  · by_cases hpar : some h = (node_at s.heap n).parent
    · right; exact ⟨h, hpar.symm, hw, htoph⟩
    · exfalso
      have hhr : h = s.root := by
        by_contra hne
        exact hg ⟨hhn, hpar, hne⟩
      subst hhr
      have hnr : n ≠ s.root := fun e => hhn e.symm
      obtain ⟨p, hp, hpp, hcp⟩ := hinv.par n hn hnr
      have hpr : p ≠ s.root := fun e => hpar (by rw [hpp, e])
      have hidp := hinv.id_par n p hn hpp
      have hpn : p ≠ n := fun e => by rw [e] at hidp; omega
      have hcur : ∀ q, q ≠ n → (some n : Option Nat) ≠ some q := fun q hq e =>
        hq (Option.some.inj e).symm
      have w1 : (node_at s.heap n).weight ≤ (node_at s.heap p).weight := by
        rcases hinv.mono n p hn hp hidp with h1 | ⟨h1, _, _⟩
        · exact h1
        · exact absurd (Option.some.inj h1).symm hpn
      have w2 := weight_le_root hinv p hp (fun e => absurd e hnr)
      obtain ⟨hnp, _⟩ := sibling_is_nyt hinv p n hp hcp (hcur p hpn) (by omega)
      obtain ⟨q, hq, hqq, hcq⟩ := hinv.par p hp hpr
      have hidq := hinv.id_par p q hp hqq
      have hqn : q ≠ n := fun e => by rw [e] at hidq; omega
      have w3 : (node_at s.heap p).weight ≤ (node_at s.heap q).weight := by
        rcases hinv.mono p q hp hq hidq with h1 | ⟨h1, _, _⟩
        · exact h1
        · exact absurd (Option.some.inj h1).symm hqn
      have w4 := weight_le_root hinv q hq (fun e => absurd e hnr)
      obtain ⟨hnq, _⟩ := sibling_is_nyt hinv q p hq hcq (hcur q hqn) (by omega)
      rw [hnp] at hnq
      cases hnq
      omega

/-- What a run of `update` from a node does: it returns, the invariant holds
again, only weights, ids and links changed, the root gained one unit of
weight, and among the leaves only the starting node gained weight. -/
theorem update_ok : ∀ fuel (s : huffman_state) (n : Nat), tree_inv s (some n) →
    (node_at s.heap s.root).weight + 1 < 2 ^ 32 →
    257 + (257 - (node_at s.heap n).id) ≤ fuel →
    ∃ s2, update fuel s (some n) = some s2 ∧ tree_inv s2 none ∧ s2.leaf = s.leaf ∧
      s2.nyt = s.nyt ∧ s2.root = s.root ∧ s2.heap.length = s.heap.length ∧
      (node_at s2.heap s2.root).weight = (node_at s.heap s.root).weight + 1 ∧
      (∀ a, (node_at s2.heap a).symbol = (node_at s.heap a).symbol) ∧
      (∀ a, (node_at s2.heap a).l_child = none ↔ (node_at s.heap a).l_child = none) ∧
      (node_at s2.heap s.nyt).parent = (node_at s.heap s.nyt).parent ∧
      (∀ a, (node_at s.heap a).l_child = none →
        (node_at s2.heap a).weight = (node_at s.heap a).weight + (if a = n then 1 else 0)) := by
  intro fuel
  induction fuel with
  | zero => intro s n _ _ hf; omega
  | succ fuel ih =>
    intro s n hinv hroot hf
    obtain ⟨hn, hnnyt⟩ := hinv.cur_ok n rfl
    obtain ⟨h, hghi, hh, hw, hmax⟩ := block_top hinv (fuel + 1) (by omega)
    have hwn : (node_at s.heap n).weight ≤ (node_at s.heap s.root).weight :=
      weight_le_root hinv n hn (fun e => e)
    -- the arena after the conditional swap
    have hsw : ∃ h1, (if h ≠ n ∧ some h ≠ (node_at s.heap n).parent ∧ h ≠ s.root
          then swap_nodes s.heap n h else some s.heap) = some h1 ∧
        tree_inv { s with heap := h1 } (some n) ∧
        (top_of_block h1 n ∨ ∃ p, (node_at h1 n).parent = some p ∧
          (node_at h1 p).weight = (node_at h1 n).weight ∧ top_of_block h1 p) ∧
        h1.length = s.heap.length ∧ (node_at s.heap n).id ≤ (node_at h1 n).id ∧
        (∀ a, (node_at h1 a).weight = (node_at s.heap a).weight) ∧
        (∀ a, (node_at h1 a).symbol = (node_at s.heap a).symbol) ∧
        (∀ a, (node_at h1 a).l_child = none ↔ (node_at s.heap a).l_child = none) ∧
        (node_at h1 s.nyt).parent = (node_at s.heap s.nyt).parent := by
      by_cases hg : h ≠ n ∧ some h ≠ (node_at s.heap n).parent ∧ h ≠ s.root
      · rw [if_pos hg]
        obtain ⟨heap2, e1, e2, e3, e4, e5, e6, e7, e8, e9⟩ :=
          swap_step hinv hh hg.1 hw hmax hg.2.1 hg.2.2
        exact ⟨heap2, e1, e2, Or.inl e3, e4, by rw [e5]; exact hmax n hn rfl, e6, e7, e8, e9⟩
      · rw [if_neg hg]
        exact ⟨s.heap, rfl, hinv, noswap_top hinv hh hw hmax hg, rfl, le_refl _,
          fun _ => rfl, fun _ => rfl, fun _ => Iff.rfl, rfl⟩
    obtain ⟨h1, hswap, hinv1, hT, hlen1, hid1, hw1, hsy1, hl1, hnp1⟩ := hsw
    have hn1 : n < h1.length := by omega
    have hinc := inc_step hinv1 hT
    have hmod : (node_at h1 n).weight + 1 < 2 ^ 32 := by rw [hw1]; omega
    have hmodeq : ((node_at h1 n).weight + 1) % 2 ^ 32 = (node_at h1 n).weight + 1 :=
      Nat.mod_eq_of_lt hmod
    -- unfold one iteration of the loop
    have hstep : update (fuel + 1) s (some n) =
        update fuel { s with heap := (h1.set n
          { node_at h1 n with weight := (node_at h1 n).weight + 1 }) } (node_at h1 n).parent := by
      rw [update, getElem?_node_at s.heap n hn]
      simp only [hghi, hswap]
      rw [modify_node_eq h1 n _ hn1]
      simp only [hmodeq]
      rw [getElem?_node_at _ n (by rw [List.length_set]; exact hn1),
        node_at_set _ _ _ _ hn1, if_pos rfl]
    rw [hstep]
    have hg2 : ∀ a, node_at (h1.set n
        { node_at h1 n with weight := (node_at h1 n).weight + 1 }) a =
        if a = n then { node_at h1 n with weight := (node_at h1 n).weight + 1 }
        else node_at h1 a := fun a => node_at_set _ _ _ _ hn1
    have hlen2 : (h1.set n
        { node_at h1 n with weight := (node_at h1 n).weight + 1 }).length = s.heap.length := by
      rw [List.length_set, hlen1]
    simp only at hinc
    generalize h1.set n { node_at h1 n with weight := (node_at h1 n).weight + 1 } = H2
      at hinc hg2 hlen2
    have hw2 : ∀ a, (node_at H2 a).weight = (node_at s.heap a).weight + (if a = n then 1 else 0) := by
      intro a
      rw [hg2]
      split
      · next e => rw [e]; simp [hw1]
      · simp [hw1]
    have hsy2 : ∀ a, (node_at H2 a).symbol = (node_at s.heap a).symbol := by
      intro a
      rw [hg2]
      split
      · next e => rw [e]; simp [hsy1]
      · exact hsy1 a
    have hl2 : ∀ a, (node_at H2 a).l_child = none ↔ (node_at s.heap a).l_child = none := by
      intro a
      rw [hg2]
      split
      · next e => rw [e]; simp [hl1]
      · exact hl1 a
    have hid2 : (node_at H2 n).id = (node_at h1 n).id := by
      rw [hg2, if_pos rfl]
    have hnp2 : (node_at H2 s.nyt).parent = (node_at s.heap s.nyt).parent := by
      rw [hg2, if_neg (Ne.symm hnnyt)]; exact hnp1
    cases hpar : (node_at h1 n).parent with
    | none =>
      rw [hpar] at hinc
      have hnr : n = s.root := by
        by_contra hne
        obtain ⟨p, _, hp, _⟩ := hinv1.par n hn1 hne
        rw [hpar] at hp; cases hp
      refine ⟨_, by cases fuel <;> rfl, hinc, rfl, rfl, rfl, hlen2, ?_, hsy2, hl2, hnp2, ?_⟩
      · show (node_at H2 s.root).weight = _
        rw [hw2, if_pos hnr.symm]
      · intro a _
        exact hw2 a
    | some p =>
      rw [hpar] at hinc
      have hidp : (node_at h1 n).id < (node_at h1 p).id := hinv1.id_par n p hn1 hpar
      have hpid : (node_at H2 p).id = (node_at h1 p).id := by
        rw [hg2]; split
        · next e => rw [e]
        · rfl
      have hpn : p ≠ n := fun e => by rw [e] at hidp; omega
      have hnr : n ≠ s.root := fun e => by
        have := hinv1.root_par
        rw [← e] at this
        simp only at this
        rw [hpar] at this; cases this
      have hrw : (node_at H2 s.root).weight = (node_at s.heap s.root).weight := by
        rw [hw2, if_neg (Ne.symm hnr)]; rfl
      obtain ⟨s2, e1, e2, e3, e4, e5, e6, e7, e8, e9, e11, e10⟩ := ih { s with heap := H2 } p hinc
        (by show (node_at H2 s.root).weight + 1 < 2 ^ 32; rw [hrw]; exact hroot)
        (by
          show 257 + (257 - (node_at H2 p).id) ≤ fuel
          have := hinv.id_hi n hn
          rw [hpid]; omega)
      refine ⟨s2, e1, e2, e3, e4, e5, by rw [e6]; exact hlen2, ?_, ?_, ?_, ?_, ?_⟩
      · rw [e7]
        show (node_at H2 s.root).weight + 1 = _
        rw [hrw]
      · intro a; rw [e8]; exact hsy2 a
      · intro a; rw [e9]; exact hl2 a
      · rw [← hnp2]; exact e11
      · intro a ha
        have hpl : (node_at H2 p).l_child ≠ none := by
          obtain ⟨q, _, hq, hcq⟩ := hinc.par n (by show n < H2.length; omega) hnr
          have hq' : (node_at H2 n).parent = some p := by
            rw [hg2, if_pos rfl]; exact hpar
          rw [hq'] at hq; cases hq
          have hb := hinc.both p
          rcases hcq with h | h
          · show (node_at H2 p).l_child ≠ none
            rw [h]; simp
          · intro e
            have : (node_at H2 p).r_child = none := hb.1.1 e
            rw [this] at h; cases h
        have hap : a ≠ p := fun e => hpl (by rw [← e]; exact (hl2 a).2 ha)
        rw [e10 a ((hl2 a).2 ha), hw2, if_neg hap]
        omega

end Huffman

namespace Huffman

theorem node_at_out (heap : List huffman_node) (a : Nat) (h : heap.length ≤ a) :
    node_at heap a = make_node none := by
  unfold node_at
  rw [List.getD_eq_getElem?_getD, List.getElem?_eq_none h]
  rfl

theorem node_at_append_two (H : List huffman_node) (x y : huffman_node) (a : Nat) :
    node_at (H ++ [x, y]) a =
      if a = H.length then x else if a = H.length + 1 then y else node_at H a := by
  unfold node_at
  rw [List.getD_eq_getElem?_getD, List.getD_eq_getElem?_getD]
  by_cases h1 : a < H.length
  · rw [List.getElem?_append_left h1, if_neg (by omega), if_neg (by omega)]
  · rw [List.getElem?_append_right (by omega)]
    by_cases h2 : a = H.length
    · rw [if_pos h2, h2]; simp
    · rw [if_neg h2]
      by_cases h3 : a = H.length + 1
      · rw [if_pos h3, h3]; simp
      · rw [if_neg h3]
        have e1 : a - H.length = (a - H.length - 2) + 2 := by omega
        rw [e1]
        simp only [List.getElem?_cons_succ, List.getElem?_nil]
        rw [List.getElem?_eq_none (by omega)]

theorem nyt_spawn_eq (s : huffman_state) (symbol : Nat) (h : s.nyt < s.heap.length) :
    nyt_spawn s symbol = some (spawned s symbol, s.nyt) := by
  unfold nyt_spawn spawned
  rw [getElem?_node_at s.heap s.nyt h]
  simp only
  rw [List.getElem?_append_right (by rw [List.length_set])]
  simp [make_node]

theorem node_at_spawned (s : huffman_state) (symbol : Nat) (h : s.nyt < s.heap.length) (a : Nat) :
    node_at (spawned s symbol).heap a =
      if a = s.heap.length then
        { make_node (some s.nyt) with id := ((node_at s.heap s.nyt).id + 65536 - 2) % 65536 }
      else if a = s.heap.length + 1 then
        { make_node (some s.nyt) with
          id := ((node_at s.heap s.nyt).id + 65536 - 1) % 65536, symbol := symbol, weight := 1 }
      else if a = s.nyt then
        { node_at s.heap s.nyt with
          l_child := some s.heap.length, r_child := some (s.heap.length + 1), weight := 1 }
      else node_at s.heap a := by
  unfold spawned
  simp only
  rw [node_at_append_two, List.length_set, node_at_set _ _ _ _ h]

end Huffman
namespace Huffman

theorem spawn_view_of {s : huffman_state} (hinv : tree_inv s none) (hN : s.heap.length ≤ 255)
    (symbol : Nat) : spawn_view s (spawned s symbol) symbol := by
  have hnyt := hinv.nyt_lt
  have hg := node_at_spawned s symbol hnyt
  have hidP := hinv.nyt_id
  have e2 : ((node_at s.heap s.nyt).id + 65536 - 2) % 65536 = (node_at s.heap s.nyt).id - 2 := by
    omega
  have e1 : ((node_at s.heap s.nyt).id + 65536 - 1) % 65536 = (node_at s.heap s.nyt).id - 1 := by
    omega
  rw [e1, e2] at hg
  have hlen : (spawned s symbol).heap.length = s.heap.length + 2 := by
    simp [spawned]
  have hroot : (spawned s symbol).root = s.root := rfl
  have hnyt2 : (spawned s symbol).nyt = s.heap.length := rfl
  have hleaf : (spawned s symbol).leaf = s.leaf.set symbol (some (s.heap.length + 1)) := rfl
  have gL : node_at (spawned s symbol).heap s.heap.length =
      { id := (node_at s.heap s.nyt).id - 2, parent := some s.nyt, l_child := none,
        r_child := none, weight := 0, symbol := 0 } := by
    rw [hg, if_pos rfl]; rfl
  have gR : node_at (spawned s symbol).heap (s.heap.length + 1) =
      { id := (node_at s.heap s.nyt).id - 1, parent := some s.nyt, l_child := none,
        r_child := none, weight := 1, symbol := symbol } := by
    rw [hg, if_neg (by omega), if_pos rfl]; rfl
  have gP : node_at (spawned s symbol).heap s.nyt =
      { id := (node_at s.heap s.nyt).id, parent := (node_at s.heap s.nyt).parent,
        l_child := some s.heap.length, r_child := some (s.heap.length + 1), weight := 1,
        symbol := (node_at s.heap s.nyt).symbol } := by
    rw [hg, if_neg (by omega), if_neg (by omega), if_pos rfl]
  have gO : ∀ a, a ≠ s.heap.length → a ≠ s.heap.length + 1 → a ≠ s.nyt →
      node_at (spawned s symbol).heap a = node_at s.heap a := by
    intro a h1 h2 h3
    rw [hg, if_neg h1, if_neg h2, if_neg h3]
  have hid' : ∀ a, a < s.heap.length →
      (node_at (spawned s symbol).heap a).id = (node_at s.heap a).id := by
    intro a ha
    by_cases h : a = s.nyt
    · rw [h, gP]
    · rw [gO a (by omega) (by omega) h]
  have hpar' : ∀ a, a < s.heap.length →
      (node_at (spawned s symbol).heap a).parent = (node_at s.heap a).parent := by
    intro a ha
    by_cases h : a = s.nyt
    · rw [h, gP]
    · rw [gO a (by omega) (by omega) h]
  have hsy' : ∀ a, a < s.heap.length →
      (node_at (spawned s symbol).heap a).symbol = (node_at s.heap a).symbol := by
    intro a ha
    by_cases h : a = s.nyt
    · rw [h, gP]
    · rw [gO a (by omega) (by omega) h]
  have hO : ∀ a, a < s.heap.length → a ≠ s.nyt →
      node_at (spawned s symbol).heap a = node_at s.heap a :=
    fun a ha h => gO a (by omega) (by omega) h
  generalize spawned s symbol = S at hlen hroot hnyt2 hleaf gL gR gP gO hid' hpar' hsy' hO ⊢
  clear hg
  have hidlo := hinv.id_lo
  have hparlt : ∀ a p, a < s.heap.length → (node_at s.heap a).parent = some p →
      p < s.heap.length := by
    intro a p ha hp
    have har : a ≠ s.root := fun e => by rw [e, hinv.root_par] at hp; cases hp
    obtain ⟨q, hq, hqq, _⟩ := hinv.par a ha har
    rw [hp] at hqq; cases hqq; exact hq
  have hnochild : ∀ c, ¬ is_child s.heap s.nyt c := by
    intro c hc
    rcases hc with h | h
    · rw [hinv.nyt_leaf.1] at h; cases h
    · rw [hinv.nyt_leaf.2] at h; cases h
  have hchO : ∀ p c, p < s.heap.length → p ≠ s.nyt → (is_child S.heap p c ↔ is_child s.heap p c) := by
    intro p c hp hpn
    unfold is_child
    rw [hO p hp hpn]
  have hchP : ∀ c, is_child S.heap s.nyt c ↔ (c = s.heap.length ∨ c = s.heap.length + 1) := by
    intro c
    unfold is_child
    rw [gP]
    simp only [Option.some.injEq]
    constructor
    · rintro (h | h)
      · exact Or.inl h.symm
      · exact Or.inr h.symm
    · rintro (h | h)
      · exact Or.inl h.symm
      · exact Or.inr h.symm
  have hmono : ∀ a b, a < s.heap.length → b < s.heap.length →
      (node_at s.heap a).id < (node_at s.heap b).id →
      (node_at s.heap a).weight ≤ (node_at s.heap b).weight := by
    intro a b ha hb hlt
    rcases hinv.mono a b ha hb hlt with h | ⟨h, _, _⟩
    · exact h
    · cases h
  -- classification of the addresses of the new arena
  have hcls : ∀ a, a < S.heap.length →
      a = s.heap.length ∨ a = s.heap.length + 1 ∨ a = s.nyt ∨ (a < s.heap.length ∧ a ≠ s.nyt) := by
    intro a ha
    rw [hlen] at ha
    by_cases h1 : a = s.heap.length
    · exact Or.inl h1
    · by_cases h2 : a = s.heap.length + 1
      · exact Or.inr (Or.inl h2)
      · by_cases h3 : a = s.nyt
        · exact Or.inr (Or.inr (Or.inl h3))
        · exact Or.inr (Or.inr (Or.inr ⟨by omega, h3⟩))
  have hwS : ∀ a, a < S.heap.length → (node_at S.heap a).weight =
      if a = s.heap.length then 0 else if a = s.heap.length + 1 then 1
      else if a = s.nyt then 1 else (node_at s.heap a).weight := by
    intro a ha
    rcases hcls a ha with h | h | h | ⟨h, h'⟩
    · rw [h, gL, if_pos rfl]
    · rw [h, gR, if_neg (by omega), if_pos rfl]
    · rw [h, gP, if_neg (by omega), if_neg (by omega), if_pos rfl]
    · rw [hO a h h', if_neg (by omega), if_neg (by omega), if_neg h']
  have hidS : ∀ a, a < S.heap.length → (node_at S.heap a).id =
      if a = s.heap.length then (node_at s.heap s.nyt).id - 2
      else if a = s.heap.length + 1 then (node_at s.heap s.nyt).id - 1
      else (node_at s.heap a).id := by
    intro a ha
    rcases hcls a ha with h | h | h | ⟨h, h'⟩
    · rw [h, gL, if_pos rfl]
    · rw [h, gR, if_neg (by omega), if_pos rfl]
    · rw [h, hid' _ hnyt, if_neg (by omega), if_neg (by omega)]
    · rw [hid' a h, if_neg (by omega), if_neg (by omega)]
  exact ⟨hnyt, hidP, hN, hlen, hroot, hnyt2, hleaf, gL, gR, gP, gO, hid', hpar', hsy', hO, hidlo, hparlt, hnochild, hchO, hchP, hmono, hcls, hwS, hidS⟩

theorem spawn_par {s S : huffman_state} {symbol : Nat} (hinv : tree_inv s none)
    (V : spawn_view s S symbol) :
    ∀ a, a < S.heap.length → a ≠ S.root →
      ∃ p, p < S.heap.length ∧ (node_at S.heap a).parent = some p ∧ is_child S.heap p a := by
  obtain ⟨hnyt, hidP, hN, hlen, hroot, hnyt2, hleaf, gL, gR, gP, gO, hid', hpar', hsy', hO,
    hidlo, hparlt, hnochild, hchO, hchP, hmono, hcls, hwS, hidS⟩ := V
  intro a ha har
  rw [hroot] at har
  rcases hcls a ha with h | h | h | ⟨h, h'⟩
  · exact ⟨s.nyt, by rw [hlen]; omega, by rw [h, gL], (hchP a).2 (Or.inl h)⟩
  · exact ⟨s.nyt, by rw [hlen]; omega, by rw [h, gR], (hchP a).2 (Or.inr h)⟩
  · obtain ⟨p, hp, hpp, hcp⟩ := hinv.par a (by rw [h]; exact hnyt) har
    have hpn : p ≠ s.nyt := fun e => hnochild a (e ▸ hcp)
    exact ⟨p, by rw [hlen]; omega, by rw [hpar' a (by rw [h]; exact hnyt)]; exact hpp,
      (hchO p a hp hpn).2 hcp⟩
  · obtain ⟨p, hp, hpp, hcp⟩ := hinv.par a h har
    have hpn : p ≠ s.nyt := fun e => hnochild a (e ▸ hcp)
    exact ⟨p, by rw [hlen]; omega, by rw [hpar' a h]; exact hpp, (hchO p a hp hpn).2 hcp⟩

theorem spawn_kids {s S : huffman_state} {symbol : Nat} (hinv : tree_inv s none)
    (V : spawn_view s S symbol) :
    ∀ p c, p < S.heap.length → is_child S.heap p c →
      c < S.heap.length ∧ (node_at S.heap c).parent = some p := by
  obtain ⟨hnyt, hidP, hN, hlen, hroot, hnyt2, hleaf, gL, gR, gP, gO, hid', hpar', hsy', hO,
    hidlo, hparlt, hnochild, hchO, hchP, hmono, hcls, hwS, hidS⟩ := V
  intro p c hp hc
  rcases hcls p hp with h | h | h | ⟨h, h'⟩
  · exfalso
    rw [h] at hc
    unfold is_child at hc
    rw [gL] at hc
    simp [make_node] at hc
  · exfalso
    rw [h] at hc
    unfold is_child at hc
    rw [gR] at hc
    simp [make_node] at hc
  · rw [h] at hc ⊢
    rcases (hchP c).1 hc with e | e
    · exact ⟨by rw [hlen]; omega, by rw [e, gL]⟩
    · exact ⟨by rw [hlen]; omega, by rw [e, gR]⟩
  · obtain ⟨hcl, hcp⟩ := hinv.kids p c h ((hchO p c h h').1 hc)
    exact ⟨by rw [hlen]; omega, by rw [hpar' c hcl]; exact hcp⟩

theorem spawn_both {s S : huffman_state} {symbol : Nat} (hinv : tree_inv s none)
    (V : spawn_view s S symbol) :
    ∀ p, ((node_at S.heap p).l_child = none ↔ (node_at S.heap p).r_child = none) ∧
      ((node_at S.heap p).l_child ≠ none →
        (node_at S.heap p).l_child ≠ (node_at S.heap p).r_child) := by
  obtain ⟨hnyt, hidP, hN, hlen, hroot, hnyt2, hleaf, gL, gR, gP, gO, hid', hpar', hsy', hO,
    hidlo, hparlt, hnochild, hchO, hchP, hmono, hcls, hwS, hidS⟩ := V
  intro p
  by_cases hp : p < S.heap.length
  · rcases hcls p hp with h | h | h | ⟨h, h'⟩
    · rw [h, gL]; simp [make_node]
    · rw [h, gR]; simp [make_node]
    · rw [h, gP]; simp
    · rw [hO p h h']; exact hinv.both p
  · rw [node_at_out _ _ (by omega)]; simp [make_node]

theorem spawn_id_inj {s S : huffman_state} {symbol : Nat} (hinv : tree_inv s none)
    (V : spawn_view s S symbol) :
    ∀ a b, a < S.heap.length → b < S.heap.length →
      (node_at S.heap a).id = (node_at S.heap b).id → a = b := by
  obtain ⟨hnyt, hidP, hN, hlen, hroot, hnyt2, hleaf, gL, gR, gP, gO, hid', hpar', hsy', hO,
    hidlo, hparlt, hnochild, hchO, hchP, hmono, hcls, hwS, hidS⟩ := V
  intro a b ha hb e
  rw [hidS a ha, hidS b hb] at e
  have la := hcls a ha
  have lb := hcls b hb
  have ia : a < s.heap.length → (node_at s.heap s.nyt).id ≤ (node_at s.heap a).id := hidlo a
  have ib : b < s.heap.length → (node_at s.heap s.nyt).id ≤ (node_at s.heap b).id := hidlo b
  by_cases a1 : a = s.heap.length
  · by_cases b1 : b = s.heap.length
    · omega
    · by_cases b2 : b = s.heap.length + 1
      · rw [if_pos a1, if_neg b1, if_pos b2] at e; omega
      · rw [if_pos a1, if_neg b1, if_neg b2] at e
        have := ib (by omega); omega
  · by_cases a2 : a = s.heap.length + 1
    · by_cases b1 : b = s.heap.length
      · rw [if_neg a1, if_pos a2, if_pos b1] at e; omega
      · by_cases b2 : b = s.heap.length + 1
        · omega
        · rw [if_neg a1, if_pos a2, if_neg b1, if_neg b2] at e
          have := ib (by omega); omega
    · by_cases b1 : b = s.heap.length
      · rw [if_neg a1, if_neg a2, if_pos b1] at e
        have := ia (by omega); omega
      · by_cases b2 : b = s.heap.length + 1
        · rw [if_neg a1, if_neg a2, if_neg b1, if_pos b2] at e
          have := ia (by omega); omega
        · rw [if_neg a1, if_neg a2, if_neg b1, if_neg b2] at e
          exact hinv.id_inj a b (by omega) (by omega) e

theorem spawn_id_lo {s S : huffman_state} {symbol : Nat} (hinv : tree_inv s none)
    (V : spawn_view s S symbol) :
    ∀ a, a < S.heap.length → (node_at S.heap S.nyt).id ≤ (node_at S.heap a).id := by
  obtain ⟨hnyt, hidP, hN, hlen, hroot, hnyt2, hleaf, gL, gR, gP, gO, hid', hpar', hsy', hO,
    hidlo, hparlt, hnochild, hchO, hchP, hmono, hcls, hwS, hidS⟩ := V
  intro a ha
  rw [hnyt2, gL, hidS a ha]
  simp only
  split
  · omega
  · split
    · omega
    · have := hidlo a (by rcases hcls a ha with h | h | h | ⟨h, _⟩ <;> omega)
      omega

theorem spawn_id_hi {s S : huffman_state} {symbol : Nat} (hinv : tree_inv s none)
    (V : spawn_view s S symbol) :
    ∀ a, a < S.heap.length → (node_at S.heap a).id ≤ 256 := by
  obtain ⟨hnyt, hidP, hN, hlen, hroot, hnyt2, hleaf, gL, gR, gP, gO, hid', hpar', hsy', hO,
    hidlo, hparlt, hnochild, hchO, hchP, hmono, hcls, hwS, hidS⟩ := V
  intro a ha
  rw [hidS a ha]
  have h0 := hinv.id_hi s.nyt hnyt
  split
  · omega
  · split
    · omega
    · exact hinv.id_hi a (by rcases hcls a ha with h | h | h | ⟨h, _⟩ <;> omega)

theorem spawn_id_par {s S : huffman_state} {symbol : Nat} (hinv : tree_inv s none)
    (V : spawn_view s S symbol) :
    ∀ c p, c < S.heap.length → (node_at S.heap c).parent = some p →
      (node_at S.heap c).id < (node_at S.heap p).id := by
  obtain ⟨hnyt, hidP, hN, hlen, hroot, hnyt2, hleaf, gL, gR, gP, gO, hid', hpar', hsy', hO,
    hidlo, hparlt, hnochild, hchO, hchP, hmono, hcls, hwS, hidS⟩ := V
  intro c p hc hcp
  rcases hcls c hc with h | h | h | ⟨h, h'⟩
  · rw [h, gL] at hcp
    cases hcp
    rw [h, gL, hid' _ hnyt]; simp only; omega
  · rw [h, gR] at hcp
    cases hcp
    rw [h, gR, hid' _ hnyt]; simp only; omega
  · have hcl : c < s.heap.length := by rw [h]; exact hnyt
    rw [hpar' c hcl] at hcp
    rw [hid' c hcl, hid' p (hparlt c p hcl hcp)]
    exact hinv.id_par c p hcl hcp
  · rw [hpar' c h] at hcp
    rw [hid' c h, hid' p (hparlt c p h hcp)]
    exact hinv.id_par c p h hcp

theorem spawn_pos_w {s S : huffman_state} {symbol : Nat} (hinv : tree_inv s none)
    (V : spawn_view s S symbol) :
    ∀ a, a < S.heap.length → a ≠ S.nyt → 1 ≤ (node_at S.heap a).weight := by
  obtain ⟨hnyt, hidP, hN, hlen, hroot, hnyt2, hleaf, gL, gR, gP, gO, hid', hpar', hsy', hO,
    hidlo, hparlt, hnochild, hchO, hchP, hmono, hcls, hwS, hidS⟩ := V
  intro a ha hane
  rw [hnyt2] at hane
  rw [hwS a ha, if_neg hane]
  split
  · omega
  · split
    · omega
    · exact hinv.pos_w a (by rcases hcls a ha with h | h | h | ⟨h, _⟩ <;> omega) (by assumption)

theorem spawn_sum {s S : huffman_state} {symbol : Nat} (hinv : tree_inv s none)
    (V : spawn_view s S symbol) :
    ∀ p l r, p < S.heap.length → (node_at S.heap p).l_child = some l →
      (node_at S.heap p).r_child = some r →
      (node_at S.heap p).weight + (if (node_at s.heap s.nyt).parent = some p then 1 else 0) =
        (node_at S.heap l).weight + (node_at S.heap r).weight := by
  obtain ⟨hnyt, hidP, hN, hlen, hroot, hnyt2, hleaf, gL, gR, gP, gO, hid', hpar', hsy', hO,
    hidlo, hparlt, hnochild, hchO, hchP, hmono, hcls, hwS, hidS⟩ := V
  intro p l r hp hl hr
  rcases hcls p hp with h | h | h | ⟨h, h'⟩
  · rw [h, gL] at hl; simp [make_node] at hl
  · rw [h, gR] at hl; simp [make_node] at hl
  · rw [h, gP] at hl hr
    simp only [Option.some.injEq] at hl hr
    rw [h, gP, ← hl, ← hr, gL, gR]
    have : ¬ ((node_at s.heap s.nyt).parent = some s.nyt) := fun e => by
      have := hinv.id_par _ _ hnyt e; omega
    rw [if_neg this]
    simp [make_node]
  · rw [hO p h h'] at hl hr ⊢
    obtain ⟨hll, hlp⟩ := hinv.kids p l h (Or.inl hl)
    obtain ⟨hrl, hrp⟩ := hinv.kids p r h (Or.inr hr)
    have hs := hinv.sum p l r h hl hr
    simp only [if_false, reduceCtorEq] at hs
    have hlr : l ≠ r := by
      intro e
      have := (hinv.both p).2 (by rw [hl]; simp)
      rw [hl, hr, e] at this
      exact this rfl
    have hwl : (node_at S.heap l).weight =
        if l = s.nyt then 1 else (node_at s.heap l).weight := by
      rw [hwS l (by rw [hlen]; omega), if_neg (by omega : ¬ l = s.heap.length),
        if_neg (by omega : ¬ l = s.heap.length + 1)]
    have hwr : (node_at S.heap r).weight =
        if r = s.nyt then 1 else (node_at s.heap r).weight := by
      rw [hwS r (by rw [hlen]; omega), if_neg (by omega : ¬ r = s.heap.length),
        if_neg (by omega : ¬ r = s.heap.length + 1)]
    rw [hwl, hwr]
    by_cases hcp : (node_at s.heap s.nyt).parent = some p
    · rw [if_pos hcp]
      have hnr : s.nyt ≠ s.root := fun e => by rw [e, hinv.root_par] at hcp; cases hcp
      obtain ⟨q, _, hq, hcq⟩ := hinv.par s.nyt hnyt hnr
      rw [hcp] at hq; cases hq
      have hw0 := hinv.nyt_w
      rcases hcq with e | e
      · rw [hl] at e; cases e
        rw [if_pos rfl, if_neg (Ne.symm hlr)]
        omega
      · rw [hr] at e; cases e
        rw [if_neg hlr, if_pos rfl]
        omega
    · rw [if_neg hcp]
      have h1 : l ≠ s.nyt := fun e => hcp (e ▸ hlp)
      have h2 : r ≠ s.nyt := fun e => hcp (e ▸ hrp)
      rw [if_neg h1, if_neg h2]
      omega

theorem spawn_mono {s S : huffman_state} {symbol : Nat} (hinv : tree_inv s none)
    (V : spawn_view s S symbol) :
    ∀ a b, a < S.heap.length → b < S.heap.length →
      (node_at S.heap a).id < (node_at S.heap b).id →
      (node_at S.heap a).weight ≤ (node_at S.heap b).weight ∨
        ((node_at s.heap s.nyt).parent = some b ∧ (node_at S.heap a).parent = some b ∧ top_of_block S.heap b) := by
  obtain ⟨hnyt, hidP, hN, hlen, hroot, hnyt2, hleaf, gL, gR, gP, gO, hid', hpar', hsy', hO,
    hidlo, hparlt, hnochild, hchO, hchP, hmono, hcls, hwS, hidS⟩ := V
  intro a b ha hb hlt
  left
  rw [hidS a ha, hidS b hb] at hlt
  rw [hwS a ha, hwS b hb]
  have ia : a < s.heap.length → (node_at s.heap s.nyt).id ≤ (node_at s.heap a).id := hidlo a
  have ib : b < s.heap.length → (node_at s.heap s.nyt).id ≤ (node_at s.heap b).id := hidlo b
  have pa : a < s.heap.length → a ≠ s.nyt → 1 ≤ (node_at s.heap a).weight := hinv.pos_w a
  have pb : b < s.heap.length → b ≠ s.nyt → 1 ≤ (node_at s.heap b).weight := hinv.pos_w b
  have la := hcls a ha
  have lb := hcls b hb
  by_cases a1 : a = s.heap.length
  · rw [if_pos a1]; omega
  · rw [if_neg a1] at hlt ⊢
    by_cases b1 : b = s.heap.length
    · rw [if_pos b1] at hlt
      exfalso
      by_cases a2 : a = s.heap.length + 1
      · rw [if_pos a2] at hlt; omega
      · rw [if_neg a2] at hlt; have := ia (by omega); omega
    · rw [if_neg b1] at hlt ⊢
      by_cases b2 : b = s.heap.length + 1
      · rw [if_pos b2] at hlt
        exfalso
        by_cases a2 : a = s.heap.length + 1
        · rw [if_pos a2] at hlt; omega
        · rw [if_neg a2] at hlt; have := ia (by omega); omega
      · rw [if_neg b2] at hlt ⊢
        have hbl : b < s.heap.length := by omega
        by_cases a2 : a = s.heap.length + 1
        · rw [if_pos a2]
          by_cases b3 : b = s.nyt
          · rw [if_pos b3]
          · rw [if_neg b3]; exact pb hbl b3
        · rw [if_neg a2] at hlt ⊢
          have hal : a < s.heap.length := by omega
          by_cases a3 : a = s.nyt
          · rw [if_pos a3]
            by_cases b3 : b = s.nyt
            · rw [if_pos b3]
            · rw [if_neg b3]; exact pb hbl b3
          · rw [if_neg a3]
            by_cases b3 : b = s.nyt
            · exfalso
              rw [b3] at hlt
              have := ia hal; omega
            · rw [if_neg b3]
              exact hmono a b hal hbl hlt

theorem spawn_adj_s {s S : huffman_state} {symbol : Nat} (hinv : tree_inv s none)
    (V : spawn_view s S symbol) :
    ∀ c, c < S.heap.length → c ≠ S.nyt →
      (node_at S.heap c).parent = (node_at S.heap S.nyt).parent →
      (node_at S.heap c).id = (node_at S.heap S.nyt).id + 1 := by
  obtain ⟨hnyt, hidP, hN, hlen, hroot, hnyt2, hleaf, gL, gR, gP, gO, hid', hpar', hsy', hO,
    hidlo, hparlt, hnochild, hchO, hchP, hmono, hcls, hwS, hidS⟩ := V
  intro c hc hcn hcp
  rw [hnyt2] at hcn hcp ⊢
  rw [gL] at hcp
  simp only [make_node] at hcp
  rcases hcls c hc with h | h | h | ⟨h, h'⟩
  · exact absurd h hcn
  · rw [h, gR, gL]; simp only; omega
  · exfalso
    rw [h, hpar' _ hnyt] at hcp
    have := hinv.id_par _ _ hnyt hcp
    omega
  · exfalso
    rw [hpar' c h] at hcp
    have hcr : c ≠ s.root := fun e => by rw [e, hinv.root_par] at hcp; cases hcp
    obtain ⟨q, _, hq, hcq⟩ := hinv.par c h hcr
    rw [hcp] at hq; cases hq
    exact hnochild c hcq

theorem spawn_adj_p {s S : huffman_state} {symbol : Nat} (hinv : tree_inv s none)
    (V : spawn_view s S symbol) :
    ∀ p, (node_at S.heap S.nyt).parent = some p →
      (node_at S.heap p).id = (node_at S.heap S.nyt).id + 2 := by
  obtain ⟨hnyt, hidP, hN, hlen, hroot, hnyt2, hleaf, gL, gR, gP, gO, hid', hpar', hsy', hO,
    hidlo, hparlt, hnochild, hchO, hchP, hmono, hcls, hwS, hidS⟩ := V
  intro p hp
  rw [hnyt2, gL] at hp
  simp only [make_node, Option.some.injEq] at hp
  rw [← hp, hnyt2, gL, hid' _ hnyt]
  simp only
  omega

theorem spawn_cur_ok {s S : huffman_state} {symbol : Nat} (hinv : tree_inv s none)
    (V : spawn_view s S symbol) :
    ∀ n, (node_at s.heap s.nyt).parent = some n → n < S.heap.length ∧ n ≠ S.nyt := by
  obtain ⟨hnyt, hidP, hN, hlen, hroot, hnyt2, hleaf, gL, gR, gP, gO, hid', hpar', hsy', hO,
    hidlo, hparlt, hnochild, hchO, hchP, hmono, hcls, hwS, hidS⟩ := V
  intro n hn
  have := hparlt s.nyt n hnyt hn
  exact ⟨by rw [hlen]; omega, by rw [hnyt2]; omega⟩

theorem spawn_tab {s S : huffman_state} {symbol : Nat} (hinv : tree_inv s none)
    (V : spawn_view s S symbol) :
    ∀ b a, S.leaf[b]? = some (some a) →
      a < S.heap.length ∧ a ≠ S.nyt ∧ (node_at S.heap a).l_child = none ∧
        (node_at S.heap a).r_child = none ∧ (node_at S.heap a).symbol = b := by
  obtain ⟨hnyt, hidP, hN, hlen, hroot, hnyt2, hleaf, gL, gR, gP, gO, hid', hpar', hsy', hO,
    hidlo, hparlt, hnochild, hchO, hchP, hmono, hcls, hwS, hidS⟩ := V
  intro b a hba
  rw [hleaf] at hba
  rw [hnyt2]
  by_cases hb : symbol = b
  · subst hb
    rw [List.getElem?_set] at hba
    simp only [if_true] at hba
    split at hba
    · cases hba
      refine ⟨by rw [hlen]; omega, by omega, ?_, ?_, ?_⟩ <;> rw [gR] <;> rfl
    · cases hba
  · rw [List.getElem?_set_ne hb] at hba
    obtain ⟨h1, h2, h3, h4, h5⟩ := hinv.tab b a hba
    rw [hO a h1 h2]
    exact ⟨by rw [hlen]; omega, by omega, h3, h4, h5⟩

/-- The function `nyt_spawn` on a tree with at most 127 symbol leaves: the
invariant holds for the loop of `update` that starts at the parent of the old
NYT node. -/
theorem spawn_ok {s : huffman_state} (hinv : tree_inv s none) (hN : s.heap.length ≤ 255)
    (symbol : Nat) :
    tree_inv (spawned s symbol) (node_at s.heap s.nyt).parent := by
  have V := spawn_view_of hinv hN symbol
  have hlen := V.v_hlen
  have hroot := V.v_hroot
  have hnyt2 := V.v_hnyt2
  have gL := V.v_gL
  have hnyt := V.v_hnyt
  have hidP := V.v_hidP
  exact
    { root_lt := by rw [hlen, hroot]; have := hinv.root_lt; omega,
      root_par := by rw [hroot, V.v_hparE _ hinv.root_lt]; exact hinv.root_par,
      root_id := by rw [hroot, V.v_hidE _ hinv.root_lt]; exact hinv.root_id,
      nyt_lt := by rw [hlen, hnyt2]; omega,
      nyt_leaf := by rw [hnyt2, gL]; exact ⟨rfl, rfl⟩,
      nyt_w := by rw [hnyt2, gL],
      nyt_id := by rw [hnyt2, gL, hlen]; simp only; omega,
      par := spawn_par hinv V,
      kids := spawn_kids hinv V,
      both := spawn_both hinv V,
      id_inj := spawn_id_inj hinv V,
      id_lo := spawn_id_lo hinv V,
      id_hi := spawn_id_hi hinv V,
      id_par := spawn_id_par hinv V,
      pos_w := spawn_pos_w hinv V,
      sum := spawn_sum hinv V,
      mono := spawn_mono hinv V,
      adj_s := spawn_adj_s hinv V,
      adj_p := spawn_adj_p hinv V,
      cur_ok := spawn_cur_ok hinv V,
      tab := spawn_tab hinv V,
      tab_len := by rw [V.v_hleaf, List.length_set]; exact hinv.tab_len }

end Huffman

namespace Huffman

theorem get_node_path_ok {s : huffman_state} {cur : Option Nat} (hinv : tree_inv s cur) :
    ∀ fuel node path nbits, node < s.heap.length → 256 - (node_at s.heap node).id < fuel →
      nbits < 65536 →
      ∃ k p2, get_node_path fuel s node path nbits = some ((nbits + k) % 65536, p2) ∧
        node_depth fuel s node = some k ∧ k + (node_at s.heap node).id ≤ 256 := by
  intro fuel
  induction fuel with
  | zero => intro node path nbits _ h _; omega
  | succ fuel ih =>
    intro node path nbits hn hf hnb
    by_cases hr : node = s.root
    · refine ⟨0, path, ?_, ?_, ?_⟩
      · rw [get_node_path, if_pos hr, Nat.add_zero, Nat.mod_eq_of_lt hnb]
      · simp [node_depth, hr]
      · have := hinv.id_hi node hn; omega
    · obtain ⟨p, hp, hpp, _⟩ := hinv.par node hn hr
      have hid := hinv.id_par node p hn hpp
      have hhi := hinv.id_hi p hp
      obtain ⟨k, p2, h1, h2, h3⟩ := ih p
        (if (node_at s.heap p).l_child = some node then path / 2 else path / 2 ||| 2 ^ 31)
        ((nbits + 1) % 65536) hp (by omega) (Nat.mod_lt _ (by decide))
      refine ⟨k + 1, p2, ?_, ?_, by omega⟩
      · rw [get_node_path, if_neg hr]
        simp only [is_l_child, getElem?_node_at s.heap node hn, hpp, getElem?_node_at s.heap p hp]
        by_cases hl : (node_at s.heap p).l_child = some node
        · simp only [hl, decide_True, if_true] at h1 ⊢
          rw [h1]
          congr 2
          omega
        · simp only [hl, decide_False, if_false] at h1 ⊢
          simp only [Bool.false_eq_true, if_false]
          rw [h1]
          congr 2
          omega
      · rw [node_depth, if_neg hr, hpp]
        simp only [h2]

end Huffman
namespace Huffman

theorem node_at_init (a : Nat) :
    node_at huffman_init.heap a =
      if a = 0 then { make_node none with id := 256 } else make_node none := by
  cases a with
  | zero => rfl
  | succ k => rfl

/-- The tree built by `huffman_init` satisfies the invariant. -/
theorem tree_inv_init : tree_inv huffman_init none := by
  have hlen : huffman_init.heap.length = 1 := rfl
  have hroot : huffman_init.root = 0 := rfl
  have hnyt : huffman_init.nyt = 0 := rfl
  have hno : ∀ a, (node_at huffman_init.heap a).l_child = none ∧
      (node_at huffman_init.heap a).r_child = none ∧
      (node_at huffman_init.heap a).parent = none := by
    intro a
    rw [node_at_init]
    split <;> exact ⟨rfl, rfl, rfl⟩
  have h0 : ∀ a, a < huffman_init.heap.length → a = 0 := by
    intro a ha; rw [hlen] at ha; omega
  refine
    { root_lt := by rw [hlen, hroot]; decide
      root_par := (hno _).2.2
      root_id := rfl
      nyt_lt := by rw [hlen, hnyt]; decide
      nyt_leaf := ⟨(hno _).1, (hno _).2.1⟩
      nyt_w := rfl
      nyt_id := rfl
      par := ?_, kids := ?_, both := ?_, id_inj := ?_, id_lo := ?_, id_hi := ?_, id_par := ?_,
      pos_w := ?_, sum := ?_, mono := ?_, adj_s := ?_, adj_p := ?_, cur_ok := ?_,
      tab_len := ?_, tab := ?_ }
  · intro a ha hne
    exact absurd (h0 a ha) (by rw [hroot] at hne; exact hne)
  · intro p c _ hc
    rcases hc with hc | hc
    · rw [(hno p).1] at hc; cases hc
    · rw [(hno p).2.1] at hc; cases hc
  · intro p
    refine ⟨⟨fun _ => (hno p).2.1, fun _ => (hno p).1⟩, fun h => absurd (hno p).1 h⟩
  · intro a b ha hb _
    rw [h0 a ha, h0 b hb]
  · intro a ha
    rw [h0 a ha, hnyt]
  · intro a ha
    rw [h0 a ha]
    exact Nat.le_refl _
  · intro c p _ hp
    rw [(hno c).2.2] at hp; cases hp
  · intro a ha hne
    exact absurd (h0 a ha) (by rw [hnyt] at hne; exact hne)
  · intro p l r _ hl _
    rw [(hno p).1] at hl; cases hl
  · intro a b ha hb hlt
    rw [h0 a ha, h0 b hb] at hlt
    exact absurd hlt (Nat.lt_irrefl _)
  · intro c hc hne
    exact absurd (h0 c hc) (by rw [hnyt] at hne; exact hne)
  · intro p hp
    rw [(hno _).2.2] at hp; cases hp
  · intro n hn
    cases hn
  · show (List.replicate NSYMBOLS (none : Option Nat)).length = 256
    rw [List.length_replicate]; rfl
  · intro b a hba
    exfalso
    have : huffman_init.leaf = List.replicate 256 none := rfl
    rw [this, List.getElem?_replicate] at hba
    split at hba <;> cases hba

/-- The invariant between two bytes is the invariant at the head of the loop
of `update` for a symbol leaf. -/
theorem tree_inv_leaf {s : huffman_state} (hinv : tree_inv s none) (lf : Nat)
    (hlf : lf < s.heap.length) (hne : lf ≠ s.nyt) (hleaf : (node_at s.heap lf).l_child = none) :
    tree_inv s (some lf) :=
  { root_lt := hinv.root_lt, root_par := hinv.root_par, root_id := hinv.root_id,
    nyt_lt := hinv.nyt_lt, nyt_leaf := hinv.nyt_leaf, nyt_w := hinv.nyt_w, nyt_id := hinv.nyt_id,
    par := hinv.par, kids := hinv.kids, both := hinv.both, id_inj := hinv.id_inj,
    id_lo := hinv.id_lo, id_hi := hinv.id_hi, id_par := hinv.id_par, pos_w := hinv.pos_w,
    sum := by
      intro p l r hp hl hr
      have := hinv.sum p l r hp hl hr
      have hpl : ¬ (some lf = some p) := by
        intro e
        cases e
        rw [hleaf] at hl; cases hl
      simpa [hpl] using this
    mono := by
      intro a b ha hb hlt
      rcases hinv.mono a b ha hb hlt with h | h
      · exact Or.inl h
      · exact absurd h.1 (by simp)
    adj_s := hinv.adj_s, adj_p := hinv.adj_p,
    cur_ok := by
      intro n hn
      cases hn
      exact ⟨hlf, hne⟩
    tab_len := hinv.tab_len, tab := hinv.tab }

end Huffman
namespace Huffman

theorem card_snoc_new (pre : List Nat) (b : Nat) (h : b ∉ pre) :
    (pre ++ [b]).toFinset.card = pre.toFinset.card + 1 := by
  have e : (pre ++ [b]).toFinset = insert b pre.toFinset := by
    ext x; simp; tauto
  rw [e, Finset.card_insert_of_not_mem (by simpa using h)]

theorem card_snoc_old (pre : List Nat) (b : Nat) (h : b ∈ pre) :
    (pre ++ [b]).toFinset.card = pre.toFinset.card := by
  have e : (pre ++ [b]).toFinset = pre.toFinset := by
    ext x; simp
    intro hx; rw [hx]; exact h
  rw [e]

theorem node_eq_of_fields (m n : huffman_node) (h1 : m.id = n.id) (h2 : m.parent = n.parent)
    (h3 : m.l_child = n.l_child) (h4 : m.r_child = n.r_child) (h5 : m.weight = n.weight)
    (h6 : m.symbol = n.symbol) : m = n := by
  cases m; cases n; simp_all

theorem update_none (fuel : Nat) (s : huffman_state) : update fuel s none = some s := by
  cases fuel <;> rfl

theorem spawned_length (s : huffman_state) (symbol : Nat) :
    (spawned s symbol).heap.length = s.heap.length + 2 := by
  simp [spawned]

/-- After a run of `update` in a tree that satisfies the invariant before and
after, the NYT node has the record it had. -/
theorem nyt_untouched_of_inv {s1 s2 : huffman_state} {cur : Option Nat}
    (h1 : tree_inv s1 cur) (h2 : tree_inv s2 none) (hnyt : s2.nyt = s1.nyt)
    (hlen : s2.heap.length = s1.heap.length)
    (hpar : (node_at s2.heap s1.nyt).parent = (node_at s1.heap s1.nyt).parent)
    (hsym : ∀ a, (node_at s2.heap a).symbol = (node_at s1.heap a).symbol) :
    nyt_untouched s1 s2 := by
  refine ⟨hnyt, ?_⟩
  rw [hnyt]
  apply node_eq_of_fields
  · have a := h1.nyt_id
    have b := h2.nyt_id
    rw [hnyt, hlen] at b
    omega
  · exact hpar
  · have b := h2.nyt_leaf.1
    rw [hnyt] at b
    rw [b, h1.nyt_leaf.1]
  · have b := h2.nyt_leaf.2
    rw [hnyt] at b
    rw [b, h1.nyt_leaf.2]
  · have b := h2.nyt_w
    rw [hnyt] at b
    rw [b, h1.nyt_w]
  · exact hsym _

end Huffman
namespace Huffman

/-- One iteration of the encoder loop within the limits of the 16-bit `id`
and the 32-bit `weight`: it returns, the invariant holds again, and `update`
left the NYT node alone. -/
theorem encode_symbol_regime (fuel : Nat) (e : enc_state) (pre : List Nat) (b : Nat)
    (hreg : in_regime pre e.tree) (hb : b < 256) (hcard : (pre ++ [b]).toFinset.card ≤ 128)
    (hlen : pre.length + 1 < 2 ^ 32) (hf : 600 ≤ fuel) :
    ∃ e2, encode_symbol fuel e b = some e2 ∧ in_regime (pre ++ [b]) e2.tree ∧
      nyt_untouched (before_update e.tree b) e2.tree := by
  have hinv := hreg.inv
  have hbl : b < e.tree.leaf.length := by rw [hinv.tab_len]; exact hb
  obtain ⟨v, hv⟩ : ∃ v, e.tree.leaf[b]? = some v := ⟨_, List.getElem?_eq_getElem hbl⟩
  cases v with
  | none =>
    have hnew : b ∉ pre := (hreg.seen b hb).1 hv
    have hc := card_snoc_new pre b hnew
    have hsize := hreg.size
    have hN : e.tree.heap.length ≤ 255 := by omega
    have hidn := hinv.id_hi e.tree.nyt hinv.nyt_lt
    obtain ⟨k, p2, hpath, _, _⟩ := get_node_path_ok hinv fuel e.tree.nyt (b * 2 ^ 24 % 2 ^ 32) 0
      hinv.nyt_lt (by omega) (by decide)
    have hsp := nyt_spawn_eq e.tree b hinv.nyt_lt
    have hbu : before_update e.tree b = spawned e.tree b := by
      unfold before_update
      rw [hv]
      simp only
      rw [hsp]
    have hg := node_at_spawned e.tree b hinv.nyt_lt
    have hgn : node_at (spawned e.tree b).heap e.tree.nyt =
        { node_at e.tree.heap e.tree.nyt with
          l_child := some e.tree.heap.length, r_child := some (e.tree.heap.length + 1),
          weight := 1 } := by
      rw [hg, if_neg (by have := hinv.nyt_lt; omega), if_neg (by have := hinv.nyt_lt; omega),
        if_pos rfl]
    have hlt1 : e.tree.nyt < (spawned e.tree b).heap.length := by
      rw [spawned_length]; have := hinv.nyt_lt; omega
    have hsi := spawn_ok hinv hN b
    have hseen : ∀ c, c < 256 →
        ((spawned e.tree b).leaf[c]? = some none ↔ c ∉ pre ++ [b]) := by
      intro c hc
      show (e.tree.leaf.set b (some (e.tree.heap.length + 1)))[c]? = some none ↔ _
      rw [List.getElem?_set]
      by_cases hcb : b = c
      · subst hcb
        simp [hbl]
      · rw [if_neg hcb, hreg.seen c hc]
        have : ¬ c = b := fun h => hcb h.symm
        simp [this]
    have hstep : ∀ t2, update fuel (spawned e.tree b) (node_at e.tree.heap e.tree.nyt).parent
        = some t2 →
        encode_symbol fuel e b = some (enc_state.mk t2
          (write_bits e.sink p2 ((8 + (0 + k) % 65536) % 65536)) p2
          ((e.totalbits + (8 + (0 + k) % 65536) % 65536) % 2 ^ 64)) := by
      intro t2 ht2
      unfold encode_symbol
      rw [hv]
      simp only
      rw [hpath]
      simp only
      rw [hsp]
      simp only
      rw [getElem?_node_at _ _ hlt1]
      simp only
      rw [hgn]
      simp only
      rw [ht2]
    cases hp : (node_at e.tree.heap e.tree.nyt).parent with
    | none =>
      rw [hp] at hsi hstep
      have hroot : e.tree.nyt = e.tree.root := by
        by_contra hne
        obtain ⟨p, _, hpp, _⟩ := hinv.par e.tree.nyt hinv.nyt_lt hne
        rw [hp] at hpp; cases hpp
      refine ⟨_, hstep _ (update_none _ _), ?_, ?_⟩
      · refine ⟨hsi, ?_, ?_, hseen⟩
        · show (node_at (spawned e.tree b).heap e.tree.root).weight = _
          rw [← hroot, hgn]
          have h0 := hreg.root_w
          rw [← hroot, hinv.nyt_w] at h0
          simp [← h0]
        · rw [spawned_length, hc, hsize]; omega
      · rw [hbu]
        exact ⟨rfl, rfl⟩
    | some p =>
      rw [hp] at hsi hstep
      have hne : e.tree.nyt ≠ e.tree.root := by
        intro h
        have := hinv.root_par
        rw [← h, hp] at this; cases this
      have hrw : (node_at (spawned e.tree b).heap e.tree.root).weight = pre.length := by
        rw [hg, if_neg (by have := hinv.root_lt; omega), if_neg (by have := hinv.root_lt; omega),
          if_neg (fun h => hne h.symm)]
        exact hreg.root_w
      have hidp := hsi.id_hi p (hsi.cur_ok p rfl).1
      obtain ⟨s2, hu, hinv2, hleaf, hnyt, hroot, hlen2, hw, hsym, _, hpar, _⟩ :=
        update_ok fuel (spawned e.tree b) p hsi
          (by show (node_at (spawned e.tree b).heap e.tree.root).weight + 1 < 2 ^ 32
              rw [hrw]; exact hlen)
          (by omega)
      refine ⟨_, hstep _ hu, ?_, ?_⟩
      · refine ⟨hinv2, ?_, ?_, ?_⟩
        · show (node_at s2.heap s2.root).weight = _
          rw [hw]
          show (node_at (spawned e.tree b).heap e.tree.root).weight + 1 = _
          rw [hrw]; simp
        · show s2.heap.length = _
          rw [hlen2, spawned_length, hc, hsize]; omega
        · intro c hc2
          show s2.leaf[c]? = some none ↔ _
          rw [hleaf]
          exact hseen c hc2
      · rw [hbu]
        exact nyt_untouched_of_inv hsi hinv2 hnyt hlen2 hpar hsym
  | some lf =>
    have hold : b ∈ pre := by
      by_contra hnot
      have := (hreg.seen b hb).2 hnot
      rw [hv] at this; cases this
    have hc := card_snoc_old pre b hold
    obtain ⟨hlf, hlfn, hll, _, _⟩ := hinv.tab b lf hv
    have hidn := hinv.id_hi lf hlf
    obtain ⟨k, p2, hpath, _, _⟩ := get_node_path_ok hinv fuel lf e.path 0 hlf (by omega) (by decide)
    have hbu : before_update e.tree b = e.tree := by
      unfold before_update
      rw [hv]
    have hs := tree_inv_leaf hinv lf hlf hlfn hll
    obtain ⟨s2, hu, hinv2, hleaf, hnyt, hroot, hlen2, hw, hsym, _, hpar, _⟩ :=
      update_ok fuel e.tree lf hs (by rw [hreg.root_w]; exact hlen) (by omega)
    refine ⟨enc_state.mk s2 (write_bits e.sink p2 ((0 + k) % 65536)) p2
              ((e.totalbits + (0 + k) % 65536) % 2 ^ 64), ?_, ?_, ?_⟩
    · unfold encode_symbol
      rw [hv]
      simp only
      rw [hpath]
      simp only
      rw [hu]
    · refine ⟨hinv2, ?_, ?_, ?_⟩
      · show (node_at s2.heap s2.root).weight = _
        rw [hw, hreg.root_w]; simp
      · show s2.heap.length = _
        rw [hlen2, hc, hreg.size]
      · intro c hc2
        show s2.leaf[c]? = some none ↔ _
        rw [hleaf, hreg.seen c hc2]
        constructor
        · intro h1 h2
          rcases List.mem_append.1 h2 with h3 | h3
          · exact h1 h3
          · rw [List.mem_singleton.1 h3] at h1; exact h1 hold
        · intro h1 h2
          exact h1 (List.mem_append_left _ h2)
    · rw [hbu]
      exact nyt_untouched_of_inv hs hinv2 hnyt hlen2 hpar hsym

end Huffman
namespace Huffman

theorem encode_loop_append (fuel : Nat) : ∀ (a b : List Nat) (e : enc_state),
    encode_loop fuel e (a ++ b) = (encode_loop fuel e a).bind (fun e1 => encode_loop fuel e1 b) := by
  intro a
  induction a with
  | nil => intro b e; rfl
  | cons x a ih =>
    intro b e
    simp only [List.cons_append, encode_loop]
    cases encode_symbol fuel e x with
    | none => rfl
    | some e1 => exact ih b e1

theorem encode_loop_snoc (fuel : Nat) (a : List Nat) (b : Nat) (e e1 : enc_state)
    (h : encode_loop fuel e a = some e1) :
    encode_loop fuel e (a ++ [b]) = encode_symbol fuel e1 b := by
  rw [encode_loop_append, h]
  simp only [Option.some_bind, encode_loop]
  cases encode_symbol fuel e1 b <;> rfl

theorem in_regime_init : in_regime [] enc_init.tree :=
  { inv := tree_inv_init
    root_w := rfl
    size := rfl
    seen := by
      intro b hb
      have : enc_init.tree.leaf = List.replicate 256 none := rfl
      rw [this, List.getElem?_replicate, if_pos hb]
      simp }

/-- The encoder loop within the limits of the 16-bit `id` and the 32-bit
`weight`: it returns and the invariant holds for the tree it leaves. -/
theorem encode_loop_regime (fuel : Nat) (hf : 600 ≤ fuel) : ∀ (rest pre : List Nat) (e : enc_state),
    in_regime pre e.tree → (∀ b ∈ rest, b < 256) → (pre ++ rest).toFinset.card ≤ 128 →
    (pre ++ rest).length < 2 ^ 32 →
    ∃ e2, encode_loop fuel e rest = some e2 ∧ in_regime (pre ++ rest) e2.tree := by
  intro rest
  induction rest with
  | nil =>
    intro pre e hreg _ _ _
    refine ⟨e, rfl, ?_⟩
    rw [List.append_nil]; exact hreg
  | cons b rest ih =>
    intro pre e hreg hb hcard hlen
    have hsplit : pre ++ b :: rest = (pre ++ [b]) ++ rest := by simp
    have hsub : (pre ++ [b]).toFinset ⊆ (pre ++ b :: rest).toFinset := by
      intro x hx
      simp only [List.mem_toFinset, List.mem_append, List.mem_singleton, List.mem_cons] at hx ⊢
      tauto
    have hc1 : (pre ++ [b]).toFinset.card ≤ 128 := le_trans (Finset.card_le_card hsub) hcard
    have hl1 : pre.length + 1 < 2 ^ 32 := by
      simp only [List.length_append, List.length_cons] at hlen
      omega
    obtain ⟨e1, h1, hreg1, _⟩ :=
      encode_symbol_regime fuel e pre b hreg (hb b (List.mem_cons_self _ _)) hc1 hl1 hf
    obtain ⟨e2, h2, hreg2⟩ := ih (pre ++ [b]) e1 hreg1
      (fun c hc => hb c (List.mem_cons_of_mem _ hc)) (by rw [← hsplit]; exact hcard)
      (by rw [← hsplit]; exact hlen)
    refine ⟨e2, ?_, ?_⟩
    · simp only [encode_loop, h1]
      exact h2
    · rw [hsplit]; exact hreg2

/-- Every prefix of an input within the limits is processed, and leaves a tree
that satisfies the invariant. -/
theorem regime_prefix (fuel : Nat) (x : List Nat) (hb : ∀ b ∈ x, b < 256)
    (hd : x.toFinset.card ≤ 128) (hl : x.length < 2 ^ 32) (hf : 600 ≤ fuel) (k : Nat) :
    ∃ e, encode_loop fuel enc_init (x.take k) = some e ∧ in_regime (x.take k) e.tree := by
  have hsub : (x.take k).toFinset ⊆ x.toFinset := by
    intro y hy
    simp only [List.mem_toFinset] at hy ⊢
    exact List.mem_of_mem_take hy
  have := encode_loop_regime fuel hf (x.take k) [] enc_init in_regime_init
    (fun b h => hb b (List.mem_of_mem_take h))
    (by rw [List.nil_append]; exact le_trans (Finset.card_le_card hsub) hd)
    (by rw [List.nil_append, List.length_take]; omega)
  simpa using this

end Huffman
namespace Huffman

theorem keeps_refl (n : huffman_node) : keeps n n := ⟨rfl, rfl, Iff.rfl, Iff.rfl⟩

theorem keeps_trans {a b c : huffman_node} (h1 : keeps a b) (h2 : keeps b c) : keeps a c :=
  ⟨h1.1.trans h2.1, h1.2.1.trans h2.2.1, h1.2.2.1.trans h2.2.2.1, h1.2.2.2.trans h2.2.2.2⟩

theorem modify_node_inv (heap : List huffman_node) (a : Nat) (f : huffman_node → huffman_node)
    (h2 : List huffman_node) (h : modify_node heap a f = some h2) :
    a < heap.length ∧ h2 = heap.set a (f (node_at heap a)) := by
  unfold modify_node at h
  cases h0 : heap[a]? with
  | none => rw [h0] at h; cases h
  | some n =>
    rw [h0] at h
    have ha : a < heap.length := by
      by_contra hc
      rw [List.getElem?_eq_none (by omega)] at h0; cases h0
    rw [node_at_of_getElem? heap a n h0]
    exact ⟨ha, (Option.some.inj h).symm⟩

theorem getElem?_lt (heap : List huffman_node) (a : Nat) (n : huffman_node)
    (h : heap[a]? = some n) : a < heap.length := by
  by_contra hc
  rw [List.getElem?_eq_none (by omega)] at h; cases h

theorem relink_inv (heap : List huffman_node) (a b : Nat) (h1 : List huffman_node)
    (h : relink heap a b = some h1) :
    a < heap.length ∧ ∃ p, (node_at heap a).parent = some p ∧ p < heap.length ∧
      h1 = heap.set p (if (node_at heap p).l_child = some a
        then { node_at heap p with l_child := some b }
        else { node_at heap p with r_child := some b }) := by
  unfold relink at h
  cases h0 : heap[a]? with
  | none => rw [h0] at h; cases h
  | some n =>
    rw [h0] at h
    simp only at h
    have ha := getElem?_lt heap a n h0
    have hn := node_at_of_getElem? heap a n h0
    cases hp : n.parent with
    | none => rw [hp] at h; cases h
    | some p =>
      rw [hp] at h
      simp only at h
      cases hq : heap[p]? with
      | none => rw [hq] at h; cases h
      | some pn =>
        rw [hq] at h
        simp only at h
        have hpl := getElem?_lt heap p pn hq
        have hpn := node_at_of_getElem? heap p pn hq
        refine ⟨ha, p, by rw [hn]; exact hp, hpl, ?_⟩
        rw [hpn]
        split at h
        · next e => rw [if_pos e]; exact (Option.some.inj h).symm
        · next e => rw [if_neg e]; exact (Option.some.inj h).symm

/-- A field assignment through a pointer changes the record of one node. -/
theorem set_pointwise (R : huffman_node → huffman_node → Prop) (hR : ∀ n, R n n)
    (heap : List huffman_node) (i : Nat) (x : huffman_node) (hi : i < heap.length)
    (hx : R x (node_at heap i)) : ∀ a, R (node_at (heap.set i x) a) (node_at heap a) := by
  intro a
  rw [node_at_set _ _ _ _ hi]
  split
  · next e => rw [e]; exact hx
  · exact hR _

end Huffman
namespace Huffman

/-- What `swap_nodes` does whenever it returns, in an arena whose parent links
name internal nodes: weights, symbols and the leaf status of every node are
kept, and the two nodes exchange their parent links. -/
theorem swap_nodes_keeps (heap : List huffman_node) (n1 n2 : Nat) (heap2 : List huffman_node)
    (h : swap_nodes heap n1 n2 = some heap2)
    (hint : ∀ a p, a < heap.length → (node_at heap a).parent = some p →
      (node_at heap p).r_child ≠ none) :
    heap2.length = heap.length ∧ n1 < heap.length ∧ n2 < heap.length ∧
      (∀ a, keeps (node_at heap2 a) (node_at heap a)) ∧
      (∀ a, (node_at heap2 a).parent =
        if a = n2 then (node_at heap n1).parent
        else if a = n1 then (node_at heap n2).parent else (node_at heap a).parent) := by
  let R4 : huffman_node → huffman_node → Prop := fun m n => keeps m n ∧ m.parent = n.parent
  have hR4 : ∀ n, R4 n n := fun n => ⟨keeps_refl n, rfl⟩
  unfold swap_nodes at h
  cases h0 : heap[n1]? with
  | none => rw [h0] at h; cases h
  | some tmp =>
    rw [h0] at h
    simp only at h
    have hn1 := getElem?_lt heap n1 tmp h0
    have htmp := node_at_of_getElem? heap n1 tmp h0
    cases hr1 : relink heap n1 n2 with
    | none => rw [hr1] at h; cases h
    | some h1 =>
      rw [hr1] at h
      simp only at h
      obtain ⟨_, p1, hp1, hp1l, e1⟩ := relink_inv heap n1 n2 h1 hr1
      have hl1 : h1.length = heap.length := by rw [e1, List.length_set]
      have r1 : ∀ a, R4 (node_at h1 a) (node_at heap a) := by
        rw [e1]
        apply set_pointwise R4 hR4 _ _ _ hp1l
        split
        · next e => exact ⟨⟨rfl, rfl, by simp [e], Iff.rfl⟩, rfl⟩
        · exact ⟨⟨rfl, rfl, Iff.rfl, by simp [hint n1 p1 hn1 hp1]⟩, rfl⟩
      cases hr2 : relink h1 n2 n1 with
      | none => rw [hr2] at h; cases h
      | some h2 =>
        rw [hr2] at h
        simp only at h
        obtain ⟨hn2, p2, hp2, hp2l, e2⟩ := relink_inv h1 n2 n1 h2 hr2
        have hl2 : h2.length = heap.length := by rw [e2, List.length_set, hl1]
        have hp2' : (node_at heap n2).parent = some p2 := by rw [← (r1 n2).2]; exact hp2
        have r2 : ∀ a, R4 (node_at h2 a) (node_at h1 a) := by
          rw [e2]
          apply set_pointwise R4 hR4 _ _ _ hp2l
          split
          · next e => exact ⟨⟨rfl, rfl, by simp [e], Iff.rfl⟩, rfl⟩
          · refine ⟨⟨rfl, rfl, Iff.rfl, ?_⟩, rfl⟩
            have hh := hint n2 p2 (by omega) hp2'
            have hk := (r1 p2).1.2.2.2
            simp only [ne_eq, reduceCtorEq, false_iff]
            intro hc
            exact hh (hk.1 hc)
        cases h3 : h2[n2]? with
        | none => rw [h3] at h; cases h
        | some nd2 =>
          rw [h3] at h
          simp only at h
          cases hm3 : modify_node h2 n1 (fun n => { n with id := nd2.id }) with
          | none => rw [hm3] at h; cases h
          | some h3' =>
            rw [hm3] at h
            simp only at h
            obtain ⟨hn1', e3⟩ := modify_node_inv _ _ _ _ hm3
            have hl3 : h3'.length = heap.length := by rw [e3, List.length_set, hl2]
            have r3 : ∀ a, R4 (node_at h3' a) (node_at h2 a) := by
              rw [e3]
              exact set_pointwise R4 hR4 _ _ _ hn1' ⟨⟨rfl, rfl, Iff.rfl, Iff.rfl⟩, rfl⟩
            cases hm4 : modify_node h3' n2 (fun n => { n with id := tmp.id }) with
            | none => rw [hm4] at h; cases h
            | some h4 =>
              rw [hm4] at h
              simp only at h
              obtain ⟨hn2', e4⟩ := modify_node_inv _ _ _ _ hm4
              have hl4 : h4.length = heap.length := by rw [e4, List.length_set, hl3]
              have r4 : ∀ a, R4 (node_at h4 a) (node_at h3' a) := by
                rw [e4]
                exact set_pointwise R4 hR4 _ _ _ hn2' ⟨⟨rfl, rfl, Iff.rfl, Iff.rfl⟩, rfl⟩
              have r : ∀ a, R4 (node_at h4 a) (node_at heap a) := fun a =>
                ⟨keeps_trans (r4 a).1 (keeps_trans (r3 a).1 (keeps_trans (r2 a).1 (r1 a).1)),
                  by rw [(r4 a).2, (r3 a).2, (r2 a).2, (r1 a).2]⟩
              cases h4n : h4[n2]? with
              | none => rw [h4n] at h; cases h
              | some n2b =>
                rw [h4n] at h
                simp only at h
                have hn2b := node_at_of_getElem? h4 n2 n2b h4n
                cases hm5 : modify_node h4 n1 (fun n => { n with parent := n2b.parent }) with
                | none => rw [hm5] at h; cases h
                | some h5 =>
                  rw [hm5] at h
                  simp only at h
                  obtain ⟨hn1'', e5⟩ := modify_node_inv _ _ _ _ hm5
                  obtain ⟨hn2'', e6⟩ := modify_node_inv _ _ _ _ h
                  have hl5 : h5.length = heap.length := by rw [e5, List.length_set, hl4]
                  have g5 : ∀ a, node_at h5 a =
                      if a = n1 then { node_at h4 n1 with parent := n2b.parent }
                      else node_at h4 a := by
                    intro a; rw [e5]; exact node_at_set _ _ _ _ hn1''
                  have g6 : ∀ a, node_at heap2 a =
                      if a = n2 then { node_at h5 n2 with parent := tmp.parent }
                      else node_at h5 a := by
                    intro a; rw [e6]; exact node_at_set _ _ _ _ hn2''
                  refine ⟨by rw [e6, List.length_set, hl5], hn1, by omega, ?_, ?_⟩
                  · intro a
                    rw [g6]
                    split
                    · next e =>
                      rw [e, g5]
                      split
                      · next e' => rw [← e']; exact (r n2).1
                      · exact (r n2).1
                    · rw [g5]
                      split
                      · next e' => rw [e']; exact (r n1).1
                      · exact (r a).1
                  · intro a
                    rw [g6]
                    split
                    · next e => rw [htmp]
                    · rw [g5]
                      split
                      · next e' => rw [← hn2b]; exact (r n2).2
                      · exact (r a).2

end Huffman
namespace Huffman

/-- What a run of `update` does whenever it returns, whatever the tree: the
symbol table, the leaf status of every node and the symbols are kept, the
starting node gains one unit of weight and no other leaf does. -/
theorem update_shape : ∀ (fuel : Nat) (s : huffman_state) (n : Nat) (s2 : huffman_state),
    shape_inv s → n ≠ s.nyt → update fuel s (some n) = some s2 →
    shape_inv s2 ∧ s2.leaf = s.leaf ∧ s2.nyt = s.nyt ∧ s2.root = s.root ∧
      s2.heap.length = s.heap.length ∧
      (∀ a, (node_at s2.heap a).symbol = (node_at s.heap a).symbol) ∧
      (∀ a, (node_at s2.heap a).l_child = none ↔ (node_at s.heap a).l_child = none) ∧
      (∀ a, (node_at s.heap a).l_child = none → (node_at s2.heap a).weight =
        if a = n then ((node_at s.heap a).weight + 1) % 2 ^ 32 else (node_at s.heap a).weight) := by
  intro fuel
  induction fuel with
  | zero => intro s n s2 _ _ h; simp [update] at h
  | succ fuel ih =>
    intro s n s2 hs hnn h
    rw [update] at h
    cases h0 : s.heap[n]? with
    | none => rw [h0] at h; cases h
    | some nd =>
      rw [h0] at h
      simp only at h
      have hn := getElem?_lt s.heap n nd h0
      cases hg : group_highest_id (fuel + 1) s.heap nd.weight (some s.root) with
      | none => rw [hg] at h; cases h
      | some highest =>
        rw [hg] at h
        simp only at h
        have rest : ∀ h1 : List huffman_node, h1.length = s.heap.length →
            (∀ a, keeps (node_at h1 a) (node_at s.heap a)) →
            (∀ a, a < s.heap.length → ∃ a2, a2 < s.heap.length ∧
              (node_at h1 a).parent = (node_at s.heap a2).parent) →
            (match modify_node h1 n (fun m => { m with weight := (m.weight + 1) % 2 ^ 32 }) with
              | none => none
              | some h2 =>
                match h2[n]? with
                | none => none
                | some m => update fuel { s with heap := h2 } m.parent) = some s2 →
            shape_inv s2 ∧ s2.leaf = s.leaf ∧ s2.nyt = s.nyt ∧ s2.root = s.root ∧
              s2.heap.length = s.heap.length ∧
              (∀ a, (node_at s2.heap a).symbol = (node_at s.heap a).symbol) ∧
              (∀ a, (node_at s2.heap a).l_child = none ↔ (node_at s.heap a).l_child = none) ∧
              (∀ a, (node_at s.heap a).l_child = none → (node_at s2.heap a).weight =
                if a = n then ((node_at s.heap a).weight + 1) % 2 ^ 32
                else (node_at s.heap a).weight) := by
          intro h1 hl1 hk1 hp1 h
          cases hm : modify_node h1 n (fun m => { m with weight := (m.weight + 1) % 2 ^ 32 }) with
          | none => rw [hm] at h; cases h
          | some h2 =>
            rw [hm] at h
            simp only at h
            obtain ⟨hn1, e2⟩ := modify_node_inv _ _ _ _ hm
            have hl2 : h2.length = s.heap.length := by rw [e2, List.length_set, hl1]
            have g2 : ∀ a, node_at h2 a =
                if a = n then { node_at h1 n with weight := ((node_at h1 n).weight + 1) % 2 ^ 32 }
                else node_at h1 a := by
              intro a; rw [e2]; exact node_at_set _ _ _ _ hn1
            have hsym : ∀ a, (node_at h2 a).symbol = (node_at s.heap a).symbol := by
              intro a; rw [g2]; split
              · next e => rw [e]; exact (hk1 n).2.1
              · exact (hk1 a).2.1
            have hlc : ∀ a, (node_at h2 a).l_child = none ↔ (node_at s.heap a).l_child = none := by
              intro a; rw [g2]; split
              · next e => rw [e]; exact (hk1 n).2.2.1
              · exact (hk1 a).2.2.1
            have hrc : ∀ a, (node_at h2 a).r_child = none ↔ (node_at s.heap a).r_child = none := by
              intro a; rw [g2]; split
              · next e => rw [e]; exact (hk1 n).2.2.2
              · exact (hk1 a).2.2.2
            have hwt : ∀ a, (node_at h2 a).weight =
                if a = n then ((node_at s.heap a).weight + 1) % 2 ^ 32
                else (node_at s.heap a).weight := by
              intro a; rw [g2]; split
              · next e => rw [e]; simp only; rw [(hk1 n).1]
              · exact (hk1 a).1
            have hpar : ∀ a, (node_at h2 a).parent = (node_at h1 a).parent := by
              intro a; rw [g2]; split
              · next e => rw [e]
              · rfl
            have hs2 : shape_inv { s with heap := h2 } :=
              { nyt_lt := by show s.nyt < h2.length; rw [hl2]; exact hs.nyt_lt
                nyt_leaf := ⟨(hlc _).2 hs.nyt_leaf.1, (hrc _).2 hs.nyt_leaf.2⟩
                nyt_w := by
                  show (node_at h2 s.nyt).weight = 0
                  rw [hwt, if_neg (Ne.symm hnn)]; exact hs.nyt_w
                both := fun a => by
                  show (node_at h2 a).l_child = none ↔ (node_at h2 a).r_child = none
                  rw [hlc, hrc]; exact hs.both a
                par_in := by
                  intro a p ha hp
                  have ha' : a < s.heap.length := by rw [← hl2]; exact ha
                  obtain ⟨a2, ha2, e⟩ := hp1 a ha'
                  have hp' : (node_at s.heap a2).parent = some p := by
                    rw [← e, ← hpar]; exact hp
                  obtain ⟨q1, q2⟩ := hs.par_in a2 p ha2 hp'
                  exact ⟨by show p < h2.length; rw [hl2]; exact q1,
                    fun hc => q2 ((hlc p).1 hc)⟩
                leaves := by
                  intro a ha hl hne
                  show s.leaf[(node_at h2 a).symbol]? = some (some a)
                  rw [hsym]
                  exact hs.leaves a (by rw [← hl2]; exact ha) ((hlc a).1 hl) hne
                tab := by
                  intro b a hb
                  obtain ⟨q1, q2, q3, q4⟩ := hs.tab b a hb
                  exact ⟨by show a < h2.length; rw [hl2]; exact q1, q2, (hlc a).2 q3,
                    by show (node_at h2 a).symbol = b; rw [hsym]; exact q4⟩
                tab_len := hs.tab_len
                size := by show h2.length + _ = 513; rw [hl2]; exact hs.size }
            cases h2n : h2[n]? with
            | none => rw [h2n] at h; cases h
            | some m =>
              rw [h2n] at h
              simp only at h
              have hmn := node_at_of_getElem? h2 n m h2n
              cases hmp : m.parent with
              | none =>
                rw [hmp, update_none] at h
                cases h
                exact ⟨hs2, rfl, rfl, rfl, hl2, hsym, hlc, fun a _ => hwt a⟩
              | some p =>
                rw [hmp] at h
                have hpp : (node_at h2 n).parent = some p := by rw [hmn]; exact hmp
                obtain ⟨q1, q2⟩ := hs2.par_in n p (by show n < h2.length; rw [hl2]; exact hn) hpp
                have hpn : p ≠ s.nyt := by
                  intro e
                  rw [e] at q2
                  exact q2 hs2.nyt_leaf.1
                obtain ⟨r1, r2, r3, r4, r5, r6, r7, r8⟩ := ih { s with heap := h2 } p s2 hs2 hpn h
                refine ⟨r1, r2, r3, r4, by rw [r5]; exact hl2, ?_, ?_, ?_⟩
                · intro a; rw [r6]; exact hsym a
                · intro a; rw [r7]; exact hlc a
                · intro a ha
                  have ha2 : (node_at h2 a).l_child = none := (hlc a).2 ha
                  have hap : a ≠ p := by
                    intro e; rw [e] at ha2; exact q2 ha2
                  rw [r8 a ha2, if_neg hap]
                  exact hwt a

        cases highest with
        | none =>
          simp only at h
          exact rest s.heap rfl (fun a => keeps_refl _) (fun a ha => ⟨a, ha, rfl⟩) h
        | some hh =>
          simp only at h
          by_cases c : hh ≠ n ∧ some hh ≠ nd.parent ∧ hh ≠ s.root
          · rw [if_pos c] at h
            cases hsn : swap_nodes s.heap n hh with
            | none => rw [hsn] at h; cases h
            | some h1 =>
              rw [hsn] at h
              simp only at h
              obtain ⟨k1, k2, k3, k4, k5⟩ := swap_nodes_keeps s.heap n hh h1 hsn
                (fun a p ha hp => by
                  have := (hs.par_in a p ha hp).2
                  intro hc
                  exact this ((hs.both p).2 hc))
              refine rest h1 k1 k4 ?_ h
              intro a ha
              rw [k5]
              split
              · exact ⟨n, k2, rfl⟩
              · split
                · exact ⟨hh, k3, rfl⟩
                · exact ⟨a, ha, rfl⟩
          · rw [if_neg c] at h
            simp only at h
            exact rest s.heap rfl (fun a => keeps_refl _) (fun a ha => ⟨a, ha, rfl⟩) h

end Huffman
namespace Huffman

theorem count_none_set (x : Nat) : ∀ (l : List (Option Nat)) (b : Nat), l[b]? = some none →
    (l.set b (some x)).count none + 1 = l.count none := by
  intro l
  induction l with
  | nil => intro b h; simp at h
  | cons y l ih =>
    intro b h
    cases b with
    | zero =>
      simp only [List.getElem?_cons_zero, Option.some.injEq] at h
      subst h
      simp [List.set]
    | succ b =>
      simp only [List.getElem?_cons_succ] at h
      have := ih b h
      simp only [List.set, List.count_cons]
      omega

/-- The function `nyt_spawn` for a byte without a leaf keeps what holds of
every tree. -/
theorem spawn_shape {s : huffman_state} (hs : shape_inv s) (b : Nat)
    (hv : s.leaf[b]? = some none) : shape_inv (spawned s b) := by
  have hnyt := hs.nyt_lt
  have hg := node_at_spawned s b hnyt
  have hlen := spawned_length s b
  have hbl : b < s.leaf.length := by
    by_contra hc
    rw [List.getElem?_eq_none (by omega)] at hv; cases hv
  have hleaf : (spawned s b).leaf = s.leaf.set b (some (s.heap.length + 1)) := rfl
  have hn2 : (spawned s b).nyt = s.heap.length := rfl
  have gL : node_at (spawned s b).heap s.heap.length =
      { make_node (some s.nyt) with id := ((node_at s.heap s.nyt).id + 65536 - 2) % 65536 } := by
    rw [hg, if_pos rfl]
  have gR : node_at (spawned s b).heap (s.heap.length + 1) =
      { make_node (some s.nyt) with
        id := ((node_at s.heap s.nyt).id + 65536 - 1) % 65536, symbol := b, weight := 1 } := by
    rw [hg, if_neg (by omega), if_pos rfl]
  have gP : node_at (spawned s b).heap s.nyt =
      { node_at s.heap s.nyt with
        l_child := some s.heap.length, r_child := some (s.heap.length + 1), weight := 1 } := by
    rw [hg, if_neg (by omega), if_neg (by omega), if_pos rfl]
  have gO : ∀ a, a ≠ s.heap.length → a ≠ s.heap.length + 1 → a ≠ s.nyt →
      node_at (spawned s b).heap a = node_at s.heap a := by
    intro a h1 h2 h3
    rw [hg, if_neg h1, if_neg h2, if_neg h3]
  have hlc : ∀ p, p < s.heap.length → (node_at s.heap p).l_child ≠ none →
      (node_at (spawned s b).heap p).l_child ≠ none := by
    intro p hp h
    by_cases e : p = s.nyt
    · rw [e, gP]; simp
    · rw [gO p (by omega) (by omega) e]; exact h
  clear hg
  refine
    { nyt_lt := by rw [hn2, hlen]; omega
      nyt_leaf := by rw [hn2, gL]; exact ⟨rfl, rfl⟩
      nyt_w := by rw [hn2, gL]; rfl
      both := ?_, par_in := ?_, leaves := ?_, tab := ?_
      tab_len := by rw [hleaf, List.length_set]; exact hs.tab_len
      size := by
        rw [hlen, hleaf]
        have := count_none_set (s.heap.length + 1) s.leaf b hv
        have := hs.size
        omega }
  · intro a
    by_cases h1 : a = s.heap.length
    · rw [h1, gL]; exact ⟨fun _ => rfl, fun _ => rfl⟩
    · by_cases h2 : a = s.heap.length + 1
      · rw [h2, gR]; exact ⟨fun _ => rfl, fun _ => rfl⟩
      · by_cases h3 : a = s.nyt
        · rw [h3, gP]; simp
        · rw [gO a h1 h2 h3]; exact hs.both a
  · intro a p ha hp
    rw [hlen] at ha ⊢
    by_cases h1 : a = s.heap.length
    · rw [h1, gL] at hp
      cases hp
      refine ⟨by omega, ?_⟩
      rw [gP]; simp
    · by_cases h2 : a = s.heap.length + 1
      · rw [h2, gR] at hp
        cases hp
        refine ⟨by omega, ?_⟩
        rw [gP]; simp
      · have hp' : (node_at s.heap a).parent = some p := by
          by_cases h3 : a = s.nyt
          · rw [h3, gP] at hp; rw [h3]; exact hp
          · rw [gO a h1 h2 h3] at hp; exact hp
        obtain ⟨q1, q2⟩ := hs.par_in a p (by omega) hp'
        exact ⟨by omega, hlc p q1 q2⟩
  · intro a ha hl hne
    rw [hlen] at ha
    rw [hn2] at hne
    rw [hleaf]
    by_cases h2 : a = s.heap.length + 1
    · rw [h2, gR]
      show (s.leaf.set b (some (s.heap.length + 1)))[b]? = _
      rw [List.getElem?_set, if_pos rfl, if_pos hbl]
    · have h3 : a ≠ s.nyt := by
        intro e
        rw [e, gP] at hl
        cases hl
      rw [gO a hne h2 h3] at hl ⊢
      have := hs.leaves a (by omega) hl h3
      have hsb : b ≠ (node_at s.heap a).symbol := by
        intro e
        rw [← e, hv] at this
        cases this
      rw [List.getElem?_set_ne hsb]
      exact this
  · intro c a hca
    rw [hleaf] at hca
    rw [hn2, hlen]
    by_cases hcb : b = c
    · subst hcb
      rw [List.getElem?_set, if_pos rfl, if_pos hbl] at hca
      cases hca
      refine ⟨by omega, by omega, ?_, ?_⟩ <;> rw [gR] <;> rfl
    · rw [List.getElem?_set_ne hcb] at hca
      obtain ⟨q1, q2, q3, q4⟩ := hs.tab c a hca
      rw [gO a (by omega) (by omega) q2]
      exact ⟨by omega, by omega, q3, q4⟩

theorem shape_inv_init : shape_inv huffman_init :=
  { nyt_lt := tree_inv_init.nyt_lt
    nyt_leaf := tree_inv_init.nyt_leaf
    nyt_w := tree_inv_init.nyt_w
    both := fun a => (tree_inv_init.both a).1
    par_in := by
      intro a p _ hp
      rw [node_at_init] at hp
      split at hp <;> cases hp
    leaves := by
      intro a ha _ hne
      have : a = 0 := by
        have : huffman_init.heap.length = 1 := rfl
        omega
      exact absurd this hne
    tab := by
      intro b a hba
      exfalso
      have : huffman_init.leaf = List.replicate 256 none := rfl
      rw [this, List.getElem?_replicate] at hba
      split at hba <;> cases hba
    tab_len := tree_inv_init.tab_len
    size := by
      have e1 : huffman_init.leaf = List.replicate 256 none := rfl
      have e2 : huffman_init.heap.length = 1 := rfl
      rw [e1, e2, List.count_replicate_self] }

end Huffman
namespace Huffman

/-- The count that `get_node_path` returns is the number of parent links up
to the root, as a 16-bit number. -/
theorem get_node_path_depth : ∀ (fuel : Nat) (s : huffman_state) (node path nb r p2 : Nat),
    nb < 65536 → get_node_path fuel s node path nb = some (r, p2) →
    ∃ k, node_depth fuel s node = some k ∧ r = (nb + k) % 65536 := by
  intro fuel
  induction fuel with
  | zero => intro s node path nb r p2 _ h; simp [get_node_path] at h
  | succ fuel ih =>
    intro s node path nb r p2 hnb h
    rw [get_node_path] at h
    by_cases hr : node = s.root
    · rw [if_pos hr] at h
      cases h
      exact ⟨0, by simp [node_depth, hr], by omega⟩
    · rw [if_neg hr] at h
      cases hl : is_l_child s.heap node with
      | none => rw [hl] at h; cases h
      | some lc =>
        rw [hl] at h
        cases hn : s.heap[node]? with
        | none => rw [hn] at h; cases h
        | some n =>
          rw [hn] at h
          simp only at h
          cases hp : n.parent with
          | none => rw [hp] at h; cases h
          | some p =>
            rw [hp] at h
            simp only at h
            obtain ⟨k, hk, hr2⟩ := ih s p _ _ r p2 (Nat.mod_lt _ (by decide)) h
            refine ⟨k + 1, ?_, by omega⟩
            rw [node_depth, if_neg hr, node_at_of_getElem? _ _ _ hn, hp]
            simp only [hk]

theorem node_depth_det (s : huffman_state) : ∀ (f1 f2 a k1 k2 : Nat),
    node_depth f1 s a = some k1 → node_depth f2 s a = some k2 → k1 = k2 := by
  intro f1
  induction f1 with
  | zero => intro f2 a k1 k2 h; simp [node_depth] at h
  | succ f1 ih =>
    intro f2 a k1 k2 h1 h2
    cases f2 with
    | zero => simp [node_depth] at h2
    | succ f2 =>
      rw [node_depth] at h1 h2
      by_cases hr : a = s.root
      · rw [if_pos hr] at h1 h2
        cases h1; cases h2; rfl
      · rw [if_neg hr] at h1 h2
        cases hp : (node_at s.heap a).parent with
        | none => rw [hp] at h1; cases h1
        | some p =>
          rw [hp] at h1 h2
          simp only at h1 h2
          cases d1 : node_depth f1 s p with
          | none => rw [d1] at h1; cases h1
          | some j1 =>
            cases d2 : node_depth f2 s p with
            | none => rw [d2] at h2; cases h2
            | some j2 =>
              rw [d1] at h1; rw [d2] at h2
              cases h1; cases h2
              rw [ih f2 p j1 j2 d1 d2]

/-- The nodes on the way from a node to the root are distinct nodes of the
arena. -/
theorem node_depth_chain (s : huffman_state) : ∀ (f a k : Nat), node_depth f s a = some k →
    ∃ L : List Nat, L.length = k + 1 ∧ L.Nodup ∧
      (∀ x ∈ L, ∃ f2 j, node_depth f2 s x = some j ∧ j ≤ k) ∧
      (∀ x ∈ L, x = s.root ∨ x < s.heap.length) := by
  intro f
  induction f with
  | zero => intro a k h; simp [node_depth] at h
  | succ f ih =>
    intro a k h
    have h0 := h
    rw [node_depth] at h
    by_cases hr : a = s.root
    · rw [if_pos hr] at h
      cases h
      refine ⟨[a], rfl, List.nodup_singleton a, ?_, ?_⟩
      · intro x hx
        rw [List.mem_singleton.1 hx]
        exact ⟨f + 1, 0, h0, le_refl _⟩
      · intro x hx
        rw [List.mem_singleton.1 hx]
        exact Or.inl hr
    · rw [if_neg hr] at h
      cases hp : (node_at s.heap a).parent with
      | none => rw [hp] at h; cases h
      | some p =>
        rw [hp] at h
        simp only at h
        cases d1 : node_depth f s p with
        | none => rw [d1] at h; cases h
        | some j =>
          rw [d1] at h
          cases h
          obtain ⟨L, hL1, hL2, hL3, hL4⟩ := ih p j d1
          have hal : a < s.heap.length := by
            by_contra hc
            rw [node_at_out _ _ (by omega)] at hp
            cases hp
          refine ⟨a :: L, by simp [hL1], List.nodup_cons.2 ⟨?_, hL2⟩, ?_, ?_⟩
          · intro hmem
            obtain ⟨f2, j2, hj, hle⟩ := hL3 a hmem
            have := node_depth_det s _ _ a _ _ h0 hj
            omega
          · intro x hx
            rcases List.mem_cons.1 hx with e | e
            · rw [e]; exact ⟨f + 1, j + 1, h0, le_refl _⟩
            · obtain ⟨f2, j2, hj, hle⟩ := hL3 x e
              exact ⟨f2, j2, hj, by omega⟩
          · intro x hx
            rcases List.mem_cons.1 hx with e | e
            · rw [e]; exact Or.inr hal
            · exact hL4 x e

theorem node_depth_le (s : huffman_state) (f a k : Nat) (h : node_depth f s a = some k) :
    k ≤ s.heap.length := by
  obtain ⟨L, h1, h2, _, h4⟩ := node_depth_chain s f a k h
  have hsub : L.toFinset ⊆ insert s.root (Finset.range s.heap.length) := by
    intro x hx
    rcases h4 x (List.mem_toFinset.1 hx) with e | e
    · rw [e]; exact Finset.mem_insert_self _ _
    · exact Finset.mem_insert_of_mem (Finset.mem_range.2 e)
  have hc := Finset.card_le_card hsub
  rw [List.toFinset_card_of_nodup h2, h1] at hc
  have := Finset.card_insert_le s.root (Finset.range s.heap.length)
  rw [Finset.card_range] at this
  omega

end Huffman
namespace Huffman

theorem count_snoc_self (p : List Nat) (b : Nat) : (p ++ [b]).count b = p.count b + 1 := by
  simp [List.count_append]

theorem count_snoc_ne (p : List Nat) (b c : Nat) (h : b ≠ c) : (p ++ [b]).count c = p.count c := by
  simp [List.count_append, List.count_cons, h]

theorem tally_seen_snoc {p : List Nat} {s : huffman_state} (ht : tally p s) (b : Nat)
    (hb : b ∈ p) (c : Nat) (hc : c < 256) : s.leaf[c]? = some none ↔ c ∉ p ++ [b] := by
  rw [ht.seen c hc]
  constructor
  · intro h1 h2
    rcases List.mem_append.1 h2 with h3 | h3
    · exact h1 h3
    · rw [List.mem_singleton.1 h3] at h1; exact h1 hb
  · intro h1 h2
    exact h1 (List.mem_append_left _ h2)

/-- One iteration of the encoder loop, whenever it returns: what holds of
every tree holds again, the leaf weights count the occurrences, and the bit
count grew by the length of the code, which is the number of bits written. -/
theorem encode_symbol_shape (fuel : Nat) (e : enc_state) (p : List Nat) (b : Nat) (e2 : enc_state)
    (hs : shape_inv e.tree) (ht : tally p e.tree) (h : encode_symbol fuel e b = some e2) :
    shape_inv e2.tree ∧ tally (p ++ [b]) e2.tree ∧ b < 256 ∧
      ∃ d path, code_length fuel e.tree b = some d ∧ d ≤ 521 ∧
        e2.totalbits = (e.totalbits + d) % 2 ^ 64 ∧ e2.sink = write_bits e.sink path d := by
  have hsz := hs.size
  unfold encode_symbol at h
  cases hv : e.tree.leaf[b]? with
  | none => rw [hv] at h; cases h
  | some v =>
    rw [hv] at h
    have hb : b < 256 := by
      rw [← hs.tab_len]
      by_contra hc
      rw [List.getElem?_eq_none (by omega)] at hv; cases hv
    cases v with
    | none =>
      simp only at h
      have hnew : b ∉ p := (ht.seen b hb).1 hv
      cases hpath : get_node_path fuel e.tree e.tree.nyt (b * 2 ^ 24 % 2 ^ 32) 0 with
      | none => rw [hpath] at h; cases h
      | some dp =>
        obtain ⟨d, path⟩ := dp
        rw [hpath] at h
        simp only at h
        rw [nyt_spawn_eq e.tree b hs.nyt_lt] at h
        simp only at h
        have hs1 := spawn_shape hs b hv
        have hlt1 : e.tree.nyt < (spawned e.tree b).heap.length := by
          rw [spawned_length]; have := hs.nyt_lt; omega
        rw [getElem?_node_at _ _ hlt1] at h
        simp only at h
        obtain ⟨k, hk, hd⟩ := get_node_path_depth fuel e.tree _ _ 0 d path (by decide) hpath
        have hkl := node_depth_le e.tree fuel _ k hk
        have hdk : d = k := by omega
        have hg := node_at_spawned e.tree b hs.nyt_lt
        have hleafw : ∀ c a, (spawned e.tree b).leaf[c]? = some (some a) →
            (node_at (spawned e.tree b).heap a).weight = (p ++ [b]).count c % 2 ^ 32 := by
          intro c a hca
          have hleaf : (spawned e.tree b).leaf = e.tree.leaf.set b (some (e.tree.heap.length + 1)) :=
            rfl
          rw [hleaf] at hca
          by_cases hcb : b = c
          · subst hcb
            rw [List.getElem?_set, if_pos rfl, if_pos (by rw [hs.tab_len]; exact hb)] at hca
            cases hca
            rw [hg, if_neg (by omega), if_pos rfl, count_snoc_self,
              List.count_eq_zero_of_not_mem hnew]
            rfl
          · rw [List.getElem?_set_ne hcb] at hca
            obtain ⟨q1, q2, _, _⟩ := hs.tab c a hca
            rw [hg, if_neg (by omega), if_neg (by omega), if_neg q2, count_snoc_ne p b c hcb]
            exact ht.weight c a hca
        have hseen : ∀ c, c < 256 →
            ((spawned e.tree b).leaf[c]? = some none ↔ c ∉ p ++ [b]) := by
          intro c hc
          show (e.tree.leaf.set b (some (e.tree.heap.length + 1)))[c]? = some none ↔ _
          rw [List.getElem?_set]
          by_cases hcb : b = c
          · subst hcb
            simp [hs.tab_len, hb]
          · rw [if_neg hcb, ht.seen c hc]
            have : ¬ c = b := fun h => hcb h.symm
            simp [this]
        have hcl : code_length fuel e.tree b = some (8 + d % 65536) := by
          unfold code_length
          rw [hv]
          simp only
          rw [hk, hdk]
          simp only [Option.map_some']
          congr 1
          omega
        have hfin : ∀ t2, shape_inv t2 → tally (p ++ [b]) t2 →
            some (enc_state.mk t2 (write_bits e.sink path ((8 + d) % 65536)) path
              ((e.totalbits + (8 + d) % 65536) % 2 ^ 64)) = some e2 →
            shape_inv e2.tree ∧ tally (p ++ [b]) e2.tree ∧ b < 256 ∧
              ∃ d path, code_length fuel e.tree b = some d ∧ d ≤ 521 ∧
                e2.totalbits = (e.totalbits + d) % 2 ^ 64 ∧
                e2.sink = write_bits e.sink path d := by
          intro t2 a1 a2 he
          cases he
          refine ⟨a1, a2, hb, 8 + d % 65536, path, hcl, by omega, ?_, ?_⟩
          · show (e.totalbits + (8 + d) % 65536) % 2 ^ 64 = _
            congr 2
            omega
          · show write_bits e.sink path ((8 + d) % 65536) = _
            congr 1
            omega
        cases hp : (node_at (spawned e.tree b).heap e.tree.nyt).parent with
        | none =>
          rw [hp, update_none] at h
          exact hfin _ hs1 ⟨hseen, hleafw⟩ h
        | some q =>
          rw [hp] at h
          cases hu : update fuel (spawned e.tree b) (some q) with
          | none => rw [hu] at h; cases h
          | some t2 =>
            rw [hu] at h
            obtain ⟨q1, q2⟩ := hs1.par_in e.tree.nyt q hlt1 hp
            have hqn : q ≠ (spawned e.tree b).nyt := by
              intro e'
              rw [e'] at q2
              exact q2 hs1.nyt_leaf.1
            obtain ⟨r1, r2, r3, r4, r5, r6, r7, r8⟩ := update_shape fuel _ q t2 hs1 hqn hu
            refine hfin t2 r1 ⟨?_, ?_⟩ h
            · intro c hc
              rw [r2]
              exact hseen c hc
            · intro c a hca
              rw [r2] at hca
              obtain ⟨_, _, t3, _⟩ := hs1.tab c a hca
              have haq : a ≠ q := by
                intro e'
                rw [e'] at t3
                exact q2 t3
              rw [r8 a t3, if_neg haq]
              exact hleafw c a hca
    | some lf =>
      simp only at h
      have hold : b ∈ p := by
        by_contra hnot
        have := (ht.seen b hb).2 hnot
        rw [hv] at this; cases this
      obtain ⟨t1, t2, t3, t4⟩ := hs.tab b lf hv
      cases hpath : get_node_path fuel e.tree lf e.path 0 with
      | none => rw [hpath] at h; cases h
      | some dp =>
        obtain ⟨d, path⟩ := dp
        rw [hpath] at h
        simp only at h
        obtain ⟨k, hk, hd⟩ := get_node_path_depth fuel e.tree _ _ 0 d path (by decide) hpath
        have hkl := node_depth_le e.tree fuel _ k hk
        have hdk : d = k := by omega
        cases hu : update fuel e.tree (some lf) with
        | none => rw [hu] at h; cases h
        | some s2 =>
          rw [hu] at h
          cases h
          obtain ⟨r1, r2, r3, r4, r5, r6, r7, r8⟩ := update_shape fuel _ lf s2 hs t2 hu
          refine ⟨r1, ⟨?_, ?_⟩, hb, d, path, ?_, by omega, rfl, rfl⟩
          · intro c hc
            show s2.leaf[c]? = some none ↔ _
            rw [r2]
            exact tally_seen_snoc ht b hold c hc
          · intro c a hca
            show (node_at s2.heap a).weight = _
            rw [r2] at hca
            obtain ⟨_, _, u3, u4⟩ := hs.tab c a hca
            rw [r8 a u3]
            by_cases hal : a = lf
            · rw [if_pos hal]
              have hcb : c = b := by rw [← u4, hal, t4]
              rw [hcb, count_snoc_self, ht.weight c a hca, hcb]
              omega
            · rw [if_neg hal]
              have hcb : b ≠ c := by
                intro e'
                rw [← e', hv] at hca
                exact hal (Option.some.inj (Option.some.inj hca)).symm
              rw [count_snoc_ne p b c hcb]
              exact ht.weight c a hca
          · unfold code_length
            rw [hv]
            simp only
            rw [hk, hdk]

end Huffman
namespace Huffman

theorem emitted_bits_length (n : Nat) : ∀ v, (emitted_bits v n).length = n := by
  induction n with
  | zero => intro v; rfl
  | succ n ih => intro v; simp [emitted_bits, ih]

theorem sink_holds_write_bits (w : bit_sink) (B : List Nat) (v n : Nat) (h : sink_holds w B) :
    sink_holds (write_bits w v n) (B ++ emitted_bits v n) := by
  rw [write_bits_eq_foldl]
  exact sink_holds_foldl _ (emitted_bits_lt _ _) w B h

theorem tally_init : tally [] huffman_init :=
  { seen := in_regime_init.seen
    weight := by
      intro b a hba
      exfalso
      have : huffman_init.leaf = List.replicate 256 none := rfl
      rw [this, List.getElem?_replicate] at hba
      split at hba <;> cases hba }

/-- The encoder loop, whenever it returns: what holds of every tree holds of
the tree it leaves, the leaf weights count the occurrences, and the bit count
and the number of bits written both grew by the sum of the code lengths. -/
theorem encode_loop_shape (fuel : Nat) : ∀ (rest p : List Nat) (e e2 : enc_state) (B : List Nat),
    shape_inv e.tree → tally p e.tree → sink_holds e.sink B → e.totalbits < 2 ^ 64 →
    encode_loop fuel e rest = some e2 →
    shape_inv e2.tree ∧ tally (p ++ rest) e2.tree ∧ (∀ b ∈ rest, b < 256) ∧
      ∃ total B2, code_bits fuel e rest = some total ∧ total ≤ 521 * rest.length ∧
        e2.totalbits = (e.totalbits + total) % 2 ^ 64 ∧ sink_holds e2.sink B2 ∧
        B2.length = B.length + total := by
  intro rest
  induction rest with
  | nil =>
    intro p e e2 B hs ht hB htb h
    simp only [encode_loop, Option.some.injEq] at h
    subst h
    refine ⟨hs, by rw [List.append_nil]; exact ht, by simp, 0, B, rfl, by simp, ?_, hB, rfl⟩
    rw [Nat.add_zero, Nat.mod_eq_of_lt htb]
  | cons b rest ih =>
    intro p e e2 B hs ht hB htb h
    simp only [encode_loop] at h
    cases h1 : encode_symbol fuel e b with
    | none => rw [h1] at h; cases h
    | some e1 =>
      rw [h1] at h
      simp only at h
      obtain ⟨hs1, ht1, hb, d, path, hd, hd2, htot, hsink⟩ :=
        encode_symbol_shape fuel e p b e1 hs ht h1
      have hB1 : sink_holds e1.sink (B ++ emitted_bits path d) := by
        rw [hsink]; exact sink_holds_write_bits _ _ _ _ hB
      obtain ⟨hs2, ht2, hbs, total, B2, hc, hc2, htot2, hB2, hlen2⟩ :=
        ih (p ++ [b]) e1 e2 _ hs1 ht1 hB1
          (by rw [htot]; exact Nat.mod_lt _ (by decide)) h
      refine ⟨hs2, by simpa using ht2, ?_, d + total, B2, ?_, ?_, ?_, hB2, ?_⟩
      · intro c hc'
        rcases List.mem_cons.1 hc' with e' | e'
        · rw [e']; exact hb
        · exact hbs c e'
      · simp only [code_bits, hd, h1, hc, Option.map_some']
      · simp only [List.length_cons]; omega
      · rw [htot2, htot]
        omega
      · rw [hlen2, List.length_append, emitted_bits_length]
        omega

end Huffman
namespace Huffman

theorem take_succ_getD (x : List Nat) (k : Nat) (hk : k < x.length) :
    x.take (k + 1) = x.take k ++ [x.getD k 0] := by
  rw [List.take_succ, List.getD_eq_getElem?_getD, List.getElem?_eq_getElem hk]
  rfl

/-- Within the limits, the byte at position `k` is processed from the tree
that the `k` bytes before it have built. -/
theorem regime_step (fuel : Nat) (x : List Nat) (hb : ∀ b ∈ x, b < 256)
    (hd : x.toFinset.card ≤ 128) (hl : x.length < 2 ^ 32) (hf : 600 ≤ fuel) (k : Nat)
    (hk : k < x.length) :
    ∃ e1 e2, encode_loop fuel enc_init (x.take k) = some e1 ∧ in_regime (x.take k) e1.tree ∧
      encode_symbol fuel e1 (x.getD k 0) = some e2 ∧
      encode_loop fuel enc_init (x.take (k + 1)) = some e2 ∧
      in_regime (x.take (k + 1)) e2.tree ∧
      nyt_untouched (before_update e1.tree (x.getD k 0)) e2.tree := by
  obtain ⟨e1, h1, hreg1⟩ := regime_prefix fuel x hb hd hl hf k
  have hts := take_succ_getD x k hk
  have hmem : x.getD k 0 ∈ x := by
    rw [List.getD_eq_getElem?_getD, List.getElem?_eq_getElem hk]
    exact List.getElem_mem _
  have hsub : (x.take (k + 1)).toFinset ⊆ x.toFinset := by
    intro y hy
    simp only [List.mem_toFinset] at hy ⊢
    exact List.mem_of_mem_take hy
  obtain ⟨e2, h2, hreg2, hun⟩ := encode_symbol_regime fuel e1 (x.take k) (x.getD k 0) hreg1
    (hb _ hmem) (by rw [← hts]; exact le_trans (Finset.card_le_card hsub) hd)
    (by rw [List.length_take]; omega) hf
  refine ⟨e1, e2, h1, hreg1, h2, ?_, ?_, hun⟩
  · rw [hts, encode_loop_snoc fuel _ _ _ _ h1, h2]
  · rw [hts]; exact hreg2

end Huffman
namespace Huffman

/-- The tree transition of the encoder, whenever it returns, keeps what holds
of every tree. -/
theorem enc_tree_step_shape (fuel : Nat) (s t : huffman_state) (b : Nat)
    (hs : shape_inv s) (h : enc_tree_step fuel s b = some t) : shape_inv t := by
  unfold enc_tree_step at h
  cases hv : s.leaf[b]? with
  | none => rw [hv] at h; cases h
  | some v =>
    rw [hv] at h
    cases v with
    | none =>
      simp only at h
      rw [nyt_spawn_eq s b hs.nyt_lt] at h
      simp only at h
      have hs1 := spawn_shape hs b hv
      have hlt1 : s.nyt < (spawned s b).heap.length := by
        rw [spawned_length]; have := hs.nyt_lt; omega
      rw [getElem?_node_at _ _ hlt1] at h
      simp only at h
      cases hp : (node_at (spawned s b).heap s.nyt).parent with
      | none =>
        rw [hp, update_none] at h
        cases h
        exact hs1
      | some q =>
        rw [hp] at h
        obtain ⟨_, q2⟩ := hs1.par_in s.nyt q hlt1 hp
        have hqn : q ≠ (spawned s b).nyt := by
          intro e'
          rw [e'] at q2
          exact q2 hs1.nyt_leaf.1
        exact (update_shape fuel _ q t hs1 hqn h).1
    | some lf =>
      simp only at h
      obtain ⟨_, t2, _, _⟩ := hs.tab b lf hv
      exact (update_shape fuel _ lf t hs t2 h).1

theorem encode_symbol_tree (fuel : Nat) (e e2 : enc_state) (b : Nat)
    (h : encode_symbol fuel e b = some e2) : enc_tree_step fuel e.tree b = some e2.tree := by
  unfold encode_symbol at h
  unfold enc_tree_step
  cases hv : e.tree.leaf[b]? with
  | none => rw [hv] at h; cases h
  | some v =>
    rw [hv] at h
    cases v with
    | none =>
      simp only at h ⊢
      cases hpath : get_node_path fuel e.tree e.tree.nyt (b * 2 ^ 24 % 2 ^ 32) 0 with
      | none => rw [hpath] at h; cases h
      | some dp =>
        obtain ⟨d, path⟩ := dp
        rw [hpath] at h
        simp only at h
        cases hsp : nyt_spawn e.tree b with
        | none => rw [hsp] at h; cases h
        | some tn =>
          obtain ⟨t1, node⟩ := tn
          rw [hsp] at h
          simp only at h ⊢
          cases hn : t1.heap[node]? with
          | none => rw [hn] at h; cases h
          | some n =>
            rw [hn] at h
            simp only at h ⊢
            cases hu : update fuel t1 n.parent with
            | none => rw [hu] at h; cases h
            | some t2 =>
              rw [hu] at h
              cases h
              rfl
    | some lf =>
      simp only at h ⊢
      cases hpath : get_node_path fuel e.tree lf e.path 0 with
      | none => rw [hpath] at h; cases h
      | some dp =>
        obtain ⟨d, path⟩ := dp
        rw [hpath] at h
        simp only at h
        cases hu : update fuel e.tree (some lf) with
        | none => rw [hu] at h; cases h
        | some t2 =>
          rw [hu] at h
          cases h
          rfl

theorem enc_replay_shape (fuel : Nat) : ∀ (x : List Nat) (s u : huffman_state),
    shape_inv s → enc_replay fuel s x = some u → shape_inv u := by
  intro x
  induction x with
  | nil => intro s u hs h; cases h; exact hs
  | cons b x ih =>
    intro s u hs h
    simp only [enc_replay] at h
    cases ht : enc_tree_step fuel s b with
    | none => rw [ht] at h; cases h
    | some t =>
      rw [ht] at h
      exact ih t u (enc_tree_step_shape fuel s t b hs ht) h

/-- In a tree of the coder the transition of the decoder at the NYT node, for
a byte without a leaf, is the transition of the encoder for the byte. -/
theorem dec_step_at_nyt (fuel : Nat) (s : huffman_state) (b : Nat)
    (hv : s.leaf[b]? = some none) :
    dec_tree_step fuel s s.nyt b = (enc_tree_step fuel s b).map (fun t => (t, b)) := by
  unfold dec_tree_step enc_tree_step
  rw [if_pos rfl, hv]
  simp only
  cases nyt_spawn s b with
  | none => rfl
  | some tn =>
    obtain ⟨t1, node⟩ := tn
    simp only
    cases t1.heap[node]? with
    | none => rfl
    | some n => rfl

/-- In a tree of the coder the transition of the decoder at a node other than
the NYT node returns only at a leaf, the leaf that the symbol table records for
the byte written, and is the transition of the encoder for that byte. -/
theorem dec_step_at_leaf (fuel : Nat) (s : huffman_state) (hs : shape_inv s) (node literal : Nat)
    (hne : node ≠ s.nyt) (t : huffman_state) (b : Nat)
    (h : dec_tree_step fuel s node literal = some (t, b)) :
    s.leaf[b]? = some (some node) ∧ enc_tree_step fuel s b = some t := by
  unfold dec_tree_step at h
  rw [if_neg hne] at h
  cases hn : s.heap[node]? with
  | none => rw [hn] at h; cases h
  | some n =>
    rw [hn] at h
    simp only at h
    by_cases hl : is_leaf n = true
    · rw [if_pos hl] at h
      cases hu : update fuel s (some node) with
      | none => rw [hu] at h; cases h
      | some t2 =>
        rw [hu] at h
        simp only [Option.map_some', Option.some.injEq, Prod.mk.injEq] at h
        obtain ⟨h1, h2⟩ := h
        have hnl := getElem?_lt s.heap node n hn
        have hnn := node_at_of_getElem? s.heap node n hn
        have hlc : (node_at s.heap node).l_child = none := by
          rw [hnn]
          simp only [is_leaf, Bool.and_eq_true, Option.isNone_iff_eq_none] at hl
          exact hl.1
        have htab := hs.leaves node hnl hlc hne
        rw [hnn, h2] at htab
        refine ⟨htab, ?_⟩
        unfold enc_tree_step
        rw [htab]
        simp only
        rw [hu, h1]
    · rw [if_neg hl] at h
      cases h

end Huffman
namespace Huffman

theorem id_le_of_in_subtree {s : huffman_state} {cur : Option Nat} (hinv : tree_inv s cur)
    (y x : Nat) (hx : x < s.heap.length) (h : in_subtree s.heap y x) :
    x = y ∨ (node_at s.heap x).id < (node_at s.heap y).id := by
  induction h with
  | self => exact Or.inl rfl
  | step x p hp _ ih =>
    have hxr : x ≠ s.root := by
      intro e; rw [e, hinv.root_par] at hp; cases hp
    obtain ⟨p2, hp2, hpar, _⟩ := hinv.par x hx hxr
    rw [hp] at hpar
    cases hpar
    have := hinv.id_par x p hx hp
    rcases ih hp2 with e | e
    · right; rw [← e]; exact this
    · right; omega

end Huffman
namespace Huffman

end Huffman
namespace Huffman

theorem group_highest_id_mono (heap : List huffman_node) (w : Nat) :
    ∀ (f f2 : Nat) (node r : Option Nat), group_highest_id f heap w node = some r → f ≤ f2 →
      group_highest_id f2 heap w node = some r := by
  intro f
  induction f with
  | zero =>
    intro f2 node r h _
    cases node with
    | none =>
      simp only [group_highest_id] at h
      cases f2 <;> simpa [group_highest_id] using h
    | some a => simp [group_highest_id] at h
  | succ f ih =>
    intro f2 node r h hle
    cases node with
    | none =>
      simp only [group_highest_id] at h
      cases f2 <;> simpa [group_highest_id] using h
    | some a =>
      cases f2 with
      | zero => omega
      | succ f2 =>
        rw [group_highest_id] at h ⊢
        cases hn : heap[a]? with
        | none => rw [hn] at h; cases h
        | some n =>
          rw [hn] at h
          simp only at h ⊢
          by_cases hlt : n.weight < w
          · rw [if_pos hlt] at h ⊢
            exact h
          · rw [if_neg hlt] at h ⊢
            cases hl : group_highest_id f heap w n.l_child with
            | none => rw [hl] at h; cases h
            | some lh =>
              rw [hl] at h
              simp only at h
              rw [ih f2 _ _ hl (by omega)]
              simp only
              cases hr : group_highest_id f heap w n.r_child with
              | none => rw [hr] at h; cases h
              | some rh =>
                rw [hr] at h
                simp only at h
                rw [ih f2 _ _ hr (by omega)]
                exact h

/-- A run of `update` that returns with some fuel returns the same tree with
more fuel. -/
theorem update_mono : ∀ (f f2 : Nat) (s : huffman_state) (n : Option Nat) (t : huffman_state),
    update f s n = some t → f ≤ f2 → update f2 s n = some t := by
  intro f
  induction f with
  | zero =>
    intro f2 s n t h _
    cases n with
    | none => rw [update_none] at h ⊢; exact h
    | some a => simp [update] at h
  | succ f ih =>
    intro f2 s n t h hle
    cases n with
    | none => rw [update_none] at h ⊢; exact h
    | some a =>
      cases f2 with
      | zero => omega
      | succ f2 =>
        rw [update] at h ⊢
        cases hn : s.heap[a]? with
        | none => rw [hn] at h; cases h
        | some nd =>
          rw [hn] at h
          simp only at h ⊢
          cases hg : group_highest_id (f + 1) s.heap nd.weight (some s.root) with
          | none => rw [hg] at h; cases h
          | some highest =>
            rw [hg] at h
            simp only at h
            rw [group_highest_id_mono s.heap nd.weight (f + 1) (f2 + 1) _ _ hg (by omega)]
            simp only
            have tail : ∀ h1 : List huffman_node,
                (match modify_node h1 a (fun m => { m with weight := (m.weight + 1) % 2 ^ 32 }) with
                  | none => none
                  | some h2 =>
                    match h2[a]? with
                    | none => none
                    | some m => update f { s with heap := h2 } m.parent) = some t →
                (match modify_node h1 a (fun m => { m with weight := (m.weight + 1) % 2 ^ 32 }) with
                  | none => none
                  | some h2 =>
                    match h2[a]? with
                    | none => none
                    | some m => update f2 { s with heap := h2 } m.parent) = some t := by
              intro h1 h
              cases hm : modify_node h1 a (fun m => { m with weight := (m.weight + 1) % 2 ^ 32 }) with
              | none => rw [hm] at h; cases h
              | some h2 =>
                rw [hm] at h
                simp only at h ⊢
                cases h2n : h2[a]? with
                | none => rw [h2n] at h; cases h
                | some m =>
                  rw [h2n] at h
                  simp only at h ⊢
                  exact ih f2 _ _ _ h (by omega)
            cases highest with
            | none =>
              simp only at h ⊢
              exact tail _ h
            | some hh =>
              simp only at h ⊢
              by_cases c : hh ≠ a ∧ some hh ≠ nd.parent ∧ hh ≠ s.root
              · rw [if_pos c] at h ⊢
                cases hsn : swap_nodes s.heap a hh with
                | none => rw [hsn] at h; cases h
                | some h1 =>
                  rw [hsn] at h
                  simp only at h ⊢
                  exact tail _ h
              · rw [if_neg c] at h ⊢
                simp only at h ⊢
                exact tail _ h

end Huffman
namespace Huffman

theorem range32 : List.range 32 = [0, 1, 2, 3, 4, 5, 6, 7, 8, 9, 10, 11, 12, 13, 14, 15, 16, 17,
    18, 19, 20, 21, 22, 23, 24, 25, 26, 27, 28, 29, 30, 31] := by decide

theorem word_bits_shift (path c : Nat) (hp : path < 2 ^ 32) (hc : c < 2) :
    word_bits (path / 2 + c * 2 ^ 31) = c :: (word_bits path).take 31 := by
  unfold word_bits msb_bits
  rw [range32]
  simp only [List.map_cons, List.map_nil, List.take_succ_cons, List.take_zero, List.cons.injEq,
    and_true]
  norm_num
  omega

end Huffman

namespace Huffman

theorem lor_top (p : Nat) (hp : p < 2 ^ 31) : p ||| 2 ^ 31 = p + 1 * 2 ^ 31 := by
  have := Nat.mul_add_lt_is_or hp 1
  rw [Nat.lor_comm, Nat.mul_one] at this
  rw [← this]
  omega

theorem take_cons_take (m k c : Nat) (W : List Nat) (h : m ≤ k + 1) :
    (c :: W.take k).take m = (c :: W).take m := by
  cases m with
  | zero => rfl
  | succ m =>
    simp only [List.take_succ_cons, List.take_take]
    rw [Nat.min_eq_left (by omega)]

/-- The word that `get_node_path` leaves: the decisions from the root to the
node, most significant bit first, followed by the previous contents, cut to 32
bits; the count is the number of decisions as a 16-bit number. -/
theorem path_word : ∀ (fuel : Nat) (s : huffman_state) (node path nb r p2 : Nat),
    path < 2 ^ 32 → nb < 65536 → get_node_path fuel s node path nb = some (r, p2) →
    ∃ R, route fuel s node = some R ∧ r = (nb + R.length) % 65536 ∧ p2 < 2 ^ 32 ∧
      word_bits p2 = (R ++ word_bits path).take 32 := by
  intro fuel
  induction fuel with
  | zero => intro s node path nb r p2 _ _ h; simp [get_node_path] at h
  | succ fuel ih =>
    intro s node path nb r p2 hp hnb h
    rw [get_node_path] at h
    by_cases hr : node = s.root
    · rw [if_pos hr] at h
      cases h
      refine ⟨[], by simp [route, hr], by simp; omega, hp, ?_⟩
      simp [word_bits, msb_bits]
    · rw [if_neg hr] at h
      cases hl : is_l_child s.heap node with
      | none => rw [hl] at h; cases h
      | some lc =>
        rw [hl] at h
        cases hn : s.heap[node]? with
        | none => rw [hn] at h; cases h
        | some n =>
          rw [hn] at h
          simp only at h
          cases hpar : n.parent with
          | none => rw [hpar] at h; cases h
          | some p =>
            rw [hpar] at h
            simp only at h
            have hlt : path / 2 < 2 ^ 31 := by omega
            have hw : (if lc = true then path / 2 else path / 2 ||| 2 ^ 31) =
                path / 2 + (if lc = true then 0 else 1) * 2 ^ 31 := by
              cases lc
              · simp only [Bool.false_eq_true, if_false]
                exact lor_top _ hlt
              · simp
            rw [hw] at h
            have hc : (if lc = true then 0 else 1) < 2 := by split <;> decide
            have hp' : path / 2 + (if lc = true then 0 else 1) * 2 ^ 31 < 2 ^ 32 := by
              split <;> omega
            obtain ⟨R, hR, hr2, hp2, hwb⟩ := ih s p _ _ r p2 hp' (Nat.mod_lt _ (by decide)) h
            refine ⟨R ++ [if lc = true then 0 else 1], ?_, ?_, hp2, ?_⟩
            · rw [route, if_neg hr, hl, node_at_of_getElem? _ _ _ hn, hpar]
              simp only [hR]
            · rw [hr2, List.length_append, List.length_singleton]
              omega
            · rw [hwb, word_bits_shift path _ hp hc, List.append_assoc, List.singleton_append]
              have hlen : (word_bits path).length = 32 := by simp [word_bits, msb_bits]
              rw [List.take_append_eq_append_take, List.take_append_eq_append_take]
              congr 1
              exact take_cons_take _ 31 _ _ (by omega)

end Huffman
namespace Huffman

theorem read_bit_src (F : List Nat) (hF : ∀ b ∈ F, b < 256) (i : Nat) (hi : i / 8 < F.length) :
    read_bit (src_at F i) = (nth_bit F i, src_at F (i + 1)) := by
  have hget : F.getD (i / 8) 0 = F[i / 8] := by
    rw [List.getD_eq_getElem?_getD, List.getElem?_eq_getElem hi]; rfl
  have hb : F.getD (i / 8) 0 < 256 := by
    rw [hget]; exact hF _ (List.getElem_mem _)
  have hj : i % 8 < 8 := Nat.mod_lt _ (by decide)
  have hq1 : (i + 1) % 8 ≠ 0 → (i + 1) / 8 = i / 8 := by omega
  by_cases h0 : i % 8 = 0
  · have e1 : (i + 7) / 8 = i / 8 := by omega
    have e2 : (i + 1 + 7) / 8 = i / 8 + 1 := by omega
    have e3 : (i + 1) % 8 = 1 := by omega
    have e4 : (i + 1) / 8 = i / 8 := by omega
    have hfile : F.drop (i / 8) = F.getD (i / 8) 0 :: F.drop (i / 8 + 1) := by
      rw [hget]; exact List.drop_eq_getElem_cons hi
    unfold read_bit src_at nth_bit bit_of
    simp only [h0, e1, e2, e3, e4, hfile, if_true, and_self]
    generalize F.getD (i / 8) 0 = b at hb
    refine Prod.ext ?_ ?_
    · simp only; norm_num
    · simp only [bit_source.mk.injEq]
      norm_num
  · have e1 : (i + 1 + 7) / 8 = (i + 7) / 8 := by omega
    unfold read_bit src_at nth_bit bit_of
    have hbb : ¬ ((8 - i % 8) % 8 = 0 ∧ false = false) := by
      intro h; omega
    simp only [h0, e1, if_false, hbb]
    by_cases h7 : i % 8 = 7
    · have e3 : (i + 1) % 8 = 0 := by omega
      simp only [e3, h7, if_true]
      generalize F.getD (i / 8) 0 = b at hb
      refine Prod.ext ?_ ?_
      · simp only; norm_num; omega
      · simp only [bit_source.mk.injEq]
        norm_num; omega
    · have e3 : (i + 1) % 8 = i % 8 + 1 := by omega
      have e4 : (i + 1) / 8 = i / 8 := by omega
      have e5 : ¬ (i % 8 + 1 = 0) := by omega
      simp only [e3, e4, e5, if_false]
      generalize F.getD (i / 8) 0 = b at hb
      generalize i % 8 = j at hj h0 h7
      refine Prod.ext ?_ ?_
      · simp only
        interval_cases j <;> norm_num <;> omega
      · simp only [bit_source.mk.injEq]
        interval_cases j <;> norm_num <;> omega

end Huffman
namespace Huffman

theorem route_nodes {s : huffman_state} {cur : Option Nat} (hinv : tree_inv s cur) :
    ∀ (fuel node : Nat) (R : List Nat), node < s.heap.length → route fuel s node = some R →
      ∃ L : List Nat, L.Nodup ∧ L.length = 2 * R.length + 1 ∧ (∀ z ∈ L, z < s.heap.length) ∧
        (∀ z ∈ L, z ≠ node → ¬ in_subtree s.heap node z) := by
  intro fuel
  induction fuel with
  | zero => intro node R _ h; simp [route] at h
  | succ fuel ih =>
    intro node R hn h
    rw [route] at h
    by_cases hr : node = s.root
    · rw [if_pos hr] at h
      cases h
      exact ⟨[node], by simp, by simp, by simpa using hn, by simp⟩
    · rw [if_neg hr] at h
      obtain ⟨p, hp, hpp, hch⟩ := hinv.par node hn hr
      have hlc : ∃ lc, is_l_child s.heap node = some lc := by
        simp only [is_l_child, getElem?_node_at s.heap node hn, hpp, getElem?_node_at s.heap p hp]
        exact ⟨_, rfl⟩
      obtain ⟨lc, hlc⟩ := hlc
      rw [hlc, hpp] at h
      simp only at h
      cases hR : route fuel s p with
      | none => rw [hR] at h; cases h
      | some R1 =>
        rw [hR] at h
        simp only [Option.some.injEq] at h
        obtain ⟨L, hnd, hlen, hlt, hsub⟩ := ih p R1 hp hR
        have hid := hinv.id_par node p hn hpp
        have hsib : ∃ sib, is_child s.heap p sib ∧ sib ≠ node := by
          have hb := hinv.both p
          rcases hch with hl | hrc
          · cases hrr : (node_at s.heap p).r_child with
            | none => rw [hb.1.2 hrr] at hl; cases hl
            | some r =>
              refine ⟨r, Or.inr hrr, ?_⟩
              intro e
              have := hb.2 (by rw [hl]; simp)
              rw [hl, hrr, e] at this
              exact this rfl
          · cases hll : (node_at s.heap p).l_child with
            | none => rw [hb.1.1 hll] at hrc; cases hrc
            | some l =>
              refine ⟨l, Or.inl hll, ?_⟩
              intro e
              have := hb.2 (by rw [hll]; simp)
              rw [hll, hrc, e] at this
              exact this rfl
        obtain ⟨sib, hsc, hsn⟩ := hsib
        obtain ⟨hsl, hsp⟩ := hinv.kids p sib hp hsc
        have not_up : ∀ c, c < s.heap.length → (node_at s.heap c).parent = some p →
            ¬ in_subtree s.heap c p := by
          intro c hc hcp hin
          have hcid := hinv.id_par c p hc hcp
          rcases id_le_of_in_subtree hinv c p hp hin with e | e
          · rw [e] at hcid; omega
          · omega
        have notin : ∀ c, c < s.heap.length → (node_at s.heap c).parent = some p → c ∉ L := by
          intro c hc hcp hmem
          have hcid := hinv.id_par c p hc hcp
          have hne : c ≠ p := by intro e; rw [e] at hcid; omega
          exact hsub c hmem hne (in_subtree.step c p hcp in_subtree.self)
        refine ⟨node :: sib :: L, ?_, ?_, ?_, ?_⟩
        · rw [List.nodup_cons, List.nodup_cons]
          refine ⟨?_, notin sib hsl hsp, hnd⟩
          intro hm
          rcases List.mem_cons.1 hm with e | e
          · exact hsn e.symm
          · exact notin node hn hpp e
        · rw [← h]
          simp only [List.length_cons, List.length_append, List.length_nil, hlen]
          omega
        · intro z hz
          rcases List.mem_cons.1 hz with e | hz
          · rw [e]; exact hn
          rcases List.mem_cons.1 hz with e | hz
          · rw [e]; exact hsl
          · exact hlt z hz
        · intro z hz hzn hin
          rcases List.mem_cons.1 hz with e | hz
          · exact hzn e
          rcases List.mem_cons.1 hz with e | hz
          · rw [e] at hin
            cases hin with
            | self => exact hsn rfl
            | step _ q hq hin2 =>
              rw [hsp] at hq; cases hq
              exact not_up node hn hpp hin2
          · by_cases hzp : z = p
            · rw [hzp] at hin; exact not_up node hn hpp hin
            · exact hsub z hz hzp (in_subtree_trans s.heap p node z hpp hin)

/-- A node at depth `d` of the tree has `d` ancestors and `d` further nodes,
the siblings along its path. -/
theorem route_depth {s : huffman_state} {cur : Option Nat} (hinv : tree_inv s cur)
    (fuel node : Nat) (R : List Nat) (hn : node < s.heap.length)
    (h : route fuel s node = some R) : 2 * R.length + 1 ≤ s.heap.length := by
  obtain ⟨L, hnd, hlen, hlt, _⟩ := route_nodes hinv fuel node R hn h
  have hsub : L ⊆ List.range s.heap.length := fun z hz => List.mem_range.2 (hlt z hz)
  have := (hnd.subperm hsub).length_le
  rw [List.length_range] at this
  omega

theorem msb_take (v n : Nat) (hn : n ≤ 32) : msb_bits v n = (word_bits v).take n := by
  unfold word_bits msb_bits
  rw [← List.map_take, List.take_range, Nat.min_eq_left hn]

theorem word_bits_literal (b : Nat) (hb : b < 256) :
    word_bits (b * 2 ^ 24 % 2 ^ 32) = byte_bits b ++ List.replicate 24 0 := by
  unfold word_bits msb_bits byte_bits
  rw [range32]
  simp only [List.map_cons, List.map_nil, List.replicate, List.cons_append, List.nil_append,
    List.cons.injEq, and_true]
  norm_num
  omega

end Huffman
namespace Huffman

theorem enc_tree_step_mono (f f2 : Nat) (s t : huffman_state) (b : Nat)
    (h : enc_tree_step f s b = some t) (hf : f ≤ f2) : enc_tree_step f2 s b = some t := by
  unfold enc_tree_step at h ⊢
  cases hv : s.leaf[b]? with
  | none => rw [hv] at h; cases h
  | some v =>
    rw [hv] at h
    cases v with
    | none =>
      simp only at h ⊢
      cases hsp : nyt_spawn s b with
      | none => rw [hsp] at h; cases h
      | some tn =>
        obtain ⟨t1, node⟩ := tn
        rw [hsp] at h
        simp only at h ⊢
        cases hg : t1.heap[node]? with
        | none => rw [hg] at h; cases h
        | some n =>
          rw [hg] at h
          simp only at h ⊢
          exact update_mono f f2 t1 n.parent t h hf
    | some lf =>
      simp only at h ⊢
      exact update_mono f f2 s (some lf) t h hf

theorem decode_loop_internal (tb fuel : Nat) (d : dec_state) (node : Nat) (n : huffman_node)
    (hrb : d.readbits ≤ tb) (hnode : d.node = some node) (hnyt : node ≠ d.tree.nyt)
    (hget : d.tree.heap[node]? = some n) (hleaf : is_leaf n = false) :
    decode_loop tb (fuel + 1) d =
      decode_loop tb fuel (dec_state.mk d.tree (read_bit d.src).2
        (if (read_bit d.src).1 ≠ 0 then n.r_child else n.l_child)
        ((d.readbits + 1) % 2 ^ 64) d.out) := by
  rw [decode_loop, if_pos hrb, hnode]
  simp only [if_neg hnyt, hget, hleaf, Bool.false_eq_true, if_false]

theorem decode_loop_at_leaf (tb fuel : Nat) (d : dec_state) (lf b : Nat) (n : huffman_node)
    (t2 : huffman_state)
    (hrb : d.readbits ≤ tb) (hnode : d.node = some lf) (hnyt : lf ≠ d.tree.nyt)
    (hget : d.tree.heap[lf]? = some n) (hleaf : is_leaf n = true) (hsym : n.symbol = b)
    (hv : d.tree.leaf[b]? = some (some lf))
    (hstep : enc_tree_step (fuel + 1) d.tree b = some t2) :
    decode_loop tb (fuel + 1) d =
      decode_loop tb fuel (dec_state.mk t2 d.src (some t2.root) d.readbits (d.out ++ [b])) := by
  unfold enc_tree_step at hstep
  rw [hv] at hstep
  simp only at hstep
  rw [decode_loop, if_pos hrb, hnode]
  simp only [if_neg hnyt, hget, hleaf, if_true, hstep, hsym]

theorem decode_loop_at_nyt (tb fuel : Nat) (d : dec_state) (b : Nat) (src1 : bit_source)
    (t2 : huffman_state)
    (hrb : d.readbits ≤ tb) (hnode : d.node = some d.tree.nyt)
    (hv : d.tree.leaf[b]? = some none) (hread : read_symbol d.src = (b, src1))
    (hstep : enc_tree_step (fuel + 1) d.tree b = some t2) :
    decode_loop tb (fuel + 1) d =
      decode_loop tb fuel (dec_state.mk t2 src1 (some t2.root) ((d.readbits + 8) % 2 ^ 64)
        (d.out ++ [b])) := by
  unfold enc_tree_step at hstep
  rw [hv] at hstep
  simp only at hstep
  rw [decode_loop, if_pos hrb, hnode]
  simp only [if_true, hread]
  cases hsp : nyt_spawn d.tree b with
  | none => rw [hsp] at hstep; cases hstep
  | some tn =>
    obtain ⟨t1, node⟩ := tn
    rw [hsp] at hstep
    simp only at hstep ⊢
    cases hg : t1.heap[node]? with
    | none => rw [hg] at hstep; cases hstep
    | some n =>
      rw [hg] at hstep
      simp only at hstep ⊢
      rw [hstep]

end Huffman
namespace Huffman

theorem route_walk {s : huffman_state} {cur : Option Nat} (hinv : tree_inv s cur) (tb : Nat)
    (F : List Nat) (hF : ∀ b ∈ F, b < 256) (htb : tb + 1 < 2 ^ 64) (hlen : tb / 8 < F.length) :
    ∀ (fuel node : Nat) (R : List Nat), node < s.heap.length → route fuel s node = some R →
      ∀ (i dfuel : Nat) (out : List Nat), i + R.length ≤ tb →
        (∀ j, j < R.length → nth_bit F (i + j) = R.getD j 0) →
        decode_loop tb (dfuel + R.length) (dec_state.mk s (src_at F i) (some s.root) i out) =
          decode_loop tb dfuel
            (dec_state.mk s (src_at F (i + R.length)) (some node) (i + R.length) out) := by
  intro fuel
  induction fuel with
  | zero => intro node R _ h; simp [route] at h
  | succ fuel ih =>
    intro node R hn h i dfuel out hi hbits
    rw [route] at h
    by_cases hr : node = s.root
    · rw [if_pos hr] at h
      cases h
      rw [hr]; rfl
    · rw [if_neg hr] at h
      obtain ⟨p, hp, hpp, hch⟩ := hinv.par node hn hr
      have hlc : is_l_child s.heap node = some (decide ((node_at s.heap p).l_child = some node)) := by
        simp only [is_l_child, getElem?_node_at s.heap node hn, hpp, getElem?_node_at s.heap p hp]
      rw [hlc, hpp] at h
      simp only at h
      cases hR : route fuel s p with
      | none => rw [hR] at h; cases h
      | some R1 =>
        rw [hR] at h
        simp only [Option.some.injEq] at h
        have hRl : R.length = R1.length + 1 := by rw [← h]; simp
        have hb1 : ∀ j, j < R1.length → nth_bit F (i + j) = R1.getD j 0 := by
          intro j hj
          rw [hbits j (by omega), ← h, List.getD_append _ _ _ _ hj]
        have hlast := hbits R1.length (by omega)
        rw [← h, List.getD_append_right _ _ _ _ (le_refl _), Nat.sub_self] at hlast
        have e1 : dfuel + R.length = (dfuel + 1) + R1.length := by omega
        rw [e1, ih p R1 hp hR i (dfuel + 1) out (by omega) hb1]
        have hpn : p ≠ s.nyt := by
          intro e
          rw [e] at hch
          rcases hch with hc | hc
          · rw [hinv.nyt_leaf.1] at hc; cases hc
          · rw [hinv.nyt_leaf.2] at hc; cases hc
        have hpl : is_leaf (node_at s.heap p) = false := by
          unfold is_leaf
          rcases hch with hc | hc
          · rw [hc]; rfl
          · rw [hc]; simp
        rw [decode_loop_internal tb dfuel _ p (node_at s.heap p) (by show i + R1.length ≤ tb; omega)
          rfl hpn (getElem?_node_at s.heap p hp) hpl]
        have hrd := read_bit_src F hF (i + R1.length) (by
          have : (i + R1.length) / 8 ≤ tb / 8 := Nat.div_le_div_right (by omega)
          omega)
        simp only [hrd, hlast]
        have e2 : i + R1.length + 1 = i + R.length := by omega
        have e3 : (i + R1.length + 1) % 2 ^ 64 = i + R.length := by
          rw [e2]; exact Nat.mod_eq_of_lt (by omega)
        rw [e3, e2]
        congr 2
        by_cases hl : (node_at s.heap p).l_child = some node
        · simp [hl]
        · rcases hch with hc | hc
          · exact absurd hc hl
          · simp [hl, hc]

set_option maxRecDepth 1000000 in
theorem byte_of_bits : ∀ b, b < 256 →
    ((((((((0 ||| b / 128 % 2) * 2 % 256 ||| b / 64 % 2) * 2 % 256 ||| b / 32 % 2) * 2 % 256 |||
      b / 16 % 2) * 2 % 256 ||| b / 8 % 2) * 2 % 256 ||| b / 4 % 2) * 2 % 256 |||
      b / 2 % 2) * 2 % 256 ||| b % 2) = b := by
  decide!

theorem read_symbol_src (F : List Nat) (hF : ∀ b ∈ F, b < 256) (i b : Nat) (hb : b < 256)
    (hi : (i + 7) / 8 < F.length)
    (hbits : ∀ j, j < 8 → nth_bit F (i + j) = (byte_bits b).getD j 0) :
    read_symbol (src_at F i) = (b, src_at F (i + 8)) := by
  have h0 := read_bit_src F hF i (by omega)
  have h1 := read_bit_src F hF (i + 1) (by omega)
  have h2 := read_bit_src F hF (i + 1 + 1) (by omega)
  have h3 := read_bit_src F hF (i + 1 + 1 + 1) (by omega)
  have h4 := read_bit_src F hF (i + 1 + 1 + 1 + 1) (by omega)
  have h5 := read_bit_src F hF (i + 1 + 1 + 1 + 1 + 1) (by omega)
  have h6 := read_bit_src F hF (i + 1 + 1 + 1 + 1 + 1 + 1) (by omega)
  have h7 := read_bit_src F hF (i + 1 + 1 + 1 + 1 + 1 + 1 + 1) (by omega)
  have b0 := hbits 0 (by omega)
  have b1 := hbits 1 (by omega)
  have b2 := hbits 2 (by omega)
  have b3 := hbits 3 (by omega)
  have b4 := hbits 4 (by omega)
  have b5 := hbits 5 (by omega)
  have b6 := hbits 6 (by omega)
  have b7 := hbits 7 (by omega)
  simp only [byte_bits, List.getD_cons_zero, List.getD_cons_succ, Nat.add_zero] at b0 b1 b2 b3 b4 b5 b6 b7
  unfold read_symbol
  simp only [read_shift, h0, h1, h2, h3, h4, h5, h6, h7]
  rw [b0, b1, b2, b3, b4, b5, b6, b7, byte_of_bits b hb]

end Huffman
namespace Huffman

theorem take_code (R L W : List Nat) (n : Nat) (hn : n = (R ++ L).length) (h32 : n ≤ 32) :
    ((R ++ (L ++ W)).take 32).take n = R ++ L := by
  rw [List.take_take, Nat.min_eq_left h32, ← List.append_assoc, hn, List.take_left]

/-- The code that one iteration of the loop of `huffman_encode` writes for a
byte, within the limits of the 32-bit path word: the decisions from the root
to the NYT node and the 8 bits of the byte for a first occurrence, the
decisions from the root to the leaf otherwise. -/
theorem encode_symbol_code (fuel : Nat) (e e2 : enc_state) (pre : List Nat) (b : Nat)
    (hreg : in_regime pre e.tree) (hb : b < 256) (hcard : (pre ++ [b]).toFinset.card ≤ 24)
    (hpath : e.path < 2 ^ 32) (h : encode_symbol fuel e b = some e2) :
    ∃ tg R path, target e.tree b = some tg ∧ route fuel e.tree tg = some R ∧
      (R ++ literal e.tree b).length ≤ 32 ∧
      e2.sink = write_bits e.sink path (R ++ literal e.tree b).length ∧
      emitted_bits path (R ++ literal e.tree b).length = R ++ literal e.tree b ∧
      e2.totalbits = (e.totalbits + (R ++ literal e.tree b).length) % 2 ^ 64 ∧
      e2.path < 2 ^ 32 := by
  have hinv := hreg.inv
  unfold encode_symbol at h
  cases hv : e.tree.leaf[b]? with
  | none => rw [hv] at h; cases h
  | some v =>
    rw [hv] at h
    cases v with
    | none =>
      simp only at h
      have hnew : b ∉ pre := (hreg.seen b hb).1 hv
      have hc := card_snoc_new pre b hnew
      have hsize := hreg.size
      cases hg : get_node_path fuel e.tree e.tree.nyt (b * 2 ^ 24 % 2 ^ 32) 0 with
      | none => rw [hg] at h; cases h
      | some dp =>
        obtain ⟨d, path⟩ := dp
        rw [hg] at h
        simp only at h
        obtain ⟨R, hR, hd, hp2, hw⟩ := path_word fuel e.tree e.tree.nyt _ 0 d path
          (Nat.mod_lt _ (by norm_num)) (by norm_num) hg
        have hdep := route_depth hinv fuel e.tree.nyt R hinv.nyt_lt hR
        have hRl : R.length ≤ 23 := by omega
        have hd2 : d = R.length := by
          rw [hd, Nat.zero_add]; exact Nat.mod_eq_of_lt (by omega)
        have hlit : literal e.tree b = byte_bits b := by simp only [literal, hv]
        have hlen : (R ++ literal e.tree b).length = R.length + 8 := by
          rw [hlit]; simp [byte_bits]
        have hnb : (8 + d) % 65536 = R.length + 8 := by
          rw [hd2]; exact Nat.mod_eq_of_lt (by omega) |>.trans (by omega)
        rw [hnb] at h
        cases hsp : nyt_spawn e.tree b with
        | none => rw [hsp] at h; cases h
        | some tn =>
          obtain ⟨t1, node⟩ := tn
          rw [hsp] at h
          simp only at h
          cases hn : t1.heap[node]? with
          | none => rw [hn] at h; cases h
          | some n =>
            rw [hn] at h
            simp only at h
            cases hu : update fuel t1 n.parent with
            | none => rw [hu] at h; cases h
            | some t2 =>
              rw [hu] at h
              simp only [Option.some.injEq] at h
              refine ⟨e.tree.nyt, R, path, by simp only [target, hv], hR, by omega, ?_, ?_, ?_, ?_⟩
              · rw [← h, hlen]
              · rw [hlen, emitted_bits_eq_msb _ _ (by omega), msb_take _ _ (by omega), hw,
                  word_bits_literal b hb, hlit]
                exact take_code R (byte_bits b) _ _ (by simp [byte_bits]) (by omega)
              · rw [← h, hlen]
              · rw [← h]; exact hp2
    | some lf =>
      simp only at h
      have hold : b ∈ pre := by
        by_contra hc
        have := (hreg.seen b hb).2 hc
        rw [hv] at this
        cases this
      have hc := card_snoc_old pre b hold
      have hsize := hreg.size
      have hlf := (hinv.tab b lf hv).1
      cases hg : get_node_path fuel e.tree lf e.path 0 with
      | none => rw [hg] at h; cases h
      | some dp =>
        obtain ⟨d, path⟩ := dp
        rw [hg] at h
        simp only at h
        obtain ⟨R, hR, hd, hp2, hw⟩ := path_word fuel e.tree lf _ 0 d path hpath (by norm_num) hg
        have hdep := route_depth hinv fuel lf R hlf hR
        have hRl : R.length ≤ 24 := by omega
        have hd2 : d = R.length := by
          rw [hd, Nat.zero_add]; exact Nat.mod_eq_of_lt (by omega)
        have hlit : literal e.tree b = [] := by simp only [literal, hv]
        have hlen : (R ++ literal e.tree b).length = R.length := by
          rw [hlit]; simp
        cases hu : update fuel e.tree (some lf) with
        | none => rw [hu] at h; cases h
        | some t2 =>
          rw [hu] at h
          simp only [Option.some.injEq] at h
          refine ⟨lf, R, path, by simp only [target, hv], hR, by omega, ?_, ?_, ?_, ?_⟩
          · rw [← h, hlen, hd2]
          · rw [hlen, emitted_bits_eq_msb _ _ (by omega), msb_take _ _ (by omega), hw, hlit,
              List.append_nil]
            have := take_code R [] (word_bits e.path) R.length (by simp) (by omega)
            simpa using this
          · rw [← h, hlen, hd2]
          · rw [← h]; exact hp2

end Huffman
namespace Huffman

theorem card_prefix_le (pre : List Nat) (b : Nat) (rest : List Nat) :
    (pre ++ [b]).toFinset.card ≤ (pre ++ b :: rest).toFinset.card := by
  apply Finset.card_le_card
  intro y hy
  simp only [List.mem_toFinset, List.mem_append, List.mem_singleton, List.mem_cons] at hy ⊢
  tauto

/-- The bits that the loop of `huffman_encode` writes for a sequence of bytes
within the limits of the path word are the codes of the bytes. -/
theorem encode_loop_coded (fuel : Nat) (hf : 600 ≤ fuel) :
    ∀ (rest pre : List Nat) (e eF : enc_state) (calls : List (Nat × Nat)),
      in_regime pre e.tree → (∀ b ∈ rest, b < 256) → (pre ++ rest).toFinset.card ≤ 24 →
      (pre ++ rest).length < 2 ^ 32 → e.path < 2 ^ 32 → e.totalbits < 2 ^ 64 →
      e.sink = calls.foldl (fun w c => write_bits w c.1 c.2) (bit_sink.mk [] 0 0) →
      encode_loop fuel e rest = some eF →
      ∃ (B : List Nat) (n : Nat) (callsF : List (Nat × Nat)), coded 600 e.tree rest B n eF.tree ∧
        eF.sink = callsF.foldl (fun w c => write_bits w c.1 c.2) (bit_sink.mk [] 0 0) ∧
        callsF.flatMap (fun c => emitted_bits c.1 c.2) =
          calls.flatMap (fun c => emitted_bits c.1 c.2) ++ B ∧
        eF.totalbits = (e.totalbits + B.length) % 2 ^ 64 ∧ B.length ≤ 32 * rest.length ∧
        n ≤ 33 * rest.length ∧ in_regime (pre ++ rest) eF.tree := by
  intro rest
  induction rest with
  | nil =>
    intro pre e eF calls hreg _ _ _ _ htb hs h
    simp only [encode_loop, Option.some.injEq] at h
    subst h
    refine ⟨[], 0, calls, coded.done _, hs, by simp, by
      simp only [List.length_nil, Nat.add_zero]
      exact (Nat.mod_eq_of_lt htb).symm, by simp, by simp, by simpa using hreg⟩
  | cons b rest ih =>
    intro pre e eF calls hreg hb hcard hlen hpath htb hs h
    have hb0 : b < 256 := hb b (List.mem_cons_self _ _)
    have hc1 : (pre ++ [b]).toFinset.card ≤ 24 := le_trans (card_prefix_le pre b rest) hcard
    have hl1 : pre.length + 1 < 2 ^ 32 := by
      simp only [List.length_append, List.length_cons] at hlen; omega
    simp only [encode_loop] at h
    cases h1 : encode_symbol fuel e b with
    | none => rw [h1] at h; cases h
    | some e1 =>
      rw [h1] at h
      simp only at h
      obtain ⟨e2, h2, hreg2, _⟩ := encode_symbol_regime fuel e pre b hreg hb0 (by omega) hl1 hf
      rw [h1] at h2
      simp only [Option.some.injEq] at h2
      subst h2
      obtain ⟨e3, h3, _, _⟩ := encode_symbol_regime 600 e pre b hreg hb0 (by omega) hl1 (le_refl _)
      have ht3 := encode_symbol_tree 600 e e3 b h3
      have ht1 := encode_symbol_tree fuel e e1 b h1
      have ht : enc_tree_step 600 e.tree b = some e1.tree := by
        have := enc_tree_step_mono 600 fuel e.tree e3.tree b ht3 hf
        rw [ht1] at this
        rw [ht3, this]
      obtain ⟨tg, R, path, htg, hR, hl32, hsink, hem, htot, hp1⟩ :=
        encode_symbol_code fuel e e1 pre b hreg hb0 hc1 hpath h1
      have e4 : pre ++ b :: rest = (pre ++ [b]) ++ rest := by simp
      obtain ⟨B, n, callsF, hcd, hsF, hfl, htF, hBl, hnl, hregF⟩ :=
        ih (pre ++ [b]) e1 eF (calls ++ [(path, (R ++ literal e.tree b).length)]) hreg2
          (fun x hx => hb x (List.mem_cons_of_mem _ hx)) (by rw [← e4]; exact hcard)
          (by rw [← e4]; exact hlen) hp1 (by rw [htot]; exact Nat.mod_lt _ (by norm_num))
          (by rw [List.foldl_append, ← hs, hsink]; rfl) h
      have hdep := route_depth hreg.inv fuel tg R (by
        simp only [target] at htg
        cases hv : e.tree.leaf[b]? with
        | none => rw [hv] at htg; cases htg
        | some v =>
          rw [hv] at htg
          cases v with
          | none => simp only [Option.some.injEq] at htg; rw [← htg]; exact hreg.inv.nyt_lt
          | some lf =>
            simp only [Option.some.injEq] at htg; rw [← htg]
            exact (hreg.inv.tab b lf hv).1) hR
      have hsz := hreg.size
      have hcp : pre.toFinset.card ≤ (pre ++ [b]).toFinset.card := by
        apply Finset.card_le_card
        intro y hy
        simp only [List.mem_toFinset, List.mem_append, List.mem_singleton] at hy ⊢
        exact Or.inl hy
      refine ⟨R ++ literal e.tree b ++ B, R.length + 1 + n, callsF,
        coded.next e.tree e1.tree eF.tree b tg fuel n rest R B hreg.inv hb0 htg hR ht hcd,
        hsF, ?_, ?_, ?_, ?_, by rw [e4]; exact hregF⟩
      · rw [hfl, List.flatMap_append]
        simp only [List.flatMap_cons, List.flatMap_nil, List.append_nil, hem, List.append_assoc]
      · rw [htF, htot]
        simp only [List.length_append, Nat.add_mod_mod, Nat.mod_add_mod]
        congr 1
        omega
      · simp only [List.length_append, List.length_cons] at hl32 ⊢
        omega
      · simp only [List.length_cons]
        omega

end Huffman
namespace Huffman

/-- The loop of `huffman_decode` on a bit string that holds the codes of a
byte sequence from position `i` on: it writes the bytes and passes through
the trees of the encoder. -/
theorem coded_decode (f0 : Nat) {s u : huffman_state} {rest B : List Nat} {n : Nat}
    (h : coded f0 s rest B n u) (tb : Nat) (F : List Nat) (hF : ∀ b ∈ F, b < 256)
    (htb : tb + 1 < 2 ^ 64) (hlen : tb / 8 < F.length) :
    ∀ (i dfuel : Nat) (out : List Nat), i + B.length ≤ tb → f0 ≤ dfuel + 1 →
      (∀ j, j < B.length → nth_bit F (i + j) = B.getD j 0) →
      decode_loop tb (dfuel + n) (dec_state.mk s (src_at F i) (some s.root) i out) =
        decode_loop tb dfuel
          (dec_state.mk u (src_at F (i + B.length)) (some u.root) (i + B.length) (out ++ rest)) := by
  induction h with
  | done s =>
    intro i dfuel out _ _ _
    simp only [List.length_nil, Nat.add_zero, List.append_nil]
  | next s t u b tg f n rest R B hinv hb htg hR hstep _ ih =>
    intro i dfuel out hi hf hbits
    have hBl : (R ++ literal s b ++ B).length = R.length + (literal s b).length + B.length := by
      simp only [List.length_append]
    rw [hBl] at hi
    have hbR : ∀ j, j < R.length → nth_bit F (i + j) = R.getD j 0 := by
      intro j hj
      rw [hbits j (by rw [hBl]; omega), List.append_assoc, List.getD_append _ _ _ _ hj]
    have hbL : ∀ j, j < (literal s b).length →
        nth_bit F (i + R.length + j) = (literal s b).getD j 0 := by
      intro j hj
      rw [Nat.add_assoc, hbits (R.length + j) (by rw [hBl]; omega), List.append_assoc,
        List.getD_append_right _ _ _ _ (by omega), List.getD_append _ _ _ _ (by omega)]
      congr 1
      omega
    have hbB : ∀ j, j < B.length →
        nth_bit F (i + R.length + (literal s b).length + j) = B.getD j 0 := by
      intro j hj
      have e : i + R.length + (literal s b).length + j =
          i + (R.length + (literal s b).length + j) := by omega
      rw [e, hbits _ (by rw [hBl]; omega),
        List.getD_append_right _ _ _ _ (by rw [List.length_append]; omega)]
      congr 1
      rw [List.length_append]
      omega
    have hstep2 : enc_tree_step (dfuel + n + 1) s b = some t :=
      enc_tree_step_mono f0 _ s t b hstep (by omega)
    have e1 : dfuel + (R.length + 1 + n) = (dfuel + n + 1) + R.length := by omega
    have htl : tg < s.heap.length := by
      simp only [target] at htg
      cases hv : s.leaf[b]? with
      | none => rw [hv] at htg; cases htg
      | some v =>
        rw [hv] at htg
        cases v with
        | none => simp only [Option.some.injEq] at htg; rw [← htg]; exact hinv.nyt_lt
        | some lf =>
          simp only [Option.some.injEq] at htg; rw [← htg]
          exact (hinv.tab b lf hv).1
    rw [e1, route_walk hinv tb F hF htb hlen f tg R htl hR i (dfuel + n + 1) out (by omega) hbR]
    cases hv : s.leaf[b]? with
    | none => rw [target, hv] at htg; cases htg
    | some v =>
      cases v with
      | none =>
        have htg2 : tg = s.nyt := by
          simp only [target, hv, Option.some.injEq] at htg; exact htg.symm
        have hlit : literal s b = byte_bits b := by simp only [literal, hv]
        have hl8 : (literal s b).length = 8 := by rw [hlit]; rfl
        rw [hl8] at hi
        have hread := read_symbol_src F hF (i + R.length) b hb (by
          have : (i + R.length + 7) / 8 ≤ tb / 8 := Nat.div_le_div_right (by omega)
          omega) (by
          intro j hj
          rw [hbL j (by omega), hlit])
        rw [htg2, decode_loop_at_nyt tb (dfuel + n)
          (dec_state.mk s (src_at F (i + R.length)) (some s.nyt) (i + R.length) out) b
          (src_at F (i + R.length + 8)) t (by show i + R.length ≤ tb; omega) rfl hv hread hstep2]
        have e2 : (i + R.length + 8) % 2 ^ 64 = i + R.length + 8 := Nat.mod_eq_of_lt (by omega)
        show decode_loop tb (dfuel + n)
          (dec_state.mk t (src_at F (i + R.length + 8)) (some t.root)
            ((i + R.length + 8) % 2 ^ 64) (out ++ [b])) = _
        rw [e2, ih (i + R.length + 8) dfuel (out ++ [b]) (by omega) hf (by
          intro j hj
          have := hbB j hj
          rw [hl8] at this
          exact this)]
        have e3 : i + R.length + 8 + B.length = i + (R ++ literal s b ++ B).length := by
          rw [hBl, hl8]; omega
        rw [e3]
        simp only [List.append_assoc, List.singleton_append]
      | some lf =>
        have htg2 : tg = lf := by
          simp only [target, hv, Option.some.injEq] at htg; exact htg.symm
        have hlit : literal s b = [] := by simp only [literal, hv]
        have hl0 : (literal s b).length = 0 := by rw [hlit]; rfl
        rw [hl0] at hi
        obtain ⟨hlf, hne, hlc, hrc, hsym⟩ := hinv.tab b lf hv
        have hleaf : is_leaf (node_at s.heap lf) = true := by
          unfold is_leaf; rw [hlc, hrc]; rfl
        rw [htg2, decode_loop_at_leaf tb (dfuel + n)
          (dec_state.mk s (src_at F (i + R.length)) (some lf) (i + R.length) out) lf b
          (node_at s.heap lf) t (by show i + R.length ≤ tb; omega) rfl hne
          (getElem?_node_at s.heap lf hlf) hleaf hsym hv hstep2]
        show decode_loop tb (dfuel + n)
          (dec_state.mk t (src_at F (i + R.length)) (some t.root) (i + R.length) (out ++ [b])) = _
        rw [ih (i + R.length) dfuel (out ++ [b]) (by omega) hf (by
          intro j hj
          have := hbB j hj
          rw [hl0] at this
          exact this)]
        have e3 : i + R.length + B.length = i + (R ++ literal s b ++ B).length := by
          rw [hBl, hl0]; omega
        rw [e3]
        simp only [List.append_assoc, List.singleton_append]

theorem root_internal {s : huffman_state} {cur : Option Nat} (hinv : tree_inv s cur)
    (h2 : 2 ≤ s.heap.length) :
    s.root ≠ s.nyt ∧ is_leaf (node_at s.heap s.root) = false := by
  have hex : ∃ a, a < s.heap.length ∧ a ≠ s.root := by
    by_cases h0 : s.root = 0
    · exact ⟨1, by omega, by omega⟩
    · exact ⟨0, by omega, fun e => h0 e.symm⟩
  obtain ⟨a, ha, har⟩ := hex
  have hin := all_in_subtree hinv _ a ha rfl
  rcases in_subtree_cases hinv s.root a ha hin with e | ⟨c, hc, _⟩
  · exact absurd e har
  · constructor
    · intro e
      rw [e] at hc
      rcases hc with hc | hc
      · rw [hinv.nyt_leaf.1] at hc; cases hc
      · rw [hinv.nyt_leaf.2] at hc; cases hc
    · unfold is_leaf
      rcases hc with hc | hc
      · rw [hc]; rfl
      · rw [hc]; simp

end Huffman
namespace Huffman

theorem src_at_zero (F : List Nat) :
    src_at F 0 = bit_source.mk F false 0 0 := by
  simp [src_at]

theorem huffman_decode_header (fuel tb : Nat) (name F : List Nat) (loc : dec_locals)
    (s : huffman_state) (hname : name.length < 256) (htb : tb < 2 ^ 64) :
    huffman_decode_run fuel loc s (header tb name ++ F) =
      (decode_loop tb fuel (dec_state.mk s (src_at F 0) (some s.root) 0 [])).map
        (fun d => Sum.inr (tb, d)) := by
  unfold huffman_decode_run header
  have e1 : le_bytes 2 magic ++ le_bytes 8 tb ++ le_bytes 8 name.length ++ name ++ [0] ++ F =
      le_bytes 2 magic ++ (le_bytes 8 tb ++ (le_bytes 8 name.length ++ (name ++ [0] ++ F))) := by
    simp only [List.append_assoc]
  have hm : le_value (le_bytes 2 magic) = magic := by decide
  rw [e1, fread_obj_whole 2 _ _ _ (le_bytes_length 2 magic), hm]
  dsimp only
  rw [if_neg (by simp), fread_obj_whole 8 _ _ _ (le_bytes_length 8 tb), le_value_le_bytes]
  dsimp only
  rw [fread_obj_whole 8 _ _ _ (le_bytes_length 8 name.length), le_value_le_bytes]
  dsimp only
  have ht : tb % 256 ^ 8 = tb := Nat.mod_eq_of_lt (by
    have : (256 : Nat) ^ 8 = 2 ^ 64 := by norm_num
    omega)
  have hn : name.length % 256 ^ 8 = name.length := Nat.mod_eq_of_lt (by
    have : (256 : Nat) < 256 ^ 8 := by norm_num
    omega)
  rw [hn, ht]
  have hw : (name.length + 1) % 2 ^ 64 = name.length + 1 := Nat.mod_eq_of_lt (by
    have : (257 : Nat) < 2 ^ 64 := by norm_num
    omega)
  rw [hw]
  have hmin : ¬ 256 < min (name.length + 1) (name ++ [0] ++ F).length := by
    simp only [List.length_append, List.length_singleton]
    omega
  rw [if_neg hmin]
  have hdrop : (name ++ [0] ++ F).drop (name.length + 1) = F := by
    have : (name ++ [0]).length = name.length + 1 := by simp
    rw [← this, List.drop_left]
  have hle : name.length + 1 ≤ (name ++ [0] ++ F).length := by
    simp only [List.length_append, List.length_singleton]
    omega
  rw [hdrop, src_at_zero]
  simp only [Bool.and_self, Bool.true_and, decide_eq_true hle, Bool.not_true]
  cases decode_loop tb fuel (dec_state.mk s (bit_source.mk F false 0 0) (some s.root) 0 []) <;> rfl

end Huffman
namespace Huffman

theorem init_leaf (b : Nat) (hb : b < 256) : huffman_init.leaf[b]? = some none := by
  have : huffman_init.leaf = List.replicate 256 none := rfl
  rw [this, List.getElem?_replicate, if_pos hb]

theorem single_leaf (b w : Nat) (hb : b < 256) : (single_tree b w).leaf[b]? = some (some 2) := by
  show ((List.replicate 256 none).set b (some 2))[b]? = some (some 2)
  rw [List.getElem?_set_self (by rw [List.length_replicate]; exact hb)]

theorem spawn_single (b : Nat) : nyt_spawn huffman_init b = some (single_tree b 1, 0) := by
  have e : huffman_init.leaf = List.replicate 256 none := rfl
  simp only [nyt_spawn, single_tree, e]
  rfl

theorem first_step (f b : Nat) (hb : b < 256) :
    enc_tree_step f huffman_init b = some (single_tree b 1) := by
  unfold enc_tree_step
  rw [init_leaf b hb]
  simp only [spawn_single]
  cases f <;> rfl

theorem update_single_gen (f b w : Nat) (L : List (Option Nat)) (hw : w < 2 ^ 32) :
    update (f + 3)
      (huffman_state.mk [huffman_node.mk 256 none (some 1) (some 2) w 0,
        huffman_node.mk 254 (some 0) none none 0 0,
        huffman_node.mk 255 (some 0) none none w b] L 1 0) (some 2) =
    some (huffman_state.mk [huffman_node.mk 256 none (some 1) (some 2) ((w + 1) % 2 ^ 32) 0,
        huffman_node.mk 254 (some 0) none none 0 0,
        huffman_node.mk 255 (some 0) none none ((w + 1) % 2 ^ 32) b] L 1 0) := by
  have h1 : (w + 1) % 4294967296 ≠ w := by omega
  by_cases h0 : w = 0
  · subst h0
    simp [update, group_highest_id, pick_child, modify_node]
  · by_cases hm : (w + 1) % 4294967296 < w
    · simp [update, group_highest_id, pick_child, modify_node, h0, hm, h1,
        Nat.pos_of_ne_zero h0]
    · simp [update, group_highest_id, pick_child, modify_node, h0, hm, h1,
        Nat.pos_of_ne_zero h0]

theorem update_single (f b w : Nat) (hw : w < 2 ^ 32) :
    update (f + 3) (single_tree b w) (some 2) = some (single_tree b ((w + 1) % 2 ^ 32)) :=
  update_single_gen f b w _ hw

end Huffman
namespace Huffman

theorem step_single (f b w : Nat) (hb : b < 256) (hw : w < 2 ^ 32) :
    enc_tree_step (f + 3) (single_tree b w) b = some (single_tree b ((w + 1) % 2 ^ 32)) := by
  unfold enc_tree_step
  rw [single_leaf b w hb]
  exact update_single f b w hw

theorem path_single_gen (f b w path : Nat) (L : List (Option Nat)) :
    get_node_path (f + 2)
      (huffman_state.mk [huffman_node.mk 256 none (some 1) (some 2) w 0,
        huffman_node.mk 254 (some 0) none none 0 0,
        huffman_node.mk 255 (some 0) none none w b] L 1 0) 2 path 0 =
      some (1, path / 2 ||| 2 ^ 31) := by
  simp [get_node_path, is_l_child]

theorem path_single (f b w path : Nat) :
    get_node_path (f + 2) (single_tree b w) 2 path 0 = some (1, path / 2 ||| 2 ^ 31) :=
  path_single_gen f b w path _

theorem one_bit (path : Nat) (hp : path < 2 ^ 32) :
    emitted_bits (path / 2 ||| 2 ^ 31) 1 = [1] ∧ path / 2 ||| 2 ^ 31 < 2 ^ 32 := by
  rw [lor_top _ (by omega)]
  simp only [emitted_bits]
  constructor
  · congr 1
    omega
  · omega

theorem encode_single (f b w : Nat) (sink : bit_sink) (path tot : Nat) (hb : b < 256)
    (hw : w < 2 ^ 32) :
    encode_symbol (f + 3) (enc_state.mk (single_tree b w) sink path tot) b =
      some (enc_state.mk (single_tree b ((w + 1) % 2 ^ 32))
        (write_bits sink (path / 2 ||| 2 ^ 31) 1) (path / 2 ||| 2 ^ 31) ((tot + 1) % 2 ^ 64)) := by
  unfold encode_symbol
  simp only [single_leaf b w hb, path_single (f + 1) b w path, update_single f b w hw]

theorem encode_first (fuel b : Nat) (hf : 1 ≤ fuel) (hb : b < 256) :
    encode_symbol fuel enc_init b =
      some (enc_state.mk (single_tree b 1)
        (write_bits (bit_sink.mk [] 0 0) (b * 2 ^ 24 % 2 ^ 32) 8) (b * 2 ^ 24 % 2 ^ 32) 8) := by
  obtain ⟨f, rfl⟩ : ∃ f, fuel = f + 1 := ⟨fuel - 1, by omega⟩
  have hg : get_node_path (f + 1) huffman_init huffman_init.nyt (b * 2 ^ 24 % 2 ^ 32) 0 =
      some (0, b * 2 ^ 24 % 2 ^ 32) := by
    rw [get_node_path]
    exact if_pos (by rfl)
  have hn : (single_tree b 1).heap[0]? =
      some (huffman_node.mk 256 none (some 1) (some 2) 1 0) := rfl
  have ht : enc_init.tree = huffman_init := rfl
  have hs : enc_init.sink = bit_sink.mk [] 0 0 := rfl
  have h0 : enc_init.totalbits = 0 := rfl
  unfold encode_symbol
  simp only [ht, hs, h0, init_leaf b hb, hg, spawn_single, hn, update]
  norm_num

theorem encode_loop_single (f b : Nat) (hb : b < 256) :
    ∀ (m k : Nat) (sink : bit_sink) (path tot : Nat) (calls : List (Nat × Nat)),
      path < 2 ^ 32 → tot < 2 ^ 64 →
      sink = calls.foldl (fun w c => write_bits w c.1 c.2) (bit_sink.mk [] 0 0) →
      ∃ (callsF : List (Nat × Nat)) (pathF : Nat),
        encode_loop (f + 3) (enc_state.mk (single_tree b (k % 2 ^ 32)) sink path tot)
            (List.replicate m b) =
          some (enc_state.mk (single_tree b ((k + m) % 2 ^ 32))
            (callsF.foldl (fun w c => write_bits w c.1 c.2) (bit_sink.mk [] 0 0)) pathF
            ((tot + m) % 2 ^ 64)) ∧
        callsF.map (fun c => emitted_bits c.1 c.2) =
          calls.map (fun c => emitted_bits c.1 c.2) ++ List.replicate m [1] := by
  intro m
  induction m with
  | zero =>
    intro k sink path tot calls _ ht hs
    refine ⟨calls, path, ?_, by simp⟩
    rw [List.replicate_zero, encode_loop, Nat.add_zero, Nat.add_zero, Nat.mod_eq_of_lt ht, hs]
  | succ m ih =>
    intro k sink path tot calls hp ht hs
    obtain ⟨hone, hp2⟩ := one_bit path hp
    obtain ⟨callsF, pathF, h1, h2⟩ := ih (k + 1) (write_bits sink (path / 2 ||| 2 ^ 31) 1)
      (path / 2 ||| 2 ^ 31) ((tot + 1) % 2 ^ 64) (calls ++ [(path / 2 ||| 2 ^ 31, 1)]) hp2
      (Nat.mod_lt _ (by norm_num))
      (by rw [List.foldl_append, ← hs]; rfl)
    refine ⟨callsF, pathF, ?_, ?_⟩
    · rw [List.replicate_succ, encode_loop,
        encode_single f b (k % 2 ^ 32) sink path tot hb (Nat.mod_lt _ (by norm_num))]
      simp only
      have e1 : (k % 2 ^ 32 + 1) % 2 ^ 32 = (k + 1) % 2 ^ 32 := by omega
      have e2 : (k + 1 + m) = k + (m + 1) := by omega
      have e3 : ((tot + 1) % 2 ^ 64 + m) % 2 ^ 64 = (tot + (m + 1)) % 2 ^ 64 := by omega
      rw [e1, h1, e2, e3]
    · rw [h2, List.map_append]
      simp only [List.map_cons, List.map_nil, hone, List.append_assoc,
        List.replicate_succ, List.singleton_append]

end Huffman
namespace Huffman

theorem decode_loop_single (b tb : Nat) (F : List Nat) (hF : ∀ x ∈ F, x < 256)
    (htb : tb + 1 < 2 ^ 64) (hlen : tb / 8 < F.length) (hb : b < 256) :
    ∀ (m k i dfuel : Nat) (out : List Nat), i + m ≤ tb →
      (∀ j, j < m → nth_bit F (i + j) = 1) →
      decode_loop tb (dfuel + 2 + 2 * m)
          (dec_state.mk (single_tree b (k % 2 ^ 32)) (src_at F i) (some 0) i out) =
        decode_loop tb (dfuel + 2)
          (dec_state.mk (single_tree b ((k + m) % 2 ^ 32)) (src_at F (i + m)) (some 0) (i + m)
            (out ++ List.replicate m b)) := by
  intro m
  induction m with
  | zero =>
    intro k i dfuel out _ _
    simp only [Nat.mul_zero, Nat.add_zero, List.replicate_zero, List.append_nil]
  | succ m ih =>
    intro k i dfuel out hi hbits
    have e1 : dfuel + 2 + 2 * (m + 1) = (dfuel + 2 + 2 * m + 1) + 1 := by omega
    have hrd := read_bit_src F hF i (by
      have : i / 8 ≤ tb / 8 := Nat.div_le_div_right (by omega)
      omega)
    have hb0 := hbits 0 (by omega)
    rw [Nat.add_zero] at hb0
    rw [hb0] at hrd
    rw [e1, decode_loop_internal tb (dfuel + 2 + 2 * m + 1)
      (dec_state.mk (single_tree b (k % 2 ^ 32)) (src_at F i) (some 0) i out) 0
      (huffman_node.mk 256 none (some 1) (some 2) (k % 2 ^ 32) 0) (by show i ≤ tb; omega) rfl
      (by show (0 : Nat) ≠ 1; omega) rfl rfl]
    simp only [hrd]
    rw [if_pos (by omega : (1 : Nat) ≠ 0)]
    have e2 : (i + 1) % 2 ^ 64 = i + 1 := Nat.mod_eq_of_lt (by omega)
    have hst : enc_tree_step (dfuel + 2 + 2 * m + 1) (single_tree b (k % 2 ^ 32)) b =
        some (single_tree b ((k + 1) % 2 ^ 32)) := by
      have e3 : dfuel + 2 + 2 * m + 1 = dfuel + 2 * m + 3 := by omega
      have e4 : (k % 2 ^ 32 + 1) % 2 ^ 32 = (k + 1) % 2 ^ 32 := by omega
      rw [e3, step_single _ b _ hb (Nat.mod_lt _ (by norm_num)), e4]
    rw [e2, decode_loop_at_leaf tb (dfuel + 2 + 2 * m)
      (dec_state.mk (single_tree b (k % 2 ^ 32)) (src_at F (i + 1)) (some 2) (i + 1) out) 2 b
      (huffman_node.mk 255 (some 0) none none (k % 2 ^ 32) b) (single_tree b ((k + 1) % 2 ^ 32))
      (by show i + 1 ≤ tb; omega) rfl (by show (2 : Nat) ≠ 1; omega) rfl rfl rfl
      (single_leaf b _ hb) hst]
    have := ih (k + 1) (i + 1) dfuel (out ++ [b]) (by omega) (by
      intro j hj
      have := hbits (j + 1) (by omega)
      rw [← this]
      congr 1
      omega)
    show decode_loop tb (dfuel + 2 + 2 * m)
      (dec_state.mk (single_tree b ((k + 1) % 2 ^ 32)) (src_at F (i + 1)) (some 0) (i + 1)
        (out ++ [b])) = _
    rw [this]
    have e5 : k + 1 + m = k + (m + 1) := by omega
    have e6 : i + 1 + m = i + (m + 1) := by omega
    rw [e5, e6, List.append_assoc, List.replicate_succ, List.singleton_append]

theorem flatten_ones (m : Nat) :
    (List.replicate m [1]).flatten = List.replicate m 1 := by
  induction m with
  | zero => rfl
  | succ m ih => rw [List.replicate_succ, List.flatten_cons, ih]; rfl

end Huffman
namespace Huffman

theorem none_beq_iff (a b : Option Nat) (h : (a == none) = (b == none)) :
    a = none ↔ b = none := by
  cases a <;> cases b <;> simp_all

theorem tree_inv_of_ok (s : huffman_state) (h : tree_ok s = true) : tree_inv s none := by
  simp only [tree_ok, Bool.and_eq_true, decide_eq_true_eq, beq_iff_eq, List.all_eq_true,
    List.mem_range, Bool.or_eq_true, bne_iff_ne, ne_eq, Bool.not_eq_true', decide_eq_false_iff_not]
    at h
  obtain ⟨⟨⟨⟨⟨⟨⟨⟨⟨⟨⟨h1, h2⟩, h3⟩, h4⟩, h5⟩, h6⟩, h7⟩, h8⟩, hall⟩, hadj⟩, hlen⟩, htab⟩ := h
  refine
    { root_lt := h1, root_par := h2, root_id := h3, nyt_lt := h4, nyt_leaf := ⟨h5, h6⟩,
      nyt_w := h7, nyt_id := h8, tab_len := hlen, par := ?_, kids := ?_, both := ?_,
      id_inj := ?_, id_lo := ?_, id_hi := ?_, id_par := ?_, pos_w := ?_, sum := ?_, mono := ?_,
      adj_s := ?_, adj_p := ?_, cur_ok := ?_, tab := ?_ }
  · intro a ha har
    obtain ⟨⟨⟨⟨⟨⟨⟨⟨⟨⟨⟨p1, _⟩, _⟩, _⟩, _⟩, _⟩, _⟩, _⟩, _⟩, _⟩, _⟩, _⟩ := hall a ha
    rcases p1 with e | e
    · exact absurd e har
    · cases hp : (node_at s.heap a).parent with
      | none => rw [hp] at e; simp at e
      | some p =>
        rw [hp] at e
        simp only [Bool.and_eq_true, decide_eq_true_eq, Bool.or_eq_true, beq_iff_eq] at e
        exact ⟨p, e.1, rfl, e.2⟩
  · intro p c hp hc
    obtain ⟨⟨⟨⟨⟨⟨⟨⟨⟨⟨⟨_, p2⟩, p3⟩, _⟩, _⟩, _⟩, _⟩, _⟩, _⟩, _⟩, _⟩, _⟩ := hall p hp
    rcases hc with hl | hr
    · rw [hl] at p2
      simpa only [Bool.and_eq_true, decide_eq_true_eq, beq_iff_eq] using p2
    · rw [hr] at p3
      simpa only [Bool.and_eq_true, decide_eq_true_eq, beq_iff_eq] using p3
  · intro p
    by_cases hp : p < s.heap.length
    · obtain ⟨⟨⟨⟨⟨⟨⟨⟨⟨⟨⟨_, _⟩, _⟩, p4⟩, p5⟩, _⟩, _⟩, _⟩, _⟩, _⟩, _⟩, _⟩ := hall p hp
      refine ⟨none_beq_iff _ _ p4, ?_⟩
      intro hne
      rcases p5 with e | e
      · exact absurd e hne
      · exact e
    · rw [node_at_out s.heap p (by omega)]
      exact ⟨Iff.rfl, fun hne => absurd rfl hne⟩
  · intro a b ha hb hid
    obtain ⟨_, q⟩ := hall a ha
    rcases (q b hb).1 with e | e
    · exact absurd hid e
    · exact e
  · intro a ha
    obtain ⟨⟨⟨⟨⟨⟨⟨⟨⟨⟨⟨_, _⟩, _⟩, _⟩, _⟩, p6⟩, _⟩, _⟩, _⟩, _⟩, _⟩, _⟩ := hall a ha
    exact p6
  · intro a ha
    obtain ⟨⟨⟨⟨⟨⟨⟨⟨⟨⟨⟨_, _⟩, _⟩, _⟩, _⟩, _⟩, p7⟩, _⟩, _⟩, _⟩, _⟩, _⟩ := hall a ha
    exact p7
  · intro c p hc hpar
    obtain ⟨⟨⟨⟨⟨⟨⟨⟨⟨⟨⟨_, _⟩, _⟩, _⟩, _⟩, _⟩, _⟩, p8⟩, _⟩, _⟩, _⟩, _⟩ := hall c hc
    rw [hpar] at p8
    simpa only [decide_eq_true_eq] using p8
  · intro a ha han
    obtain ⟨⟨⟨⟨⟨⟨⟨⟨⟨⟨⟨_, _⟩, _⟩, _⟩, _⟩, _⟩, _⟩, _⟩, p9⟩, _⟩, _⟩, _⟩ := hall a ha
    rcases p9 with e | e
    · exact absurd e han
    · exact e
  · intro p l r hp hl hr
    obtain ⟨⟨⟨⟨⟨⟨⟨⟨⟨⟨⟨_, _⟩, _⟩, _⟩, _⟩, _⟩, _⟩, _⟩, _⟩, p10⟩, _⟩, _⟩ := hall p hp
    rw [hl, hr] at p10
    simp only [beq_iff_eq] at p10
    rw [p10]
    simp
  · intro a b ha hb hlt
    obtain ⟨_, q⟩ := hall a ha
    rcases (q b hb).2 with e | e
    · exact absurd hlt e
    · exact Or.inl e
  · intro c hc hcn hpar
    obtain ⟨⟨⟨⟨⟨⟨⟨⟨⟨⟨⟨_, _⟩, _⟩, _⟩, _⟩, _⟩, _⟩, _⟩, _⟩, _⟩, p11⟩, _⟩ := hall c hc
    rcases p11 with (e | e) | e
    · exact absurd e hcn
    · exact absurd hpar e
    · exact e
  · intro p hp
    rw [hp] at hadj
    simpa only [beq_iff_eq] using hadj
  · intro n hn
    cases hn
  · intro b a hb
    have hb256 : b < 256 := by
      rw [← hlen]
      by_contra hc
      rw [List.getElem?_eq_none (by omega)] at hb
      cases hb
    have := htab b hb256
    rw [hb] at this
    simp only [Bool.and_eq_true, decide_eq_true_eq, bne_iff_ne, ne_eq, beq_iff_eq] at this
    obtain ⟨⟨⟨⟨q1, q2⟩, q3⟩, q4⟩, q5⟩ := this
    exact ⟨q1, q2, q3, q4, q5⟩

end Huffman
namespace Huffman

/-- C5, as the specification states it, fails on the code: after the single
byte 'A' the root has a larger `id` than the NYT node (256 against 254) and a
larger weight (1 against 0). -/
theorem sibling_property_as_stated_fails :
    ∃ e, encode_loop 600 enc_init [65] = some e ∧ ¬ sibling_property_as_stated e.tree := by
  obtain ⟨e, he, hreg⟩ := regime_prefix 600 [65] (by decide) (by decide) (by decide)
    (Nat.le_refl _) 1
  refine ⟨e, he, ?_⟩
  intro h
  have hinv := hreg.inv
  have hsize := hreg.size
  have hw := hreg.root_w
  have hid := hinv.nyt_id
  have hc : ([65] : List Nat).toFinset.card = 1 := by decide
  simp only [List.take_succ_cons, List.take_zero, List.length_singleton] at hsize hw
  rw [hc] at hsize
  have := h e.tree.root e.tree.nyt hinv.root_lt hinv.nyt_lt (by rw [hinv.root_id]; omega)
  rw [hw, hinv.nyt_w] at this
  omega

/-- C5 (amended): for every input of fewer than `2 ^ 32` bytes with at most
128 distinct byte values, every prefix is processed, and in the tree after
every processed byte a node with a larger `id` never has a smaller weight. -/
theorem weights_ordered_after_every_byte (fuel : Nat) (x : List Nat) (hb : ∀ b ∈ x, b < 256)
    (hd : x.toFinset.card ≤ 128) (hl : x.length < 2 ^ 32) (hf : 600 ≤ fuel) :
    ∀ k, ∃ e, encode_loop fuel enc_init (x.take k) = some e ∧ weights_ordered e.tree := by
  intro k
  obtain ⟨e, he, hreg⟩ := regime_prefix fuel x hb hd hl hf k
  refine ⟨e, he, ?_⟩
  intro a b ha hb2 hlt
  rcases hreg.inv.mono b a hb2 ha hlt with h | h
  · exact h
  · exact absurd h.1 (by simp)

theorem weights_ordered_after_every_byte_witness :
    (∀ b ∈ [65, 66, 65], b < 256) ∧ ([65, 66, 65] : List Nat).toFinset.card ≤ 128 ∧
    ([65, 66, 65] : List Nat).length < 2 ^ 32 ∧ 600 ≤ 600 ∧
    ∀ k, ∃ e, encode_loop 600 enc_init (([65, 66, 65] : List Nat).take k) = some e ∧
      weights_ordered e.tree :=
  ⟨by decide, by decide, by decide, by decide,
    weights_ordered_after_every_byte 600 [65, 66, 65] (by decide) (by decide) (by decide)
      (by decide)⟩

end Huffman
namespace Huffman

/-- C17: for every input of fewer than `2 ^ 32` bytes with at most 128
distinct byte values, every prefix is processed, and in the tree after every
processed byte `id(A) > id(B)` implies `weight(A) ≥ weight(B)` for all nodes
`A`, `B`; the root has the largest `id` and the largest weight. -/
theorem weight_order_maintained (fuel : Nat) (x : List Nat) (hb : ∀ b ∈ x, b < 256)
    (hd : x.toFinset.card ≤ 128) (hl : x.length < 2 ^ 32) (hf : 600 ≤ fuel) :
    ∀ k, ∃ e, encode_loop fuel enc_init (x.take k) = some e ∧
      (∀ a b, a < e.tree.heap.length → b < e.tree.heap.length →
        (node_at e.tree.heap a).id > (node_at e.tree.heap b).id →
        (node_at e.tree.heap a).weight ≥ (node_at e.tree.heap b).weight) ∧
      (∀ a, a < e.tree.heap.length →
        (node_at e.tree.heap a).id ≤ (node_at e.tree.heap e.tree.root).id ∧
        (node_at e.tree.heap a).weight ≤ (node_at e.tree.heap e.tree.root).weight) := by
  intro k
  obtain ⟨e, he, hreg⟩ := regime_prefix fuel x hb hd hl hf k
  have hinv := hreg.inv
  have hmono : ∀ a b, a < e.tree.heap.length → b < e.tree.heap.length →
      (node_at e.tree.heap a).id > (node_at e.tree.heap b).id →
      (node_at e.tree.heap a).weight ≥ (node_at e.tree.heap b).weight := by
    intro a b ha hb2 hlt
    rcases hinv.mono b a hb2 ha hlt with h | h
    · exact h
    · exact absurd h.1 (by simp)
  refine ⟨e, he, hmono, ?_⟩
  intro a ha
  have h1 := hinv.id_hi a ha
  rw [hinv.root_id]
  refine ⟨h1, ?_⟩
  by_cases har : a = e.tree.root
  · rw [har]
  · have hne : (node_at e.tree.heap a).id ≠ 256 := by
      intro h
      exact har (hinv.id_inj a e.tree.root ha hinv.root_lt (by rw [h, hinv.root_id]))
    exact hmono e.tree.root a hinv.root_lt ha (by rw [hinv.root_id]; omega)

theorem weight_order_maintained_witness :
    (∀ b ∈ [66, 65, 65], b < 256) ∧ ([66, 65, 65] : List Nat).toFinset.card ≤ 128 ∧
    ([66, 65, 65] : List Nat).length < 2 ^ 32 ∧ 600 ≤ 600 ∧
    ∀ k, ∃ e, encode_loop 600 enc_init (([66, 65, 65] : List Nat).take k) = some e ∧
      (∀ a b, a < e.tree.heap.length → b < e.tree.heap.length →
        (node_at e.tree.heap a).id > (node_at e.tree.heap b).id →
        (node_at e.tree.heap a).weight ≥ (node_at e.tree.heap b).weight) ∧
      (∀ a, a < e.tree.heap.length →
        (node_at e.tree.heap a).id ≤ (node_at e.tree.heap e.tree.root).id ∧
        (node_at e.tree.heap a).weight ≤ (node_at e.tree.heap e.tree.root).weight) :=
  ⟨by decide, by decide, by decide, by decide,
    weight_order_maintained 600 [66, 65, 65] (by decide) (by decide) (by decide) (by decide)⟩

/-- C13 fails on the code: after the 128 distinct bytes 0, 1, ..., 127 the NYT
node has `id` 0, and `nyt_spawn` for the unseen byte 128 gives the new NYT
node the `id` 65534 and the new leaf the `id` 65535 (the 16-bit `id` wraps),
both above the 256 of the root. -/
theorem nyt_spawn_id_wraps :
    ∃ e t r, encode_loop 600 enc_init (List.range 128) = some e ∧
      e.tree.leaf[128]? = some none ∧
      (node_at e.tree.heap e.tree.nyt).id = 0 ∧
      nyt_spawn e.tree 128 = some (t, r) ∧
      (node_at t.heap t.nyt).id = 65534 ∧
      t.leaf[128]? = some (some (t.nyt + 1)) ∧ (node_at t.heap (t.nyt + 1)).id = 65535 := by
  have hcard : (List.range 128).toFinset.card = 128 := by
    rw [List.toFinset_card_of_nodup (List.nodup_range 128), List.length_range]
  obtain ⟨e, he, hreg⟩ := regime_prefix 600 (List.range 128)
    (fun b hb => by have := List.mem_range.1 hb; omega) (by rw [hcard])
    (by rw [List.length_range]; decide) (Nat.le_refl _) 128
  have ht : (List.range 128).take 128 = List.range 128 :=
    List.take_of_length_le (by rw [List.length_range])
  rw [ht] at he hreg
  have hinv := hreg.inv
  have hsize := hreg.size
  rw [hcard] at hsize
  have hid : (node_at e.tree.heap e.tree.nyt).id = 0 := by
    have := hinv.nyt_id
    omega
  have hg := node_at_spawned e.tree 128 hinv.nyt_lt
  have hbl : 128 < e.tree.leaf.length := by rw [hinv.tab_len]; decide
  refine ⟨e, spawned e.tree 128, e.tree.nyt, he, ?_, hid, nyt_spawn_eq e.tree 128 hinv.nyt_lt,
    ?_, ?_, ?_⟩
  · exact (hreg.seen 128 (by decide)).2 (by simp)
  · show (node_at (spawned e.tree 128).heap e.tree.heap.length).id = 65534
    rw [hg, if_pos rfl, hid]
  · show (e.tree.leaf.set 128 (some (e.tree.heap.length + 1)))[128]? = _
    rw [List.getElem?_set, if_pos rfl, if_pos hbl]
    rfl
  · show (node_at (spawned e.tree 128).heap (e.tree.heap.length + 1)).id = 65535
    rw [hg, if_neg (by omega), if_pos rfl, hid]

/-- C6: in every state that the encoder loop reaches from the tree of
`huffman_init`, whatever the input, the NYT nodes of the tree (leaves recorded
under no byte) are exactly the node that `nyt` names, its weight is 0, and no
node weighs less.  For an input within the limits of the 16-bit `id` and the
32-bit weight every byte is processed, and the run of `update` for it leaves
the record of the NYT node as it was: it is neither swapped nor incremented. -/
theorem nyt_invariant (fuel : Nat) (x : List Nat) :
    (∀ e, encode_loop fuel enc_init x = some e →
      (∀ a, is_nyt_node e.tree a ↔ a = e.tree.nyt) ∧
      (node_at e.tree.heap e.tree.nyt).weight = 0 ∧
      ∀ a, a < e.tree.heap.length →
        (node_at e.tree.heap e.tree.nyt).weight ≤ (node_at e.tree.heap a).weight) ∧
    ((∀ b ∈ x, b < 256) → x.toFinset.card ≤ 128 → x.length < 2 ^ 32 → 600 ≤ fuel →
      ∀ k, k < x.length → ∃ e1 e2, encode_loop fuel enc_init (x.take k) = some e1 ∧
        encode_loop fuel enc_init (x.take (k + 1)) = some e2 ∧
        nyt_untouched (before_update e1.tree (x.getD k 0)) e2.tree) := by
  constructor
  · intro e he
    obtain ⟨hs, _, _, _⟩ := encode_loop_shape fuel x [] enc_init e [] shape_inv_init tally_init
      sink_holds_empty (by decide) he
    refine ⟨?_, hs.nyt_w, fun a _ => by rw [hs.nyt_w]; exact Nat.zero_le _⟩
    intro a
    constructor
    · rintro ⟨h1, h2, h3⟩
      by_contra hne
      have hl : (node_at e.tree.heap a).l_child = none := by
        simp only [is_leaf, Bool.and_eq_true, Option.isNone_iff_eq_none] at h2
        exact h2.1
      exact h3 _ (hs.leaves a h1 hl hne)
    · intro ha
      rw [ha]
      refine ⟨hs.nyt_lt, ?_, ?_⟩
      · simp [is_leaf, hs.nyt_leaf.1, hs.nyt_leaf.2]
      · intro b hb
        exact (hs.tab b _ hb).2.1 rfl
  · intro hb hd hl hf k hk
    obtain ⟨e1, e2, h1, _, _, h2, _, hun⟩ := regime_step fuel x hb hd hl hf k hk
    exact ⟨e1, e2, h1, h2, hun⟩

theorem nyt_invariant_witness :
    ∃ e1 e2, encode_loop 600 enc_init (([65, 66, 65] : List Nat).take 1) = some e1 ∧
      encode_loop 600 enc_init (([65, 66, 65] : List Nat).take (1 + 1)) = some e2 ∧
      nyt_untouched (before_update e1.tree (([65, 66, 65] : List Nat).getD 1 0)) e2.tree :=
  (nyt_invariant 600 [65, 66, 65]).2 (by decide) (by decide) (by decide) (by decide) 1
    (by decide)

/-- C15: for every input of fewer than `2 ^ 32` bytes that the encoder loop
processes, in the tree it leaves every byte that occurs in the input has a
leaf whose weight is the number of occurrences of the byte, and a byte that
does not occur has no leaf. -/
theorem leaf_weight_counts (fuel : Nat) (p : List Nat) (e : enc_state)
    (hl : p.length < 2 ^ 32) (h : encode_loop fuel enc_init p = some e) :
    (∀ b, b ∈ p → ∃ a, e.tree.leaf[b]? = some (some a) ∧
      (node_at e.tree.heap a).weight = p.count b) ∧
    (∀ b, b < 256 → b ∉ p → e.tree.leaf[b]? = some none) := by
  obtain ⟨hs, ht, hbs, _⟩ := encode_loop_shape fuel p [] enc_init e [] shape_inv_init tally_init
    sink_holds_empty (by decide) h
  rw [List.nil_append] at ht
  constructor
  · intro b hb
    have hb256 := hbs b hb
    obtain ⟨v, hv⟩ : ∃ v, e.tree.leaf[b]? = some v :=
      ⟨_, List.getElem?_eq_getElem (by rw [hs.tab_len]; exact hb256)⟩
    cases v with
    | none => exact absurd hb ((ht.seen b hb256).1 hv)
    | some a =>
      refine ⟨a, hv, ?_⟩
      rw [ht.weight b a hv]
      have := List.count_le_length (a := b) (l := p)
      omega
  · intro b hb hnot
    exact (ht.seen b hb).2 hnot

end Huffman
namespace Huffman

theorem header_length (t : Nat) (name : List Nat) : (header t name).length = 19 + name.length := by
  simp only [header, List.length_append, le_bytes_length, List.length_singleton]
  omega

/-- Whenever `huffman_encode` returns, on any input, the bit-count field of
the header it leaves (the eight bytes after the magic number) is the sum of
the code lengths of the input bytes as a 64-bit number: the depth of the NYT
node plus 8 for a first occurrence and the depth of the leaf for a repeated
byte, each measured in the tree before the update for that byte; the payload
holds these bits and the flush padding, `total / 8 + 1` bytes. -/
theorem header_field_of_return (fuel : Nat) (name x out : List Nat)
    (h : huffman_encode fuel name huffman_init x = some out) :
    ∃ total, code_bits fuel enc_init x = some total ∧
      out.take (19 + name.length) = header (total % 2 ^ 64) name ∧
      le_value ((out.drop 2).take 8) = total % 2 ^ 64 ∧
      out.length = 19 + name.length + (total / 8 + 1) := by
  have hunf : huffman_encode fuel name huffman_init x =
      match encode_loop fuel enc_init x with
      | none => none
      | some e => some (header e.totalbits name ++ (write_bits e.sink 0 8).out) := rfl
  rw [hunf] at h
  cases he : encode_loop fuel enc_init x with
  | none => rw [he] at h; cases h
  | some e =>
    rw [he] at h
    simp only [Option.some.injEq] at h
    obtain ⟨_, _, _, total, B2, hc, hle, htot, hB2, hlen⟩ :=
      encode_loop_shape fuel x [] enc_init e [] shape_inv_init tally_init sink_holds_empty
        (by decide) he
    have ht : e.totalbits = total % 2 ^ 64 := by
      rw [htot]
      show (0 + total) % 2 ^ 64 = total % 2 ^ 64
      rw [Nat.zero_add]
    have hfl := sink_holds_write_bits e.sink B2 0 8 hB2
    have hpl : (write_bits e.sink 0 8).out.length = total / 8 + 1 := by
      rw [hfl.2.1, List.length_append, emitted_bits_length, hlen]
      simp only [List.length_nil, Nat.zero_add]
      omega
    refine ⟨total, hc, ?_, ?_, ?_⟩
    · rw [← h, ht]
      exact List.take_left' (header_length _ _)
    · rw [← h, ht]
      have e1 : header (total % 2 ^ 64) name = le_bytes 2 magic ++ (le_bytes 8 (total % 2 ^ 64) ++
          (le_bytes 8 name.length ++ name ++ [0])) := by
        simp [header, List.append_assoc]
      rw [e1, List.append_assoc, List.drop_left' (le_bytes_length _ _), List.append_assoc,
        List.take_left' (le_bytes_length _ _), le_value_le_bytes]
      have e2 : (256 : Nat) ^ 8 = 2 ^ 64 := by norm_num
      rw [e2, Nat.mod_mod]
    · rw [← h, List.length_append, header_length, hpl]

/-- For an input of fewer than `2 ^ 32` bytes with at most 128 distinct byte
values `huffman_encode` returns. -/
theorem huffman_encode_returns (fuel : Nat) (name x : List Nat) (hx : x.length < 2 ^ 32)
    (hb : ∀ b ∈ x, b < 256) (hd : x.toFinset.card ≤ 128) (hf : 600 ≤ fuel) :
    ∃ out, huffman_encode fuel name huffman_init x = some out := by
  have hunf : huffman_encode fuel name huffman_init x =
      match encode_loop fuel enc_init x with
      | none => none
      | some e => some (header e.totalbits name ++ (write_bits e.sink 0 8).out) := rfl
  obtain ⟨e, he, _⟩ := regime_prefix fuel x hb hd hx hf x.length
  rw [List.take_length] at he
  exact ⟨_, by rw [hunf, he]⟩

theorem leaf_weight_counts_witness :
    ([65, 66, 65] : List Nat).length < 2 ^ 32 ∧
    ∃ e, encode_loop 600 enc_init [65, 66, 65] = some e ∧
      (∀ b, b ∈ [65, 66, 65] → ∃ a, e.tree.leaf[b]? = some (some a) ∧
        (node_at e.tree.heap a).weight = ([65, 66, 65] : List Nat).count b) ∧
      (∀ b, b < 256 → b ∉ [65, 66, 65] → e.tree.leaf[b]? = some none) := by
  obtain ⟨e, he, _⟩ := regime_prefix 600 [65, 66, 65] (by decide) (by decide) (by decide)
    (by decide) 3
  exact ⟨by decide, e, he, leaf_weight_counts 600 [65, 66, 65] e (by decide) he⟩

end Huffman
namespace Huffman

theorem dec_replays_enc (fuel : Nat) (s u : huffman_state) (x : List Nat)
    (h : dec_replays fuel s x u) : shape_inv s → enc_replay fuel s x = some u := by
  induction h with
  | done s => intro _; rfl
  | at_nyt s t u b rest hv hd _ ih =>
    intro hs
    rw [dec_step_at_nyt fuel s b hv] at hd
    cases he : enc_tree_step fuel s b with
    | none => rw [he] at hd; cases hd
    | some t2 =>
      rw [he] at hd
      simp only [Option.map_some', Option.some.injEq, Prod.mk.injEq, and_true] at hd
      subst hd
      simp only [enc_replay, he]
      exact ih (enc_tree_step_shape fuel s t2 b hs he)
  | at_leaf s t u node literal b rest hne hd _ ih =>
    intro hs
    obtain ⟨_, he⟩ := dec_step_at_leaf fuel s hs node literal hne t b hd
    simp only [enc_replay, he]
    exact ih (enc_tree_step_shape fuel s t b hs he)

theorem enc_replay_dec (fuel : Nat) : ∀ (x : List Nat) (s u : huffman_state), shape_inv s →
    enc_replay fuel s x = some u → dec_replays fuel s x u := by
  intro x
  induction x with
  | nil =>
    intro s u _ h
    cases h
    exact dec_replays.done s
  | cons b x ih =>
    intro s u hs h
    simp only [enc_replay] at h
    cases he : enc_tree_step fuel s b with
    | none => rw [he] at h; cases h
    | some t =>
      rw [he] at h
      have hrest := ih t u (enc_tree_step_shape fuel s t b hs he) h
      cases hv : s.leaf[b]? with
      | none => unfold enc_tree_step at he; rw [hv] at he; cases he
      | some v =>
        cases v with
        | none =>
          refine dec_replays.at_nyt s t u b x hv ?_ hrest
          rw [dec_step_at_nyt fuel s b hv, he]
          rfl
        | some lf =>
          obtain ⟨t1, t2, t3, t4⟩ := hs.tab b lf hv
          refine dec_replays.at_leaf s t u lf 0 b x t2 ?_ hrest
          have hu : update fuel s (some lf) = some t := by
            unfold enc_tree_step at he
            rw [hv] at he
            exact he
          unfold dec_tree_step
          rw [if_neg t2, getElem?_node_at s.heap lf t1]
          simp only
          have hleaf : is_leaf (node_at s.heap lf) = true := by
            simp [is_leaf, t3, (hs.both lf).1 t3]
          rw [if_pos hleaf, hu, t4]
          rfl

/-- C12: from the tree of `huffman_init`, the replay of a byte sequence through
the tree transition of the decoder ends in a tree exactly when the replay
through the tree transition of the encoder ends in that same tree (arena with
shape, ids, weights and symbols, NYT reference and symbol table); in every
tree so reached each leaf other than the NYT node is the leaf that the symbol
table records for the byte it holds, and each leaf recorded for a byte holds
that byte.  The transition of the encoder is the one `encode_symbol`
performs. -/
theorem encoder_decoder_trees_agree (fuel : Nat) (x : List Nat) (u : huffman_state) :
    (dec_replays fuel huffman_init x u ↔ enc_replay fuel huffman_init x = some u) ∧
    (enc_replay fuel huffman_init x = some u →
      (∀ a n, u.heap[a]? = some n → a ≠ u.nyt → is_leaf n = true →
        u.leaf[n.symbol]? = some (some a)) ∧
      (∀ b a, u.leaf[b]? = some (some a) →
        a ≠ u.nyt ∧ ∃ n, u.heap[a]? = some n ∧ is_leaf n = true ∧ n.symbol = b)) ∧
    (∀ e b e2, encode_symbol fuel e b = some e2 → enc_tree_step fuel e.tree b = some e2.tree) := by
  refine ⟨⟨fun h => dec_replays_enc fuel _ u x h shape_inv_init,
    fun h => enc_replay_dec fuel x _ u shape_inv_init h⟩, ?_,
    fun e b e2 h => encode_symbol_tree fuel e e2 b h⟩
  intro h
  have hs := enc_replay_shape fuel x _ u shape_inv_init h
  constructor
  · intro a n hn hne hl
    have hnl := getElem?_lt u.heap a n hn
    have hnn := node_at_of_getElem? u.heap a n hn
    have hlc : (node_at u.heap a).l_child = none := by
      rw [hnn]
      simp only [is_leaf, Bool.and_eq_true, Option.isNone_iff_eq_none] at hl
      exact hl.1
    have := hs.leaves a hnl hlc hne
    rw [hnn] at this
    exact this
  · intro b a hba
    obtain ⟨t1, t2, t3, t4⟩ := hs.tab b a hba
    refine ⟨t2, node_at u.heap a, getElem?_node_at u.heap a t1, ?_, t4⟩
    simp [is_leaf, t3, (hs.both a).1 t3]

end Huffman
namespace Huffman

end Huffman
namespace LZ78

theorem record_ids_append (A B : List Nat) (h : A.length % 3 = 0) :
    record_ids (A ++ B) = (records A).map Prod.fst ++ record_ids B := by
  induction A using records.induct with
  | case1 lo hi symbol rest ih =>
    have : rest.length % 3 = 0 := by simp at h; omega
    simp [records, record_ids, ih this]
  | case2 A hA =>
    match A, hA with
    | [], _ => simp [records]
    | [a], _ => simp at h
    | [a, b], _ => simp at h
    | a :: b :: c :: r, hA => exact absurd rfl (hA a b c r)

theorem record_ids_whole (A : List Nat) (h : A.length % 3 = 0) :
    record_ids A = (records A).map Prod.fst := by
  have := record_ids_append A [] h
  simpa [record_ids] using this

theorem ids_ok_snoc (ids : List Nat) (id : Nat) (h : ids_ok ids) (hid : id ≤ min ids.length 65535) :
    ids_ok (ids ++ [id]) := by
  intro k hk
  rw [List.length_append, List.length_singleton] at hk
  by_cases hlt : k < ids.length
  · have := h k hlt
    rw [List.getD_eq_getElem?_getD, List.getElem?_append_left hlt, ← List.getD_eq_getElem?_getD]
    exact this
  · have e : k = ids.length := by omega
    rw [e, List.getD_eq_getElem?_getD, List.getElem?_append_right (le_refl _)]
    simpa using hid

theorem encode_symbol_out (e e1 : enc_state) (symbol : Nat) (h : encode_symbol e symbol = some e1) :
    e1.out = e.out ∨ e1.out = e.out ++ le_bytes 2 e.id ++ [symbol] := by
  unfold encode_symbol at h
  cases hf : find_symbol (e.t.heap.length + 1) e.t e.p symbol with
  | none => rw [hf] at h; cases h
  | some p =>
    rw [hf] at h
    simp only at h
    cases hl : load e.t p with
    | none => rw [hl] at h; cases h
    | some v =>
      rw [hl] at h
      cases v with
      | none =>
        simp only at h
        split at h
        · cases h
        · next t1 next1 _ =>
          cases h
          exact Or.inr rfl
      | some a =>
        simp only at h
        cases hn : e.t.heap[a]? with
        | none => rw [hn] at h; cases h
        | some n =>
          rw [hn] at h
          cases h
          exact Or.inl rfl

theorem ids_step {dict0 : Nat → lz78_dict_entry} {consumed : List Nat} {e : enc_state}
    {d : dec_state} (hl : linked dict0 consumed e d) (hok : ids_ok (record_ids e.out))
    (symbol : Nat) (e1 : enc_state) (h : encode_symbol e symbol = some e1) :
    ids_ok (record_ids e1.out) := by
  rcases encode_symbol_out e e1 symbol h with ho | ho
  · rw [ho]; exact hok
  · have hlt : e.id < 65536 := by have := hl.id_le; have := hl.len_le; omega
    rw [ho, List.append_assoc, record_ids_append _ _ hl.out3, le_bytes_two]
    rw [record_ids_whole _ hl.out3] at hok
    simp only [List.cons_append, List.nil_append, record_ids, le_bytes_two_value e.id hlt]
    refine ids_ok_snoc _ _ hok ?_
    rw [List.length_map, ← hl.count]
    have := hl.id_le
    have := hl.len_le
    omega

theorem ids_run (dict0 : Nat → lz78_dict_entry) (x : List Nat) :
    ∀ (consumed : List Nat) (e : enc_state) (d : dec_state), linked dict0 consumed e d →
      ids_ok (record_ids e.out) →
      ∃ e1 d1, linked dict0 (consumed ++ x) e1 d1 ∧ ids_ok (record_ids e1.out) ∧
        encode_loop e x =
          some (if e1.id ≠ 0 then { e1 with out := e1.out ++ le_bytes 2 e1.id } else e1) := by
  induction x with
  | nil =>
    intro consumed e d hl hok
    exact ⟨e, d, by simpa using hl, hok, rfl⟩
  | cons symbol rest ih =>
    intro consumed e d hl hok
    obtain ⟨e1, d1, henc, hl1⟩ := linked_step hl symbol
    obtain ⟨e2, d2, hl2, hok2, hrun⟩ := ih _ e1 d1 hl1 (ids_step hl hok symbol e1 henc)
    refine ⟨e2, d2, by simpa using hl2, hok2, ?_⟩
    simp only [encode_loop, henc]
    exact hrun

/-- C19: for every input `lz78_encode` returns, and in the record stream it
writes the identifier of record `k + 1` (a final lone identifier included) is
at most `min k 65535`, the number of entries that the records before it have
created; `lz78_decode` reads the whole stream back to the input whatever the
dictionary array held before, and every `prev` link of an entry it created
names an entry created earlier. -/
theorem record_ids_defined (name x : List Nat) :
    ∃ c, lz78_encode name x = some c ∧
      (∀ k, k < (record_ids (c.drop (header name).length)).length →
        (record_ids (c.drop (header name).length)).getD k 0 ≤ min k 65535) ∧
      ∀ dict0 : Nat → lz78_dict_entry, ∃ d,
        decode_loop { dict := dict0, next := 1, out := [] } (c.drop (header name).length) = some d ∧
        d.out = x ∧
        ∀ k q, 1 ≤ k → k ≤ min (records (c.drop (header name).length)).length 65535 →
          (d.dict k).prev = some q → 1 ≤ q ∧ q < k := by
  obtain ⟨e1, d1, hl, hok, hrun⟩ := ids_run (fun _ => { prev := none, symbol := 0 }) x []
    enc_init _ (linked_init _) (by intro k hk; simp [enc_init, record_ids] at hk)
  have hdrop : ∀ out : List Nat, (header name ++ out).drop (header name).length = out :=
    fun out => List.drop_left' rfl
  have henc0 : lz78_encode name x = some (header name ++
      (if e1.id ≠ 0 then { e1 with out := e1.out ++ le_bytes 2 e1.id } else e1).out) := by
    simp only [lz78_encode, hrun]
  refine ⟨_, henc0, ?_, ?_⟩
  · rw [hdrop]
    by_cases hid : e1.id ≠ 0
    · rw [if_pos hid]
      have hlt : e1.id < 65536 := by have := hl.id_le; have := hl.len_le; omega
      show ids_ok (record_ids (e1.out ++ le_bytes 2 e1.id))
      rw [record_ids_append _ _ hl.out3, le_bytes_two]
      rw [record_ids_whole _ hl.out3] at hok
      simp only [record_ids, le_bytes_two_value e1.id hlt]
      refine ids_ok_snoc _ _ hok ?_
      rw [List.length_map, ← hl.count]
      have := hl.id_le
      have := hl.len_le
      omega
    · rw [if_neg hid]
      exact hok
  · intro dict0
    obtain ⟨e2, d2, e, d, hl2, henc, hdec, hout, _, _, hdict, _, hrec⟩ := lz78_loops dict0 x
    rw [hdrop]
    rw [hrun] at henc
    cases henc
    refine ⟨d, hdec, hout, ?_⟩
    intro k q h1 h2 h3
    rw [hdict] at h3
    rw [hrec, ← hl2.count] at h2
    exact hl2.dict_ok k q h1 h2 h3

end LZ78
namespace Huffman

/-- C16: for every non-empty byte sequence `x` shorter than `2 ^ 32` bytes
with at most 24 distinct byte values (and every base name shorter than 256
bytes, whatever the uninitialised locals hold), `huffman_encode` returns a
container and `huffman_decode` of that container returns 0 and writes exactly
`x`. -/
theorem huffman_round_trip_within_word (efuel dfuel : Nat) (name x : List Nat) (loc : dec_locals)
    (hb : ∀ b ∈ x, b < 256) (hne : x ≠ []) (hl : x.length < 2 ^ 32)
    (hd : x.toFinset.card ≤ 24) (hname : name.length < 256) (hef : 600 ≤ efuel)
    (hdf : 33 * x.length + 600 ≤ dfuel) :
    ∃ c, huffman_encode efuel name huffman_init x = some c ∧
      huffman_decode dfuel loc huffman_init c = some { rc := 0, out := x } := by
  obtain ⟨eF, hE, hregF⟩ := encode_loop_regime efuel hef x [] enc_init in_regime_init hb
    (by rw [List.nil_append]; omega) (by rw [List.nil_append]; exact hl)
  obtain ⟨B, n, callsF, hcd, hsF, hfl, htF, hBl, hnl, _⟩ :=
    encode_loop_coded efuel hef x [] enc_init eF [] in_regime_init hb
      (by rw [List.nil_append]; exact hd) (by rw [List.nil_append]; exact hl)
      (by show (0 : Nat) < 2 ^ 32; norm_num) (by show (0 : Nat) < 2 ^ 64; norm_num) rfl hE
  rw [List.nil_append] at hregF
  simp only [List.flatMap_nil, List.nil_append] at hfl
  have hBlt : B.length + 1 < 2 ^ 64 := by
    have : (2 : Nat) ^ 64 = 2 ^ 32 * 2 ^ 32 := by norm_num
    have h32 : (2 : Nat) ^ 32 = 4294967296 := by norm_num
    omega
  have htot : eF.totalbits = B.length := by
    rw [htF]
    show (0 + B.length) % 2 ^ 64 = B.length
    rw [Nat.zero_add]
    exact Nat.mod_eq_of_lt (by omega)
  have hfs : write_bits eF.sink 0 8 = flushed callsF := by
    rw [hsF]; rfl
  have hunf : huffman_encode efuel name huffman_init x =
      match encode_loop efuel enc_init x with
      | none => none
      | some e => some (header e.totalbits name ++ (write_bits e.sink 0 8).out) := rfl
  refine ⟨header B.length name ++ (flushed callsF).out, by
    rw [hunf, hE]
    simp only [htot, hfs], ?_⟩
  obtain ⟨hFl, hFb, _⟩ := flushed_numeric callsF B hfl.symm
  have hbits : ∀ j, j < B.length → nth_bit (flushed callsF).out (0 + j) = B.getD j 0 := by
    intro j hj
    rw [Nat.zero_add]
    have := flushed_bit callsF B hfl.symm j (by omega)
    rw [if_pos hj] at this
    exact this
  have hrun := coded_decode 600 hcd B.length (flushed callsF).out hFb hBlt (by omega) 0
    (dfuel - n) [] (by omega) (by omega) hbits
  have e1 : dfuel - n + n = dfuel := by omega
  rw [e1, Nat.zero_add, List.nil_append] at hrun
  have hsz := hregF.size
  have hcpos : 1 ≤ x.toFinset.card := by
    cases x with
    | nil => exact absurd rfl hne
    | cons a x =>
      apply Finset.card_pos.2
      exact ⟨a, by simp⟩
  obtain ⟨hrn, hrl⟩ := root_internal hregF.inv (by omega)
  obtain ⟨k, hk⟩ : ∃ k, dfuel - n = k + 2 := ⟨dfuel - n - 2, by omega⟩
  rw [hk, decode_loop_internal B.length (k + 1) _ eF.tree.root (node_at eF.tree.heap eF.tree.root)
    (le_refl _) rfl hrn (getElem?_node_at _ _ hregF.inv.root_lt) hrl] at hrun
  have e2 : (B.length + 1) % 2 ^ 64 = B.length + 1 := Nat.mod_eq_of_lt hBlt
  rw [decode_loop, if_neg (by show ¬ (B.length + 1) % 2 ^ 64 ≤ B.length; rw [e2]; omega)] at hrun
  unfold huffman_decode
  rw [huffman_decode_header dfuel B.length name _ loc huffman_init hname (by omega)]
  have e3 : (enc_init.tree : huffman_state) = huffman_init := rfl
  rw [e3] at hrun
  rw [hrun]
  rfl

theorem huffman_round_trip_within_word_witness :
    ∃ c, huffman_encode 600 [97] huffman_init [65, 66, 65] = some c ∧
      huffman_decode 700 { m := 0, totalbits := 0, namelen := 0 } huffman_init c =
        some { rc := 0, out := [65, 66, 65] } :=
  huffman_round_trip_within_word 600 700 [97] [65, 66, 65] { m := 0, totalbits := 0, namelen := 0 }
    (by decide) (by decide) (by decide) (by decide) (by decide) (by decide) (by decide)

end Huffman
namespace Huffman

theorem single_run (fuel dfuel b n : Nat) (name : List Nat) (loc : dec_locals)
    (hb : b < 256) (hn : 1 ≤ n) (hn64 : n + 8 < 2 ^ 64) (hname : name.length < 256)
    (hf : 3 ≤ fuel) (hdf : 2 * n + 3 ≤ dfuel) :
    ∃ calls : List (Nat × Nat),
      huffman_encode fuel name huffman_init (List.replicate n b) =
        some (header (8 + (n - 1)) name ++ (flushed calls).out) ∧
      calls.map (fun c => emitted_bits c.1 c.2) = byte_bits b :: List.replicate (n - 1) [1] ∧
      huffman_decode dfuel loc huffman_init (header (8 + (n - 1)) name ++ (flushed calls).out) =
        some { rc := 0, out := List.replicate n b } := by
  obtain ⟨f, rfl⟩ : ∃ f, fuel = f + 3 := ⟨fuel - 3, by omega⟩
  obtain ⟨m, rfl⟩ : ∃ m, n = m + 1 := ⟨n - 1, by omega⟩
  rw [Nat.add_sub_cancel]
  have hlitlt : b * 2 ^ 24 % 2 ^ 32 < 2 ^ 32 := Nat.mod_lt _ (by norm_num)
  have hlit : emitted_bits (b * 2 ^ 24 % 2 ^ 32) 8 = byte_bits b := by
    rw [emitted_bits_eq_msb _ _ (by norm_num), msb_take _ _ (by norm_num), word_bits_literal b hb]
    rfl
  obtain ⟨calls, pathF, hloop, hmap⟩ := encode_loop_single f b hb m 1
    (write_bits (bit_sink.mk [] 0 0) (b * 2 ^ 24 % 2 ^ 32) 8) (b * 2 ^ 24 % 2 ^ 32)
    8 [(b * 2 ^ 24 % 2 ^ 32, 8)] hlitlt (by norm_num)
    (by simp only [List.foldl_cons, List.foldl_nil])
  have e1 : (1 : Nat) % 2 ^ 32 = 1 := by norm_num
  have htot : (8 + m) % 2 ^ 64 = 8 + m := Nat.mod_eq_of_lt (by omega)
  rw [htot, e1] at hloop
  simp only [List.map_cons, List.map_nil, hlit, List.singleton_append] at hmap
  have hB : byte_bits b ++ List.replicate m 1 = calls.flatMap (fun c => emitted_bits c.1 c.2) := by
    show _ = (calls.map (fun c => emitted_bits c.1 c.2)).flatten
    rw [hmap, List.flatten_cons, flatten_ones]
  have hBl : (byte_bits b ++ List.replicate m 1).length = 8 + m := by
    simp [byte_bits]
    omega
  have henc : huffman_encode (f + 3) name huffman_init (List.replicate (m + 1) b) =
      some (header (8 + m) name ++ (flushed calls).out) := by
    have hunf : ∀ x, huffman_encode (f + 3) name huffman_init x =
        match encode_loop (f + 3) enc_init x with
        | none => none
        | some e => some (header e.totalbits name ++ (write_bits e.sink 0 8).out) := fun _ => rfl
    rw [hunf, List.replicate_succ, encode_loop, encode_first (f + 3) b (by omega) hb]
    simp only
    rw [hloop]
    rfl
  refine ⟨calls, henc, hmap, ?_⟩
  obtain ⟨hFl, hFb, _⟩ := flushed_numeric calls _ hB
  rw [hBl] at hFl
  have hbits : ∀ j, j < 8 + m →
      nth_bit (flushed calls).out j = (byte_bits b ++ List.replicate m 1).getD j 0 := by
    intro j hj
    have := flushed_bit calls _ hB j (by rw [hBl]; omega)
    rw [if_pos (by rw [hBl]; exact hj)] at this
    exact this
  obtain ⟨d2, rfl⟩ : ∃ d2, dfuel = d2 + 2 + 2 * m + 1 := ⟨dfuel - 2 * m - 3, by omega⟩
  have hread := read_symbol_src (flushed calls).out hFb 0 b hb (by omega) (by
    intro j hj
    rw [hbits (0 + j) (by omega), Nat.zero_add,
      List.getD_append _ _ _ _ (by simpa [byte_bits] using hj)])
  have hrun := decode_loop_single b (8 + m) (flushed calls).out hFb (by omega) (by omega) hb m 1 8
    d2 [b] (by omega) (by
      intro j hj
      rw [hbits (8 + j) (by omega), List.getD_append_right _ _ _ _ (by simp [byte_bits])]
      have e : 8 + j - (byte_bits b).length = j := by simp [byte_bits]
      rw [e, List.getD_eq_getElem?_getD, List.getElem?_replicate, if_pos hj]
      rfl)
  rw [e1] at hrun
  have e3 : (8 + m + 1) % 2 ^ 64 = 8 + m + 1 := Nat.mod_eq_of_lt (by omega)
  have hdec : ∃ d, decode_loop (8 + m) (d2 + 2 + 2 * m + 1)
      (dec_state.mk huffman_init (src_at (flushed calls).out 0) (some huffman_init.root) 0 []) =
      some d ∧ d.out = List.replicate (m + 1) b := by
    rw [decode_loop_at_nyt (8 + m) (d2 + 2 + 2 * m)
      (dec_state.mk huffman_init (src_at (flushed calls).out 0) (some huffman_init.root) 0 []) b
      (src_at (flushed calls).out (0 + 8)) (single_tree b 1) (Nat.zero_le _) rfl (init_leaf b hb)
      hread (first_step _ b hb)]
    show ∃ d, decode_loop (8 + m) (d2 + 2 + 2 * m)
      (dec_state.mk (single_tree b 1) (src_at (flushed calls).out 8) (some 0) 8 [b]) = some d ∧ _
    rw [hrun, decode_loop_internal (8 + m) (d2 + 1)
      (dec_state.mk (single_tree b ((1 + m) % 2 ^ 32)) (src_at (flushed calls).out (8 + m)) (some 0)
        (8 + m) ([b] ++ List.replicate m b)) 0
      (huffman_node.mk 256 none (some 1) (some 2) ((1 + m) % 2 ^ 32) 0) (le_refl _) rfl
      (by show (0 : Nat) ≠ 1; omega) rfl rfl]
    rw [decode_loop, if_neg (by show ¬ (8 + m + 1) % 2 ^ 64 ≤ 8 + m; rw [e3]; omega)]
    exact ⟨_, rfl, by simp only [List.replicate_succ, List.singleton_append]⟩
  obtain ⟨d, hd, hout⟩ := hdec
  unfold huffman_decode
  rw [huffman_decode_header (d2 + 2 + 2 * m + 1) (8 + m) name _ loc huffman_init hname (by omega),
    hd]
  simp only [Option.map_some', hout]

set_option maxRecDepth 1000000 in
/-- C11: for every byte `b` and every `n >= 1` (with `n + 8 < 2 ^ 64`, the bit
count being a 64-bit number), `huffman_encode` of `n` copies of `b` calls
`write_bits` once per byte: the first call emits exactly the 8 bits of `b`,
the path from the root to the NYT node being empty because the NYT node is the
root, and every later call emits the single bit 1; the header declares
`8 + (n - 1)` bits, and `huffman_decode` of the container returns 0 and writes
exactly `n` copies of `b`.  For 4 times 'A' the header declares 11 bits, the
payload is `41 E0`, and the container decodes to "AAAA". -/
theorem single_repeated_byte (fuel dfuel b n : Nat) (name : List Nat) (loc : dec_locals)
    (hb : b < 256) (hn : 1 ≤ n) (hn64 : n + 8 < 2 ^ 64) (hname : name.length < 256)
    (hf : 3 ≤ fuel) (hdf : 2 * n + 3 ≤ dfuel) :
    (huffman_init.nyt = huffman_init.root ∧
      ∃ calls : List (Nat × Nat),
        huffman_encode fuel name huffman_init (List.replicate n b) =
          some (header (8 + (n - 1)) name ++ (flushed calls).out) ∧
        calls.map (fun c => emitted_bits c.1 c.2) = byte_bits b :: List.replicate (n - 1) [1] ∧
        huffman_decode dfuel loc huffman_init (header (8 + (n - 1)) name ++ (flushed calls).out) =
          some { rc := 0, out := List.replicate n b }) ∧
    huffman_encode 3 [97] huffman_init [65, 65, 65, 65] = some (header 11 [97] ++ [0x41, 0xE0]) ∧
    huffman_decode 11 { m := 0, totalbits := 0, namelen := 0 } huffman_init
      (header 11 [97] ++ [0x41, 0xE0]) = some { rc := 0, out := [65, 65, 65, 65] } := by
  exact ⟨⟨rfl, single_run fuel dfuel b n name loc hb hn hn64 hname hf hdf⟩, by decide!,
    by decide!⟩

theorem single_repeated_byte_witness :
    huffman_init.nyt = huffman_init.root ∧
      ∃ calls : List (Nat × Nat),
        huffman_encode 3 [97] huffman_init (List.replicate 4 65) =
          some (header (8 + (4 - 1)) [97] ++ (flushed calls).out) ∧
        calls.map (fun c => emitted_bits c.1 c.2) = byte_bits 65 :: List.replicate (4 - 1) [1] ∧
        huffman_decode 11 { m := 0, totalbits := 0, namelen := 0 } huffman_init
            (header (8 + (4 - 1)) [97] ++ (flushed calls).out) =
          some { rc := 0, out := List.replicate 4 65 } :=
  (single_repeated_byte 3 11 65 4 [97] { m := 0, totalbits := 0, namelen := 0 } (by decide)
    (by decide) (by norm_num) (by decide) (by decide) (by decide)).1

end Huffman
namespace Huffman

set_option maxRecDepth 1000000 in
/-- C14 (failing input): in the well-formed tree `deep_tree` the NYT node lies
25 levels below the root.  For the unseen byte `0xFF` the path word holds the
literal in its top 8 bits; `get_node_path` returns the count 25 and the word
`0x0000007F`: the 25 decisions, all `0`, are followed by only 7 of the 8 bits
of the literal, the last one having been shifted out of the 32-bit word.  The
encoder then writes 33 bits, the 25 decisions, seven `1` bits and a `0` bit,
instead of the path followed by the 8 bits of the byte, and `huffman_decode`
reads the byte `0xFE` from them. -/
theorem get_node_path_drops_literal_bit :
    tree_inv deep_tree none ∧
    deep_tree.leaf[255]? = some none ∧
    route 30 deep_tree deep_tree.nyt = some (List.replicate 25 0) ∧
    get_node_path 30 deep_tree deep_tree.nyt (255 * 2 ^ 24 % 2 ^ 32) 0 = some (25, 0x7F) ∧
    word_bits 0x7F = List.replicate 25 0 ++ [1, 1, 1, 1, 1, 1, 1] ∧
    (encode_symbol 60 (enc_state.mk deep_tree (bit_sink.mk [] 0 0) 0 0) 255).map
        (fun e => (e.totalbits, e.sink, (write_bits e.sink 0 8).out)) =
      some (33, write_bits (bit_sink.mk [] 0 0) 0x7F 33, [0, 0, 0, 0x7F, 0]) ∧
    emitted_bits 0x7F 33 = List.replicate 25 0 ++ [1, 1, 1, 1, 1, 1, 1, 0] ∧
    emitted_bits 0x7F 33 ≠ List.replicate 25 0 ++ byte_bits 255 ∧
    (decode_loop 33 60
        (dec_state.mk deep_tree (src_at [0, 0, 0, 0x7F, 0] 0) (some deep_tree.root) 0 [])).map
        (fun d => d.out) = some [254] := by
  refine ⟨tree_inv_of_ok deep_tree (by decide!), by decide!, by decide!, by decide!, by decide!,
    by decide!, by decide!, by decide!, by decide!⟩

end Huffman
namespace Huffman

set_option maxRecDepth 1000000 in
set_option maxHeartbeats 4000000 in
/-- C3 (failing input): `container_tree` is a well-formed tree whose NYT node
lies 25 levels below the root, and the byte `0xFF` has no leaf in it.  When
`huffman_encode` meets the byte `0xFF` in this tree, as the symbol of the last
record `(0, 0xFF)` of an LZ78 container, `get_node_path` returns the count 25
and the word `0x14000E7F`, and the call `write_bits(fout, path, nbits)` with
`nbits = 33` writes 33 bits of which the last is not the last bit of the byte;
`huffman_decode`, in the same tree, reads the byte `0xFE` from them, so that
the file handed to `lz78_decode` ends with the record `(0, 0xFE)`. -/
theorem composed_round_trip_last_byte :
    tree_inv container_tree none ∧
    (node_at container_tree.heap container_tree.root).weight = 552656 ∧
    container_tree.leaf[255]? = some none ∧
    route 30 container_tree container_tree.nyt =
      some [0, 0, 0, 1, 0, 1, 0, 0, 0, 0, 0, 0, 0, 0, 0, 0, 0, 0, 0, 0, 1, 1, 1, 0, 0] ∧
    get_node_path 30 container_tree container_tree.nyt (255 * 2 ^ 24 % 2 ^ 32) 0 =
      some (25, 0x14000E7F) ∧
    (write_bits (write_bits (bit_sink.mk [] 0 0) 0x14000E7F ((8 + 25) % 65536)) 0 8).out =
      [0x14, 0x00, 0x0E, 0x7F, 0] ∧
    emitted_bits 0x14000E7F 33 =
      [0, 0, 0, 1, 0, 1, 0, 0, 0, 0, 0, 0, 0, 0, 0, 0, 0, 0, 0, 0, 1, 1, 1, 0, 0] ++
        [1, 1, 1, 1, 1, 1, 1, 0] ∧
    byte_bits 255 = [1, 1, 1, 1, 1, 1, 1, 1] ∧
    (decode_loop 33 60
        (dec_state.mk container_tree (src_at [0x14, 0x00, 0x0E, 0x7F, 0] 0)
          (some container_tree.root) 0 [])).map (fun d => d.out) = some [254] := by
  refine ⟨tree_inv_of_ok container_tree (by decide!), by decide!, by decide!, by decide!,
    by decide!, by decide!, by decide!, by decide!, by decide!⟩

end Huffman

/-! ## Decoders: header check and loop boundary -/

theorem fread_obj_two (old b0 b1 : Nat) (rest : List Nat) :
    fread_obj 2 old (b0 :: b1 :: rest) = (b0 + 256 * b1, true, rest) := by
  have h := fread_obj_whole 2 old [b0, b1] rest rfl
  simpa [le_value] using h

/-- A file of at least two bytes whose first two bytes are not the magic
number makes `huffman_decode` return 1 before anything is written and before
the tree is used. -/
theorem huffman_bad_magic_rejected (fuel : Nat) (loc : Huffman.dec_locals)
    (s : Huffman.huffman_state) (b0 b1 : Nat) (rest : List Nat)
    (h : b0 + 256 * b1 ≠ Huffman.magic) :
    Huffman.huffman_decode_run fuel loc s (b0 :: b1 :: rest) =
      some (Sum.inl { rc := 1, out := [] }) := by
  unfold Huffman.huffman_decode_run
  rw [fread_obj_two]
  simp only [h, ne_eq, not_false_eq_true, if_true]

/-- A file of at least two bytes whose first two bytes are not the magic
number makes `lz78_decode` return 1 before anything is written and before the
dictionary is used. -/
theorem lz78_bad_magic_rejected (m0 namelen0 : Nat) (dict0 : Nat → LZ78.lz78_dict_entry)
    (b0 b1 : Nat) (rest : List Nat) (h : b0 + 256 * b1 ≠ LZ78.magic) :
    LZ78.lz78_decode_run m0 namelen0 dict0 (b0 :: b1 :: rest) =
      some (Sum.inl { rc := 1, out := [] }) := by
  unfold LZ78.lz78_decode_run
  rw [fread_obj_two]
  simp only [h, ne_eq, not_false_eq_true, if_true]

set_option maxRecDepth 1000000 in
/-- C2 (failing input): the empty input is encoded as a header with bit count
0 followed by one padding byte, and `huffman_decode` of that container writes
the byte 0 instead of nothing. -/
theorem huffman_empty_input_decodes_to_zero_byte :
    Huffman.huffman_encode 10 [97] Huffman.huffman_init [] =
      some (Huffman.header 0 [97] ++ [0]) ∧
    Huffman.huffman_decode 10 { m := 0, totalbits := 0, namelen := 0 } Huffman.huffman_init
      (Huffman.header 0 [97] ++ [0]) = some { rc := 0, out := [0] } := by
  refine ⟨by decide!, by decide!⟩

set_option maxRecDepth 1000000 in
/-- C8 (failing input): for the input "A" the header declares 8 bits; the
loop of `huffman_decode` ends with `readbits = 9`, having called `read_bit`
for the first bit of the padding byte (the whole payload is consumed and 7
bits are left in the buffer). -/
theorem huffman_decode_reads_past_bit_count :
    Huffman.huffman_encode 10 [97] Huffman.huffman_init [65] =
      some (Huffman.header 8 [97] ++ [65, 0]) ∧
    (Huffman.huffman_decode_run 10 { m := 0, totalbits := 0, namelen := 0 }
      Huffman.huffman_init (Huffman.header 8 [97] ++ [65, 0])).map
      (fun r => match r with
        | Sum.inl _ => none
        | Sum.inr (t, d) => some (t, d.readbits, d.src.file, d.src.bufbits, d.out)) =
      some (some (8, 9, [], 7, [65])) := by
  refine ⟨by decide!, by decide!⟩
